import Mathlib

/-! # Transform composition core of VTK (`Common/Transforms/vtkAbstractTransform.cxx`)

A shallow embedding of `vtkAbstractTransform`, `vtkSimpleTransform`,
`vtkTransformConcatenation` and `vtkTransformConcatenationStack`.

* Transform objects live in a `Heap`: a map from references (addresses) to `Node`s
  together with an allocation pointer and the global `vtkTimeStamp` counter.
* A `vtkTransformConcatenation` is a record; its `TransformList` array is a map from
  indices to `vtkTransformPair`s, the slots at and above `NumberOfTransforms` being unused.
  A slot of a new array that the program has not written holds what the storage held
  before (`Heap.Uninitialised`).
* `double` is modelled by exact rationals, so matrix products are exact; where rounding
  decides a statement, the operations of `double` are modelled by `Double`.
* Integer counts are naturals: `NumberOfTransforms - 1` is only evaluated by the source
  where a fast-path slot is set, and there the list is non-empty in every invariant state.
-/

namespace VTK

/-! ## Matrices -/

/-- A 4x4 matrix of `vtkMatrix4x4`, entries in exact arithmetic. -/
abbrev Mat4 := Matrix (Fin 4) (Fin 4) ℚ

/-- Modelled from the spec: `vtkMatrix4x4::Multiply4x4(a, b, out)` (vtkMatrix4x4 is not under
src/) stores the product `a·b`, acting on column vectors. -/
def Multiply4x4 (a b : Mat4) : Mat4 := a * b

/-- Modelled from the spec: `vtkMatrix4x4::Invert` (vtkMatrix4x4 is not under src/), the
in-place inversion of a leaf matrix: adjugate over determinant; a singular matrix is left
as it is. -/
def Invert (m : Mat4) : Mat4 := if m.det = 0 then m else m.det⁻¹ • m.adjugate

/-- Apply a homogeneous matrix to a homogeneous point (column vector). -/
def MultiplyPoint (m : Mat4) (p : Fin 4 → ℚ) : Fin 4 → ℚ := m.mulVec p

/-! ## The object heap -/

/-- A reference to a transform object. -/
abbrev Ref := Nat

/-- One `vtkAbstractTransform` object: the `vtkObject` part (class, reference count, MTime),
the `vtkInternals` record, and the matrix a leaf transform carries. -/
structure Node where
  ClassName : String
  Superclasses : List String
  ReferenceCount : Int
  MTime : Nat
  UpdateTime : Nat
  MyInverse : Option Ref
  DependsOnInverse : Bool
  InUpdate : Bool
  InUnRegister : Bool
  Matrix : Mat4
  MatrixMTime : Nat
  Destroyed : Bool

/-- One link of a concatenation: a forward transform, an inverse transform, or both. The
class has no constructor body, so the two pointers of a pair that has not been written yet
are indeterminate. -/
structure vtkTransformPair where
  ForwardTransform : Option Ref
  InverseTransform : Option Ref
deriving DecidableEq, Repr

/-- The `vtkTransformPair::SwapForwardInverse` of the source. -/
def vtkTransformPair.SwapForwardInverse (p : vtkTransformPair) : vtkTransformPair :=
  { ForwardTransform := p.InverseTransform, InverseTransform := p.ForwardTransform }

/-- The pair with both pointers null. -/
def vtkTransformPair.null : vtkTransformPair :=
  { ForwardTransform := none, InverseTransform := none }

/-- The heap: objects by reference, the next free reference, the global time stamp counter
behind `vtkTimeStamp::Modified`, and what the storage handed out by
`new vtkTransformPair[n]` holds, slot by slot, before the program writes to it (left over
from whatever used the storage before; no operation of the source controls it). -/
structure Heap where
  nodes : Ref → Node
  next : Nat
  clock : Nat
  Uninitialised : Nat → vtkTransformPair

/-- Read an object. -/
def Heap.get (h : Heap) (r : Ref) : Node := h.nodes r

/-- Overwrite an object. -/
def Heap.set (h : Heap) (r : Ref) (n : Node) : Heap :=
  { h with nodes := Function.update h.nodes r n }

/-- The faults of the source that are not reported errors. -/
inductive Fault where
  | NullDereference
  | OutOfFuel
deriving DecidableEq, Repr

/-- What an operation reports: nothing, one of the two `vtkErrorMacro` errors, or a fault. -/
inductive Report where
  | Ok
  | TypeMismatch
  | CircularReference
  | Faulted (f : Fault)
deriving DecidableEq, Repr

namespace vtkObject

/-- Modelled from the spec: `vtkObject::Modified` (vtkObject is not under src/) stamps the
object with a fresh value of the global counter. -/
def Modified (h : Heap) (this : Ref) : Heap :=
  let t := h.clock + 1
  { (h.set this { h.get this with MTime := t }) with clock := t }

/-- Modelled from the spec: `vtkObjectBase::Register` takes one more reference. -/
def Register (h : Heap) (this : Ref) : Heap :=
  h.set this { h.get this with ReferenceCount := (h.get this).ReferenceCount + 1 }

/-- Modelled from the spec: `IsA(name)` holds for the object's class and its superclasses. -/
def IsA (n : Node) (name : String) : Bool :=
  decide (name = n.ClassName) || decide (name ∈ n.Superclasses)

/-- Modelled from the spec: a newly constructed object of the given class: one reference, a
fresh MTime, and the `vtkAbstractTransform` constructor's internals; the matrix of a leaf
transform starts as the identity. -/
def New (h : Heap) (className : String) (superclasses : List String) : Heap × Ref :=
  let t := h.clock + 1
  let n : Node :=
    { ClassName := className
      Superclasses := superclasses
      ReferenceCount := 1
      MTime := t
      UpdateTime := 0
      MyInverse := none
      DependsOnInverse := false
      InUpdate := false
      InUnRegister := false
      Matrix := 1
      MatrixMTime := t
      Destroyed := false }
  ({ h with nodes := Function.update h.nodes h.next n, next := h.next + 1, clock := t },
    h.next)

end vtkObject

namespace vtkMatrix4x4

/-- Modelled from the spec: `vtkMatrix4x4::Modified` on the matrix owned by a leaf transform. -/
def Modified (h : Heap) (owner : Ref) : Heap :=
  let t := h.clock + 1
  { (h.set owner { h.get owner with MatrixMTime := t }) with clock := t }

/-- Modelled from the spec: the member `vtkMatrix4x4::Invert()` inverts the matrix in place
and stamps it. -/
def InvertInPlace (h : Heap) (owner : Ref) : Heap :=
  Modified (h.set owner { h.get owner with Matrix := Invert (h.get owner).Matrix }) owner

/-- Modelled from the spec: `vtkMatrix4x4::DeepCopy(source)` copies the sixteen elements of
the source matrix and stamps the target. -/
def DeepCopy (h : Heap) (owner source : Ref) : Heap :=
  Modified (h.set owner { h.get owner with Matrix := (h.get source).Matrix }) owner

end vtkMatrix4x4

namespace vtkAbstractTransform

/-- The `vtkAbstractTransform::Modified` of the source: no stamp while the object's own
`Update` is running. -/
def Modified (h : Heap) (this : Ref) : Heap :=
  if (h.get this).InUpdate then h else vtkObject.Modified h this

/-- The statement `--this->ReferenceCount;`. -/
def DecrementCount (h : Heap) (this : Ref) : Heap :=
  h.set this { h.get this with ReferenceCount := (h.get this).ReferenceCount - 1 }

/-- The statement `internals.InUnRegister = true;`. -/
def BeginBreak (h : Heap) (this : Ref) : Heap :=
  h.set this { h.get this with InUnRegister := true }

/-- The statements `internals.MyInverse = nullptr; internals.InUnRegister = false;`. -/
def EndBreak (h : Heap) (this : Ref) : Heap :=
  h.set this { h.get this with MyInverse := none, InUnRegister := false }

/-- The object's storage is given back once its destructor has run. -/
def MarkDestroyed (h : Heap) (this : Ref) : Heap :=
  h.set this { h.get this with Destroyed := true }

/-- The `vtkAbstractTransform::UnRegister` of the source, followed by `vtkObject::UnRegister`
(decrement, and destroy at zero) and the destructor, which deletes the inverse. The fuel
bounds the nesting of calls along inverse links. -/
def UnRegister : Nat → Heap → Ref → Heap
  | 0, h, _ => h
  | fuel + 1, h, this =>
    if (h.get this).InUnRegister then
      -- we don't want to go into infinite recursion...
      DecrementCount h this
    else
      -- check to see if the only reason our reference count is not 1
      -- is the circular reference from MyInverse
      let h1 :=
        match (h.get this).MyInverse with
        | some inv =>
          if (h.get this).ReferenceCount = 2 ∧ (h.get inv).MyInverse = some this ∧
              (h.get inv).ReferenceCount = 1 then
            -- break the cycle
            EndBreak (UnRegister fuel (BeginBreak h this) inv) this
          else h
        | none => h
      -- vtkObject::UnRegister
      let h2 := DecrementCount h1 this
      if (h2.get this).ReferenceCount ≤ 0 then
        -- ~vtkAbstractTransform
        MarkDestroyed
          (match (h2.get this).MyInverse with
          | some inv => UnRegister fuel h2 inv
          | none => h2)
          this
      else h2

/-- The `Delete()` of a transform: `UnRegister(nullptr)`, with fuel for every object. -/
def Delete (h : Heap) (this : Ref) : Heap := UnRegister (h.next + 2) h this

end vtkAbstractTransform

/-! ## Pointer helpers -/

/-- The idiom `if (p) { p->Delete(); }` of the source. -/
def DeletePtr (h : Heap) (p : Option Ref) : Heap :=
  match p with
  | some r => vtkAbstractTransform.Delete h r
  | none => h

/-- The idiom `if (p) { p->Register(nullptr); }`; also used for `p->Register(nullptr)` on a
pointer the source takes to be set. -/
def RegisterPtr (h : Heap) (p : Option Ref) : Heap :=
  match p with
  | some r => vtkObject.Register h r
  | none => h

/-- The call `p->Modified()` on a transform pointer the source takes to be set. -/
def ModifiedPtr (h : Heap) (p : Option Ref) : Heap :=
  match p with
  | some r => vtkAbstractTransform.Modified h r
  | none => h

namespace vtkAbstractTransform

/-- The `vtkAbstractTransform::CircuitCheck` of the source: is `transform` on the chain that
starts at `this` and follows the inverse link while `DependsOnInverse` is set. -/
def CircuitCheck : Nat → Heap → Ref → Ref → Except Fault Bool
  | 0, _, _, _ => .error .OutOfFuel
  | fuel + 1, h, this, transform =>
    if transform = this then .ok true
    else if (h.get this).DependsOnInverse then
      match (h.get this).MyInverse with
      | some inv => CircuitCheck fuel h inv transform
      | none => .error .NullDereference
    else .ok false

/-- The `vtkAbstractTransform::SetInverse` of the source. -/
def SetInverse (h : Heap) (this : Ref) (transform : Option Ref) : Heap × Report :=
  if (h.get this).MyInverse = transform then (h, .Ok)
  else
    match transform with
    | none => (h, .Faulted .NullDereference)
    | some t =>
      -- check type first
      if !vtkObject.IsA (h.get t) (h.get this).ClassName then (h, .TypeMismatch)
      else
        match CircuitCheck (h.next + 1) h t this with
        | .error f => (h, .Faulted f)
        | .ok true => (h, .CircularReference)
        | .ok false =>
          let h1 := DeletePtr h (h.get this).MyInverse
          let h2 := vtkObject.Register h1 t
          -- we are now a special 'inverse transform'
          let h3 := h2.set this
            { h2.get this with MyInverse := some t, DependsOnInverse := transform.isSome }
          (Modified h3 this, .Ok)

/-- Modelled from the spec: the virtual `MakeTransform` creates a new object of the same
dynamic kind (the override of `vtkSimpleTransform` is `vtkSimpleTransform::New`). -/
def MakeTransform (h : Heap) (this : Ref) : Heap × Ref :=
  vtkObject.New h (h.get this).ClassName (h.get this).Superclasses

/-- The `vtkAbstractTransform::GetInverse` of the source (the mutex is not modelled). -/
def GetInverse (h : Heap) (this : Ref) : Heap × Option Ref :=
  match (h.get this).MyInverse with
  | some inv => (h, some inv)
  | none =>
    -- we create a circular reference here, it is dealt with in UnRegister
    let a := MakeTransform h this
    let h2 := a.1.set this { a.1.get this with MyInverse := some a.2 }
    let h3 := (SetInverse h2 a.2 (some this)).1
    (h3, (h3.get this).MyInverse)

/-- The `vtkAbstractTransform::DeepCopy` of the source; the virtual `InternalDeepCopy` of the
subclass is a parameter. -/
def DeepCopy (InternalDeepCopy : Heap → Ref → Ref → Heap) (h : Heap) (this : Ref)
    (transform : Option Ref) : Heap × Report :=
  -- check whether we're trying to copy a transform to itself
  if transform = some this then (h, .Ok)
  else
    match transform with
    | none => (h, .Faulted .NullDereference)
    | some t =>
      if !vtkObject.IsA (h.get t) (h.get this).ClassName then (h, .TypeMismatch)
      else
        match CircuitCheck (h.next + 1) h t this with
        | .error f => (h, .Faulted f)
        | .ok true => (h, .CircularReference)
        | .ok false => (Modified (InternalDeepCopy h this t) this, .Ok)

end vtkAbstractTransform

/-! ## The leaf transform -/

namespace vtkSimpleTransform

/-- The `vtkSimpleTransform::New` of the source: a leaf transform with an identity matrix. -/
def New (h : Heap) : Heap × Ref :=
  vtkObject.New h "vtkSimpleTransform"
    ["vtkLinearTransform", "vtkHomogeneousTransform", "vtkAbstractTransform", "vtkObject",
      "vtkObjectBase"]

end vtkSimpleTransform

/-! ## The concatenation -/

/-- The fields of `vtkTransformConcatenation`. `PreMatrix` and `PostMatrix` point at the
matrix of a leaf transform and are modelled by the reference of that transform. -/
@[ext]
structure vtkTransformConcatenation where
  InverseFlag : Int
  PreMultiplyFlag : Int
  PreMatrix : Option Ref
  PostMatrix : Option Ref
  PreMatrixTransform : Option Ref
  PostMatrixTransform : Option Ref
  NumberOfTransforms : Nat
  NumberOfPreTransforms : Nat
  MaxNumberOfTransforms : Nat
  TransformList : Nat → vtkTransformPair

namespace vtkTransformConcatenation

/-- The constructor of the source. -/
def New : vtkTransformConcatenation :=
  { InverseFlag := 0
    PreMultiplyFlag := 1
    PreMatrix := none
    PostMatrix := none
    PreMatrixTransform := none
    PostMatrixTransform := none
    NumberOfTransforms := 0
    NumberOfPreTransforms := 0
    MaxNumberOfTransforms := 0
    TransformList := fun _ => vtkTransformPair.null }

/-- The loop `for (int i = n; i > 0; i--) transList[i] = transList[i - 1];`. -/
def ShiftLoop (l : Nat → vtkTransformPair) : Nat → (Nat → vtkTransformPair)
  | 0 => l
  | i + 1 => ShiftLoop (Function.update l (i + 1) (l i)) i

/-- First block of `Concatenate(vtkAbstractTransform*)`: in case either PreMatrix or
PostMatrix is going to be pushed into the concatenation from their position at the end. -/
def ForgetPushedSlot (c : vtkTransformConcatenation) : vtkTransformConcatenation :=
  if c.PreMultiplyFlag ≠ 0 ∧ c.PreMatrix ≠ none then
    { c with PreMatrix := none, PreMatrixTransform := none }
  else if c.PreMultiplyFlag = 0 ∧ c.PostMatrix ≠ none then
    { c with PostMatrix := none, PostMatrixTransform := none }
  else c

/-- Second block: count the new transform and allocate more space if needed; `n` is the
count before. The new array comes from `new vtkTransformPair[nMax]` and only the first `n`
pairs are copied into it: the other slots keep what the storage holds. -/
def GrowList (h : Heap) (c : vtkTransformConcatenation) (n : Nat) :
    vtkTransformConcatenation :=
  if n + 1 > c.MaxNumberOfTransforms then
    { c with
      NumberOfTransforms := n + 1
      TransformList := fun i => if i < n then c.TransformList i else h.Uninitialised i
      MaxNumberOfTransforms := c.MaxNumberOfTransforms + 5 }
  else { c with NumberOfTransforms := n + 1 }

/-- The pair stored for a new transform: inverse-only when `InverseFlag` is set. -/
def NewPair (inverseFlag : Int) (trans : Ref) : vtkTransformPair :=
  if inverseFlag ≠ 0 then { ForwardTransform := none, InverseTransform := some trans }
  else { ForwardTransform := some trans, InverseTransform := none }

/-- The `vtkTransformConcatenation::Concatenate(vtkAbstractTransform*)` of the source. -/
def Concatenate (h : Heap) (c : vtkTransformConcatenation) (trans : Ref) :
    Heap × vtkTransformConcatenation :=
  let c1 := ForgetPushedSlot c
  let n := c1.NumberOfTransforms
  let c2 := GrowList h c1 n
  let h1 := vtkObject.Register h trans
  -- add the transform either the beginning or end of the list, according to flags
  if Int.xor c2.PreMultiplyFlag c2.InverseFlag ≠ 0 then
    (h1,
      { c2 with
        TransformList :=
          Function.update (ShiftLoop c2.TransformList n) 0 (NewPair c2.InverseFlag trans)
        NumberOfPreTransforms := c2.NumberOfPreTransforms + 1 })
  else
    (h1,
      { c2 with
        TransformList := Function.update c2.TransformList n (NewPair c2.InverseFlag trans) })

/-- The block of `Concatenate(const double[16])` that adds a new leaf transform when the
fast-path slot is empty; the result is the heap, the concatenation without the slot yet
recorded, and the new leaf. -/
def AddMatrixTransform (h : Heap) (c : vtkTransformConcatenation) :
    Heap × vtkTransformConcatenation × Ref :=
  let a := vtkSimpleTransform.New h
  let b := Concatenate a.1 c a.2
  (vtkAbstractTransform.Delete b.1 a.2, b.2, a.2)

/-- The `vtkTransformConcatenation::Concatenate(const double[16])` of the source. -/
def ConcatenateMatrix (h : Heap) (c : vtkTransformConcatenation) (elements : Mat4) :
    Heap × vtkTransformConcatenation :=
  -- concatenate the matrix with either the Pre- or PostMatrix
  if c.PreMultiplyFlag ≠ 0 then
    let s : Heap × vtkTransformConcatenation :=
      if c.PreMatrix = none then
        let a := AddMatrixTransform h c
        (a.1, { a.2.1 with PreMatrixTransform := some a.2.2, PreMatrix := some a.2.2 })
      else (h, c)
    match s.2.PreMatrix with
    | some m =>
      let h1 := s.1.set m { s.1.get m with Matrix := Multiply4x4 (s.1.get m).Matrix elements }
      let h2 := vtkMatrix4x4.Modified h1 m
      (ModifiedPtr h2 s.2.PreMatrixTransform, s.2)
    | none => s
  else
    let s : Heap × vtkTransformConcatenation :=
      if c.PostMatrix = none then
        let a := AddMatrixTransform h c
        (a.1, { a.2.1 with PostMatrixTransform := some a.2.2, PostMatrix := some a.2.2 })
      else (h, c)
    match s.2.PostMatrix with
    | some m =>
      let h1 := s.1.set m { s.1.get m with Matrix := Multiply4x4 elements (s.1.get m).Matrix }
      let h2 := vtkMatrix4x4.Modified h1 m
      (ModifiedPtr h2 s.2.PostMatrixTransform, s.2)
    | none => s

/-- The `vtkTransformConcatenation::Translate` of the source. -/
def Translate (h : Heap) (c : vtkTransformConcatenation) (x y z : ℚ) :
    Heap × vtkTransformConcatenation :=
  if x = 0 ∧ y = 0 ∧ z = 0 then (h, c)
  else ConcatenateMatrix h c !![1, 0, 0, x; 0, 1, 0, y; 0, 0, 1, z; 0, 0, 0, 1]

/-- The `vtkTransformConcatenation::Rotate` of the source; `MatrixFromRotation` (of
vtkMatrix4x4, not under src/) is a parameter. -/
def Rotate (MatrixFromRotation : ℚ → ℚ → ℚ → ℚ → Mat4) (h : Heap)
    (c : vtkTransformConcatenation) (angle x y z : ℚ) : Heap × vtkTransformConcatenation :=
  ConcatenateMatrix h c (MatrixFromRotation angle x y z)

/-- The `vtkTransformConcatenation::Scale` of the source. -/
def Scale (h : Heap) (c : vtkTransformConcatenation) (x y z : ℚ) :
    Heap × vtkTransformConcatenation :=
  if x = 1 ∧ y = 1 ∧ z = 1 then (h, c)
  else ConcatenateMatrix h c !![x, 0, 0, 0; 0, y, 0, 0; 0, 0, z, 0; 0, 0, 0, 1]

/-- One of the two blocks of `Inverse` that invert a fast-path matrix in place and swap the
sides of its pair, which sits at index `i`. -/
def InvertSlot (h : Heap) (l : Nat → vtkTransformPair) (matrix transform : Option Ref)
    (i : Nat) : Heap × (Nat → vtkTransformPair) :=
  match matrix with
  | some m =>
    let h1 := vtkMatrix4x4.InvertInPlace h m
    let h2 := ModifiedPtr h1 transform
    (h2, Function.update l i (l i).SwapForwardInverse)
  | none => (h, l)

/-- The `vtkTransformConcatenation::Inverse` of the source. -/
def Inverse (h : Heap) (c : vtkTransformConcatenation) : Heap × vtkTransformConcatenation :=
  -- invert the matrices
  let a := InvertSlot h c.TransformList c.PreMatrix c.PreMatrixTransform
    (if c.InverseFlag ≠ 0 then c.NumberOfTransforms - 1 else 0)
  let b := InvertSlot a.1 a.2 c.PostMatrix c.PostMatrixTransform
    (if c.InverseFlag ≠ 0 then 0 else c.NumberOfTransforms - 1)
  (b.1,
    { c with
      TransformList := b.2
      -- swap the pre- and post-matrices
      PreMatrix := c.PostMatrix
      PreMatrixTransform := c.PostMatrixTransform
      PostMatrix := c.PreMatrix
      PostMatrixTransform := c.PreMatrixTransform
      -- what used to be pre-transforms are now post-transforms
      NumberOfPreTransforms := c.NumberOfTransforms - c.NumberOfPreTransforms
      InverseFlag := if c.InverseFlag ≠ 0 then 0 else 1 })

/-- The loop that releases both members of the pairs `i, i+1, ..., i+count-1` and clears
them (of `Identity`, and the surplus loop of `DeepCopy`). -/
def ReleaseLoop : Nat → Nat → Heap → (Nat → vtkTransformPair) →
    Heap × (Nat → vtkTransformPair)
  | 0, _, h, l => (h, l)
  | count + 1, i, h, l =>
    let h1 := DeletePtr h (l i).ForwardTransform
    let h2 := DeletePtr h1 (l i).InverseTransform
    ReleaseLoop count (i + 1) h2 (Function.update l i vtkTransformPair.null)

/-- The `vtkTransformConcatenation::Identity` of the source. -/
def Identity (h : Heap) (c : vtkTransformConcatenation) : Heap × vtkTransformConcatenation :=
  -- delete all the transforms
  let r := ReleaseLoop c.NumberOfTransforms 0 h c.TransformList
  (r.1,
    { c with
      -- forget the Pre- and PostMatrix
      PreMatrix := none
      PostMatrix := none
      PreMatrixTransform := none
      PostMatrixTransform := none
      TransformList := r.2
      NumberOfTransforms := 0
      NumberOfPreTransforms := 0 })

/-- The destructor of the source: every member of the first `NumberOfTransforms` pairs is
released. -/
def Destructor (h : Heap) (c : vtkTransformConcatenation) : Heap :=
  (ReleaseLoop c.NumberOfTransforms 0 h c.TransformList).1

/-- The `vtkTransformConcatenation::GetTransform` of the source: the heap and the
concatenation after the call (a missing member is synthesized and cached) and the pointer
returned. -/
def GetTransform (h : Heap) (c : vtkTransformConcatenation) (i : Nat) :
    Heap × vtkTransformConcatenation × Option Ref :=
  -- we walk through the list in reverse order if InverseFlag is set
  if c.InverseFlag ≠ 0 then
    let j := c.NumberOfTransforms - i - 1
    let tuple := c.TransformList j
    -- if inverse is nullptr, then get it from the forward transform
    if tuple.InverseTransform = none then
      match tuple.ForwardTransform with
      | some f =>
        let g := vtkAbstractTransform.GetInverse h f
        (RegisterPtr g.1 g.2,
          { c with
            TransformList :=
              Function.update c.TransformList j { tuple with InverseTransform := g.2 } },
          g.2)
      | none => (h, c, none)
    else (h, c, tuple.InverseTransform)
  else
    let tuple := c.TransformList i
    -- if transform is nullptr, then get it from its inverse
    if tuple.ForwardTransform = none then
      match tuple.InverseTransform with
      | some f =>
        let g := vtkAbstractTransform.GetInverse h f
        (RegisterPtr g.1 g.2,
          { c with
            TransformList :=
              Function.update c.TransformList i { tuple with ForwardTransform := g.2 } },
          g.2)
      | none => (h, c, none)
    else (h, c, tuple.ForwardTransform)

end vtkTransformConcatenation

/-- An empty heap, over storage that holds null pointers. -/
def Heap.empty : Heap :=
  { nodes := fun _ =>
      { ClassName := "", Superclasses := [], ReferenceCount := 0, MTime := 0, UpdateTime := 0,
        MyInverse := none, DependsOnInverse := false, InUpdate := false, InUnRegister := false,
        Matrix := 1, MatrixMTime := 0, Destroyed := false }
    next := 0
    clock := 0
    Uninitialised := fun _ => vtkTransformPair.null }

/-- Two states of one object that differ at most in the fields reference counting writes:
the count, the guard flag, the destroyed mark, and an inverse link that may have been cleared. -/
def Node.SameButCounts (n n' : Node) : Prop :=
  n'.ClassName = n.ClassName ∧ n'.Superclasses = n.Superclasses ∧ n'.MTime = n.MTime ∧
  n'.UpdateTime = n.UpdateTime ∧ n'.DependsOnInverse = n.DependsOnInverse ∧
  n'.InUpdate = n.InUpdate ∧ n'.Matrix = n.Matrix ∧ n'.MatrixMTime = n.MatrixMTime ∧
  (n'.MyInverse = n.MyInverse ∨ n'.MyInverse = none)

/-- Two heaps that differ at most in the fields reference counting writes. -/
def Heap.SameButCounts (h h' : Heap) : Prop :=
  (∀ s, (h.get s).SameButCounts (h'.get s)) ∧ h'.next = h.next ∧ h'.clock = h.clock

namespace vtkTransformConcatenation

/-- Modelled from the spec: the inline setter `SetPreMultiplyFlag` of the header (not under
src/) stores the flag. -/
def SetPreMultiplyFlag (c : vtkTransformConcatenation) (flag : Int) :
    vtkTransformConcatenation :=
  { c with PreMultiplyFlag := flag }

/-- First block of `DeepCopy`: allocate a larger list if necessary. -/
def DeepCopyAllocate (this concat : vtkTransformConcatenation) : vtkTransformConcatenation :=
  if this.MaxNumberOfTransforms < concat.NumberOfTransforms then
    { this with
      TransformList := fun i =>
        if i < this.NumberOfTransforms then this.TransformList i else vtkTransformPair.null
      MaxNumberOfTransforms := concat.NumberOfTransforms }
  else this

/-- The block of `DeepCopy` that takes a fast-path node of the receiver out of its pair, which
sits at `idxInverse` when the receiver's `InverseFlag` is set and at `idxForward` otherwise:
the pair is swapped in the first case, its forward member is forgotten (it is kept aside for
reuse) and its inverse member released. -/
def DetachSlot (h : Heap) (l : Nat → vtkTransformPair) (inverseFlag : Int)
    (idxInverse idxForward : Nat) : Heap × (Nat → vtkTransformPair) :=
  let i := if inverseFlag ≠ 0 then idxInverse else idxForward
  let l1 := if inverseFlag ≠ 0 then Function.update l i (l i).SwapForwardInverse else l
  (DeletePtr h (l1 i).InverseTransform, Function.update l1 i vtkTransformPair.null)

/-- The bounds `i` and `n` of the by-reference copy loop of `DeepCopy`: the ends that hold a
fast-path node of the source are left out. -/
def CopyRange (concat : vtkTransformConcatenation) : Nat × Nat :=
  let i0 := 0
  let n0 := concat.NumberOfTransforms
  let i1 := if concat.PreMatrix ≠ none ∧ ¬ concat.InverseFlag ≠ 0 then i0 + 1 else i0
  let n1 := if concat.PreMatrix ≠ none ∧ concat.InverseFlag ≠ 0 then n0 - 1 else n0
  let i2 := if concat.PostMatrix ≠ none ∧ concat.InverseFlag ≠ 0 then i1 + 1 else i1
  let n2 := if concat.PostMatrix ≠ none ∧ ¬ concat.InverseFlag ≠ 0 then n1 - 1 else n1
  (i2, n2)

/-- One member of one pair in the copy loop of `DeepCopy`: when the pointers differ the old
one is released (if it is set and the index is below the receiver's count) and the new one
is taken by reference. -/
def CopyMember (h : Heap) (live : Bool) (mine theirs : Option Ref) : Heap × Option Ref :=
  if mine ≠ theirs then
    let h1 := if mine ≠ none ∧ live then DeletePtr h mine else h
    (RegisterPtr h1 theirs, theirs)
  else (h, mine)

/-- The loop of `DeepCopy` that copies the transforms by reference, over the indices
`i, i+1, ..., i+count-1`. -/
def CopyLoop (thisCount : Nat) (l2 : Nat → vtkTransformPair) :
    Nat → Nat → Heap → (Nat → vtkTransformPair) → Heap × (Nat → vtkTransformPair)
  | 0, _, h, l => (h, l)
  | count + 1, i, h, l =>
    let f := CopyMember h (decide (i < thisCount)) (l i).ForwardTransform
      (l2 i).ForwardTransform
    let g := CopyMember f.1 (decide (i < thisCount)) (l i).InverseTransform
      (l2 i).InverseTransform
    CopyLoop thisCount l2 count (i + 1) g.1
      (Function.update l i { ForwardTransform := f.2, InverseTransform := g.2 })

/-- The block of `DeepCopy` that makes a deep copy of one fast-path transform of the source
into the pair at index `i`: `reuse` is the receiver's old node when there is one, otherwise
a new leaf is made. The result is the heap, the list and the leaf. -/
def CopySlot (h : Heap) (l : Nat → vtkTransformPair) (source : Ref) (i : Nat)
    (concatInverseFlag : Int) (reuse : Option Ref) :
    Heap × (Nat → vtkTransformPair) × Ref :=
  let a : Heap × Ref :=
    match reuse with
    | some r => (h, r)
    | none => vtkSimpleTransform.New h
  let h1 := vtkMatrix4x4.DeepCopy a.1 a.2 source
  let h2 := vtkAbstractTransform.Modified h1 a.2
  let h3 := DeletePtr h2 (l i).ForwardTransform
  let h4 := DeletePtr h3 (l i).InverseTransform
  (h4, Function.update l i (NewPair concatInverseFlag a.2), a.2)

/-- The running state of `DeepCopy`: the heap, the receiver's list, the receiver's two old
fast-path nodes that may still be reused, and the receiver's new fast-path slots. -/
structure DeepCopyState where
  heap : Heap
  list : Nat → vtkTransformPair
  oldPreMatrixTransform : Option Ref
  oldPostMatrixTransform : Option Ref
  PreMatrix : Option Ref
  PostMatrix : Option Ref

/-- The blocks of `DeepCopy` up to the surplus loop: allocation, saving of the receiver's
fast-path nodes, copy by reference, release of the surplus. -/
def DeepCopyPrepare (h : Heap) (this concat : vtkTransformConcatenation) : DeepCopyState :=
  let t0 := DeepCopyAllocate this concat
  -- save the PreMatrix and PostMatrix in case they can be reused
  let s1 : Heap × (Nat → vtkTransformPair) :=
    if this.PreMatrix ≠ none then
      DetachSlot h t0.TransformList this.InverseFlag (this.NumberOfTransforms - 1) 0
    else (h, t0.TransformList)
  let s2 : Heap × (Nat → vtkTransformPair) :=
    if this.PostMatrix ≠ none then
      DetachSlot s1.1 s1.2 this.InverseFlag 0 (this.NumberOfTransforms - 1)
    else s1
  -- copy the transforms by reference
  let range := CopyRange concat
  let s3 := CopyLoop this.NumberOfTransforms concat.TransformList (range.2 - range.1) range.1
    s2.1 s2.2
  -- delete surplus items from the list
  let s4 := ReleaseLoop (this.NumberOfTransforms - concat.NumberOfTransforms)
    concat.NumberOfTransforms s3.1 s3.2
  { heap := s4.1
    list := s4.2
    oldPreMatrixTransform := if this.PreMatrix ≠ none then this.PreMatrixTransform else none
    oldPostMatrixTransform := if this.PostMatrix ≠ none then this.PostMatrixTransform else none
    PreMatrix := none
    PostMatrix := none }

/-- The block of `DeepCopy` that makes a DeepCopy of the PreMatrix transform. -/
def DeepCopyPre (this concat : vtkTransformConcatenation) (s : DeepCopyState) :
    DeepCopyState :=
  match concat.PreMatrix with
  | some source =>
    let i := if concat.InverseFlag ≠ 0 then concat.NumberOfTransforms - 1 else 0
    if concat.InverseFlag = this.InverseFlag then
      let r := CopySlot s.heap s.list source i concat.InverseFlag s.oldPreMatrixTransform
      { s with heap := r.1, list := r.2.1, PreMatrix := some r.2.2,
               oldPreMatrixTransform := none }
    else
      let r := CopySlot s.heap s.list source i concat.InverseFlag s.oldPostMatrixTransform
      { s with heap := r.1, list := r.2.1, PreMatrix := some r.2.2,
               oldPostMatrixTransform := none }
  | none => s

/-- The block of `DeepCopy` that makes a DeepCopy of the PostMatrix transform. -/
def DeepCopyPost (this concat : vtkTransformConcatenation) (s : DeepCopyState) :
    DeepCopyState :=
  match concat.PostMatrix with
  | some source =>
    let i := if concat.InverseFlag ≠ 0 then 0 else concat.NumberOfTransforms - 1
    if concat.InverseFlag = this.InverseFlag then
      let r := CopySlot s.heap s.list source i concat.InverseFlag s.oldPostMatrixTransform
      { s with heap := r.1, list := r.2.1, PostMatrix := some r.2.2,
               oldPostMatrixTransform := none }
    else
      let r := CopySlot s.heap s.list source i concat.InverseFlag s.oldPreMatrixTransform
      { s with heap := r.1, list := r.2.1, PostMatrix := some r.2.2,
               oldPreMatrixTransform := none }
  | none => s

/-- The `vtkTransformConcatenation::DeepCopy` of the source. -/
def DeepCopy (h : Heap) (this concat : vtkTransformConcatenation) :
    Heap × vtkTransformConcatenation :=
  let s := DeepCopyPost this concat (DeepCopyPre this concat (DeepCopyPrepare h this concat))
  -- delete the old PreMatrix and PostMatrix transforms if not reused
  let h1 := DeletePtr s.heap s.oldPreMatrixTransform
  let h2 := DeletePtr h1 s.oldPostMatrixTransform
  (h2,
    { -- copy misc. ivars
      InverseFlag := concat.InverseFlag
      PreMultiplyFlag := concat.PreMultiplyFlag
      NumberOfTransforms := concat.NumberOfTransforms
      NumberOfPreTransforms := concat.NumberOfPreTransforms
      PreMatrix := s.PreMatrix
      PostMatrix := s.PostMatrix
      PreMatrixTransform := s.PreMatrix
      PostMatrixTransform := s.PostMatrix
      MaxNumberOfTransforms := (DeepCopyAllocate this concat).MaxNumberOfTransforms
      TransformList := s.list })

end vtkTransformConcatenation

/-! ## The concatenation stack -/

/-- The fields of `vtkTransformConcatenationStack`: the capacity, the array, and the offset
of the `Stack` pointer from `StackBottom` (the depth). -/
structure vtkTransformConcatenationStack where
  StackSize : Nat
  Stack : Nat
  StackBottom : Nat → vtkTransformConcatenation

namespace vtkTransformConcatenationStack

/-- The constructor of the source. -/
def New : vtkTransformConcatenationStack :=
  { StackSize := 0, Stack := 0, StackBottom := fun _ => vtkTransformConcatenation.New }

/-- The `vtkTransformConcatenationStack::Pop` of the source: the stack, the heap and the
live concatenation after the call. -/
def Pop (s : vtkTransformConcatenationStack) (h : Heap) (concat : vtkTransformConcatenation) :
    vtkTransformConcatenationStack × Heap × vtkTransformConcatenation :=
  -- if we're at the bottom of the stack, don't pop
  if s.Stack = 0 then (s, h, concat)
  else
    -- get the previous PreMultiplyFlag
    let preMultiplyFlag := concat.PreMultiplyFlag
    -- delete the previous item
    let h1 := vtkTransformConcatenation.Destructor h concat
    -- pop new item off the stack
    let s1 : vtkTransformConcatenationStack := { s with Stack := s.Stack - 1 }
    -- re-set the PreMultiplyFlag
    (s1, h1, (s1.StackBottom s1.Stack).SetPreMultiplyFlag preMultiplyFlag)

/-- The `vtkTransformConcatenationStack::Push` of the source: the stack, the heap and the
live concatenation after the call. -/
def Push (s : vtkTransformConcatenationStack) (h : Heap) (concat : vtkTransformConcatenation) :
    vtkTransformConcatenationStack × Heap × vtkTransformConcatenation :=
  -- check stack size and grow if necessary
  let s1 : vtkTransformConcatenationStack :=
    if s.Stack = s.StackSize then
      { StackBottom := fun i =>
          if i < s.StackSize then s.StackBottom i else vtkTransformConcatenation.New
        Stack := s.StackSize
        StackSize := s.StackSize + 10 }
    else s
  -- add item to the stack
  let s2 : vtkTransformConcatenationStack :=
    { s1 with StackBottom := Function.update s1.StackBottom s1.Stack concat,
              Stack := s1.Stack + 1 }
  -- make a copy of that item the current item
  let r := vtkTransformConcatenation.DeepCopy h vtkTransformConcatenation.New
    (s2.StackBottom (s2.Stack - 1))
  (s2, r.1, r.2)

end vtkTransformConcatenationStack

/-! ## Concrete inputs -/

namespace Example

/-- The matrix of `Translate(1,2,3)`. -/
def T123 : Mat4 := !![1, 0, 0, 1; 0, 1, 0, 2; 0, 0, 1, 3; 0, 0, 0, 1]

/-- The matrix of `Scale(2,2,2)`. -/
def S222 : Mat4 := !![2, 0, 0, 0; 0, 2, 0, 0; 0, 0, 2, 0; 0, 0, 0, 1]

/-- A newly constructed concatenation switched to post-multiply mode. -/
def NewPostMultiply : vtkTransformConcatenation :=
  vtkTransformConcatenation.New.SetPreMultiplyFlag 0

/-- The calls `Concatenate(T123); Concatenate(S222)` on a concatenation over the empty heap. -/
def TwoMatrices (c : vtkTransformConcatenation) : Heap × vtkTransformConcatenation :=
  vtkTransformConcatenation.ConcatenateMatrix
    (vtkTransformConcatenation.ConcatenateMatrix Heap.empty c T123).1
    (vtkTransformConcatenation.ConcatenateMatrix Heap.empty c T123).2 S222

/-- The calls `Translate(1,2,3); Scale(2,2,2)` on a newly constructed concatenation. -/
def TranslateThenScale (h : Heap) : Heap × vtkTransformConcatenation :=
  vtkTransformConcatenation.Scale
    (vtkTransformConcatenation.Translate h vtkTransformConcatenation.New 1 2 3).1
    (vtkTransformConcatenation.Translate h vtkTransformConcatenation.New 1 2 3).2 2 2 2

end Example

namespace Example

/-- Two newly constructed leaf transforms, at references 0 and 1, over the empty heap. -/
def TwoLeaves : Heap := (vtkSimpleTransform.New (vtkSimpleTransform.New Heap.empty).1).1

/-- A leaf transform at reference 0 and an object of an unrelated class at reference 1. -/
def LeafAndWarp : Heap :=
  (vtkObject.New (vtkSimpleTransform.New Heap.empty).1 "vtkThinPlateSplineTransform"
    ["vtkWarpTransform", "vtkAbstractTransform", "vtkObject", "vtkObjectBase"]).1

/-- The heap `TwoLeaves` after `U.SetInverse(T)` with `T` at 0 and `U` at 1. -/
def TwoLeavesLinked : Heap := (vtkAbstractTransform.SetInverse TwoLeaves 1 (some 0)).1

/-- An `InternalDeepCopy` hook for leaf transforms: the matrix is copied. -/
def CopyMatrixHook (h : Heap) (this source : Ref) : Heap :=
  h.set this { h.get this with Matrix := (h.get source).Matrix }

end Example

/-! ## The state invariant of a concatenation -/

namespace vtkTransformConcatenation

/-- The list index of the first transform in composition order. -/
def FirstIndex (c : vtkTransformConcatenation) : Nat :=
  if c.InverseFlag ≠ 0 then c.NumberOfTransforms - 1 else 0

/-- The list index of the last transform in composition order. -/
def LastIndex (c : vtkTransformConcatenation) : Nat :=
  if c.InverseFlag ≠ 0 then 0 else c.NumberOfTransforms - 1

/-- The member of a pair that `GetTransform` reads. -/
def ReadSide (c : vtkTransformConcatenation) (p : vtkTransformPair) : Option Ref :=
  if c.InverseFlag ≠ 0 then p.InverseTransform else p.ForwardTransform

/-- The member of a pair that `GetTransform` does not read. -/
def OtherSide (c : vtkTransformConcatenation) (p : vtkTransformPair) : Option Ref :=
  if c.InverseFlag ≠ 0 then p.ForwardTransform else p.InverseTransform

/-- The fast-path position invariant: `InverseFlag` is 0 or 1, the pre-transform count does
not exceed the count, each fast-path slot names one leaf (matrix and transform pointer
agree), a set pre-matrix slot is the element at the first position and a set post-matrix
slot the element at the last position, each on the side of its pair that `GetTransform`
reads, the two slots never name the same node, and every pair below the count has a
member. -/
def PositionInvariant (c : vtkTransformConcatenation) : Prop :=
  (c.InverseFlag = 0 ∨ c.InverseFlag = 1) ∧
  c.NumberOfPreTransforms ≤ c.NumberOfTransforms ∧
  c.PreMatrixTransform = c.PreMatrix ∧
  c.PostMatrixTransform = c.PostMatrix ∧
  (c.PreMatrix ≠ none →
    0 < c.NumberOfTransforms ∧ ReadSide c (c.TransformList (FirstIndex c)) = c.PreMatrix) ∧
  (c.PostMatrix ≠ none →
    0 < c.NumberOfTransforms ∧ ReadSide c (c.TransformList (LastIndex c)) = c.PostMatrix) ∧
  (c.PreMatrix ≠ none → c.PreMatrix ≠ c.PostMatrix) ∧
  (∀ i, i < c.NumberOfTransforms →
    (c.TransformList i).ForwardTransform ≠ none ∨ (c.TransformList i).InverseTransform ≠ none)

instance (c : vtkTransformConcatenation) : Decidable (PositionInvariant c) := by
  unfold PositionInvariant; infer_instance

/-- Every transform the first `NumberOfTransforms` pairs hold is an object of the heap. -/
def ListInHeap (h : Heap) (c : vtkTransformConcatenation) : Prop :=
  ∀ i, i < c.NumberOfTransforms →
    (∀ r ∈ (c.TransformList i).ForwardTransform, r < h.next) ∧
    (∀ r ∈ (c.TransformList i).InverseTransform, r < h.next)

instance (h : Heap) (c : vtkTransformConcatenation) : Decidable (ListInHeap h c) := by
  unfold ListInHeap; infer_instance

/-- A pair that holds both members holds a transform and its inverse: one of the two is the
inverse link of the other. -/
def PairsLinked (h : Heap) (c : vtkTransformConcatenation) : Prop :=
  ∀ i, i < c.NumberOfTransforms →
    ∀ f ∈ (c.TransformList i).ForwardTransform, ∀ g ∈ (c.TransformList i).InverseTransform,
      (h.get f).MyInverse = some g ∨ (h.get g).MyInverse = some f

instance (h : Heap) (c : vtkTransformConcatenation) : Decidable (PairsLinked h c) := by
  unfold PairsLinked; infer_instance

/-- The fast-path node at the position `j` of the composition order, if there is one. -/
def FastPathAt (c : vtkTransformConcatenation) (j : Nat) : Option Ref :=
  if j = 0 ∧ c.PreMatrix ≠ none then c.PreMatrix
  else if j = c.NumberOfTransforms - 1 ∧ c.PostMatrix ≠ none then c.PostMatrix
  else none

end vtkTransformConcatenation

namespace vtkTransformConcatenation

/-- The list index `GetTransform(i)` reads. -/
def ReadIndex (c : vtkTransformConcatenation) (i : Nat) : Nat :=
  if c.InverseFlag ≠ 0 then c.NumberOfTransforms - i - 1 else i

end vtkTransformConcatenation

namespace vtkTransformConcatenation

/-- The calls `Inverse(); Inverse();`. -/
def InverseTwice (h : Heap) (c : vtkTransformConcatenation) :
    Heap × vtkTransformConcatenation :=
  Inverse (Inverse h c).1 (Inverse h c).2

end vtkTransformConcatenation

namespace Example

/-- The state after `Translate(1,2,3)` on a newly constructed concatenation over the empty
heap: one fast-path leaf at reference 0. -/
def OneTranslate : Heap × vtkTransformConcatenation :=
  vtkTransformConcatenation.Translate Heap.empty vtkTransformConcatenation.New 1 2 3

end Example

namespace Example

/-- A concatenation over one user leaf (reference 0): `Concatenate(leaf)` and then
`Translate(1,2,3)`, which adds a fast-path leaf (reference 1) in front of it. -/
def LeafThenTranslate : Heap × vtkTransformConcatenation :=
  vtkTransformConcatenation.Translate
    (vtkTransformConcatenation.Concatenate (vtkSimpleTransform.New Heap.empty).1
      vtkTransformConcatenation.New 0).1
    (vtkTransformConcatenation.Concatenate (vtkSimpleTransform.New Heap.empty).1
      vtkTransformConcatenation.New 0).2 1 2 3

end Example

namespace vtkTransformConcatenation

/-- The old pre-matrix transform that `DeepCopy` keeps aside for reuse. -/
def ReusablePre (this : vtkTransformConcatenation) : Option Ref :=
  if this.PreMatrix ≠ none then this.PreMatrixTransform else none

/-- The old post-matrix transform that `DeepCopy` keeps aside for reuse. -/
def ReusablePost (this : vtkTransformConcatenation) : Option Ref :=
  if this.PostMatrix ≠ none then this.PostMatrixTransform else none

end vtkTransformConcatenation

/-! ## Sequences of builder operations -/

/-- One builder operation on a concatenation. -/
inductive BuilderOp where
  | ConcatenateMatrix (elements : Mat4)
  | Concatenate (trans : Ref)
  | Translate (x y z : ℚ)
  | Rotate (angle x y z : ℚ)
  | Scale (x y z : ℚ)
  | Inverse
  | Identity

/-- Run one builder operation. -/
def BuilderOp.Run (MatrixFromRotation : ℚ → ℚ → ℚ → ℚ → Mat4) (h : Heap)
    (c : vtkTransformConcatenation) : BuilderOp → Heap × vtkTransformConcatenation
  | .ConcatenateMatrix elements => vtkTransformConcatenation.ConcatenateMatrix h c elements
  | .Concatenate t => vtkTransformConcatenation.Concatenate h c t
  | .Translate x y z => vtkTransformConcatenation.Translate h c x y z
  | .Rotate angle x y z => vtkTransformConcatenation.Rotate MatrixFromRotation h c angle x y z
  | .Scale x y z => vtkTransformConcatenation.Scale h c x y z
  | .Inverse => vtkTransformConcatenation.Inverse h c
  | .Identity => vtkTransformConcatenation.Identity h c

/-- Run a sequence of builder operations, first to last. -/
def BuilderOp.RunAll (MatrixFromRotation : ℚ → ℚ → ℚ → ℚ → Mat4) :
    List BuilderOp → Heap → vtkTransformConcatenation → Heap × vtkTransformConcatenation
  | [], h, c => (h, c)
  | op :: ops, h, c =>
    BuilderOp.RunAll MatrixFromRotation ops (op.Run MatrixFromRotation h c).1
      (op.Run MatrixFromRotation h c).2

/-- The fast-path slots of a concatenation name no object of the set `S`, and `S` holds
allocated objects only. -/
def SlotsOutside (S : Ref → Prop) (h : Heap) (c : vtkTransformConcatenation) : Prop :=
  (∀ m, c.PreMatrix = some m → ¬ S m) ∧ (∀ m, c.PostMatrix = some m → ¬ S m) ∧
  (∀ r, S r → r < h.next)

namespace vtkTransformConcatenationStack

/-- The calls `stack.Push(c); ops on c; stack.Pop(c);`. -/
def PushRunPop (MatrixFromRotation : ℚ → ℚ → ℚ → ℚ → Mat4) (s : vtkTransformConcatenationStack)
    (h : Heap) (c : vtkTransformConcatenation) (ops : List BuilderOp) :
    vtkTransformConcatenationStack × Heap × vtkTransformConcatenation :=
  Pop (Push s h c).1
    (BuilderOp.RunAll MatrixFromRotation ops (Push s h c).2.1 (Push s h c).2.2).1
    (BuilderOp.RunAll MatrixFromRotation ops (Push s h c).2.1 (Push s h c).2.2).2

end vtkTransformConcatenationStack

namespace vtkTransformConcatenation

/-- The list index `k` holds a fast-path node of the concatenation. -/
def IsFastIndex (c : vtkTransformConcatenation) (k : Nat) : Prop :=
  (c.PreMatrix ≠ none ∧ k = FirstIndex c) ∨ (c.PostMatrix ≠ none ∧ k = LastIndex c)

instance (c : vtkTransformConcatenation) (k : Nat) : Decidable (IsFastIndex c k) := by
  unfold IsFastIndex; infer_instance

/-- No fast-path node of `a` is a fast-path node of `b`. -/
def SlotsDisjoint (a b : vtkTransformConcatenation) : Prop :=
  (∀ m ∈ a.PreMatrix, b.PreMatrix ≠ some m ∧ b.PostMatrix ≠ some m) ∧
  (∀ m ∈ a.PostMatrix, b.PreMatrix ≠ some m ∧ b.PostMatrix ≠ some m)

instance (a b : vtkTransformConcatenation) : Decidable (SlotsDisjoint a b) := by
  unfold SlotsDisjoint; infer_instance

/-- A fast-path slot `d` of a copy mirrors the slot `s` of its source: both are empty, or
`d` names another leaf, held alone in `pair` on the side that `GetTransform` reads, whose
matrix equals the matrix of the source leaf. -/
def SlotMirrors (h : Heap) (s d : Option Ref) (pair : vtkTransformPair) (flag : Int) : Prop :=
  match s with
  | none => d = none
  | some a => ∃ m, d = some m ∧ m ≠ a ∧ pair = NewPair flag m ∧
      (h.get m).Matrix = (h.get a).Matrix

/-- The concatenation `dst` is observably equal to `src` in the heap `h`: the same counts and
flags, the same pair at every index that holds no fast-path node of `src`, and a mirror of
each fast-path slot of `src` at the same index. -/
def Mirrors (h : Heap) (src dst : vtkTransformConcatenation) : Prop :=
  dst.NumberOfTransforms = src.NumberOfTransforms ∧
  dst.NumberOfPreTransforms = src.NumberOfPreTransforms ∧
  dst.InverseFlag = src.InverseFlag ∧
  dst.PreMultiplyFlag = src.PreMultiplyFlag ∧
  (∀ k, k < src.NumberOfTransforms → ¬ IsFastIndex src k →
    dst.TransformList k = src.TransformList k) ∧
  SlotMirrors h src.PreMatrix dst.PreMatrix (dst.TransformList (FirstIndex src))
    src.InverseFlag ∧
  SlotMirrors h src.PostMatrix dst.PostMatrix (dst.TransformList (LastIndex src))
    src.InverseFlag

end vtkTransformConcatenation

namespace vtkTransformConcatenation

/-- Each fast-path node of the concatenation is a `vtkSimpleTransform` object of the heap. -/
def SlotsSimple (h : Heap) (c : vtkTransformConcatenation) : Prop :=
  (∀ m ∈ c.PreMatrix, (h.get m).ClassName = "vtkSimpleTransform") ∧
  (∀ m ∈ c.PostMatrix, (h.get m).ClassName = "vtkSimpleTransform")

instance (h : Heap) (c : vtkTransformConcatenation) : Decidable (SlotsSimple h c) := by
  unfold SlotsSimple; infer_instance

end vtkTransformConcatenation

namespace Example

/-- A second concatenation over the heap of `LeafThenTranslate`: `Translate(4,5,6)` and then
`Inverse()`, so that it owns a fast-path leaf (reference 2) and has `InverseFlag` 1. -/
def InvertedTranslate : Heap × vtkTransformConcatenation :=
  vtkTransformConcatenation.Inverse
    (vtkTransformConcatenation.Translate LeafThenTranslate.1 vtkTransformConcatenation.New
      4 5 6).1
    (vtkTransformConcatenation.Translate LeafThenTranslate.1 vtkTransformConcatenation.New
      4 5 6).2

end Example

namespace Example

/-- The concatenation `copy` of the aliasing scenario: `Concatenate(T123)` on a newly
constructed concatenation over the empty heap, which leaves one fast-path leaf, at
reference 0. -/
def SharedCopy : Heap × vtkTransformConcatenation :=
  vtkTransformConcatenation.ConcatenateMatrix Heap.empty vtkTransformConcatenation.New T123

/-- The concatenation `original` of the aliasing scenario: `Concatenate(leaf)` with the leaf
at reference 0 (the node `copy.GetTransform(0)` returns) and then `Concatenate(S222)`, which
adds a fast-path leaf (reference 1) in front of it. -/
def SharedOriginal : Heap × vtkTransformConcatenation :=
  vtkTransformConcatenation.ConcatenateMatrix
    (vtkTransformConcatenation.Concatenate SharedCopy.1 vtkTransformConcatenation.New 0).1
    (vtkTransformConcatenation.Concatenate SharedCopy.1 vtkTransformConcatenation.New 0).2 S222

/-- The state after `copy.DeepCopy(original)` in the aliasing scenario. -/
def SharedAfterDeepCopy : Heap × vtkTransformConcatenation :=
  vtkTransformConcatenation.DeepCopy SharedOriginal.1 SharedCopy.2 SharedOriginal.2

end Example

/-- A builder operation that reaches `Concatenate(const double[16])`: a raw matrix, a
`Rotate`, a `Translate` that is not by zero, a `Scale` that is not by one (`Translate` and
`Scale` return at once otherwise). -/
def BuilderOp.Folds : BuilderOp → Prop
  | .ConcatenateMatrix _ => True
  | .Translate x y z => ¬ (x = 0 ∧ y = 0 ∧ z = 0)
  | .Rotate _ _ _ _ => True
  | .Scale x y z => ¬ (x = 1 ∧ y = 1 ∧ z = 1)
  | .Concatenate _ => False
  | .Inverse => False
  | .Identity => False

namespace vtkTransformConcatenation

/-- The concatenation holds one transform, the fast-path leaf `m` of the end that raw
matrices go to: the pre-matrix slot in pre-multiply mode, the post-matrix slot otherwise. -/
def FoldedInto (c : vtkTransformConcatenation) (m : Ref) : Prop :=
  c.NumberOfTransforms = 1 ∧
  (c.PreMultiplyFlag ≠ 0 → c.PreMatrix = some m) ∧
  (c.PreMultiplyFlag = 0 → c.PostMatrix = some m)

end vtkTransformConcatenation

namespace Example

/-- A concatenation in pre-multiply mode whose post-matrix slot is set: `Concatenate(T123)`
in post-multiply mode (fast-path leaf at reference 0), then `PreMultiply()`, over a heap that
also holds a user leaf (reference 1). -/
def PostSlotPreMode : Heap × vtkTransformConcatenation :=
  ((vtkSimpleTransform.New
      (vtkTransformConcatenation.ConcatenateMatrix Heap.empty NewPostMultiply T123).1).1,
    (vtkTransformConcatenation.ConcatenateMatrix Heap.empty NewPostMultiply
      T123).2.SetPreMultiplyFlag 1)

/-- A concatenation in pre-multiply mode whose pre-matrix slot is set (`OneTranslate`), over
a heap that also holds a user leaf (reference 1). -/
def PreSlotPreMode : Heap × vtkTransformConcatenation :=
  ((vtkSimpleTransform.New OneTranslate.1).1, OneTranslate.2)

end Example

namespace Example

/-- A concatenation over one user leaf (reference 0) after `Concatenate(leaf)` and
`Inverse()`: `InverseFlag` is set and the pair of the leaf holds its forward member only. -/
def InvertedLeaf : Heap × vtkTransformConcatenation :=
  vtkTransformConcatenation.Inverse
    (vtkTransformConcatenation.Concatenate (vtkSimpleTransform.New Heap.empty).1
      vtkTransformConcatenation.New 0).1
    (vtkTransformConcatenation.Concatenate (vtkSimpleTransform.New Heap.empty).1
      vtkTransformConcatenation.New 0).2

end Example

namespace vtkAbstractTransform

/-- The `vtkAbstractTransform::GetMTime` of the source; `this->vtkObject::GetMTime()` is the
object's own `MTime`. The fuel bounds the walk along inverse links. -/
def GetMTime : Nat → Heap → Ref → Except Fault Nat
  | 0, _, _ => .error .OutOfFuel
  | fuel + 1, h, this =>
    let mtime := (h.get this).MTime
    if (h.get this).DependsOnInverse then
      match (h.get this).MyInverse with
      | some inv =>
        match GetMTime fuel h inv with
        | .ok inverseMTime => if inverseMTime > mtime then .ok inverseMTime else .ok mtime
        | .error f => .error f
      | none => .error .NullDereference
    else .ok mtime

/-- The walk of `GetMTime` (and of `CircuitCheck`) from `this` ends within `fuel` objects:
it follows set inverse links while `DependsOnInverse` holds and reaches an object that does
not depend on its inverse. -/
def ChainEnds : Nat → Heap → Ref → Prop
  | 0, _, _ => False
  | fuel + 1, h, this =>
    if (h.get this).DependsOnInverse then
      match (h.get this).MyInverse with
      | some inv => ChainEnds fuel h inv
      | none => False
    else True

/-- The virtual methods of the subclass that `Update` calls. -/
structure UpdateHooks where
  InternalDeepCopy : Heap → Ref → Ref → Heap
  Inverse : Heap → Ref → Heap
  InternalUpdate : Heap → Ref → Heap

/-- One call of a virtual method made by `Update`. -/
inductive HookCall where
  | InternalDeepCopy (source : Ref)
  | Inverse
  | InternalUpdate
deriving DecidableEq, Repr

/-- The statement `internals.InUpdate = true;`. -/
def BeginUpdate (h : Heap) (this : Ref) : Heap :=
  h.set this { h.get this with InUpdate := true }

/-- The statements `internals.InUpdate = false; internals.UpdateTime.Modified();`: the time
stamp takes the next value of the global counter. -/
def EndUpdate (h : Heap) (this : Ref) : Heap :=
  let t := h.clock + 1
  { (h.set this { h.get this with InUpdate := false, UpdateTime := t }) with clock := t }

/-- The branch `else if (this->GetMTime() >= internals.UpdateTime.GetMTime())` of `Update`
and the statements after it; `h1` is the heap with `InUpdate` set. -/
def UpdateOwn (hooks : UpdateHooks) (fuel : Nat) (h1 : Heap) (this : Ref) :
    Except Fault (Heap × List HookCall) :=
  match GetMTime fuel h1 this with
  | .error f => .error f
  | .ok t =>
    if t ≥ (h1.get this).UpdateTime then
      -- do internal update for subclass
      .ok (EndUpdate (hooks.InternalUpdate h1 this) this, [.InternalUpdate])
    else .ok (EndUpdate h1 this, [])

/-- The `vtkAbstractTransform::Update` of the source (the mutex is not modelled): the heap
after the call and the virtual methods it called, in order. -/
def Update (hooks : UpdateHooks) (fuel : Nat) (h : Heap) (this : Ref) :
    Except Fault (Heap × List HookCall) :=
  let h1 := BeginUpdate h this
  -- check to see if we are a special 'inverse' transform
  if (h1.get this).DependsOnInverse then
    match (h1.get this).MyInverse with
    | none => .error .NullDereference
    | some inv =>
      match GetMTime fuel h1 inv with
      | .error f => .error f
      | .ok t =>
        if t ≥ (h1.get this).UpdateTime then
          let h2 := hooks.InternalDeepCopy h1 this inv
          let h3 := hooks.Inverse h2 this
          let h4 := hooks.InternalUpdate h3 this
          .ok (EndUpdate h4 this, [.InternalDeepCopy inv, .Inverse, .InternalUpdate])
        else
          -- otherwise just check our MTime against our last update
          UpdateOwn hooks fuel h1 this
  else UpdateOwn hooks fuel h1 this

end vtkAbstractTransform

namespace vtkSimpleTransform

/-- The `vtkSimpleTransform::Inverse` of the source: `Matrix->Invert(); Modified();`. -/
def Inverse (h : Heap) (this : Ref) : Heap :=
  vtkAbstractTransform.Modified (vtkMatrix4x4.InvertInPlace h this) this

end vtkSimpleTransform

/-- Every object's `MTime` is a value the global counter has already given out. -/
def Heap.Stamped (h : Heap) : Prop := ∀ r, (h.get r).MTime ≤ h.clock

/-- Two heaps with the same inverse links and `DependsOnInverse` flags. -/
def Heap.SameLinks (h h' : Heap) : Prop :=
  ∀ s, (h'.get s).MyInverse = (h.get s).MyInverse ∧
    (h'.get s).DependsOnInverse = (h.get s).DependsOnInverse

namespace vtkAbstractTransform

/-- What the theorems about a second `Update` ask of the virtual methods: they leave the
inverse links and `DependsOnInverse` flags alone, and stamp objects only with values of the
global counter. -/
def UpdateHooks.WellBehaved (hooks : UpdateHooks) : Prop :=
  (∀ h this src, Heap.SameLinks h (hooks.InternalDeepCopy h this src) ∧
    (h.Stamped → (hooks.InternalDeepCopy h this src).Stamped)) ∧
  (∀ h this, Heap.SameLinks h (hooks.Inverse h this) ∧
    (h.Stamped → (hooks.Inverse h this).Stamped)) ∧
  (∀ h this, Heap.SameLinks h (hooks.InternalUpdate h this) ∧
    (h.Stamped → (hooks.InternalUpdate h this).Stamped))

end vtkAbstractTransform

namespace Example

/-- The virtual methods of a leaf transform, each ending in `Modified()`: the matrix copy of
`InternalDeepCopy`, the `vtkSimpleTransform::Inverse` of the source, and an `InternalUpdate`
that only notifies. -/
def SimpleHooks : vtkAbstractTransform.UpdateHooks :=
  { InternalDeepCopy := fun h this source =>
      vtkAbstractTransform.Modified (vtkMatrix4x4.DeepCopy h this source) this
    Inverse := vtkSimpleTransform.Inverse
    InternalUpdate := fun h this => vtkAbstractTransform.Modified h this }

/-- A leaf `T` (reference 0) and the inverse `V` (reference 1) that `T.GetInverse()` made. -/
def LeafAndInverse : Heap :=
  (vtkAbstractTransform.GetInverse (vtkSimpleTransform.New Heap.empty).1 0).1

end Example

namespace vtkTransformConcatenationStack

/-- The loop `for (int l = n; l < m; l++) { (*--this->Stack)->Delete(); }` of `DeepCopy`,
over `count` items. -/
def DeleteSurplus : Nat → vtkTransformConcatenationStack → Heap →
    vtkTransformConcatenationStack × Heap
  | 0, s, h => (s, h)
  | count + 1, s, h =>
    DeleteSurplus count { s with Stack := s.Stack - 1 }
      (vtkTransformConcatenation.Destructor h (s.StackBottom (s.Stack - 1)))

/-- The loop `for (int i = m; i < n; i++) { *this->Stack++ = vtkTransformConcatenation::New(); }`
of `DeepCopy`, over `count` items. -/
def AllocateNew : Nat → vtkTransformConcatenationStack → vtkTransformConcatenationStack
  | 0, s => s
  | count + 1, s =>
    AllocateNew count
      { s with
        StackBottom := Function.update s.StackBottom s.Stack vtkTransformConcatenation.New
        Stack := s.Stack + 1 }

/-- The loop `for (int k = 0; k < n; k++) { this->StackBottom[k]->DeepCopy(stack->StackBottom[k]); }`
of `DeepCopy`, over the items `k, k+1, ..., k+count-1`. -/
def DeepCopyItems (source : Nat → vtkTransformConcatenation) :
    Nat → Nat → vtkTransformConcatenationStack → Heap → vtkTransformConcatenationStack × Heap
  | 0, _, s, h => (s, h)
  | count + 1, k, s, h =>
    DeepCopyItems source count (k + 1)
      { s with
        StackBottom := Function.update s.StackBottom k
          (vtkTransformConcatenation.DeepCopy h (s.StackBottom k) (source k)).2 }
      (vtkTransformConcatenation.DeepCopy h (s.StackBottom k) (source k)).1

/-- The `vtkTransformConcatenationStack::DeepCopy` of the source. `Uninitialised` stands for
what the slots of the newly allocated array hold before they are written. -/
def DeepCopy (Uninitialised : Nat → vtkTransformConcatenation)
    (this : vtkTransformConcatenationStack) (h : Heap) (stack : vtkTransformConcatenationStack) :
    vtkTransformConcatenationStack × Heap :=
  let n := stack.Stack
  let m := this.Stack
  -- check to see if we have to grow the stack
  let s1 : vtkTransformConcatenationStack :=
    if n > this.StackSize then
      { StackBottom := fun j => if j < m then this.StackBottom j else Uninitialised j
        Stack := this.StackSize
        StackSize := n + n % 10 }
    else this
  -- delete surplus items
  let s2 := DeleteSurplus (m - n) s1 h
  -- allocate new items
  let s3 := AllocateNew (n - m) s2.1
  -- deep copy the items
  DeepCopyItems stack.StackBottom n 0 s3 s2.2

/-- The call `Push` repeated `count` times on the live concatenation. -/
def PushTimes : Nat → vtkTransformConcatenationStack → Heap → vtkTransformConcatenation →
    vtkTransformConcatenationStack × Heap × vtkTransformConcatenation
  | 0, s, h, c => (s, h, c)
  | count + 1, s, h, c => PushTimes count (Push s h c).1 (Push s h c).2.1 (Push s h c).2.2

end vtkTransformConcatenationStack

namespace Example

/-- A receiver stack of depth 1 and capacity 10: two `Push` calls and one `Pop` on a new
stack. -/
def ShallowStack : vtkTransformConcatenationStack × Heap × vtkTransformConcatenation :=
  vtkTransformConcatenationStack.Pop
    (vtkTransformConcatenationStack.PushTimes 2 vtkTransformConcatenationStack.New Heap.empty
      vtkTransformConcatenation.New).1
    (vtkTransformConcatenationStack.PushTimes 2 vtkTransformConcatenationStack.New Heap.empty
      vtkTransformConcatenation.New).2.1
    (vtkTransformConcatenationStack.PushTimes 2 vtkTransformConcatenationStack.New Heap.empty
      vtkTransformConcatenation.New).2.2

/-- A source stack of depth 11 (capacity 20): eleven `Push` calls on a new stack. -/
def DeepStack : vtkTransformConcatenationStack × Heap × vtkTransformConcatenation :=
  vtkTransformConcatenationStack.PushTimes 11 vtkTransformConcatenationStack.New ShallowStack.2.1
    vtkTransformConcatenation.New

end Example

instance (op : BuilderOp) : Decidable op.Folds := by
  cases op <;> unfold BuilderOp.Folds <;> infer_instance

instance (c : vtkTransformConcatenation) (m : Ref) :
    Decidable (vtkTransformConcatenation.FoldedInto c m) := by
  unfold vtkTransformConcatenation.FoldedInto; infer_instance

instance ChainEnds.decide : (fuel : Nat) → (h : Heap) → (r : Ref) →
    Decidable (vtkAbstractTransform.ChainEnds fuel h r)
  | 0, _, _ => isFalse (fun x => x)
  | fuel + 1, h, r =>
    if hd : (h.get r).DependsOnInverse then
      match hm : (h.get r).MyInverse with
      | some inv =>
        match ChainEnds.decide fuel h inv with
        | isTrue p => isTrue (by
            unfold vtkAbstractTransform.ChainEnds
            rw [if_pos hd, hm]
            exact p)
        | isFalse p => isFalse (by
            unfold vtkAbstractTransform.ChainEnds
            rw [if_pos hd, hm]
            exact p)
      | none => isFalse (by
          unfold vtkAbstractTransform.ChainEnds
          rw [if_pos hd, hm]
          exact fun x => x)
    else isTrue (by
      unfold vtkAbstractTransform.ChainEnds
      rw [if_neg hd]
      trivial)

/-- One call made on a stack and its live concatenation: `Push`, `Pop`, or a builder
operation on the live concatenation. -/
inductive StackOp where
  | Push
  | Pop
  | Builder (op : BuilderOp)

namespace vtkTransformConcatenationStack

/-- Run one call on the stack, the heap and the live concatenation. -/
def RunOp (MatrixFromRotation : ℚ → ℚ → ℚ → ℚ → Mat4)
    (w : vtkTransformConcatenationStack × Heap × vtkTransformConcatenation) :
    StackOp → vtkTransformConcatenationStack × Heap × vtkTransformConcatenation
  | .Push => Push w.1 w.2.1 w.2.2
  | .Pop => Pop w.1 w.2.1 w.2.2
  | .Builder op => (w.1, op.Run MatrixFromRotation w.2.1 w.2.2)

/-- Run a sequence of calls, first to last. -/
def RunOps (MatrixFromRotation : ℚ → ℚ → ℚ → ℚ → Mat4) :
    List StackOp → vtkTransformConcatenationStack × Heap × vtkTransformConcatenation →
    vtkTransformConcatenationStack × Heap × vtkTransformConcatenation
  | [], w => w
  | op :: ops, w => RunOps MatrixFromRotation ops (RunOp MatrixFromRotation w op)

/-- The number of `Push` calls of a sequence. -/
def Pushes : List StackOp → Nat
  | [] => 0
  | .Push :: ops => Pushes ops + 1
  | _ :: ops => Pushes ops

/-- The number of `Pop` calls of a sequence that find the stack above its floor, when the
sequence starts at the given depth. -/
def EffectivePops : List StackOp → Nat → Nat
  | [], _ => 0
  | .Push :: ops, depth => EffectivePops ops (depth + 1)
  | .Pop :: ops, 0 => EffectivePops ops 0
  | .Pop :: ops, depth + 1 => EffectivePops ops depth + 1
  | .Builder _ :: ops, depth => EffectivePops ops depth

end vtkTransformConcatenationStack

namespace vtkTransformConcatenation

/-- The populated members of a pair: the forward transform, then the inverse transform. -/
def PairMembers (p : vtkTransformPair) : List Ref :=
  p.ForwardTransform.toList ++ p.InverseTransform.toList

/-- The populated members of the pairs `i, i+1, ..., i+count-1`, in list order. -/
def Members (l : Nat → vtkTransformPair) : Nat → Nat → List Ref
  | 0, _ => []
  | count + 1, i => PairMembers (l i) ++ Members l count (i + 1)

/-- The call `Delete()` on each transform of a list, first to last. -/
def DeleteAll (h : Heap) (rs : List Ref) : Heap :=
  rs.foldl vtkAbstractTransform.Delete h

end vtkTransformConcatenation

/-- A data object, as far as `SetOutputDataObject` looks at it: its address and the values of
`GetDataObjectType()` and `GetExtentType()`. -/
structure vtkDataObject where
  Address : Nat
  DataObjectType : Int
  ExtentType : Int
deriving DecidableEq

/-- The two entries of an information object that `SetOutputDataObject` reads and writes. -/
structure vtkInformation where
  DATA_OBJECT : Option vtkDataObject
  DATA_EXTENT_TYPE : Option Int
deriving DecidableEq

namespace vtkDataObjectAlgorithm

/-- The block of `SetOutputDataObject` that creates a new object of type `dataType` and
stores it, with its extent type, in the information object; `false` is returned when no
object is created. -/
def InstallNewDataObject (NewDataObject : Int → Option vtkDataObject) (dataType : Int)
    (info : vtkInformation) : Bool × Option vtkInformation :=
  match NewDataObject dataType with
  | none => (false, some info)
  | some dobj =>
    (true, some { info with DATA_OBJECT := some dobj, DATA_EXTENT_TYPE := some dobj.ExtentType })

/-- The `vtkDataObjectAlgorithm::SetOutputDataObject` of the source: the value returned and
the information object after the call. `TypeIdIsA` and `NewDataObject` are the functions of
`vtkDataObjectTypes` (not under src/); `outInfo` is `none` for a null pointer. Reference
counts are not modelled. -/
def SetOutputDataObject (TypeIdIsA : Int → Int → Bool)
    (NewDataObject : Int → Option vtkDataObject) (dataType : Int)
    (outInfo : Option vtkInformation) (exact : Bool) : Bool × Option vtkInformation :=
  match outInfo with
  | none => (false, none)
  | some info =>
    match info.DATA_OBJECT with
    | none => InstallNewDataObject NewDataObject dataType info
    | some dobj =>
      if (!exact && TypeIdIsA dobj.DataObjectType dataType) ||
          (exact && dobj.DataObjectType != dataType) then
        InstallNewDataObject NewDataObject dataType info
      else (true, some info)

end vtkDataObjectAlgorithm

namespace Example

/-- Modelled from the spec: a fragment of the type hierarchy behind
`vtkDataObjectTypes::TypeIdIsA` (not under src/), with the type ids 0 for poly data, 6 for
data object, 8 for data set and 19 for table: every type is itself and a data object, and
poly data is a data set. -/
def TypeIdIsA (typeId targetTypeId : Int) : Bool :=
  typeId == targetTypeId || targetTypeId == 6 || (typeId == 0 && targetTypeId == 8)

/-- Modelled from the spec: `vtkDataObjectTypes::NewDataObject` (not under src/) for the same
fragment: poly data and tables can be created, here at address 100; the abstract types
cannot. -/
def NewDataObject (dataType : Int) : Option vtkDataObject :=
  if dataType = 0 then some { Address := 100, DataObjectType := 0, ExtentType := 0 }
  else if dataType = 19 then some { Address := 100, DataObjectType := 19, ExtentType := 0 }
  else none

/-- An information object that holds a table at address 7. -/
def TableOutput : vtkInformation :=
  { DATA_OBJECT := some { Address := 7, DataObjectType := 19, ExtentType := 0 }
    DATA_EXTENT_TYPE := some 0 }

/-- An information object that holds poly data at address 7. -/
def PolyDataOutput : vtkInformation :=
  { DATA_OBJECT := some { Address := 7, DataObjectType := 0, ExtentType := 0 }
    DATA_EXTENT_TYPE := some 0 }

end Example

/-- Several concatenations, numbered, over one heap. -/
structure World where
  heap : Heap
  concatenation : Nat → vtkTransformConcatenation

/-- One call on a world: a builder operation on concatenation `i`, `PreMultiply()` or
`PostMultiply()` on concatenation `i`, the call `DeepCopy` on concatenation `i` with
concatenation `j` as its argument, or other code that leaves the heap `heap`. -/
inductive WorldOp where
  | Builder (i : Nat) (op : BuilderOp)
  | PreMultiply (i : Nat)
  | PostMultiply (i : Nat)
  | DeepCopy (i j : Nat)
  | Environment (heap : Heap)

namespace World

/-- The world in which every concatenation is newly constructed. -/
def Start (h : Heap) : World :=
  { heap := h, concatenation := fun _ => vtkTransformConcatenation.New }

/-- Run one call. -/
def Run (MatrixFromRotation : ℚ → ℚ → ℚ → ℚ → Mat4) (w : World) : WorldOp → World
  | .Builder i op =>
    { heap := (op.Run MatrixFromRotation w.heap (w.concatenation i)).1
      concatenation := Function.update w.concatenation i
        (op.Run MatrixFromRotation w.heap (w.concatenation i)).2 }
  | .PreMultiply i =>
    { w with
      concatenation := Function.update w.concatenation i
        ((w.concatenation i).SetPreMultiplyFlag 1) }
  | .PostMultiply i =>
    { w with
      concatenation := Function.update w.concatenation i
        ((w.concatenation i).SetPreMultiplyFlag 0) }
  | .DeepCopy i j =>
    { heap :=
        (vtkTransformConcatenation.DeepCopy w.heap (w.concatenation i) (w.concatenation j)).1
      concatenation := Function.update w.concatenation i
        (vtkTransformConcatenation.DeepCopy w.heap (w.concatenation i) (w.concatenation j)).2 }
  | .Environment heap => { w with heap := heap }

/-- The calls considered: `Concatenate(transform)` is given an object of the heap, `DeepCopy`
is given another concatenation than its receiver, and other code frees no address for
reuse. -/
def Allows (w : World) : WorldOp → Prop
  | .Builder _ (.Concatenate t) => t < w.heap.next
  | .Builder _ _ => True
  | .PreMultiply _ => True
  | .PostMultiply _ => True
  | .DeepCopy i j => i ≠ j
  | .Environment heap => w.heap.next ≤ heap.next

/-- The worlds reachable from newly constructed concatenations by the calls considered. -/
inductive Reachable (MatrixFromRotation : ℚ → ℚ → ℚ → ℚ → Mat4) : World → Prop
  | start (h : Heap) : Reachable MatrixFromRotation (Start h)
  | step (w : World) (op : WorldOp) : Reachable MatrixFromRotation w → Allows w op →
      Reachable MatrixFromRotation (Run MatrixFromRotation w op)

end World

namespace vtkTransformConcatenation

/-- The invariant of a concatenation over a heap: the fast-path position invariant, every
transform held is an object of the heap, and `PreMultiplyFlag` is 0 or 1. -/
def WellFormed (h : Heap) (c : vtkTransformConcatenation) : Prop :=
  PositionInvariant c ∧ ListInHeap h c ∧ (c.PreMultiplyFlag = 0 ∨ c.PreMultiplyFlag = 1)

end vtkTransformConcatenation

namespace World

/-- The invariant of a world: every concatenation is well formed over the heap, and no two
concatenations share a fast-path node. -/
def Invariant (w : World) : Prop :=
  (∀ i, vtkTransformConcatenation.WellFormed w.heap (w.concatenation i)) ∧
  (∀ i j, i ≠ j →
    vtkTransformConcatenation.SlotsDisjoint (w.concatenation i) (w.concatenation j))

end World

namespace Example

/-- A rotation-matrix function for the examples: every rotation is the identity matrix. -/
def NoRotation (_ _ _ _ : ℚ) : Mat4 := 1

/-- Two concatenations over a heap with one user leaf (reference 0): on concatenation 0 the
calls `Concatenate(leaf)`, `Concatenate(T123)` and `Inverse()`, then `DeepCopy` of
concatenation 0 into concatenation 1. -/
def TwoConcatenations : World :=
  World.Run NoRotation
    (World.Run NoRotation
      (World.Run NoRotation
        (World.Run NoRotation (World.Start (vtkSimpleTransform.New Heap.empty).1)
          (.Builder 0 (.Concatenate 0)))
        (.Builder 0 (.ConcatenateMatrix T123)))
      (.Builder 0 .Inverse))
    (.DeepCopy 1 0)

end Example

/-- One call on the transforms of a heap: the construction of a new transform of a given
class, `GetInverse()` on the transform `T`, or `SetInverse(U)` on the transform `T`. -/
inductive LinkOp where
  | New (className : String) (superclasses : List String)
  | GetInverse (T : Ref)
  | SetInverse (T U : Ref)

namespace LinkOp

/-- Run one call. -/
def Run (h : Heap) : LinkOp → Heap
  | .New className superclasses => (vtkObject.New h className superclasses).1
  | .GetInverse T => (vtkAbstractTransform.GetInverse h T).1
  | .SetInverse T U => (vtkAbstractTransform.SetInverse h T (some U)).1

/-- The calls considered: the receiver and the argument are objects of the heap that have
not been destroyed, and the call does not destroy its own receiver or argument (the source
would go on to write to an object it has freed). -/
def Allows (h : Heap) : LinkOp → Prop
  | .New _ _ => True
  | .GetInverse T => T < h.next ∧ (h.get T).Destroyed = false
  | .SetInverse T U =>
    T < h.next ∧ U < h.next ∧ (h.get T).Destroyed = false ∧ (h.get U).Destroyed = false ∧
    ((vtkAbstractTransform.SetInverse h T (some U)).1.get T).Destroyed = false ∧
    ((vtkAbstractTransform.SetInverse h T (some U)).1.get U).Destroyed = false

end LinkOp

/-- The heaps reachable from the empty heap by the calls considered. -/
inductive LinkReachable : Heap → Prop
  | start : LinkReachable Heap.empty
  | step (h : Heap) (op : LinkOp) : LinkReachable h → op.Allows h → LinkReachable (op.Run h)

/-- The number of live objects, other than `rel`, whose inverse link names `Y`. -/
def Holders (h : Heap) (rel : Option Ref) (Y : Ref) : Nat :=
  ((Finset.range h.next).filter
    (fun Z => some Z ≠ rel ∧ 1 ≤ (h.get Z).ReferenceCount ∧ (h.get Z).MyInverse = some Y)).card

/-- The reference count of every live object covers its holders: the caller that
constructed it (`user`), the live objects, other than `rel`, whose inverse link names it,
and a release that is still to come (`pend`). -/
def Counted (h : Heap) (user : Ref → Bool) (rel pend : Option Ref) : Prop :=
  ∀ Y, Y < h.next → 1 ≤ (h.get Y).ReferenceCount →
    (if user Y then 1 else 0) + (Holders h rel Y : Int) + (if pend = some Y then 1 else 0) ≤
      (h.get Y).ReferenceCount

/-- The inverse link of a live object, other than `rel`, names a live object. -/
def AliveLinks (h : Heap) (rel : Option Ref) : Prop :=
  ∀ Z Q, 1 ≤ (h.get Z).ReferenceCount → some Z ≠ rel → (h.get Z).MyInverse = some Q →
    1 ≤ (h.get Q).ReferenceCount

/-- The shape of the inverse links: every walk along them ends, no object is inside
`UnRegister`, an object that no caller constructed depends on its inverse, links stay
inside the heap, and no object is its own inverse. -/
structure LinkShape (h : Heap) (user : Ref → Bool) : Prop where
  ends : ∀ X, ∃ n, vtkAbstractTransform.ChainEnds n h X
  quiet : ∀ Z, (h.get Z).InUnRegister = false
  made : ∀ Z, Z < h.next → user Z = false → (h.get Z).DependsOnInverse = true
  bound : ∀ Z Q, (h.get Z).MyInverse = some Q → Z < h.next ∧ Q < h.next
  noself : ∀ Z, (h.get Z).MyInverse ≠ some Z

/-- The invariant of the reachable heaps. -/
structure LinkInvariant (h : Heap) (user : Ref → Bool) : Prop where
  shape : LinkShape h user
  counted : Counted h user none none
  alive : AliveLinks h none
  marked : ∀ Z, Z < h.next → (h.get Z).Destroyed = false → 1 ≤ (h.get Z).ReferenceCount

/-- What a release that breaks no cycle leaves: the links, the flags and the allocation
pointer are as before, the counts still cover the holders, no count has grown, and every
object whose count has fallen to zero is marked destroyed. `T` is the object whose
reference is being released. -/
structure CascadeResult (h h' : Heap) (user : Ref → Bool) (T : Ref) : Prop where
  links : ∀ Z, (h'.get Z).MyInverse = (h.get Z).MyInverse ∧
    (h'.get Z).DependsOnInverse = (h.get Z).DependsOnInverse ∧
    (h'.get Z).InUnRegister = (h.get Z).InUnRegister
  next : h'.next = h.next
  counted : Counted h' user (some T) none
  alive : AliveLinks h' (some T)
  fewer : ∀ Z, (h'.get Z).ReferenceCount ≤ (h.get Z).ReferenceCount
  kept : ∀ Z, (h.get Z).Destroyed = true → (h'.get Z).Destroyed = true
  marked : ∀ Z, (h'.get Z).ReferenceCount ≤ 0 →
    (h'.get Z).Destroyed = true ∨ (h.get Z).ReferenceCount ≤ 0

namespace Example

/-- Three transforms: a new transform (reference 0), its inverse made by `GetInverse()`
(reference 1), and a second new transform (reference 2) after `SetInverse` with the first
one's inverse as argument. -/
def ThreeLinked : Heap :=
  LinkOp.Run
    (LinkOp.Run
      (LinkOp.Run (LinkOp.Run Heap.empty (.New "vtkTransform" []))
        (.GetInverse 0))
      (.New "vtkTransform" []))
    (.SetInverse 2 1)

end Example

namespace vtkAbstractTransform

/-- The object reached from `this` after `k` steps along inverse links, each step taken from
an object whose `DependsOnInverse` is set. -/
def WalkTo (h : Heap) : Nat → Ref → Option Ref
  | 0, this => some this
  | k + 1, this =>
    if (h.get this).DependsOnInverse then
      match (h.get this).MyInverse with
      | some inv => WalkTo h k inv
      | none => none
    else none

end vtkAbstractTransform

namespace vtkTransformConcatenation

/-- The pairs that the two fast-path blocks of `DeepCopy` release without a test of the
index are pairs that have been written: the call reallocates the receiver's list (and nulls
the new slots), or each index at which the source holds a fast-path node is below the
receiver's count. -/
def ReleasesWrittenSlots (this concat : vtkTransformConcatenation) : Prop :=
  this.MaxNumberOfTransforms < concat.NumberOfTransforms ∨
  ((concat.PreMatrix ≠ none → FirstIndex concat < this.NumberOfTransforms) ∧
    (concat.PostMatrix ≠ none → LastIndex concat < this.NumberOfTransforms))

instance (this concat : vtkTransformConcatenation) :
    Decidable (ReleasesWrittenSlots this concat) := by
  unfold ReleasesWrittenSlots; infer_instance

/-- The call `c->DeepCopy(c)`. The source has no test for it (`vtkAbstractTransform::DeepCopy`
has one), so `concat` is the receiver and the later blocks read from `concat` what the
earlier blocks have written: the two blocks that save the fast-path nodes clear `PreMatrix`
and `PostMatrix`; the copy loop then runs over all the pairs, each compared with itself;
nothing is surplus; the two blocks that copy a fast-path transform find `concat->PreMatrix`
and `concat->PostMatrix` null and do nothing; the saved nodes, not reused, are released. -/
def DeepCopySelf (h : Heap) (this : vtkTransformConcatenation) :
    Heap × vtkTransformConcatenation :=
  let t0 := DeepCopyAllocate this this
  -- save the PreMatrix and PostMatrix in case they can be reused
  let s1 : Heap × (Nat → vtkTransformPair) :=
    if this.PreMatrix ≠ none then
      DetachSlot h t0.TransformList this.InverseFlag (this.NumberOfTransforms - 1) 0
    else (h, t0.TransformList)
  let s2 : Heap × (Nat → vtkTransformPair) :=
    if this.PostMatrix ≠ none then
      DetachSlot s1.1 s1.2 this.InverseFlag 0 (this.NumberOfTransforms - 1)
    else s1
  -- copy the transforms by reference
  let s3 := CopyLoop this.NumberOfTransforms s2.2 this.NumberOfTransforms 0 s2.1 s2.2
  -- delete the old PreMatrix and PostMatrix transforms if not reused
  let h1 := DeletePtr s3.1 (ReusablePre this)
  let h2 := DeletePtr h1 (ReusablePost this)
  (h2,
    { t0 with
      PreMatrix := none
      PostMatrix := none
      PreMatrixTransform := none
      PostMatrixTransform := none
      TransformList := s3.2 })

end vtkTransformConcatenation

namespace Example

/-- A heap with one leaf (reference 0) that its creator holds, over storage in which every
slot still holds a pointer to that leaf as forward member (left by an array that was given
back). -/
def StaleStorage : Heap :=
  { (vtkSimpleTransform.New Heap.empty).1 with
    Uninitialised := fun _ => { ForwardTransform := some 0, InverseTransform := none } }

/-- The receiver of the unwritten-slot scenario: a second leaf `L` (reference 1) and
`Concatenate(L)` on a newly constructed concatenation. The list is a new array of five pairs
of which the first is written. -/
def GrownReceiver : Heap × vtkTransformConcatenation :=
  vtkTransformConcatenation.Concatenate (vtkSimpleTransform.New StaleStorage).1
    vtkTransformConcatenation.New 1

/-- The source of the unwritten-slot scenario: `Concatenate(L); PostMultiply();
Concatenate(T123)` on another newly constructed concatenation, which gives two elements, the
second one the post-matrix leaf (reference 2). -/
def LeafThenPostMatrix : Heap × vtkTransformConcatenation :=
  vtkTransformConcatenation.ConcatenateMatrix
    (vtkTransformConcatenation.Concatenate GrownReceiver.1 vtkTransformConcatenation.New 1).1
    ((vtkTransformConcatenation.Concatenate GrownReceiver.1
      vtkTransformConcatenation.New 1).2.SetPreMultiplyFlag 0) T123

/-- The calls `A = New; B = A.GetInverse(); U = New`: `A` at reference 0, held by its
creator and by `B`; `B` at reference 1, held by `A`; `U` at reference 2. -/
def InverseAndSpare : Heap :=
  LinkOp.Run (LinkOp.Run (LinkOp.Run Heap.empty (.New "vtkTransform" [])) (.GetInverse 0))
    (.New "vtkTransform" [])

/-- The heap after the further call `B.SetInverse(U)`. -/
def InverseRelinked : Heap := LinkOp.Run InverseAndSpare (.SetInverse 1 2)

end Example

/-! ## The arithmetic of `double` -/

namespace Double

/-- The number of binary digits of `n`, counted with at most `fuel` halvings. -/
def BitLength : Nat → Nat → Nat
  | 0, _ => 0
  | fuel + 1, n => if n = 0 then 0 else BitLength fuel (n / 2) + 1

/-- The value of type `double` nearest to the rational `q`: 53 significant binary digits,
rounded to nearest, a tie to the even significand (the default rounding of IEEE 754). The
exponent range is not modelled. -/
def round (q : ℚ) : ℚ :=
  if q = 0 then 0
  else
    let n := q.num.natAbs
    let d := q.den
    -- `n / d` lies between `2 ^ (k - 1)` and `2 ^ (k + 1)`
    let k : Int := (BitLength n n : Int) - (BitLength d d : Int)
    let e0 : Int := k - 52
    let e : Int := if n * 2 ^ (-e0).toNat / (d * 2 ^ e0.toNat) < 2 ^ 52 then e0 - 1 else e0
    -- the significand `n / d / 2 ^ e` is at least `2 ^ 52` and below `2 ^ 53`
    let N := n * 2 ^ (-e).toNat
    let D := d * 2 ^ e.toNat
    let m := if D < 2 * (N % D) ∨ (2 * (N % D) = D ∧ N / D % 2 = 1) then N / D + 1 else N / D
    (if q < 0 then -1 else 1) * ((m * 2 ^ e.toNat : Nat) : ℚ) / ((2 ^ (-e).toNat : Nat) : ℚ)

/-- Modelled from the spec: `vtkMath::Determinant2x2(a, b, c, d)` (vtkMath is not under
src/), `a * d - b * c` in the arithmetic of `double`. -/
def Determinant2x2 (a b c d : ℚ) : ℚ := round (round (a * d) - round (b * c))

/-- Modelled from the spec: `vtkMath::Determinant3x3` (vtkMath is not under src/), the
expansion `a1 * |b2 b3; c2 c3| - b1 * |a2 a3; c2 c3| + c1 * |a2 a3; b2 b3|` in the arithmetic
of `double`. -/
def Determinant3x3 (a1 a2 a3 b1 b2 b3 c1 c2 c3 : ℚ) : ℚ :=
  round (round (round (a1 * Determinant2x2 b2 b3 c2 c3) -
    round (b1 * Determinant2x2 a2 a3 c2 c3)) + round (c1 * Determinant2x2 a2 a3 b2 b3))

/-- The 3x3 determinant of `m` without row `i` and column `j`. -/
def Minor (m : Mat4) (i j : Fin 4) : ℚ :=
  Determinant3x3
    (m (i.succAbove 0) (j.succAbove 0)) (m (i.succAbove 1) (j.succAbove 0))
    (m (i.succAbove 2) (j.succAbove 0))
    (m (i.succAbove 0) (j.succAbove 1)) (m (i.succAbove 1) (j.succAbove 1))
    (m (i.succAbove 2) (j.succAbove 1))
    (m (i.succAbove 0) (j.succAbove 2)) (m (i.succAbove 1) (j.succAbove 2))
    (m (i.succAbove 2) (j.succAbove 2))

/-- Modelled from the spec: `vtkMatrix4x4::Determinant` (vtkMatrix4x4 is not under src/), the
expansion along the first row in the arithmetic of `double`. -/
def Determinant (m : Mat4) : ℚ :=
  round (round (round (round (m 0 0 * Minor m 0 0) - round (m 0 1 * Minor m 0 1)) +
    round (m 0 2 * Minor m 0 2)) - round (m 0 3 * Minor m 0 3))

/-- Modelled from the spec: `vtkMatrix4x4::Adjoint` (vtkMatrix4x4 is not under src/): the
entry at row `i` and column `j` is the signed 3x3 determinant without row `j` and column
`i`. -/
def Adjoint (m : Mat4) : Mat4 :=
  Matrix.of fun i j => if (i.val + j.val) % 2 = 0 then Minor m j i else -Minor m j i

/-- Modelled from the spec: `vtkMatrix4x4::Invert` (vtkMatrix4x4 is not under src/) in the
arithmetic of `double`: the adjoint matrix with every element divided by the determinant,
each product, sum, difference and quotient rounded; a matrix whose determinant is computed
as zero is left as it is. -/
def Invert (m : Mat4) : Mat4 :=
  if Determinant m = 0 then m
  else Matrix.of fun i j => round (Adjoint m i j / Determinant m)

end Double

namespace vtkMatrix4x4

/-- Modelled from the spec: the member `vtkMatrix4x4::Invert()`, which inverts the matrix in
place and stamps it, with the inversion routine as a parameter: `Invert` in exact
arithmetic, `Double.Invert` in the arithmetic of `double`. -/
def InvertInPlaceWith (invert : Mat4 → Mat4) (h : Heap) (owner : Ref) : Heap :=
  Modified (h.set owner { h.get owner with Matrix := invert (h.get owner).Matrix }) owner

end vtkMatrix4x4

namespace vtkTransformConcatenation

/-- The block `InvertSlot` of `Inverse` with the inversion routine of `vtkMatrix4x4` as a
parameter. -/
def InvertSlotWith (invert : Mat4 → Mat4) (h : Heap) (l : Nat → vtkTransformPair)
    (matrix transform : Option Ref) (i : Nat) : Heap × (Nat → vtkTransformPair) :=
  match matrix with
  | some m =>
    let h1 := vtkMatrix4x4.InvertInPlaceWith invert h m
    let h2 := ModifiedPtr h1 transform
    (h2, Function.update l i (l i).SwapForwardInverse)
  | none => (h, l)

/-- The `vtkTransformConcatenation::Inverse` of the source with the inversion routine of
`vtkMatrix4x4` (not under src/) as a parameter; `Inverse` is the case of exact inversion. -/
def InverseWith (invert : Mat4 → Mat4) (h : Heap) (c : vtkTransformConcatenation) :
    Heap × vtkTransformConcatenation :=
  -- invert the matrices
  let a := InvertSlotWith invert h c.TransformList c.PreMatrix c.PreMatrixTransform
    (if c.InverseFlag ≠ 0 then c.NumberOfTransforms - 1 else 0)
  let b := InvertSlotWith invert a.1 a.2 c.PostMatrix c.PostMatrixTransform
    (if c.InverseFlag ≠ 0 then 0 else c.NumberOfTransforms - 1)
  (b.1,
    { c with
      TransformList := b.2
      -- swap the pre- and post-matrices
      PreMatrix := c.PostMatrix
      PreMatrixTransform := c.PostMatrixTransform
      PostMatrix := c.PreMatrix
      PostMatrixTransform := c.PreMatrixTransform
      -- what used to be pre-transforms are now post-transforms
      NumberOfPreTransforms := c.NumberOfTransforms - c.NumberOfPreTransforms
      InverseFlag := if c.InverseFlag ≠ 0 then 0 else 1 })

/-- The calls `Inverse(); Inverse();` with the inversion routine as a parameter. -/
def InverseTwiceWith (invert : Mat4 → Mat4) (h : Heap) (c : vtkTransformConcatenation) :
    Heap × vtkTransformConcatenation :=
  InverseWith invert (InverseWith invert h c).1 (InverseWith invert h c).2

end vtkTransformConcatenation

namespace Example

/-- The matrix of `Scale(7,7,7)`. -/
def S777 : Mat4 := !![7, 0, 0, 0; 0, 7, 0, 0; 0, 0, 7, 0; 0, 0, 0, 1]

/-- The state after `Scale(7,7,7)` on a newly constructed concatenation over the empty heap:
one fast-path leaf at reference 0. -/
def OneScale : Heap × vtkTransformConcatenation :=
  vtkTransformConcatenation.Scale Heap.empty vtkTransformConcatenation.New 7 7 7

end Example

/-! # Lemmas and theorems -/

/-! ## Heap lemmas -/

@[simp] theorem Heap.get_set_same (h : Heap) (r : Ref) (n : Node) : (h.set r n).get r = n := by
  simp [Heap.get, Heap.set]

theorem Heap.get_set_ne (h : Heap) (r s : Ref) (n : Node) (hne : s ≠ r) :
    (h.set r n).get s = h.get s := by
  simp [Heap.get, Heap.set, Function.update_noteq hne]

theorem Heap.get_set (h : Heap) (r s : Ref) (n : Node) :
    (h.set r n).get s = if s = r then n else h.get s := by
  by_cases e : s = r
  · subst e; simp
  · simp [e, Heap.get_set_ne]

@[simp] theorem Heap.next_set (h : Heap) (r : Ref) (n : Node) : (h.set r n).next = h.next := rfl

@[simp] theorem Heap.clock_set (h : Heap) (r : Ref) (n : Node) :
    (h.set r n).clock = h.clock := rfl

theorem Node.SameButCounts.refl_node (n : Node) : n.SameButCounts n := by
  simp [Node.SameButCounts]

theorem Node.SameButCounts.trans_node {a b c : Node} (h1 : a.SameButCounts b)
    (h2 : b.SameButCounts c) : a.SameButCounts c := by
  simp only [Node.SameButCounts] at *
  obtain ⟨a1, a2, a3, a4, a5, a6, a7, a8, a9⟩ := h1
  obtain ⟨b1, b2, b3, b4, b5, b6, b7, b8, b9⟩ := h2
  refine ⟨b1.trans a1, b2.trans a2, b3.trans a3, b4.trans a4, b5.trans a5, b6.trans a6,
    b7.trans a7, b8.trans a8, ?_⟩
  rcases b9 with b9 | b9
  · rcases a9 with a9 | a9
    · exact Or.inl (b9.trans a9)
    · exact Or.inr (b9.trans a9)
  · exact Or.inr b9

theorem Heap.SameButCounts.refl_heap (h : Heap) : h.SameButCounts h :=
  ⟨fun _ => Node.SameButCounts.refl_node _, rfl, rfl⟩

theorem Heap.SameButCounts.trans_heap {a b c : Heap} (h1 : a.SameButCounts b)
    (h2 : b.SameButCounts c) : a.SameButCounts c :=
  ⟨fun s => (h1.1 s).trans_node (h2.1 s), h2.2.1.trans h1.2.1, h2.2.2.trans h1.2.2⟩

theorem Heap.SameButCounts.set_node (h : Heap) (r : Ref) (n : Node)
    (hn : (h.get r).SameButCounts n) : h.SameButCounts (h.set r n) := by
  refine ⟨fun s => ?_, rfl, rfl⟩
  rw [Heap.get_set]
  split
  · next e => subst e; exact hn
  · exact Node.SameButCounts.refl_node _

theorem DecrementCount_frame (h : Heap) (r : Ref) :
    h.SameButCounts (vtkAbstractTransform.DecrementCount h r) :=
  Heap.SameButCounts.set_node _ _ _ (by simp [Node.SameButCounts])

theorem BeginBreak_frame (h : Heap) (r : Ref) :
    h.SameButCounts (vtkAbstractTransform.BeginBreak h r) :=
  Heap.SameButCounts.set_node _ _ _ (by simp [Node.SameButCounts])

theorem EndBreak_frame (h : Heap) (r : Ref) :
    h.SameButCounts (vtkAbstractTransform.EndBreak h r) :=
  Heap.SameButCounts.set_node _ _ _ (by simp [Node.SameButCounts])

theorem MarkDestroyed_frame (h : Heap) (r : Ref) :
    h.SameButCounts (vtkAbstractTransform.MarkDestroyed h r) :=
  Heap.SameButCounts.set_node _ _ _ (by simp [Node.SameButCounts])

theorem UnRegister_frame (fuel : Nat) : ∀ (h : Heap) (this : Ref),
    h.SameButCounts (vtkAbstractTransform.UnRegister fuel h this) := by
  induction fuel with
  | zero => intro h this; exact Heap.SameButCounts.refl_heap h
  | succ k ih =>
    intro h this
    unfold vtkAbstractTransform.UnRegister
    dsimp only
    split
    · exact DecrementCount_frame h this
    · have h1 : h.SameButCounts
          (match (h.get this).MyInverse with
          | some inv =>
            if (h.get this).ReferenceCount = 2 ∧ (h.get inv).MyInverse = some this ∧
                (h.get inv).ReferenceCount = 1 then
              vtkAbstractTransform.EndBreak
                (vtkAbstractTransform.UnRegister k (vtkAbstractTransform.BeginBreak h this) inv)
                this
            else h
          | none => h) := by
        split
        · split
          · exact ((BeginBreak_frame h this).trans_heap (ih _ _)).trans_heap (EndBreak_frame _ _)
          · exact Heap.SameButCounts.refl_heap h
        · exact Heap.SameButCounts.refl_heap h
      revert h1
      generalize (match (h.get this).MyInverse with
          | some inv =>
            if (h.get this).ReferenceCount = 2 ∧ (h.get inv).MyInverse = some this ∧
                (h.get inv).ReferenceCount = 1 then
              vtkAbstractTransform.EndBreak
                (vtkAbstractTransform.UnRegister k (vtkAbstractTransform.BeginBreak h this) inv)
                this
            else h
          | none => h) = g
      intro h1
      have h2 := h1.trans_heap (DecrementCount_frame g this)
      split
      · refine Heap.SameButCounts.trans_heap ?_ (MarkDestroyed_frame _ _)
        split
        · exact h2.trans_heap (ih _ _)
        · exact h2
      · exact h2

/-! ## Field lemmas for `Concatenate` -/

section ConcatenateFields
open vtkTransformConcatenation

variable (c : vtkTransformConcatenation) (n : Nat) (h : Heap) (t : Ref)

@[simp] theorem ForgetPushedSlot_InverseFlag :
    (ForgetPushedSlot c).InverseFlag = c.InverseFlag := by
  unfold ForgetPushedSlot; split_ifs <;> rfl

@[simp] theorem ForgetPushedSlot_PreMultiplyFlag :
    (ForgetPushedSlot c).PreMultiplyFlag = c.PreMultiplyFlag := by
  unfold ForgetPushedSlot; split_ifs <;> rfl

@[simp] theorem ForgetPushedSlot_NumberOfTransforms :
    (ForgetPushedSlot c).NumberOfTransforms = c.NumberOfTransforms := by
  unfold ForgetPushedSlot; split_ifs <;> rfl

@[simp] theorem ForgetPushedSlot_NumberOfPreTransforms :
    (ForgetPushedSlot c).NumberOfPreTransforms = c.NumberOfPreTransforms := by
  unfold ForgetPushedSlot; split_ifs <;> rfl

@[simp] theorem ForgetPushedSlot_MaxNumberOfTransforms :
    (ForgetPushedSlot c).MaxNumberOfTransforms = c.MaxNumberOfTransforms := by
  unfold ForgetPushedSlot; split_ifs <;> rfl

@[simp] theorem ForgetPushedSlot_TransformList :
    (ForgetPushedSlot c).TransformList = c.TransformList := by
  unfold ForgetPushedSlot; split_ifs <;> rfl

theorem ForgetPushedSlot_PreMatrix :
    (ForgetPushedSlot c).PreMatrix = if c.PreMultiplyFlag ≠ 0 then none else c.PreMatrix := by
  unfold ForgetPushedSlot; split_ifs <;> simp_all

theorem ForgetPushedSlot_PostMatrix :
    (ForgetPushedSlot c).PostMatrix = if c.PreMultiplyFlag = 0 then none else c.PostMatrix := by
  unfold ForgetPushedSlot; split_ifs <;> simp_all

theorem ForgetPushedSlot_PreMatrixTransform :
    (ForgetPushedSlot c).PreMatrixTransform =
      if c.PreMultiplyFlag ≠ 0 ∧ c.PreMatrix ≠ none then none else c.PreMatrixTransform := by
  unfold ForgetPushedSlot; split_ifs <;> simp_all

theorem ForgetPushedSlot_PostMatrixTransform :
    (ForgetPushedSlot c).PostMatrixTransform =
      if c.PreMultiplyFlag = 0 ∧ c.PostMatrix ≠ none then none else c.PostMatrixTransform := by
  unfold ForgetPushedSlot; split_ifs <;> simp_all

@[simp] theorem GrowList_InverseFlag : (GrowList h c n).InverseFlag = c.InverseFlag := by
  unfold GrowList; split_ifs <;> rfl

@[simp] theorem GrowList_PreMultiplyFlag :
    (GrowList h c n).PreMultiplyFlag = c.PreMultiplyFlag := by
  unfold GrowList; split_ifs <;> rfl

@[simp] theorem GrowList_PreMatrix : (GrowList h c n).PreMatrix = c.PreMatrix := by
  unfold GrowList; split_ifs <;> rfl

@[simp] theorem GrowList_PostMatrix : (GrowList h c n).PostMatrix = c.PostMatrix := by
  unfold GrowList; split_ifs <;> rfl

@[simp] theorem GrowList_PreMatrixTransform :
    (GrowList h c n).PreMatrixTransform = c.PreMatrixTransform := by
  unfold GrowList; split_ifs <;> rfl

@[simp] theorem GrowList_PostMatrixTransform :
    (GrowList h c n).PostMatrixTransform = c.PostMatrixTransform := by
  unfold GrowList; split_ifs <;> rfl

@[simp] theorem GrowList_NumberOfTransforms : (GrowList h c n).NumberOfTransforms = n + 1 := by
  unfold GrowList; split_ifs <;> rfl

@[simp] theorem GrowList_NumberOfPreTransforms :
    (GrowList h c n).NumberOfPreTransforms = c.NumberOfPreTransforms := by
  unfold GrowList; split_ifs <;> rfl

theorem GrowList_TransformList_lt (i : Nat) (hi : i < n) :
    (GrowList h c n).TransformList i = c.TransformList i := by
  unfold GrowList; split_ifs <;> simp [hi]

theorem ShiftLoop_apply (l : Nat → vtkTransformPair) (n k : Nat) :
    ShiftLoop l n k = if 0 < k ∧ k ≤ n then l (k - 1) else l k := by
  induction n generalizing l with
  | zero =>
    simp only [ShiftLoop]
    split_ifs with hk
    · omega
    · rfl
  | succ m ih =>
    simp only [ShiftLoop, ih]
    by_cases hk : k = m + 1
    · subst hk
      have : ¬ (0 < m + 1 ∧ m + 1 ≤ m) := by omega
      simp [this]
    · by_cases h1 : 0 < k ∧ k ≤ m
      · have h2 : 0 < k ∧ k ≤ m + 1 := by omega
        have h3 : k - 1 ≠ m + 1 := by omega
        simp [h1, h2, Function.update_noteq h3]
      · have h2 : ¬ (0 < k ∧ k ≤ m + 1) := by omega
        simp [h1, h2, Function.update_noteq hk]

@[simp] theorem Concatenate_fst : (Concatenate h c t).1 = vtkObject.Register h t := by
  unfold Concatenate; dsimp only; split <;> rfl

@[simp] theorem Concatenate_InverseFlag : (Concatenate h c t).2.InverseFlag = c.InverseFlag := by
  unfold Concatenate; dsimp only; split <;> simp

@[simp] theorem Concatenate_PreMultiplyFlag :
    (Concatenate h c t).2.PreMultiplyFlag = c.PreMultiplyFlag := by
  unfold Concatenate; dsimp only; split <;> simp

@[simp] theorem Concatenate_NumberOfTransforms :
    (Concatenate h c t).2.NumberOfTransforms = c.NumberOfTransforms + 1 := by
  unfold Concatenate; dsimp only; split <;> simp

theorem Concatenate_NumberOfPreTransforms :
    (Concatenate h c t).2.NumberOfPreTransforms =
      if Int.xor c.PreMultiplyFlag c.InverseFlag ≠ 0 then c.NumberOfPreTransforms + 1
      else c.NumberOfPreTransforms := by
  unfold Concatenate; dsimp only; split <;> simp_all

theorem Concatenate_PreMatrix :
    (Concatenate h c t).2.PreMatrix = if c.PreMultiplyFlag ≠ 0 then none else c.PreMatrix := by
  unfold Concatenate; dsimp only; split <;> simp [ForgetPushedSlot_PreMatrix]

theorem Concatenate_PostMatrix :
    (Concatenate h c t).2.PostMatrix = if c.PreMultiplyFlag = 0 then none else c.PostMatrix := by
  unfold Concatenate; dsimp only; split <;> simp [ForgetPushedSlot_PostMatrix]

theorem Concatenate_PreMatrixTransform :
    (Concatenate h c t).2.PreMatrixTransform =
      if c.PreMultiplyFlag ≠ 0 ∧ c.PreMatrix ≠ none then none else c.PreMatrixTransform := by
  unfold Concatenate; dsimp only; split <;> simp [ForgetPushedSlot_PreMatrixTransform]

theorem Concatenate_PostMatrixTransform :
    (Concatenate h c t).2.PostMatrixTransform =
      if c.PreMultiplyFlag = 0 ∧ c.PostMatrix ≠ none then none else c.PostMatrixTransform := by
  unfold Concatenate; dsimp only; split <;> simp [ForgetPushedSlot_PostMatrixTransform]

/-- Where `Concatenate` puts the new pair and the old ones. -/
theorem Concatenate_TransformList (k : Nat) (hk : k ≤ c.NumberOfTransforms) :
    (Concatenate h c t).2.TransformList k =
      if Int.xor c.PreMultiplyFlag c.InverseFlag ≠ 0 then
        (if k = 0 then NewPair c.InverseFlag t else c.TransformList (k - 1))
      else
        (if k = c.NumberOfTransforms then NewPair c.InverseFlag t else c.TransformList k) := by
  unfold Concatenate; dsimp only
  simp only [GrowList_PreMultiplyFlag, GrowList_InverseFlag, ForgetPushedSlot_PreMultiplyFlag,
    ForgetPushedSlot_InverseFlag, ForgetPushedSlot_NumberOfTransforms]
  split
  · by_cases h0 : k = 0
    · subst h0; simp
    · have h1 : 0 < k ∧ k ≤ c.NumberOfTransforms := by omega
      have h2 : k - 1 < c.NumberOfTransforms := by omega
      simp [h0, Function.update_noteq h0, ShiftLoop_apply, h1, GrowList_TransformList_lt _ _ _ _ h2]
  · by_cases h0 : k = c.NumberOfTransforms
    · subst h0; simp
    · have h2 : k < c.NumberOfTransforms := by omega
      simp [h0, Function.update_noteq h0, GrowList_TransformList_lt _ _ _ _ h2]

end ConcatenateFields

/-! ## What the primitive operations write -/

section Primitives

variable (h : Heap) (r s : Ref)

@[simp] theorem Heap.get_mk (f : Ref → Node) (n c : Nat) (u : Nat → vtkTransformPair) :
    Heap.get { nodes := f, next := n, clock := c, Uninitialised := u } s = f s := rfl

theorem get_Register :
    (vtkObject.Register h r).get s =
      if s = r then { h.get r with ReferenceCount := (h.get r).ReferenceCount + 1 }
      else h.get s := by
  simp only [vtkObject.Register, Heap.get_set]

@[simp] theorem next_Register : (vtkObject.Register h r).next = h.next := rfl

@[simp] theorem clock_Register : (vtkObject.Register h r).clock = h.clock := rfl

theorem get_RegisterPtr (p : Option Ref) :
    (RegisterPtr h p).get s =
      if p = some s then { h.get s with ReferenceCount := (h.get s).ReferenceCount + 1 }
      else h.get s := by
  cases p with
  | none => simp [RegisterPtr]
  | some q =>
    simp only [RegisterPtr, get_Register, Option.some.injEq]
    by_cases e : s = q
    · subst e; simp
    · have e2 : ¬ q = s := fun x => e x.symm
      simp [e, e2]

@[simp] theorem next_RegisterPtr (p : Option Ref) : (RegisterPtr h p).next = h.next := by
  cases p <;> rfl

theorem get_vtkObject_Modified :
    (vtkObject.Modified h r).get s =
      if s = r then { h.get r with MTime := h.clock + 1 } else h.get s := by
  simp only [vtkObject.Modified, Heap.get_mk]
  exact Heap.get_set h r s _

@[simp] theorem next_vtkObject_Modified : (vtkObject.Modified h r).next = h.next := rfl

theorem get_vtkMatrix4x4_Modified :
    (vtkMatrix4x4.Modified h r).get s =
      if s = r then { h.get r with MatrixMTime := h.clock + 1 } else h.get s := by
  simp only [vtkMatrix4x4.Modified, Heap.get_mk]
  exact Heap.get_set h r s _

@[simp] theorem next_vtkMatrix4x4_Modified : (vtkMatrix4x4.Modified h r).next = h.next := rfl

theorem get_Modified :
    (vtkAbstractTransform.Modified h r).get s =
      if s = r ∧ (h.get r).InUpdate = false then { h.get r with MTime := h.clock + 1 }
      else h.get s := by
  unfold vtkAbstractTransform.Modified
  by_cases hu : (h.get r).InUpdate = true
  · simp [hu]
  · simp [hu, get_vtkObject_Modified]

@[simp] theorem next_Modified : (vtkAbstractTransform.Modified h r).next = h.next := by
  unfold vtkAbstractTransform.Modified; split <;> rfl

theorem get_ModifiedPtr (p : Option Ref) :
    (ModifiedPtr h p).get s =
      if p = some s ∧ (h.get s).InUpdate = false then { h.get s with MTime := h.clock + 1 }
      else h.get s := by
  cases p with
  | none => simp [ModifiedPtr]
  | some q =>
    simp only [ModifiedPtr, get_Modified, Option.some.injEq]
    by_cases e : s = q
    · subst e; simp
    · have e2 : ¬ q = s := fun x => e x.symm
      simp [e, e2]

@[simp] theorem next_ModifiedPtr (p : Option Ref) : (ModifiedPtr h p).next = h.next := by
  cases p <;> simp [ModifiedPtr]

theorem get_InvertInPlace :
    (vtkMatrix4x4.InvertInPlace h r).get s =
      if s = r then
        { h.get r with Matrix := Invert (h.get r).Matrix, MatrixMTime := h.clock + 1 }
      else h.get s := by
  simp only [vtkMatrix4x4.InvertInPlace, get_vtkMatrix4x4_Modified, Heap.get_set, Heap.clock_set]
  split <;> simp

@[simp] theorem next_InvertInPlace : (vtkMatrix4x4.InvertInPlace h r).next = h.next := rfl

theorem get_vtkMatrix4x4_DeepCopy (src : Ref) :
    (vtkMatrix4x4.DeepCopy h r src).get s =
      if s = r then
        { h.get r with Matrix := (h.get src).Matrix, MatrixMTime := h.clock + 1 }
      else h.get s := by
  simp only [vtkMatrix4x4.DeepCopy, get_vtkMatrix4x4_Modified, Heap.get_set, Heap.clock_set]
  split <;> simp

@[simp] theorem next_vtkMatrix4x4_DeepCopy (src : Ref) :
    (vtkMatrix4x4.DeepCopy h r src).next = h.next := rfl

@[simp] theorem New_snd (cn : String) (sc : List String) : (vtkObject.New h cn sc).2 = h.next := rfl

@[simp] theorem next_New (cn : String) (sc : List String) :
    (vtkObject.New h cn sc).1.next = h.next + 1 := rfl

theorem get_New_ne (cn : String) (sc : List String) (hs : s ≠ h.next) :
    (vtkObject.New h cn sc).1.get s = h.get s := by
  simp [vtkObject.New, Heap.get, Function.update_noteq hs]

theorem get_New_same (cn : String) (sc : List String) :
    (vtkObject.New h cn sc).1.get h.next =
      { ClassName := cn, Superclasses := sc, ReferenceCount := 1, MTime := h.clock + 1,
        UpdateTime := 0, MyInverse := none, DependsOnInverse := false, InUpdate := false,
        InUnRegister := false, Matrix := 1, MatrixMTime := h.clock + 1, Destroyed := false } := by
  simp [vtkObject.New, Heap.get]

@[simp] theorem vtkSimpleTransform_New_snd : (vtkSimpleTransform.New h).2 = h.next := rfl

@[simp] theorem next_vtkSimpleTransform_New : (vtkSimpleTransform.New h).1.next = h.next + 1 := rfl

theorem Delete_frame : h.SameButCounts (vtkAbstractTransform.Delete h r) :=
  UnRegister_frame _ h r

theorem DeletePtr_frame (p : Option Ref) : h.SameButCounts (DeletePtr h p) := by
  cases p with
  | none => exact Heap.SameButCounts.refl_heap h
  | some q => exact Delete_frame h q

@[simp] theorem Matrix_Delete :
    ((vtkAbstractTransform.Delete h r).get s).Matrix = (h.get s).Matrix :=
  ((Delete_frame h r).1 s).2.2.2.2.2.2.1

@[simp] theorem next_Delete : (vtkAbstractTransform.Delete h r).next = h.next :=
  (Delete_frame h r).2.1

@[simp] theorem Matrix_DeletePtr (p : Option Ref) :
    ((DeletePtr h p).get s).Matrix = (h.get s).Matrix :=
  ((DeletePtr_frame h p).1 s).2.2.2.2.2.2.1

@[simp] theorem next_DeletePtr (p : Option Ref) : (DeletePtr h p).next = h.next :=
  (DeletePtr_frame h p).2.1

@[simp] theorem Matrix_Register :
    ((vtkObject.Register h r).get s).Matrix = (h.get s).Matrix := by
  rw [get_Register]; split
  · next e => subst e; rfl
  · rfl

@[simp] theorem Matrix_RegisterPtr (p : Option Ref) :
    ((RegisterPtr h p).get s).Matrix = (h.get s).Matrix := by
  cases p with
  | none => rfl
  | some q => exact Matrix_Register h q s

@[simp] theorem Matrix_ModifiedPtr (p : Option Ref) :
    ((ModifiedPtr h p).get s).Matrix = (h.get s).Matrix := by
  rw [get_ModifiedPtr]; split <;> rfl

@[simp] theorem Matrix_Modified :
    ((vtkAbstractTransform.Modified h r).get s).Matrix = (h.get s).Matrix := by
  rw [get_Modified]; split
  · next e => rw [e.1]
  · rfl

@[simp] theorem Matrix_vtkMatrix4x4_Modified :
    ((vtkMatrix4x4.Modified h r).get s).Matrix = (h.get s).Matrix := by
  rw [get_vtkMatrix4x4_Modified]; split
  · next e => subst e; rfl
  · rfl

end Primitives

/-! ## `Concatenate(const double[16])` -/

section ConcatenateMatrixLemmas
open vtkTransformConcatenation

variable (h : Heap) (c : vtkTransformConcatenation) (E : Mat4)

@[simp] theorem AddMatrixTransform_ref : (AddMatrixTransform h c).2.2 = h.next := rfl

@[simp] theorem AddMatrixTransform_conc :
    (AddMatrixTransform h c).2.1 = (Concatenate (vtkSimpleTransform.New h).1 c h.next).2 := rfl

@[simp] theorem AddMatrixTransform_next : (AddMatrixTransform h c).1.next = h.next + 1 := by
  simp [AddMatrixTransform]

theorem AddMatrixTransform_Matrix (s : Ref) :
    ((AddMatrixTransform h c).1.get s).Matrix = if s = h.next then 1 else (h.get s).Matrix := by
  simp only [AddMatrixTransform, Matrix_Delete, Concatenate_fst, Matrix_Register]
  by_cases e : s = h.next
  · subst e; simp [vtkSimpleTransform.New, get_New_same]
  · simp [e, vtkSimpleTransform.New, get_New_ne _ _ _ _ e]

theorem ConcatenateMatrix_pre_some (m : Ref) (hp : c.PreMultiplyFlag ≠ 0)
    (hm : c.PreMatrix = some m) :
    (ConcatenateMatrix h c E).2 = c ∧ (ConcatenateMatrix h c E).1.next = h.next ∧
    ∀ s, ((ConcatenateMatrix h c E).1.get s).Matrix =
      if s = m then Multiply4x4 (h.get m).Matrix E else (h.get s).Matrix := by
  simp only [ConcatenateMatrix, hp, hm, ne_eq, not_false_eq_true, if_true, if_false,
    Option.some_ne_none, next_ModifiedPtr, next_vtkMatrix4x4_Modified, Heap.next_set,
    Matrix_ModifiedPtr, Matrix_vtkMatrix4x4_Modified, true_and]
  intro s
  rw [Heap.get_set]; split <;> rfl

theorem ConcatenateMatrix_post_some (m : Ref) (hp : c.PreMultiplyFlag = 0)
    (hm : c.PostMatrix = some m) :
    (ConcatenateMatrix h c E).2 = c ∧ (ConcatenateMatrix h c E).1.next = h.next ∧
    ∀ s, ((ConcatenateMatrix h c E).1.get s).Matrix =
      if s = m then Multiply4x4 E (h.get m).Matrix else (h.get s).Matrix := by
  simp only [ConcatenateMatrix, hp, hm, ne_eq, not_true_eq_false, if_false,
    Option.some_ne_none, next_ModifiedPtr, next_vtkMatrix4x4_Modified, Heap.next_set,
    Matrix_ModifiedPtr, Matrix_vtkMatrix4x4_Modified, true_and]
  intro s
  rw [Heap.get_set]; split <;> rfl

theorem ConcatenateMatrix_pre_none (hp : c.PreMultiplyFlag ≠ 0) (hm : c.PreMatrix = none) :
    (ConcatenateMatrix h c E).2 =
      { (Concatenate (vtkSimpleTransform.New h).1 c h.next).2 with
        PreMatrixTransform := some h.next, PreMatrix := some h.next } ∧
    (ConcatenateMatrix h c E).1.next = h.next + 1 ∧
    ∀ s, ((ConcatenateMatrix h c E).1.get s).Matrix =
      if s = h.next then Multiply4x4 1 E else (h.get s).Matrix := by
  simp only [ConcatenateMatrix, hp, hm, ne_eq, not_false_eq_true, if_true,
    next_ModifiedPtr, next_vtkMatrix4x4_Modified, Heap.next_set,
    Matrix_ModifiedPtr, Matrix_vtkMatrix4x4_Modified, AddMatrixTransform_ref,
    AddMatrixTransform_conc, AddMatrixTransform_next, true_and]
  intro s
  rw [Heap.get_set]; split
  · simp [AddMatrixTransform_Matrix]
  · next e => simp [AddMatrixTransform_Matrix, e]

theorem ConcatenateMatrix_post_none (hp : c.PreMultiplyFlag = 0) (hm : c.PostMatrix = none) :
    (ConcatenateMatrix h c E).2 =
      { (Concatenate (vtkSimpleTransform.New h).1 c h.next).2 with
        PostMatrixTransform := some h.next, PostMatrix := some h.next } ∧
    (ConcatenateMatrix h c E).1.next = h.next + 1 ∧
    ∀ s, ((ConcatenateMatrix h c E).1.get s).Matrix =
      if s = h.next then Multiply4x4 E 1 else (h.get s).Matrix := by
  simp only [ConcatenateMatrix, hp, hm, ne_eq, not_true_eq_false, if_false, if_true,
    next_ModifiedPtr, next_vtkMatrix4x4_Modified, Heap.next_set,
    Matrix_ModifiedPtr, Matrix_vtkMatrix4x4_Modified, AddMatrixTransform_ref,
    AddMatrixTransform_conc, AddMatrixTransform_next, true_and]
  intro s
  rw [Heap.get_set]; split
  · simp [AddMatrixTransform_Matrix]
  · next e => simp [AddMatrixTransform_Matrix, e]

end ConcatenateMatrixLemmas

/-! ## C1, C2: the order in which raw matrices accumulate -/

section TwoMatrices
open vtkTransformConcatenation

/-- Two raw matrices concatenated into an empty concatenation fold into one new leaf; the
product is taken with the new matrix on the right in pre-multiply mode and on the left in
post-multiply mode. -/
theorem ConcatenateMatrix_twice (h : Heap) (c : vtkTransformConcatenation) (M1 M2 : Mat4)
    (hN : c.NumberOfTransforms = 0) (hPre : c.PreMatrix = none) (hPost : c.PostMatrix = none) :
    (ConcatenateMatrix (ConcatenateMatrix h c M1).1
        (ConcatenateMatrix h c M1).2 M2).2.NumberOfTransforms = 1 ∧
    (GetTransform
        (ConcatenateMatrix (ConcatenateMatrix h c M1).1 (ConcatenateMatrix h c M1).2 M2).1
        (ConcatenateMatrix (ConcatenateMatrix h c M1).1 (ConcatenateMatrix h c M1).2 M2).2
        0).2.2 = some h.next ∧
    (c.PreMultiplyFlag ≠ 0 →
      (ConcatenateMatrix (ConcatenateMatrix h c M1).1
          (ConcatenateMatrix h c M1).2 M2).2.PreMatrix = some h.next ∧
      ((ConcatenateMatrix (ConcatenateMatrix h c M1).1
          (ConcatenateMatrix h c M1).2 M2).1.get h.next).Matrix = Multiply4x4 M1 M2) ∧
    (c.PreMultiplyFlag = 0 →
      (ConcatenateMatrix (ConcatenateMatrix h c M1).1
          (ConcatenateMatrix h c M1).2 M2).2.PostMatrix = some h.next ∧
      ((ConcatenateMatrix (ConcatenateMatrix h c M1).1
          (ConcatenateMatrix h c M1).2 M2).1.get h.next).Matrix = Multiply4x4 M2 M1) := by
  have hlist : ∀ g : Heap, (Concatenate g c h.next).2.TransformList 0 =
      NewPair c.InverseFlag h.next := by
    intro g
    rw [Concatenate_TransformList _ _ _ _ (Nat.zero_le _)]
    simp [hN]
  by_cases hp : c.PreMultiplyFlag = 0
  · obtain ⟨e1, -, m1⟩ := ConcatenateMatrix_post_none h c M1 hp hPost
    have hp1 : (ConcatenateMatrix h c M1).2.PreMultiplyFlag = 0 := by rw [e1]; simpa using hp
    have hs1 : (ConcatenateMatrix h c M1).2.PostMatrix = some h.next := by rw [e1]
    obtain ⟨e2, -, m2⟩ := ConcatenateMatrix_post_some (ConcatenateMatrix h c M1).1
      (ConcatenateMatrix h c M1).2 M2 h.next hp1 hs1
    rw [e2]
    refine ⟨by rw [e1]; simp [hN], ?_, fun hc => absurd hp hc, fun _ => ⟨hs1, ?_⟩⟩
    · rw [e1]
      simp only [GetTransform, Concatenate_InverseFlag, Concatenate_NumberOfTransforms, hN,
        hlist, NewPair]
      by_cases hi : c.InverseFlag = 0 <;> simp [hi]
    · rw [m2, m1]; simp [Multiply4x4]
  · obtain ⟨e1, -, m1⟩ := ConcatenateMatrix_pre_none h c M1 hp hPre
    have hp1 : (ConcatenateMatrix h c M1).2.PreMultiplyFlag ≠ 0 := by rw [e1]; simpa using hp
    have hs1 : (ConcatenateMatrix h c M1).2.PreMatrix = some h.next := by rw [e1]
    obtain ⟨e2, -, m2⟩ := ConcatenateMatrix_pre_some (ConcatenateMatrix h c M1).1
      (ConcatenateMatrix h c M1).2 M2 h.next hp1 hs1
    rw [e2]
    refine ⟨by rw [e1]; simp [hN], ?_, fun _ => ⟨hs1, ?_⟩, fun hc => absurd hc hp⟩
    · rw [e1]
      simp only [GetTransform, Concatenate_InverseFlag, Concatenate_NumberOfTransforms, hN,
        hlist, NewPair]
      by_cases hi : c.InverseFlag = 0 <;> simp [hi]
    · rw [m2, m1]; simp [Multiply4x4]

theorem T123_mul_S222 :
    Multiply4x4 Example.T123 Example.S222 =
      !![2, 0, 0, 1; 0, 2, 0, 2; 0, 0, 2, 3; 0, 0, 0, 1] := by
  ext i j
  fin_cases i <;> fin_cases j <;>
    norm_num [Multiply4x4, Example.T123, Example.S222, Matrix.mul_apply, Fin.sum_univ_four,
      Matrix.vecHead, Matrix.vecTail]

theorem S222_mul_T123 :
    Multiply4x4 Example.S222 Example.T123 =
      !![2, 0, 0, 2; 0, 2, 0, 4; 0, 0, 2, 6; 0, 0, 0, 1] := by
  ext i j
  fin_cases i <;> fin_cases j <;>
    norm_num [Multiply4x4, Example.T123, Example.S222, Matrix.mul_apply, Fin.sum_univ_four,
      Matrix.vecHead, Matrix.vecTail]

theorem T123_S222_ne : Multiply4x4 Example.T123 Example.S222 ≠
    Multiply4x4 Example.S222 Example.T123 := by
  rw [T123_mul_S222, S222_mul_T123]
  intro e
  have := congrFun (congrFun e 0) 3
  norm_num at this

/-- C1 (amended): for a concatenation whose list is empty (no transforms, no fast-path slot)
and all 4x4 matrices M1, M2, the calls Concatenate(M1); Concatenate(M2) leave exactly one
node, the fast-path node that GetTransform(0) returns; with PreMultiplyFlag set it is the
pre-matrix node and its matrix is M1·M2 (the new matrix is multiplied on the right), with
PreMultiplyFlag clear it is the post-matrix node and its matrix is M2·M1. -/
theorem C1_two_matrices_accumulate (h : Heap) (c : vtkTransformConcatenation) (M1 M2 : Mat4)
    (hN : c.NumberOfTransforms = 0) (hPre : c.PreMatrix = none) (hPost : c.PostMatrix = none) :
    (ConcatenateMatrix (ConcatenateMatrix h c M1).1
        (ConcatenateMatrix h c M1).2 M2).2.NumberOfTransforms = 1 ∧
    (GetTransform
        (ConcatenateMatrix (ConcatenateMatrix h c M1).1 (ConcatenateMatrix h c M1).2 M2).1
        (ConcatenateMatrix (ConcatenateMatrix h c M1).1 (ConcatenateMatrix h c M1).2 M2).2
        0).2.2 = some h.next ∧
    (c.PreMultiplyFlag ≠ 0 →
      (ConcatenateMatrix (ConcatenateMatrix h c M1).1
          (ConcatenateMatrix h c M1).2 M2).2.PreMatrix = some h.next ∧
      ((ConcatenateMatrix (ConcatenateMatrix h c M1).1
          (ConcatenateMatrix h c M1).2 M2).1.get h.next).Matrix = Multiply4x4 M1 M2) ∧
    (c.PreMultiplyFlag = 0 →
      (ConcatenateMatrix (ConcatenateMatrix h c M1).1
          (ConcatenateMatrix h c M1).2 M2).2.PostMatrix = some h.next ∧
      ((ConcatenateMatrix (ConcatenateMatrix h c M1).1
          (ConcatenateMatrix h c M1).2 M2).1.get h.next).Matrix = Multiply4x4 M2 M1) :=
  ConcatenateMatrix_twice h c M1 M2 hN hPre hPost

/-- Witness for C1: a newly constructed concatenation over the empty heap, Translate(1,2,3)
and Scale(2,2,2) as raw matrices. -/
theorem C1_two_matrices_accumulate_witness :
    vtkTransformConcatenation.New.NumberOfTransforms = 0 ∧
    vtkTransformConcatenation.New.PreMatrix = none ∧
    vtkTransformConcatenation.New.PostMatrix = none ∧
    ((Example.TwoMatrices vtkTransformConcatenation.New).1.get 0).Matrix =
      Multiply4x4 Example.T123 Example.S222 :=
  ⟨rfl, rfl, rfl,
    ((C1_two_matrices_accumulate Heap.empty vtkTransformConcatenation.New Example.T123
      Example.S222 rfl rfl rfl).2.2.1 (by decide)).2⟩

/-- Counterexample to C1 as stated: in pre-multiply mode the node left by Concatenate(T);
Concatenate(S) does not hold S·T, and in post-multiply mode it does not hold T·S. -/
theorem C1_as_stated_fails :
    ((Example.TwoMatrices vtkTransformConcatenation.New).1.get 0).Matrix ≠
      Multiply4x4 Example.S222 Example.T123 ∧
    ((Example.TwoMatrices Example.NewPostMultiply).1.get 0).Matrix ≠
      Multiply4x4 Example.T123 Example.S222 := by
  constructor
  · have e := ((ConcatenateMatrix_twice Heap.empty vtkTransformConcatenation.New Example.T123
      Example.S222 rfl rfl rfl).2.2.1 (by decide)).2
    intro x
    exact T123_S222_ne (e.symm.trans x)
  · have e := ((ConcatenateMatrix_twice Heap.empty Example.NewPostMultiply Example.T123
      Example.S222 rfl rfl rfl).2.2.2 (by decide)).2
    intro x
    exact T123_S222_ne (x.symm.trans e)

/-- C2: on a newly constructed concatenation (identity, pre-multiply), over any heap,
Translate(1,2,3) followed by Scale(2,2,2) yields one node, returned by GetTransform(0),
whose matrix is Translate·Scale; it maps (0,0,0,1) to (1,2,3,1) and (1,1,1,1) to
(3,4,5,1), in exact arithmetic. -/
theorem C2_translate_then_scale (h : Heap) :
    (Example.TranslateThenScale h).2.NumberOfTransforms = 1 ∧
    (GetTransform (Example.TranslateThenScale h).1 (Example.TranslateThenScale h).2 0).2.2 =
      some h.next ∧
    ((Example.TranslateThenScale h).1.get h.next).Matrix =
      Multiply4x4 Example.T123 Example.S222 ∧
    MultiplyPoint ((Example.TranslateThenScale h).1.get h.next).Matrix ![0, 0, 0, 1] =
      ![1, 2, 3, 1] ∧
    MultiplyPoint ((Example.TranslateThenScale h).1.get h.next).Matrix ![1, 1, 1, 1] =
      ![3, 4, 5, 1] := by
  have e : Example.TranslateThenScale h =
      ConcatenateMatrix (ConcatenateMatrix h vtkTransformConcatenation.New Example.T123).1
        (ConcatenateMatrix h vtkTransformConcatenation.New Example.T123).2 Example.S222 := by
    simp [Example.TranslateThenScale, Translate, Scale, Example.T123, Example.S222]
  obtain ⟨h1, h2, h3, -⟩ := ConcatenateMatrix_twice h vtkTransformConcatenation.New
    Example.T123 Example.S222 rfl rfl rfl
  have hm := (h3 (by decide)).2
  rw [e]
  refine ⟨h1, h2, hm, ?_, ?_⟩
  · rw [hm, T123_mul_S222]
    ext i
    fin_cases i <;>
      norm_num [MultiplyPoint, Matrix.mulVec, Matrix.dotProduct, Fin.sum_univ_four,
        Matrix.vecHead, Matrix.vecTail]
  · rw [hm, T123_mul_S222]
    ext i
    fin_cases i <;>
      norm_num [MultiplyPoint, Matrix.mulVec, Matrix.dotProduct, Fin.sum_univ_four,
        Matrix.vecHead, Matrix.vecTail]

end TwoMatrices

/-! ## C8, C9, C10: inverse links -/

section InverseLinks
open vtkAbstractTransform

theorem CircuitCheck_self (fuel : Nat) (h : Heap) (t : Ref) :
    CircuitCheck (fuel + 1) h t t = .ok true := by
  simp [CircuitCheck]

theorem CircuitCheck_step (fuel : Nat) (h : Heap) (this t inv : Ref) (hne : t ≠ this)
    (hd : (h.get this).DependsOnInverse = true) (hi : (h.get this).MyInverse = some inv) :
    CircuitCheck (fuel + 1) h this t = CircuitCheck fuel h inv t := by
  simp [CircuitCheck, hne, hd, hi]

theorem CircuitCheck_independent (fuel : Nat) (h : Heap) (this t : Ref) (hne : t ≠ this)
    (hd : (h.get this).DependsOnInverse = false) :
    CircuitCheck (fuel + 1) h this t = .ok false := by
  simp [CircuitCheck, hne, hd]

/-- An error reported by `SetInverse` leaves the heap as it was. -/
theorem SetInverse_error_heap (h : Heap) (this : Ref) (other : Option Ref)
    (he : (SetInverse h this other).2 ≠ .Ok) : (SetInverse h this other).1 = h := by
  unfold SetInverse at he ⊢
  split
  · rfl
  · cases other with
    | none => rfl
    | some t =>
      dsimp only at he ⊢
      split
      · rfl
      · split
        · rfl
        · rfl
        · rename_i hc1 hc2 _ hc3
          simp [hc1, hc2, hc3] at he

/-- An error reported by `DeepCopy` leaves the heap as it was. -/
theorem DeepCopy_error_heap (hook : Heap → Ref → Ref → Heap) (h : Heap) (this : Ref)
    (other : Option Ref) (he : (DeepCopy hook h this other).2 ≠ .Ok) :
    (DeepCopy hook h this other).1 = h := by
  unfold DeepCopy at he ⊢
  split
  · rfl
  · cases other with
    | none => rfl
    | some t =>
      dsimp only at he ⊢
      split
      · rfl
      · split
        · rfl
        · rfl
        · rename_i hc1 hc2 _ hc3
          simp [hc1, hc2, hc3] at he

/-- When `SetInverse` reports TypeMismatch the argument is not of the receiver's class; when
it reports CircularReference the receiver is on the argument's chain. -/
theorem SetInverse_error_cause (h : Heap) (this t : Ref) :
    ((SetInverse h this (some t)).2 = .TypeMismatch →
      vtkObject.IsA (h.get t) (h.get this).ClassName = false) ∧
    ((SetInverse h this (some t)).2 = .CircularReference →
      CircuitCheck (h.next + 1) h t this = .ok true) := by
  unfold SetInverse
  by_cases h0 : (h.get this).MyInverse = some t
  · simp [h0]
  · by_cases h1 : vtkObject.IsA (h.get t) (h.get this).ClassName = true
    · simp only [h0, if_false, h1, Bool.not_true, Bool.false_eq_true]
      cases hc : CircuitCheck (h.next + 1) h t this with
      | error f => simp
      | ok b => cases b <;> simp
    · simp [h0, h1]

/-- When `DeepCopy` reports TypeMismatch the argument is not of the receiver's class; when
it reports CircularReference the receiver is on the argument's chain. -/
theorem DeepCopy_error_cause (hook : Heap → Ref → Ref → Heap) (h : Heap) (this t : Ref) :
    ((DeepCopy hook h this (some t)).2 = .TypeMismatch →
      vtkObject.IsA (h.get t) (h.get this).ClassName = false) ∧
    ((DeepCopy hook h this (some t)).2 = .CircularReference →
      CircuitCheck (h.next + 1) h t this = .ok true) := by
  unfold DeepCopy
  by_cases h0 : some t = some this
  · simp [h0]
  · by_cases h1 : vtkObject.IsA (h.get t) (h.get this).ClassName = true
    · simp only [h0, if_false, h1, Bool.not_true, Bool.false_eq_true]
      cases hc : CircuitCheck (h.next + 1) h t this with
      | error f => simp
      | ok b => cases b <;> simp
    · simp [h0, h1]

end InverseLinks

section InverseLinks2
open vtkAbstractTransform

/-- The successful path of `SetInverse`. -/
theorem SetInverse_success (h : Heap) (self t : Ref)
    (h0 : (h.get self).MyInverse ≠ some t)
    (h1 : vtkObject.IsA (h.get t) (h.get self).ClassName = true)
    (h2 : CircuitCheck (h.next + 1) h t self = .ok false) :
    SetInverse h self (some t) =
      (Modified
        ((vtkObject.Register (DeletePtr h (h.get self).MyInverse) t).set self
          { (vtkObject.Register (DeletePtr h (h.get self).MyInverse) t).get self with
            MyInverse := some t, DependsOnInverse := true }) self, .Ok) := by
  unfold SetInverse
  simp only [h0, if_false, h1, Bool.not_true, Bool.false_eq_true, h2, Option.isSome_some]

/-- What a call of `SetInverse` that reports nothing and was not already linked leaves. -/
theorem SetInverse_ok_state (h : Heap) (self t : Ref)
    (h0 : (h.get self).MyInverse ≠ some t) (hok : (SetInverse h self (some t)).2 = .Ok) :
    ((SetInverse h self (some t)).1.get self).MyInverse = some t ∧
    ((SetInverse h self (some t)).1.get self).DependsOnInverse = true ∧
    (∀ s, ((SetInverse h self (some t)).1.get s).ClassName = (h.get s).ClassName) ∧
    (∀ s, ((SetInverse h self (some t)).1.get s).Superclasses = (h.get s).Superclasses) ∧
    (∀ s, s ≠ self → ((SetInverse h self (some t)).1.get s).MyInverse = (h.get s).MyInverse ∨
      ((SetInverse h self (some t)).1.get s).MyInverse = none) ∧
    (SetInverse h self (some t)).1.next = h.next := by
  have h1 : vtkObject.IsA (h.get t) (h.get self).ClassName = true := by
    by_contra hc
    have := (SetInverse_error_cause h self t).1
    unfold SetInverse at hok
    simp [h0, hc] at hok
  have h2 : CircuitCheck (h.next + 1) h t self = .ok false := by
    unfold SetInverse at hok
    simp only [h0, if_false, h1, Bool.not_true, Bool.false_eq_true] at hok
    cases hc : CircuitCheck (h.next + 1) h t self with
    | error f => simp [hc] at hok
    | ok b =>
      cases b with
      | true => simp [hc] at hok
      | false => rfl
  rw [SetInverse_success h self t h0 h1 h2]
  have fr := DeletePtr_frame h (h.get self).MyInverse
  refine ⟨?_, ?_, ?_, ?_, ?_, ?_⟩
  · simp [get_Modified, apply_ite]
  · simp [get_Modified, apply_ite]
  · intro s
    simp only [get_Modified, Heap.get_set, get_Register]
    have := (fr.1 s).1
    have := (fr.1 self).1
    have := (fr.1 t).1
    split_ifs <;> simp_all
  · intro s
    simp only [get_Modified, Heap.get_set, get_Register]
    have := (fr.1 s).2.1
    have := (fr.1 self).2.1
    have := (fr.1 t).2.1
    split_ifs <;> simp_all
  · intro s hs
    simp only [get_Modified, Heap.get_set, get_Register, hs, false_and, if_false]
    have hs2 := (fr.1 s).2.2.2.2.2.2.2.2
    split_ifs
    · subst_vars; simpa using hs2
    · exact hs2
  · simp [fr.2.1]

end InverseLinks2

section InverseClaims
open vtkAbstractTransform

/-- `T.SetInverse(U)` when `U` already depends on `T` as its inverse and `T` is not yet linked
to `U`: the circuit check finds `T` one step along `U`'s chain. -/
theorem SetInverse_back_link (h : Heap) (T U : Ref) (hne : T ≠ U) (hlive : T < h.next)
    (hU : (h.get U).MyInverse = some T) (hUd : (h.get U).DependsOnInverse = true)
    (hT : (h.get T).MyInverse ≠ some U)
    (hk : vtkObject.IsA (h.get U) (h.get T).ClassName = true) :
    SetInverse h T (some U) = (h, .CircularReference) := by
  have hc : CircuitCheck (h.next + 1) h U T = .ok true := by
    rw [CircuitCheck_step h.next h U T T hne hUd hU]
    obtain ⟨k, hk⟩ := Nat.exists_eq_add_of_lt hlive
    rw [hk]
    exact CircuitCheck_self (T + k) h T
  unfold SetInverse
  simp [hT, hk, hc]

/-- `GetInverse` on a transform that has an inverse link returns it and changes nothing. -/
theorem GetInverse_linked (h : Heap) (r v : Ref) (hv : (h.get r).MyInverse = some v) :
    GetInverse h r = (h, some v) := by
  unfold GetInverse
  simp only [hv]

/-- The call `V.SetInverse(T)` on a node `V` without an inverse link, of the class of `T`,
where `T` does not depend on its inverse. -/
theorem SetInverse_unlinked (h : Heap) (V T : Ref) (hne : T ≠ V)
    (hV : (h.get V).MyInverse = none) (hc : (h.get V).ClassName = (h.get T).ClassName)
    (hd : (h.get T).DependsOnInverse = false) :
    SetInverse h V (some T) =
      (Modified
        ((vtkObject.Register h T).set V
          { (vtkObject.Register h T).get V with
            MyInverse := some T, DependsOnInverse := true }) V, .Ok) := by
  have s0 : (h.get V).MyInverse ≠ some T := by rw [hV]; simp
  have s1 : vtkObject.IsA (h.get T) (h.get V).ClassName = true := by
    simp [vtkObject.IsA, hc]
  have s2 : CircuitCheck (h.next + 1) h T V = .ok false :=
    CircuitCheck_independent _ _ _ _ (Ne.symm hne) hd
  rw [SetInverse_success h V T s0 s1 s2, hV]
  rfl

/-- The heap after `GetInverse` on a transform without an inverse link. -/
theorem GetInverse_unlinked (h : Heap) (T : Ref) (hne : T ≠ h.next)
    (hnone : (h.get T).MyInverse = none) (hdep : (h.get T).DependsOnInverse = false) :
    (GetInverse h T).2 = some h.next ∧
    (GetInverse h T).1.next = h.next + 1 ∧
    ((GetInverse h T).1.get h.next).ClassName = (h.get T).ClassName ∧
    ((GetInverse h T).1.get h.next).Superclasses = (h.get T).Superclasses ∧
    ((GetInverse h T).1.get h.next).DependsOnInverse = true ∧
    ((GetInverse h T).1.get h.next).MyInverse = some T ∧
    ((GetInverse h T).1.get h.next).Matrix = 1 ∧
    ((GetInverse h T).1.get T).MyInverse = some h.next ∧
    ((GetInverse h T).1.get T).Matrix = (h.get T).Matrix ∧
    (∀ s, s ≠ T → s ≠ h.next → (GetInverse h T).1.get s = h.get s) := by
  have gT : (MakeTransform h T).1.get T = h.get T := get_New_ne h T _ _ hne
  have gV := get_New_same h (h.get T).ClassName (h.get T).Superclasses
  obtain ⟨h2, hh2⟩ : ∃ h2 : Heap, h2 = (MakeTransform h T).1.set T
      { (MakeTransform h T).1.get T with MyInverse := some h.next } := ⟨_, rfl⟩
  have e : GetInverse h T =
      ((SetInverse h2 h.next (some T)).1, ((SetInverse h2 h.next (some T)).1.get T).MyInverse) := by
    unfold GetInverse
    simp only [hnone, hh2]
    rfl
  have h2T : h2.get T = { h.get T with MyInverse := some h.next } := by
    rw [hh2, Heap.get_set_same, gT]
  have h2V : h2.get h.next =
      { ClassName := (h.get T).ClassName, Superclasses := (h.get T).Superclasses,
        ReferenceCount := 1, MTime := h.clock + 1, UpdateTime := 0, MyInverse := none,
        DependsOnInverse := false, InUpdate := false, InUnRegister := false, Matrix := 1,
        MatrixMTime := h.clock + 1, Destroyed := false } := by
    rw [hh2, Heap.get_set_ne _ _ _ _ (Ne.symm hne)]; exact gV
  have h2o : ∀ s, s ≠ T → s ≠ h.next → h2.get s = h.get s := by
    intro s s1 s2
    rw [hh2, Heap.get_set_ne _ _ _ _ s1]; exact get_New_ne h s _ _ s2
  have h2n : h2.next = h.next + 1 := by rw [hh2]; rfl
  rw [e, SetInverse_unlinked h2 h.next T hne (by rw [h2V]) (by rw [h2V, h2T])
    (by rw [h2T]; exact hdep)]
  have hne2 : h.next ≠ T := Ne.symm hne
  refine ⟨?_, ?_, ?_, ?_, ?_, ?_, ?_, ?_, ?_, ?_⟩
  · simp [get_Modified, Heap.get_set, hne, get_Register, h2T]
  · simp [h2n]
  · simp [get_Modified, apply_ite, get_Register, hne2, h2V]
  · simp [get_Modified, apply_ite, get_Register, hne2, h2V]
  · simp [get_Modified, apply_ite]
  · simp [get_Modified, apply_ite]
  · simp [h2V]
  · simp [get_Modified, Heap.get_set, hne, get_Register, h2T]
  · rw [Matrix_Modified, Heap.get_set_ne _ _ _ _ hne, Matrix_Register, h2T]
  · intro s s1 s2
    simp [get_Modified, Heap.get_set, s1, s2, get_Register, h2o s s1 s2]

/-- C8: for a transform T of the heap whose inverse link is absent (in a state where a set
DependsOnInverse flag implies a present link), T.GetInverse() creates a new node V of T's
class that depends on T as its inverse, links T to V, and V.GetInverse() returns T itself
without changing anything. -/
theorem C8_inverse_of_inverse_is_self (h : Heap) (T : Ref) (hlive : T < h.next)
    (hnone : (h.get T).MyInverse = none)
    (hinv : (h.get T).DependsOnInverse = true → (h.get T).MyInverse ≠ none) :
    (GetInverse h T).2 = some h.next ∧
    ((GetInverse h T).1.get h.next).ClassName = (h.get T).ClassName ∧
    ((GetInverse h T).1.get h.next).Superclasses = (h.get T).Superclasses ∧
    ((GetInverse h T).1.get h.next).DependsOnInverse = true ∧
    ((GetInverse h T).1.get h.next).MyInverse = some T ∧
    ((GetInverse h T).1.get T).MyInverse = some h.next ∧
    GetInverse (GetInverse h T).1 h.next = ((GetInverse h T).1, some T) := by
  have hne : T ≠ h.next := Nat.ne_of_lt hlive
  have hdep : (h.get T).DependsOnInverse = false := by
    cases hd : (h.get T).DependsOnInverse with
    | false => rfl
    | true => exact absurd hnone (hinv hd)
  obtain ⟨a1, -, a3, a4, a5, a6, -, a8, -, -⟩ := GetInverse_unlinked h T hne hnone hdep
  exact ⟨a1, a3, a4, a5, a6, a8, GetInverse_linked _ _ _ a6⟩

/-- Witness for C8: a newly constructed leaf transform over the empty heap. -/
theorem C8_inverse_of_inverse_is_self_witness :
    (0 : Ref) < (vtkSimpleTransform.New Heap.empty).1.next ∧
    (GetInverse (vtkSimpleTransform.New Heap.empty).1 0).2 = some 1 ∧
    GetInverse (GetInverse (vtkSimpleTransform.New Heap.empty).1 0).1 1 =
      ((GetInverse (vtkSimpleTransform.New Heap.empty).1 0).1, some 0) :=
  ⟨by decide,
    (C8_inverse_of_inverse_is_self (vtkSimpleTransform.New Heap.empty).1 0 (by decide) rfl
      (by decide)).1,
    (C8_inverse_of_inverse_is_self (vtkSimpleTransform.New Heap.empty).1 0 (by decide) rfl
      (by decide)).2.2.2.2.2.2⟩

/-- C9 (amended): for distinct transforms T and U of compatible kinds, T an object of the
heap and U not yet T's inverse link: once U.SetInverse(T) has linked U to T without an
error, T.SetInverse(U) reports CircularReference and changes nothing, because T is one step
along U's depends-on-inverse chain; the mutual pair is not exempted by the check. -/
theorem C9_back_link_is_rejected (h : Heap) (T U : Ref) (hne : T ≠ U) (hlive : T < h.next)
    (hfresh : (h.get U).MyInverse ≠ some T) (hT : (h.get T).MyInverse ≠ some U)
    (hk : vtkObject.IsA (h.get U) (h.get T).ClassName = true)
    (hok : (SetInverse h U (some T)).2 = .Ok) :
    SetInverse (SetInverse h U (some T)).1 T (some U) =
      ((SetInverse h U (some T)).1, .CircularReference) := by
  obtain ⟨a1, a2, a3, a4, a5, a6⟩ := SetInverse_ok_state h U T hfresh hok
  apply SetInverse_back_link _ T U hne (by rw [a6]; exact hlive) a1 a2
  · rcases a5 T hne with x | x
    · rw [x]; exact hT
    · rw [x]; simp
  · simp only [vtkObject.IsA, a3, a4] at hk ⊢
    exact hk

/-- Witness for C9: two newly constructed leaf transforms, T at 0 and U at 1. -/
theorem C9_back_link_is_rejected_witness :
    (SetInverse Example.TwoLeaves 1 (some 0)).2 = .Ok ∧
    SetInverse (SetInverse Example.TwoLeaves 1 (some 0)).1 0 (some 1) =
      ((SetInverse Example.TwoLeaves 1 (some 0)).1, .CircularReference) :=
  ⟨by decide,
    C9_back_link_is_rejected Example.TwoLeaves 0 1 (by decide) (by decide) (by decide)
      (by decide) (by decide) (by decide)⟩

/-- Counterexample to C9 as stated: with two new leaf transforms T and U, U.SetInverse(T)
succeeds, and T.SetInverse(U) then reports CircularReference and does not make U the
inverse of T. -/
theorem C9_as_stated_fails :
    (SetInverse Example.TwoLeaves 1 (some 0)).2 = .Ok ∧
    (SetInverse Example.TwoLeavesLinked 0 (some 1)).2 = .CircularReference ∧
    ((SetInverse Example.TwoLeavesLinked 0 (some 1)).1.get 0).MyInverse = none := by
  decide

/-- C10: whenever SetInverse(other) or DeepCopy(other) reports TypeMismatch or
CircularReference, the heap after the call is the heap before it (so the receiver's inverse
link, DependsOnInverse flag, modification time and contents, and the inverse link of other,
are unchanged); TypeMismatch is reported only when other is not of the receiver's class, and
CircularReference only when the receiver is on the chain of other. -/
theorem C10_reported_errors_change_nothing (hook : Heap → Ref → Ref → Heap) (h : Heap)
    (self other : Ref) :
    ((SetInverse h self (some other)).2 = .TypeMismatch →
      (SetInverse h self (some other)).1 = h ∧
      vtkObject.IsA (h.get other) (h.get self).ClassName = false) ∧
    ((SetInverse h self (some other)).2 = .CircularReference →
      (SetInverse h self (some other)).1 = h ∧
      CircuitCheck (h.next + 1) h other self = .ok true) ∧
    ((DeepCopy hook h self (some other)).2 = .TypeMismatch →
      (DeepCopy hook h self (some other)).1 = h ∧
      vtkObject.IsA (h.get other) (h.get self).ClassName = false) ∧
    ((DeepCopy hook h self (some other)).2 = .CircularReference →
      (DeepCopy hook h self (some other)).1 = h ∧
      CircuitCheck (h.next + 1) h other self = .ok true) := by
  refine ⟨fun e => ⟨?_, (SetInverse_error_cause h self other).1 e⟩,
    fun e => ⟨?_, (SetInverse_error_cause h self other).2 e⟩,
    fun e => ⟨?_, (DeepCopy_error_cause hook h self other).1 e⟩,
    fun e => ⟨?_, (DeepCopy_error_cause hook h self other).2 e⟩⟩
  · exact SetInverse_error_heap h self _ (by rw [e]; decide)
  · exact SetInverse_error_heap h self _ (by rw [e]; decide)
  · exact DeepCopy_error_heap hook h self _ (by rw [e]; decide)
  · exact DeepCopy_error_heap hook h self _ (by rw [e]; decide)

/-- Witness for C10: a leaf transform given an object of an unrelated class, and a leaf
transform given the leaf that already depends on it. -/
theorem C10_reported_errors_change_nothing_witness :
    ((SetInverse Example.LeafAndWarp 0 (some 1)).2 = .TypeMismatch ∧
      (SetInverse Example.LeafAndWarp 0 (some 1)).1 = Example.LeafAndWarp) ∧
    ((SetInverse Example.TwoLeavesLinked 0 (some 1)).2 = .CircularReference ∧
      (SetInverse Example.TwoLeavesLinked 0 (some 1)).1 = Example.TwoLeavesLinked) ∧
    ((DeepCopy Example.CopyMatrixHook Example.LeafAndWarp 0 (some 1)).2 = .TypeMismatch ∧
      (DeepCopy Example.CopyMatrixHook Example.LeafAndWarp 0 (some 1)).1 =
        Example.LeafAndWarp) ∧
    ((DeepCopy Example.CopyMatrixHook Example.TwoLeavesLinked 0 (some 1)).2 =
        .CircularReference ∧
      (DeepCopy Example.CopyMatrixHook Example.TwoLeavesLinked 0 (some 1)).1 =
        Example.TwoLeavesLinked) :=
  ⟨⟨by decide,
      ((C10_reported_errors_change_nothing Example.CopyMatrixHook Example.LeafAndWarp 0 1).1
        (by decide)).1⟩,
    ⟨by decide,
      ((C10_reported_errors_change_nothing Example.CopyMatrixHook Example.TwoLeavesLinked 0
        1).2.1 (by decide)).1⟩,
    ⟨by decide,
      ((C10_reported_errors_change_nothing Example.CopyMatrixHook Example.LeafAndWarp 0
        1).2.2.1 (by decide)).1⟩,
    ⟨by decide,
      ((C10_reported_errors_change_nothing Example.CopyMatrixHook Example.TwoLeavesLinked 0
        1).2.2.2 (by decide)).1⟩⟩

end InverseClaims

/-! ## What `GetInverse` returns and writes, whatever `SetInverse` reports -/

section GetInverseGeneral
open vtkAbstractTransform

/-- `SetInverse` on a node without an inverse link either changes nothing or takes the
successful path, which releases nothing. -/
theorem SetInverse_from_unlinked (h : Heap) (V T : Ref) (hV : (h.get V).MyInverse = none) :
    (SetInverse h V (some T)).1 = h ∨
    (SetInverse h V (some T)).1 =
      Modified
        ((vtkObject.Register h T).set V
          { (vtkObject.Register h T).get V with
            MyInverse := some T, DependsOnInverse := true }) V := by
  by_cases hok : (SetInverse h V (some T)).2 = .Ok
  · right
    have s0 : (h.get V).MyInverse ≠ some T := by rw [hV]; simp
    have h1 : vtkObject.IsA (h.get T) (h.get V).ClassName = true := by
      by_contra hc
      unfold SetInverse at hok
      simp [s0, hc] at hok
    have h2 : CircuitCheck (h.next + 1) h T V = .ok false := by
      unfold SetInverse at hok
      simp only [s0, if_false, h1, Bool.not_true, Bool.false_eq_true] at hok
      cases hc : CircuitCheck (h.next + 1) h T V with
      | error f => simp [hc] at hok
      | ok b =>
        cases b with
        | true => simp [hc] at hok
        | false => rfl
    rw [SetInverse_success h V T s0 h1 h2, hV]
    rfl
  · left
    exact SetInverse_error_heap h V _ hok

/-- The pointer `GetInverse` returns: the inverse link when there is one, the newly
allocated node otherwise; with what the call leaves in the heap. -/
theorem GetInverse_effect (h : Heap) (T : Ref) (hne : T ≠ h.next) :
    (GetInverse h T).2 = some ((h.get T).MyInverse.getD h.next) ∧
    (∀ s, s ≠ h.next → ((GetInverse h T).1.get s).Matrix = (h.get s).Matrix) ∧
    ((h.get T).MyInverse ≠ none → (GetInverse h T).1 = h) ∧
    ((h.get T).MyInverse = none →
      ((GetInverse h T).1.get h.next).Matrix = 1 ∧ (GetInverse h T).1.next = h.next + 1) := by
  cases hm : (h.get T).MyInverse with
  | some v =>
    rw [GetInverse_linked h T v hm]
    simp
  | none =>
    have gT : (MakeTransform h T).1.get T = h.get T := get_New_ne h T _ _ hne
    have gV := get_New_same h (h.get T).ClassName (h.get T).Superclasses
    obtain ⟨h2, hh2⟩ : ∃ h2 : Heap, h2 = (MakeTransform h T).1.set T
        { (MakeTransform h T).1.get T with MyInverse := some h.next } := ⟨_, rfl⟩
    have e : GetInverse h T =
        ((SetInverse h2 h.next (some T)).1,
          ((SetInverse h2 h.next (some T)).1.get T).MyInverse) := by
      unfold GetInverse
      simp only [hm, hh2]
      rfl
    have h2T : (h2.get T).MyInverse = some h.next := by
      rw [hh2, Heap.get_set_same]
    have h2TM : (h2.get T).Matrix = (h.get T).Matrix := by
      rw [hh2, Heap.get_set_same, gT]
    have h2V : h2.get h.next =
        { ClassName := (h.get T).ClassName, Superclasses := (h.get T).Superclasses,
          ReferenceCount := 1, MTime := h.clock + 1, UpdateTime := 0, MyInverse := none,
          DependsOnInverse := false, InUpdate := false, InUnRegister := false, Matrix := 1,
          MatrixMTime := h.clock + 1, Destroyed := false } := by
      rw [hh2, Heap.get_set_ne _ _ _ _ (Ne.symm hne)]; exact gV
    have h2o : ∀ s, s ≠ T → s ≠ h.next → h2.get s = h.get s := by
      intro s s1 s2
      rw [hh2, Heap.get_set_ne _ _ _ _ s1]; exact get_New_ne h s _ _ s2
    have h2M : ∀ s, s ≠ h.next → (h2.get s).Matrix = (h.get s).Matrix := by
      intro s s2
      by_cases s1 : s = T
      · subst s1; exact h2TM
      · rw [h2o s s1 s2]
    have h2n : h2.next = h.next + 1 := by rw [hh2]; rfl
    rw [e]
    rcases SetInverse_from_unlinked h2 h.next T (by rw [h2V]) with x | x
    · rw [x]
      refine ⟨by simp [h2T], h2M, fun hc => absurd rfl hc, fun _ => ⟨by rw [h2V], h2n⟩⟩
    · rw [x]
      refine ⟨?_, ?_, fun hc => absurd rfl hc, fun _ => ⟨?_, ?_⟩⟩
      · simp [get_Modified, Heap.get_set, hne, get_Register, h2T]
      · intro s s2
        rw [Matrix_Modified, Heap.get_set_ne _ _ _ _ s2, Matrix_Register]
        exact h2M s s2
      · rw [Matrix_Modified, Heap.get_set_same]
        simp [h2V]
      · simp [h2n]

end GetInverseGeneral

/-! ## `Inverse` -/

section InverseLemmas
open vtkTransformConcatenation

theorem Invert_eq_inv (m : Mat4) (hd : m.det ≠ 0) : Invert m = m⁻¹ := by
  simp [Invert, hd, Matrix.inv_def, Ring.inverse_eq_inv']

/-- Inverting an invertible matrix twice gives it back. -/
theorem Invert_Invert (m : Mat4) (hd : m.det ≠ 0) : Invert (Invert m) = m := by
  have hu : IsUnit m.det := isUnit_iff_ne_zero.mpr hd
  have h2 : (m⁻¹).det ≠ 0 := (Matrix.isUnit_nonsing_inv_det m hu).ne_zero
  rw [Invert_eq_inv m hd, Invert_eq_inv _ h2, Matrix.nonsing_inv_nonsing_inv m hu]

/-- The inverse of an invertible matrix is invertible. -/
theorem det_Invert_ne_zero (m : Mat4) (hd : m.det ≠ 0) : (Invert m).det ≠ 0 := by
  have hu : IsUnit m.det := isUnit_iff_ne_zero.mpr hd
  rw [Invert_eq_inv m hd]
  exact (Matrix.isUnit_nonsing_inv_det m hu).ne_zero

/-- Swapping the members of the pair at one index. -/
theorem SwapForwardInverse_twice (p : vtkTransformPair) :
    p.SwapForwardInverse.SwapForwardInverse = p := rfl

variable (h : Heap) (l : Nat → vtkTransformPair) (m t : Option Ref) (i : Nat)

theorem InvertSlot_list :
    (InvertSlot h l m t i).2 =
      if m ≠ none then Function.update l i (l i).SwapForwardInverse else l := by
  cases m <;> simp [InvertSlot]

theorem InvertSlot_get (s : Ref) :
    ((InvertSlot h l m t i).1.get s).Matrix =
        (if m = some s then Invert (h.get s).Matrix else (h.get s).Matrix) ∧
    ((InvertSlot h l m t i).1.get s).MyInverse = (h.get s).MyInverse ∧
    ((InvertSlot h l m t i).1.get s).ClassName = (h.get s).ClassName ∧
    ((InvertSlot h l m t i).1.get s).Superclasses = (h.get s).Superclasses ∧
    ((InvertSlot h l m t i).1.get s).DependsOnInverse = (h.get s).DependsOnInverse := by
  cases m with
  | none => simp [InvertSlot]
  | some r =>
    simp only [InvertSlot, get_ModifiedPtr, get_InvertInPlace, Option.some.injEq]
    by_cases e : s = r
    · subst e
      split_ifs <;> simp_all
    · have e2 : ¬ r = s := fun x => e x.symm
      split_ifs <;> simp_all

@[simp] theorem InvertSlot_next : (InvertSlot h l m t i).1.next = h.next := by
  cases m <;> simp [InvertSlot]

end InverseLemmas

section InverseLemmas2
open vtkTransformConcatenation

variable (h : Heap) (c : vtkTransformConcatenation)

theorem Inverse_list :
    (Inverse h c).2.TransformList =
      (InvertSlot (InvertSlot h c.TransformList c.PreMatrix c.PreMatrixTransform
          (FirstIndex c)).1
        (InvertSlot h c.TransformList c.PreMatrix c.PreMatrixTransform (FirstIndex c)).2
        c.PostMatrix c.PostMatrixTransform (LastIndex c)).2 := rfl

theorem Inverse_heap :
    (Inverse h c).1 =
      (InvertSlot (InvertSlot h c.TransformList c.PreMatrix c.PreMatrixTransform
          (FirstIndex c)).1
        (InvertSlot h c.TransformList c.PreMatrix c.PreMatrixTransform (FirstIndex c)).2
        c.PostMatrix c.PostMatrixTransform (LastIndex c)).1 := rfl

@[simp] theorem Inverse_next : (Inverse h c).1.next = h.next := by
  rw [Inverse_heap]; simp

theorem Inverse_get (s : Ref) :
    ((Inverse h c).1.get s).Matrix =
        (if c.PostMatrix = some s then
          Invert (if c.PreMatrix = some s then Invert (h.get s).Matrix else (h.get s).Matrix)
        else (if c.PreMatrix = some s then Invert (h.get s).Matrix else (h.get s).Matrix)) ∧
    ((Inverse h c).1.get s).MyInverse = (h.get s).MyInverse ∧
    ((Inverse h c).1.get s).ClassName = (h.get s).ClassName ∧
    ((Inverse h c).1.get s).Superclasses = (h.get s).Superclasses ∧
    ((Inverse h c).1.get s).DependsOnInverse = (h.get s).DependsOnInverse := by
  rw [Inverse_heap]
  obtain ⟨a1, a2, a3, a4, a5⟩ := InvertSlot_get h c.TransformList c.PreMatrix
    c.PreMatrixTransform (FirstIndex c) s
  obtain ⟨b1, b2, b3, b4, b5⟩ := InvertSlot_get
    (InvertSlot h c.TransformList c.PreMatrix c.PreMatrixTransform (FirstIndex c)).1
    (InvertSlot h c.TransformList c.PreMatrix c.PreMatrixTransform (FirstIndex c)).2
    c.PostMatrix c.PostMatrixTransform (LastIndex c) s
  exact ⟨by rw [b1, a1], b2.trans a2, b3.trans a3, b4.trans a4, b5.trans a5⟩

/-- The list after `Inverse`, index by index. -/
theorem Inverse_list_apply (k : Nat) :
    (Inverse h c).2.TransformList k =
      if (c.PreMatrix ≠ none ∧ k = FirstIndex c) ↔ (c.PostMatrix ≠ none ∧ k = LastIndex c) then
        c.TransformList k
      else (c.TransformList k).SwapForwardInverse := by
  rw [Inverse_list, InvertSlot_list, InvertSlot_list]
  by_cases h1 : c.PreMatrix = none <;> by_cases h2 : c.PostMatrix = none <;>
    by_cases k1 : k = FirstIndex c <;> by_cases k2 : k = LastIndex c <;>
    simp [h1, h2, k1, k2, Function.update_apply, SwapForwardInverse_twice] <;>
    (try subst k1) <;> (try subst k2) <;> simp_all [SwapForwardInverse_twice]

end InverseLemmas2

/-! ## `GetTransform` -/

section GetTransformLemmas
open vtkTransformConcatenation vtkAbstractTransform

/-- `GetInverse` returns the same pointer, and leaves the same matrices, in two heaps that
agree on the inverse links, on the allocation pointer and on the matrices. -/
theorem GetInverse_congr (h h' : Heap) (f : Ref) (hne : f ≠ h.next)
    (hl : ∀ s, (h'.get s).MyInverse = (h.get s).MyInverse) (hn : h'.next = h.next)
    (hm : ∀ s, (h'.get s).Matrix = (h.get s).Matrix) :
    (GetInverse h' f).2 = (GetInverse h f).2 ∧
    ∀ s, ((GetInverse h' f).1.get s).Matrix = ((GetInverse h f).1.get s).Matrix := by
  obtain ⟨a1, a2, a3, a4⟩ := GetInverse_effect h f hne
  obtain ⟨b1, b2, b3, b4⟩ := GetInverse_effect h' f (by rw [hn]; exact hne)
  refine ⟨by rw [a1, b1, hl, hn], fun s => ?_⟩
  cases hf : (h.get f).MyInverse with
  | some v =>
    have hf' : (h'.get f).MyInverse ≠ none := by rw [hl, hf]; simp
    rw [a3 (by rw [hf]; simp), b3 hf', hm]
  | none =>
    have hf' : (h'.get f).MyInverse = none := by rw [hl, hf]
    by_cases e : s = h.next
    · subst e
      rw [(a4 hf).1]
      have := (b4 hf').1
      rw [hn] at this
      exact this
    · rw [a2 s e, b2 s (by rw [hn]; exact e), hm]

/-- `GetTransform` returns the same pointer, and leaves the same matrices, in two heaps that
agree on the inverse links, on the allocation pointer and on the matrices. -/
theorem GetTransform_congr (h h' : Heap) (c : vtkTransformConcatenation) (i : Nat)
    (hv : ∀ f, OtherSide c (c.TransformList (ReadIndex c i)) = some f → f ≠ h.next)
    (hl : ∀ s, (h'.get s).MyInverse = (h.get s).MyInverse) (hn : h'.next = h.next)
    (hm : ∀ s, (h'.get s).Matrix = (h.get s).Matrix) :
    (GetTransform h' c i).2.2 = (GetTransform h c i).2.2 ∧
    ∀ s, ((GetTransform h' c i).1.get s).Matrix = ((GetTransform h c i).1.get s).Matrix := by
  unfold GetTransform
  by_cases hf : c.InverseFlag = 0
  · simp only [hf, ne_eq, not_true_eq_false, if_false]
    simp only [ReadIndex, OtherSide, hf, ne_eq, not_true_eq_false, if_false] at hv
    by_cases hr : (c.TransformList i).ForwardTransform = none
    · simp only [hr, if_true]
      cases ho : (c.TransformList i).InverseTransform with
      | none => exact ⟨rfl, hm⟩
      | some g =>
        obtain ⟨e1, e2⟩ := GetInverse_congr h h' g (hv g ho) hl hn hm
        exact ⟨e1, fun s => by simp only [Matrix_RegisterPtr]; exact e2 s⟩
    · simp only [hr, if_false]
      exact ⟨trivial, hm⟩
  · simp only [hf, ne_eq, not_false_eq_true, if_true]
    simp only [ReadIndex, OtherSide, hf, ne_eq, not_false_eq_true, if_true] at hv
    by_cases hr : (c.TransformList (c.NumberOfTransforms - i - 1)).InverseTransform = none
    · simp only [hr, if_true]
      cases ho : (c.TransformList (c.NumberOfTransforms - i - 1)).ForwardTransform with
      | none => exact ⟨rfl, hm⟩
      | some g =>
        obtain ⟨e1, e2⟩ := GetInverse_congr h h' g (hv g ho) hl hn hm
        exact ⟨e1, fun s => by simp only [Matrix_RegisterPtr]; exact e2 s⟩
    · simp only [hr, if_false]
      exact ⟨trivial, hm⟩

/-- The pointer `GetTransform` returns: the member it reads, or what `GetInverse` returns
for the other member. -/
theorem GetTransform_ptr (h : Heap) (c : vtkTransformConcatenation) (i : Nat) :
    (GetTransform h c i).2.2 =
      match ReadSide c (c.TransformList (ReadIndex c i)) with
      | some r => some r
      | none =>
        match OtherSide c (c.TransformList (ReadIndex c i)) with
        | some f => (GetInverse h f).2
        | none => none := by
  unfold GetTransform
  by_cases hf : c.InverseFlag = 0
  · simp only [hf, ne_eq, not_true_eq_false, if_false, ReadIndex, ReadSide, OtherSide]
    cases hr : (c.TransformList i).ForwardTransform with
    | some r => simp
    | none =>
      cases ho : (c.TransformList i).InverseTransform with
      | none => simp
      | some g => simp
  · simp only [hf, ne_eq, not_false_eq_true, if_true, ReadIndex, ReadSide, OtherSide]
    cases hr : (c.TransformList (c.NumberOfTransforms - i - 1)).InverseTransform with
    | some r => simp
    | none =>
      cases ho : (c.TransformList (c.NumberOfTransforms - i - 1)).ForwardTransform with
      | none => simp
      | some g => simp

end GetTransformLemmas

/-! ## `Inverse(); Inverse();` in exact arithmetic -/

section InverseTwiceLemmas
open vtkTransformConcatenation

theorem Inverse_fields (h : Heap) (c : vtkTransformConcatenation) :
    (Inverse h c).2.InverseFlag = (if c.InverseFlag ≠ 0 then 0 else 1) ∧
    (Inverse h c).2.PreMultiplyFlag = c.PreMultiplyFlag ∧
    (Inverse h c).2.PreMatrix = c.PostMatrix ∧
    (Inverse h c).2.PostMatrix = c.PreMatrix ∧
    (Inverse h c).2.PreMatrixTransform = c.PostMatrixTransform ∧
    (Inverse h c).2.PostMatrixTransform = c.PreMatrixTransform ∧
    (Inverse h c).2.NumberOfTransforms = c.NumberOfTransforms ∧
    (Inverse h c).2.NumberOfPreTransforms = c.NumberOfTransforms - c.NumberOfPreTransforms ∧
    (Inverse h c).2.MaxNumberOfTransforms = c.MaxNumberOfTransforms :=
  ⟨rfl, rfl, rfl, rfl, rfl, rfl, rfl, rfl, rfl⟩

theorem Inverse_FirstIndex (h : Heap) (c : vtkTransformConcatenation) :
    FirstIndex (Inverse h c).2 = LastIndex c ∧ LastIndex (Inverse h c).2 = FirstIndex c := by
  simp only [FirstIndex, LastIndex, (Inverse_fields h c).1, (Inverse_fields h c).2.2.2.2.2.2.1]
  by_cases hf : c.InverseFlag = 0 <;> simp [hf]

/-- The calls `Inverse(); Inverse();` give back the concatenation record. -/
theorem InverseTwice_conc (h : Heap) (c : vtkTransformConcatenation)
    (hflag : c.InverseFlag = 0 ∨ c.InverseFlag = 1)
    (hpre : c.NumberOfPreTransforms ≤ c.NumberOfTransforms) :
    (InverseTwice h c).2 = c := by
  unfold InverseTwice
  obtain ⟨a1, a2, a3, a4, a5, a6, a7, a8, a9⟩ := Inverse_fields h c
  obtain ⟨b1, b2, b3, b4, b5, b6, b7, b8, b9⟩ := Inverse_fields (Inverse h c).1 (Inverse h c).2
  apply vtkTransformConcatenation.ext
  · rw [b1, a1]; rcases hflag with x | x <;> simp [x]
  · rw [b2, a2]
  · rw [b3, a4]
  · rw [b4, a3]
  · rw [b5, a6]
  · rw [b6, a5]
  · rw [b7, a7]
  · rw [b8, a7, a8]; omega
  · rw [b9, a9]
  · funext k
    rw [Inverse_list_apply, Inverse_list_apply h c k, a3, a4, (Inverse_FirstIndex h c).1,
      (Inverse_FirstIndex h c).2]
    by_cases x : (c.PreMatrix ≠ none ∧ k = FirstIndex c) ↔ (c.PostMatrix ≠ none ∧ k = LastIndex c)
    · rw [if_pos x, if_pos x.symm]
    · have y : ¬ ((c.PostMatrix ≠ none ∧ k = LastIndex c) ↔
          (c.PreMatrix ≠ none ∧ k = FirstIndex c)) := fun z => x z.symm
      rw [if_neg x, if_neg y, SwapForwardInverse_twice]

/-- The calls `Inverse(); Inverse();` give back every matrix, when the matrices of the two
fast-path nodes are invertible and the two nodes differ. -/
theorem InverseTwice_Matrix (h : Heap) (c : vtkTransformConcatenation)
    (hdist : c.PreMatrix ≠ none → c.PreMatrix ≠ c.PostMatrix)
    (hpre : ∀ m, c.PreMatrix = some m → (h.get m).Matrix.det ≠ 0)
    (hpost : ∀ m, c.PostMatrix = some m → (h.get m).Matrix.det ≠ 0) (s : Ref) :
    ((InverseTwice h c).1.get s).Matrix = (h.get s).Matrix := by
  unfold InverseTwice
  obtain ⟨-, -, a3, a4, -⟩ := Inverse_fields h c
  rw [(Inverse_get _ _ s).1, (Inverse_get h c s).1, a3, a4]
  by_cases x : c.PreMatrix = some s
  · have y : c.PostMatrix ≠ some s := fun z => hdist (by rw [x]; simp) (x.trans z.symm)
    simp only [x, y, if_true, if_false]
    exact Invert_Invert _ (hpre s x)
  · by_cases y : c.PostMatrix = some s
    · simp only [x, y, if_true, if_false]
      exact Invert_Invert _ (hpost s y)
    · simp only [x, y, if_false]

theorem InverseTwice_links (h : Heap) (c : vtkTransformConcatenation) (s : Ref) :
    ((InverseTwice h c).1.get s).MyInverse = (h.get s).MyInverse ∧
    (InverseTwice h c).1.next = h.next := by
  unfold InverseTwice
  exact ⟨((Inverse_get _ _ s).2.1).trans (Inverse_get h c s).2.1, by simp⟩

end InverseTwiceLemmas

section C3
open vtkTransformConcatenation

theorem ReadIndex_lt (c : vtkTransformConcatenation) (i : Nat) (hi : i < c.NumberOfTransforms) :
    ReadIndex c i < c.NumberOfTransforms := by
  unfold ReadIndex; split <;> omega

theorem ListInHeap_other (h : Heap) (c : vtkTransformConcatenation) (hh : ListInHeap h c)
    (i : Nat) (hi : i < c.NumberOfTransforms) (f : Ref)
    (hf : OtherSide c (c.TransformList (ReadIndex c i)) = some f) : f ≠ h.next := by
  obtain ⟨x, y⟩ := hh (ReadIndex c i) (ReadIndex_lt c i hi)
  unfold OtherSide at hf
  split at hf
  · exact Nat.ne_of_lt (x f hf)
  · exact Nat.ne_of_lt (y f hf)

theorem det_T123 : Example.T123.det = 1 := by
  simp [Example.T123, Matrix.det_succ_row_zero, Fin.sum_univ_succ, Matrix.submatrix,
    Matrix.vecHead, Matrix.vecTail]

theorem OneTranslate_Matrix : (Example.OneTranslate.1.get 0).Matrix = Example.T123 := by
  have e : Example.OneTranslate =
      ConcatenateMatrix Heap.empty vtkTransformConcatenation.New Example.T123 := by
    simp [Example.OneTranslate, Translate, Example.T123]
  rw [e, (ConcatenateMatrix_pre_none Heap.empty vtkTransformConcatenation.New Example.T123
    (by decide) rfl).2.2 0]
  simp [Heap.empty, Multiply4x4]

/-- In exact arithmetic: for every concatenation state that satisfies the fast-path position
invariant, whose list holds objects of the heap and whose fast-path matrices are
invertible, Inverse(); Inverse() restores the state: the whole record (count, pre-transform
count, InverseFlag, PreMultiplyFlag, both fast-path slots, the list) is as before, every
matrix is as before, and for every i below the count GetTransform(i) returns the same node,
with the same matrix, as before the two calls. -/
theorem InverseTwice_restores_exact (h : Heap) (c : vtkTransformConcatenation)
    (hinv : PositionInvariant c) (hheap : ListInHeap h c)
    (hpre : ∀ m, c.PreMatrix = some m → (h.get m).Matrix.det ≠ 0)
    (hpost : ∀ m, c.PostMatrix = some m → (h.get m).Matrix.det ≠ 0) :
    (InverseTwice h c).2 = c ∧
    (∀ s, ((InverseTwice h c).1.get s).Matrix = (h.get s).Matrix) ∧
    (∀ i, i < c.NumberOfTransforms →
      (GetTransform (InverseTwice h c).1 (InverseTwice h c).2 i).2.2 =
        (GetTransform h c i).2.2 ∧
      ∀ s, ((GetTransform (InverseTwice h c).1 (InverseTwice h c).2 i).1.get s).Matrix =
        ((GetTransform h c i).1.get s).Matrix) := by
  obtain ⟨hflag, hcount, -, -, -, -, hdist, -⟩ := hinv
  have e := InverseTwice_conc h c hflag hcount
  have hm := InverseTwice_Matrix h c hdist hpre hpost
  refine ⟨e, hm, fun i hi => ?_⟩
  rw [e]
  exact GetTransform_congr h (InverseTwice h c).1 c i (ListInHeap_other h c hheap i hi)
    (fun s => (InverseTwice_links h c s).1) (InverseTwice_links h c 0).2 hm

/-- The state after Translate(1,2,3) on a new concatenation, in exact arithmetic. -/
theorem InverseTwice_restores_exact_example :
    PositionInvariant Example.OneTranslate.2 ∧
    ListInHeap Example.OneTranslate.1 Example.OneTranslate.2 ∧
    (InverseTwice Example.OneTranslate.1 Example.OneTranslate.2).2 = Example.OneTranslate.2 ∧
    ((InverseTwice Example.OneTranslate.1 Example.OneTranslate.2).1.get 0).Matrix =
      (Example.OneTranslate.1.get 0).Matrix :=
  have hpre : ∀ m, Example.OneTranslate.2.PreMatrix = some m →
      (Example.OneTranslate.1.get m).Matrix.det ≠ 0 := by
    intro m hm
    have e : m = 0 := (Option.some.inj hm).symm
    rw [e, OneTranslate_Matrix, det_T123]
    exact one_ne_zero
  have hpost : ∀ m, Example.OneTranslate.2.PostMatrix = some m →
      (Example.OneTranslate.1.get m).Matrix.det ≠ 0 := by
    intro m hm
    have hn : Example.OneTranslate.2.PostMatrix = none := by decide
    rw [hn] at hm
    cases hm
  ⟨by decide, by decide,
    (InverseTwice_restores_exact Example.OneTranslate.1 Example.OneTranslate.2 (by decide)
      (by decide) hpre hpost).1,
    (InverseTwice_restores_exact Example.OneTranslate.1 Example.OneTranslate.2 (by decide)
      (by decide) hpre hpost).2.1 0⟩

end C3

/-! ## C4: what `Inverse` does to the composition -/

section C4
open vtkTransformConcatenation vtkAbstractTransform

variable (h : Heap) (c : vtkTransformConcatenation)

theorem Inverse_ReadIndex (i : Nat) (hi : i < c.NumberOfTransforms) :
    ReadIndex (Inverse h c).2 i = ReadIndex c (c.NumberOfTransforms - 1 - i) := by
  simp only [ReadIndex, (Inverse_fields h c).1, (Inverse_fields h c).2.2.2.2.2.2.1]
  by_cases hf : c.InverseFlag = 0
  · simp only [hf, ne_eq, not_true_eq_false, if_false, one_ne_zero, not_false_eq_true, if_true]
    omega
  · simp only [hf, ne_eq, not_false_eq_true, if_true, not_true_eq_false, if_false]
    omega

theorem Inverse_ReadSide (q : vtkTransformPair) :
    ReadSide (Inverse h c).2 q = OtherSide c q ∧ OtherSide (Inverse h c).2 q = ReadSide c q := by
  simp only [ReadSide, OtherSide, (Inverse_fields h c).1]
  by_cases hf : c.InverseFlag = 0 <;> simp [hf]

theorem ReadSide_swap (q : vtkTransformPair) :
    ReadSide c q.SwapForwardInverse = OtherSide c q ∧
    OtherSide c q.SwapForwardInverse = ReadSide c q := by
  simp only [ReadSide, OtherSide, vtkTransformPair.SwapForwardInverse]
  by_cases hf : c.InverseFlag = 0 <;> simp [hf]

theorem ReadIndex_first (j : Nat) (hj : j < c.NumberOfTransforms) :
    (ReadIndex c j = FirstIndex c ↔ j = 0) ∧
    (ReadIndex c j = LastIndex c ↔ j = c.NumberOfTransforms - 1) := by
  simp only [ReadIndex, FirstIndex, LastIndex]
  by_cases hf : c.InverseFlag = 0
  · simp [hf]
  · simp only [hf, ne_eq, not_false_eq_true, if_true]
    refine ⟨⟨fun _ => ?_, fun _ => ?_⟩, ⟨fun _ => ?_, fun _ => ?_⟩⟩ <;> omega

/-- At a position that holds a fast-path node, `GetTransform` returns that node before the
call of `Inverse` and, at the mirrored position, after it; its matrix has been inverted. -/
theorem Inverse_fast_path (hinv : PositionInvariant c) (i : Nat)
    (hi : i < c.NumberOfTransforms) (m : Ref)
    (hm : FastPathAt c (c.NumberOfTransforms - 1 - i) = some m) :
    (GetTransform h c (c.NumberOfTransforms - 1 - i)).2.2 = some m ∧
    (GetTransform (Inverse h c).1 (Inverse h c).2 i).2.2 = some m ∧
    ((Inverse h c).1.get m).Matrix = Invert (h.get m).Matrix := by
  obtain ⟨-, -, -, -, ipre, ipost, idist, -⟩ := hinv
  have hj : c.NumberOfTransforms - 1 - i < c.NumberOfTransforms := by omega
  obtain ⟨f1, f2⟩ := ReadIndex_first c _ hj
  have key : ReadSide c (c.TransformList (ReadIndex c (c.NumberOfTransforms - 1 - i))) = some m ∧
      (Inverse h c).2.TransformList (ReadIndex c (c.NumberOfTransforms - 1 - i)) =
        (c.TransformList (ReadIndex c (c.NumberOfTransforms - 1 - i))).SwapForwardInverse ∧
      ((c.PreMatrix = some m ∧ c.PostMatrix ≠ some m) ∨
        (c.PostMatrix = some m ∧ c.PreMatrix ≠ some m)) := by
    unfold FastPathAt at hm
    rw [Inverse_list_apply]
    split at hm
    · next hc =>
      obtain ⟨j0, p0⟩ := hc
      have e1 := f1.2 j0
      obtain ⟨-, rs⟩ := ipre p0
      have np : c.PostMatrix ≠ some m := fun z => idist p0 (hm.trans z.symm)
      refine ⟨by rw [e1, rs, hm], ?_, Or.inl ⟨hm, np⟩⟩
      have ncond : ¬ ((c.PreMatrix ≠ none ∧ ReadIndex c (c.NumberOfTransforms - 1 - i) =
          FirstIndex c) ↔ (c.PostMatrix ≠ none ∧
            ReadIndex c (c.NumberOfTransforms - 1 - i) = LastIndex c)) := by
        intro z
        obtain ⟨q0, q1⟩ := z.1 ⟨p0, e1⟩
        obtain ⟨-, rs2⟩ := ipost q0
        rw [← q1, e1, rs] at rs2
        exact idist p0 rs2
      rw [if_neg ncond]
    · split at hm
      · next hc1 hc2 =>
        obtain ⟨j0, p0⟩ := hc2
        have e1 := f2.2 j0
        obtain ⟨-, rs⟩ := ipost p0
        have np : c.PreMatrix ≠ some m := by
          intro z
          exact idist (by rw [z]; simp) (z.trans hm.symm)
        refine ⟨by rw [e1, rs, hm], ?_, Or.inr ⟨hm, np⟩⟩
        have ncond : ¬ ((c.PreMatrix ≠ none ∧ ReadIndex c (c.NumberOfTransforms - 1 - i) =
            FirstIndex c) ↔ (c.PostMatrix ≠ none ∧
              ReadIndex c (c.NumberOfTransforms - 1 - i) = LastIndex c)) := by
          intro z
          obtain ⟨q0, q1⟩ := z.2 ⟨p0, e1⟩
          obtain ⟨-, rs2⟩ := ipre q0
          rw [← q1, e1, rs] at rs2
          exact idist q0 rs2.symm
        rw [if_neg ncond]
      · cases hm
  obtain ⟨k1, k2, k3⟩ := key
  refine ⟨?_, ?_, ?_⟩
  · rw [GetTransform_ptr, k1]
  · rw [GetTransform_ptr, Inverse_ReadIndex h c i hi, k2, (Inverse_ReadSide h c _).1,
      (ReadSide_swap c _).2, k1]
  · rw [(Inverse_get h c m).1]
    rcases k3 with ⟨x, y⟩ | ⟨x, y⟩
    · simp [x, y]
    · simp [x, y]

/-- At a position that holds an ordinary node, `Inverse` leaves the pair as it is and
`GetTransform` reads its other member: the nodes returned before and after are each other's
inverse. -/
theorem Inverse_ordinary (hinv : PositionInvariant c) (hheap : ListInHeap h c)
    (hlinked : PairsLinked h c) (i : Nat) (hi : i < c.NumberOfTransforms)
    (hm : FastPathAt c (c.NumberOfTransforms - 1 - i) = none) :
    ∃ a b, (GetTransform h c (c.NumberOfTransforms - 1 - i)).2.2 = some a ∧
      (GetTransform (Inverse h c).1 (Inverse h c).2 i).2.2 = some b ∧
      ((GetInverse h a).2 = some b ∨ (GetInverse h b).2 = some a) := by
  obtain ⟨-, -, -, -, -, -, -, imem⟩ := hinv
  have hj : c.NumberOfTransforms - 1 - i < c.NumberOfTransforms := by omega
  obtain ⟨f1, f2⟩ := ReadIndex_first c _ hj
  have hp := ReadIndex_lt c _ hj
  have same : (Inverse h c).2.TransformList (ReadIndex c (c.NumberOfTransforms - 1 - i)) =
      c.TransformList (ReadIndex c (c.NumberOfTransforms - 1 - i)) := by
    rw [Inverse_list_apply]
    unfold FastPathAt at hm
    have n1 : ¬ (c.PreMatrix ≠ none ∧ ReadIndex c (c.NumberOfTransforms - 1 - i) =
        FirstIndex c) := by
      intro z
      rw [if_pos ⟨f1.1 z.2, z.1⟩] at hm
      exact z.1 hm
    have n2 : ¬ (c.PostMatrix ≠ none ∧ ReadIndex c (c.NumberOfTransforms - 1 - i) =
        LastIndex c) := by
      intro z
      by_cases w : (c.NumberOfTransforms - 1 - i = 0 ∧ c.PreMatrix ≠ none)
      · rw [if_pos w] at hm; exact w.2 hm
      · rw [if_neg w, if_pos ⟨f2.1 z.2, z.1⟩] at hm
        exact z.1 hm
    rw [if_pos (by simp only [n1, n2])]
  have links : ∀ s, ((Inverse h c).1.get s).MyInverse = (h.get s).MyInverse :=
    fun s => (Inverse_get h c s).2.1
  obtain ⟨vf, vi⟩ := hheap _ hp
  have mem := imem _ hp
  have lk := hlinked _ hp
  rw [GetTransform_ptr, GetTransform_ptr, Inverse_ReadIndex h c i hi, same,
    (Inverse_ReadSide h c _).1, (Inverse_ReadSide h c _).2]
  generalize c.TransformList (ReadIndex c (c.NumberOfTransforms - 1 - i)) = q at *
  have after : ∀ f, f ≠ h.next → (GetInverse (Inverse h c).1 f).2 = (GetInverse h f).2 := by
    intro f hf
    rw [(GetInverse_effect h f hf).1, (GetInverse_effect (Inverse h c).1 f (by simpa using hf)).1,
      links, Inverse_next]
  by_cases hf : c.InverseFlag = 0
  · simp only [ReadSide, OtherSide, hf, ne_eq, not_true_eq_false, if_false]
    cases hF : q.ForwardTransform with
    | none =>
      cases hI : q.InverseTransform with
      | none => simp [hF, hI] at mem
      | some g =>
        have e := (GetInverse_effect h g (Nat.ne_of_lt (vi g hI))).1
        exact ⟨_, g, e, rfl, Or.inr e⟩
    | some f =>
      cases hI : q.InverseTransform with
      | none =>
        have e := (GetInverse_effect h f (Nat.ne_of_lt (vf f hF))).1
        refine ⟨f, _, rfl, ?_, Or.inl e⟩
        simp only [after f (Nat.ne_of_lt (vf f hF)), e]
      | some g =>
        refine ⟨f, g, rfl, rfl, ?_⟩
        rcases lk f hF g hI with x | x
        · exact Or.inl (by rw [GetInverse_linked h f g x])
        · exact Or.inr (by rw [GetInverse_linked h g f x])
  · simp only [ReadSide, OtherSide, hf, ne_eq, not_false_eq_true, if_true]
    cases hI : q.InverseTransform with
    | none =>
      cases hF : q.ForwardTransform with
      | none => simp [hF, hI] at mem
      | some g =>
        have e := (GetInverse_effect h g (Nat.ne_of_lt (vf g hF))).1
        exact ⟨_, g, e, rfl, Or.inr e⟩
    | some f =>
      cases hF : q.ForwardTransform with
      | none =>
        have e := (GetInverse_effect h f (Nat.ne_of_lt (vi f hI))).1
        refine ⟨f, _, rfl, ?_, Or.inl e⟩
        simp only [after f (Nat.ne_of_lt (vi f hI)), e]
      | some g =>
        refine ⟨f, g, rfl, rfl, ?_⟩
        rcases lk g hF f hI with x | x
        · exact Or.inr (by rw [GetInverse_linked h g f x])
        · exact Or.inl (by rw [GetInverse_linked h f g x])

end C4

section C4Claim
open vtkTransformConcatenation vtkAbstractTransform

end C4Claim

/-! ## `DeepCopy`: the by-reference part -/

section DeepCopyPrepareLemmas
open vtkTransformConcatenation

theorem Register_frame (h : Heap) (r : Ref) : h.SameButCounts (vtkObject.Register h r) :=
  Heap.SameButCounts.set_node _ _ _ (by simp [Node.SameButCounts])

theorem RegisterPtr_frame (h : Heap) (p : Option Ref) : h.SameButCounts (RegisterPtr h p) := by
  cases p with
  | none => exact Heap.SameButCounts.refl_heap h
  | some q => exact Register_frame h q

theorem ReleaseLoop_frame (count : Nat) : ∀ (i : Nat) (h : Heap) (l : Nat → vtkTransformPair),
    h.SameButCounts (ReleaseLoop count i h l).1 := by
  induction count with
  | zero => intro i h l; exact Heap.SameButCounts.refl_heap h
  | succ n ih =>
    intro i h l
    simp only [ReleaseLoop]
    exact ((DeletePtr_frame h _).trans_heap (DeletePtr_frame _ _)).trans_heap (ih _ _ _)

theorem ReleaseLoop_list (count : Nat) : ∀ (i : Nat) (h : Heap) (l : Nat → vtkTransformPair)
    (k : Nat), (ReleaseLoop count i h l).2 k =
      if i ≤ k ∧ k < i + count then vtkTransformPair.null else l k := by
  induction count with
  | zero =>
    intro i h l k
    have hx : ¬ (i ≤ k ∧ k < i) := by omega
    simp [ReleaseLoop, hx]
  | succ n ih =>
    intro i h l k
    simp only [ReleaseLoop, ih]
    by_cases e : k = i
    · subst e
      have a : ¬ (k + 1 ≤ k ∧ k < k + 1 + n) := by omega
      have b : k ≤ k ∧ k < k + (n + 1) := by omega
      simp [a, b]
    · by_cases a : i + 1 ≤ k ∧ k < i + 1 + n
      · have b : i ≤ k ∧ k < i + (n + 1) := by omega
        simp [a, b]
      · have b : ¬ (i ≤ k ∧ k < i + (n + 1)) := by omega
        simp [a, b, Function.update_noteq e]

theorem CopyMember_frame (h : Heap) (live : Bool) (mine theirs : Option Ref) :
    h.SameButCounts (CopyMember h live mine theirs).1 := by
  unfold CopyMember
  split
  · dsimp only
    split
    · exact (DeletePtr_frame h _).trans_heap (RegisterPtr_frame _ _)
    · exact RegisterPtr_frame _ _
  · exact Heap.SameButCounts.refl_heap h

theorem CopyMember_snd (h : Heap) (live : Bool) (mine theirs : Option Ref) :
    (CopyMember h live mine theirs).2 = theirs := by
  unfold CopyMember
  split
  · rfl
  · next e => simpa using e

theorem CopyLoop_frame (n0 : Nat) (l2 : Nat → vtkTransformPair) (count : Nat) :
    ∀ (i : Nat) (h : Heap) (l : Nat → vtkTransformPair),
      h.SameButCounts (CopyLoop n0 l2 count i h l).1 := by
  induction count with
  | zero => intro i h l; exact Heap.SameButCounts.refl_heap h
  | succ n ih =>
    intro i h l
    simp only [CopyLoop]
    exact ((CopyMember_frame h _ _ _).trans_heap (CopyMember_frame _ _ _ _)).trans_heap
      (ih _ _ _)

theorem CopyLoop_list (n0 : Nat) (l2 : Nat → vtkTransformPair) (count : Nat) :
    ∀ (i : Nat) (h : Heap) (l : Nat → vtkTransformPair) (k : Nat),
      (CopyLoop n0 l2 count i h l).2 k = if i ≤ k ∧ k < i + count then l2 k else l k := by
  induction count with
  | zero =>
    intro i h l k
    have hx : ¬ (i ≤ k ∧ k < i) := by omega
    simp [CopyLoop, hx]
  | succ n ih =>
    intro i h l k
    simp only [CopyLoop, ih, CopyMember_snd]
    by_cases e : k = i
    · subst e
      have a : ¬ (k + 1 ≤ k ∧ k < k + 1 + n) := by omega
      have b : k ≤ k ∧ k < k + (n + 1) := by omega
      simp [a, b]
    · by_cases a : i + 1 ≤ k ∧ k < i + 1 + n
      · have b : i ≤ k ∧ k < i + (n + 1) := by omega
        simp [a, b]
      · have b : ¬ (i ≤ k ∧ k < i + (n + 1)) := by omega
        simp [a, b, Function.update_noteq e]

theorem DetachSlot_frame (h : Heap) (l : Nat → vtkTransformPair) (f : Int) (a b : Nat) :
    h.SameButCounts (DetachSlot h l f a b).1 :=
  DeletePtr_frame _ _

/-- The heap that the by-reference part of `DeepCopy` leaves differs from the heap before
only in reference counting. -/
theorem DeepCopyPrepare_frame (h : Heap) (this concat : vtkTransformConcatenation) :
    h.SameButCounts (DeepCopyPrepare h this concat).heap := by
  unfold DeepCopyPrepare
  dsimp only
  refine Heap.SameButCounts.trans_heap ?_ (ReleaseLoop_frame _ _ _ _)
  refine Heap.SameButCounts.trans_heap ?_ (CopyLoop_frame _ _ _ _ _ _)
  split
  · refine Heap.SameButCounts.trans_heap ?_ (DetachSlot_frame _ _ _ _ _)
    split
    · exact DetachSlot_frame _ _ _ _ _
    · exact Heap.SameButCounts.refl_heap h
  · split
    · exact DetachSlot_frame _ _ _ _ _
    · exact Heap.SameButCounts.refl_heap h

/-- After the by-reference part of `DeepCopy`, every index of the copy range holds the pair
of the source. -/
theorem DeepCopyPrepare_list (h : Heap) (this concat : vtkTransformConcatenation) (k : Nat)
    (h1 : (CopyRange concat).1 ≤ k) (h2 : k < (CopyRange concat).2) :
    (DeepCopyPrepare h this concat).list k = concat.TransformList k := by
  have hn : (CopyRange concat).2 ≤ concat.NumberOfTransforms := by
    simp only [CopyRange]; split_ifs <;> omega
  unfold DeepCopyPrepare
  dsimp only
  rw [ReleaseLoop_list, CopyLoop_list]
  have a : ¬ (concat.NumberOfTransforms ≤ k ∧
      k < concat.NumberOfTransforms + (this.NumberOfTransforms - concat.NumberOfTransforms)) := by
    omega
  have b : (CopyRange concat).1 ≤ k ∧
      k < (CopyRange concat).1 + ((CopyRange concat).2 - (CopyRange concat).1) := by omega
  rw [if_neg a, if_pos b]

theorem DeepCopyPrepare_olds (h : Heap) (this concat : vtkTransformConcatenation) :
    (DeepCopyPrepare h this concat).oldPreMatrixTransform =
      (if this.PreMatrix ≠ none then this.PreMatrixTransform else none) ∧
    (DeepCopyPrepare h this concat).oldPostMatrixTransform =
      (if this.PostMatrix ≠ none then this.PostMatrixTransform else none) ∧
    (DeepCopyPrepare h this concat).PreMatrix = none ∧
    (DeepCopyPrepare h this concat).PostMatrix = none := ⟨rfl, rfl, rfl, rfl⟩

end DeepCopyPrepareLemmas

/-! ## `DeepCopy`: the fast-path part -/

section DeepCopySlotLemmas
open vtkTransformConcatenation

variable (h : Heap) (l : Nat → vtkTransformPair) (src i : Nat) (flag : Int) (reuse : Option Ref)

theorem CopySlot_ref : (CopySlot h l src i flag reuse).2.2 = reuse.getD h.next := by
  cases reuse <;> rfl

theorem CopySlot_list :
    (CopySlot h l src i flag reuse).2.1 =
      Function.update l i (NewPair flag (reuse.getD h.next)) := by
  cases reuse <;> rfl

theorem CopySlot_next :
    (CopySlot h l src i flag reuse).1.next = if reuse = none then h.next + 1 else h.next := by
  cases reuse <;> simp [CopySlot]

theorem CopySlot_next_le : h.next ≤ (CopySlot h l src i flag reuse).1.next := by
  rw [CopySlot_next]; split <;> omega

/-- The leaf a fast-path block of `DeepCopy` writes holds the matrix of the source leaf. -/
theorem CopySlot_copied (hsrc : src ≠ h.next) :
    ((CopySlot h l src i flag reuse).1.get (reuse.getD h.next)).Matrix = (h.get src).Matrix := by
  cases reuse with
  | none =>
    simp only [CopySlot, Matrix_DeletePtr, Matrix_Modified, get_vtkMatrix4x4_DeepCopy,
      vtkSimpleTransform_New_snd, Option.getD_none, if_true]
    exact congrArg Node.Matrix (get_New_ne h src _ _ hsrc)
  | some r =>
    simp only [CopySlot, Matrix_DeletePtr, Matrix_Modified, get_vtkMatrix4x4_DeepCopy,
      Option.getD_some, if_true]

/-- A fast-path block of `DeepCopy` writes no matrix but the one of its leaf. -/
theorem CopySlot_frame (s : Ref) (hs : s ≠ reuse.getD h.next) (hs2 : s ≠ h.next) :
    ((CopySlot h l src i flag reuse).1.get s).Matrix = (h.get s).Matrix := by
  cases reuse with
  | none =>
    simp only [CopySlot, Matrix_DeletePtr, Matrix_Modified, get_vtkMatrix4x4_DeepCopy,
      vtkSimpleTransform_New_snd, hs2, if_false]
    exact congrArg Node.Matrix (get_New_ne h s _ _ hs2)
  | some r =>
    simp only [Option.getD_some] at hs
    simp only [CopySlot, Matrix_DeletePtr, Matrix_Modified, get_vtkMatrix4x4_DeepCopy, hs,
      if_false]

end DeepCopySlotLemmas

section DeepCopyFrameLemmas
open vtkTransformConcatenation

theorem getD_cases (o : Option Ref) (n m : Nat) (hm : o.getD n = m) : some m = o ∨ n = m := by
  cases o with
  | none => right; simpa using hm
  | some r => left; simp only [Option.getD_some] at hm; rw [hm]

theorem ne_getD (o : Option Ref) (n x : Nat) (hx : x < n) (h1 : some x ≠ o) :
    x ≠ o.getD n := by
  cases o with
  | none => simp only [Option.getD_none]; omega
  | some r =>
    simp only [Option.getD_some]
    intro e; rw [e] at h1; exact h1 rfl

/-- What the block of `DeepCopy` for the PreMatrix transform may write: the old fast-path
nodes of the receiver and newly allocated nodes. -/
theorem DeepCopyPre_frame (this concat : vtkTransformConcatenation) (s : DeepCopyState) :
    s.heap.next ≤ (DeepCopyPre this concat s).heap.next ∧
    ((DeepCopyPre this concat s).oldPreMatrixTransform = s.oldPreMatrixTransform ∨
      (DeepCopyPre this concat s).oldPreMatrixTransform = none) ∧
    ((DeepCopyPre this concat s).oldPostMatrixTransform = s.oldPostMatrixTransform ∨
      (DeepCopyPre this concat s).oldPostMatrixTransform = none) ∧
    (DeepCopyPre this concat s).PostMatrix = s.PostMatrix ∧
    (∀ m, (DeepCopyPre this concat s).PreMatrix = some m → s.PreMatrix = some m ∨
      some m = s.oldPreMatrixTransform ∨ some m = s.oldPostMatrixTransform ∨
      s.heap.next ≤ m) ∧
    (∀ x, x < s.heap.next → some x ≠ s.oldPreMatrixTransform →
      some x ≠ s.oldPostMatrixTransform →
      ((DeepCopyPre this concat s).heap.get x).Matrix = (s.heap.get x).Matrix) := by
  unfold DeepCopyPre
  cases hsrc : concat.PreMatrix with
  | none =>
    exact ⟨Nat.le_refl _, Or.inl rfl, Or.inl rfl, rfl, fun m hm => Or.inl hm, fun _ _ _ _ => rfl⟩
  | some src =>
    dsimp only
    split
    · refine ⟨CopySlot_next_le s.heap s.list src _ concat.InverseFlag s.oldPreMatrixTransform, Or.inr rfl, Or.inl rfl, rfl, ?_, ?_⟩
      · intro m hm
        simp only [CopySlot_ref, Option.some.injEq] at hm
        rcases getD_cases _ _ _ hm with e | e
        · simp [e]
        · right; right; right; omega
      · intro x hx h1 _
        exact CopySlot_frame s.heap s.list src _ concat.InverseFlag s.oldPreMatrixTransform x
          (ne_getD _ _ _ hx h1) (Nat.ne_of_lt hx)
    · refine ⟨CopySlot_next_le s.heap s.list src _ concat.InverseFlag s.oldPostMatrixTransform, Or.inl rfl, Or.inr rfl, rfl, ?_, ?_⟩
      · intro m hm
        simp only [CopySlot_ref, Option.some.injEq] at hm
        rcases getD_cases _ _ _ hm with e | e
        · simp [e]
        · right; right; right; omega
      · intro x hx _ h2
        exact CopySlot_frame s.heap s.list src _ concat.InverseFlag s.oldPostMatrixTransform x
          (ne_getD _ _ _ hx h2) (Nat.ne_of_lt hx)

/-- What the block of `DeepCopy` for the PostMatrix transform may write. -/
theorem DeepCopyPost_frame (this concat : vtkTransformConcatenation) (s : DeepCopyState) :
    s.heap.next ≤ (DeepCopyPost this concat s).heap.next ∧
    ((DeepCopyPost this concat s).oldPreMatrixTransform = s.oldPreMatrixTransform ∨
      (DeepCopyPost this concat s).oldPreMatrixTransform = none) ∧
    ((DeepCopyPost this concat s).oldPostMatrixTransform = s.oldPostMatrixTransform ∨
      (DeepCopyPost this concat s).oldPostMatrixTransform = none) ∧
    (DeepCopyPost this concat s).PreMatrix = s.PreMatrix ∧
    (∀ m, (DeepCopyPost this concat s).PostMatrix = some m → s.PostMatrix = some m ∨
      some m = s.oldPreMatrixTransform ∨ some m = s.oldPostMatrixTransform ∨
      s.heap.next ≤ m) ∧
    (∀ x, x < s.heap.next → some x ≠ s.oldPreMatrixTransform →
      some x ≠ s.oldPostMatrixTransform →
      ((DeepCopyPost this concat s).heap.get x).Matrix = (s.heap.get x).Matrix) := by
  unfold DeepCopyPost
  cases hsrc : concat.PostMatrix with
  | none =>
    exact ⟨Nat.le_refl _, Or.inl rfl, Or.inl rfl, rfl, fun m hm => Or.inl hm, fun _ _ _ _ => rfl⟩
  | some src =>
    dsimp only
    split
    · refine ⟨CopySlot_next_le s.heap s.list src _ concat.InverseFlag s.oldPostMatrixTransform, Or.inl rfl, Or.inr rfl, rfl, ?_, ?_⟩
      · intro m hm
        simp only [CopySlot_ref, Option.some.injEq] at hm
        rcases getD_cases _ _ _ hm with e | e
        · simp [e]
        · right; right; right; omega
      · intro x hx _ h2
        exact CopySlot_frame s.heap s.list src _ concat.InverseFlag s.oldPostMatrixTransform x
          (ne_getD _ _ _ hx h2) (Nat.ne_of_lt hx)
    · refine ⟨CopySlot_next_le s.heap s.list src _ concat.InverseFlag s.oldPreMatrixTransform, Or.inr rfl, Or.inl rfl, rfl, ?_, ?_⟩
      · intro m hm
        simp only [CopySlot_ref, Option.some.injEq] at hm
        rcases getD_cases _ _ _ hm with e | e
        · simp [e]
        · right; right; right; omega
      · intro x hx h1 _
        exact CopySlot_frame s.heap s.list src _ concat.InverseFlag s.oldPreMatrixTransform x
          (ne_getD _ _ _ hx h1) (Nat.ne_of_lt hx)

end DeepCopyFrameLemmas

section DeepCopyFrame
open vtkTransformConcatenation

/-- What `DeepCopy` writes, whatever the two concatenations: the receiver takes the counts
and flags of the source; its new fast-path nodes are its old ones or newly allocated; and no
matrix of an object allocated before the call changes, except those of the receiver's old
fast-path nodes. -/
theorem DeepCopy_frame (h : Heap) (this concat : vtkTransformConcatenation) :
    h.next ≤ (DeepCopy h this concat).1.next ∧
    (∀ m, (DeepCopy h this concat).2.PreMatrix = some m →
      some m = ReusablePre this ∨ some m = ReusablePost this ∨ h.next ≤ m) ∧
    (∀ m, (DeepCopy h this concat).2.PostMatrix = some m →
      some m = ReusablePre this ∨ some m = ReusablePost this ∨ h.next ≤ m) ∧
    (∀ x, x < h.next → some x ≠ ReusablePre this → some x ≠ ReusablePost this →
      ((DeepCopy h this concat).1.get x).Matrix = (h.get x).Matrix) ∧
    (DeepCopy h this concat).2.PreMultiplyFlag = concat.PreMultiplyFlag ∧
    (DeepCopy h this concat).2.InverseFlag = concat.InverseFlag ∧
    (DeepCopy h this concat).2.NumberOfTransforms = concat.NumberOfTransforms ∧
    (DeepCopy h this concat).2.NumberOfPreTransforms = concat.NumberOfPreTransforms ∧
    (DeepCopy h this concat).2.PreMatrixTransform = (DeepCopy h this concat).2.PreMatrix ∧
    (DeepCopy h this concat).2.PostMatrixTransform = (DeepCopy h this concat).2.PostMatrix := by
  have f0 := DeepCopyPrepare_frame h this concat
  obtain ⟨o1, o2, o3, o4⟩ := DeepCopyPrepare_olds h this concat
  obtain ⟨a1, a2, a3, a4, a5, a6⟩ := DeepCopyPre_frame this concat (DeepCopyPrepare h this concat)
  obtain ⟨b1, b2, b3, b4, b5, b6⟩ := DeepCopyPost_frame this concat
    (DeepCopyPre this concat (DeepCopyPrepare h this concat))
  have n0 : (DeepCopyPrepare h this concat).heap.next = h.next := f0.2.1
  have oldPre1 : ∀ x : Ref, some x ≠ ReusablePre this →
      some x ≠ (DeepCopyPre this concat (DeepCopyPrepare h this concat)).oldPreMatrixTransform := by
    intro x hx
    rcases a2 with e | e
    · rw [e, o1]; exact hx
    · rw [e]; simp
  have oldPost1 : ∀ x : Ref, some x ≠ ReusablePost this →
      some x ≠ (DeepCopyPre this concat (DeepCopyPrepare h this concat)).oldPostMatrixTransform := by
    intro x hx
    rcases a3 with e | e
    · rw [e, o2]; exact hx
    · rw [e]; simp
  refine ⟨?_, ?_, ?_, ?_, rfl, rfl, rfl, rfl, rfl, rfl⟩
  · simp only [DeepCopy, next_DeletePtr]
    omega
  · intro m hm
    have hm' : (DeepCopyPre this concat (DeepCopyPrepare h this concat)).PreMatrix = some m := by
      rw [← b4]; exact hm
    rcases a5 m hm' with e | e | e | e
    · rw [o3] at e; cases e
    · rw [o1] at e; exact Or.inl e
    · rw [o2] at e; exact Or.inr (Or.inl e)
    · rw [n0] at e; exact Or.inr (Or.inr e)
  · intro m hm
    rcases b5 m hm with e | e | e | e
    · rw [a4, o4] at e; cases e
    · by_contra hc
      simp only [not_or] at hc
      exact oldPre1 m hc.1 e
    · by_contra hc
      simp only [not_or] at hc
      exact oldPost1 m hc.2.1 e
    · right; right; omega
  · intro x hx h1 h2
    simp only [DeepCopy, Matrix_DeletePtr]
    rw [b6 x (by omega) (oldPre1 x h1) (oldPost1 x h2),
      a6 x (by omega) (by rw [o1]; exact h1) (by rw [o2]; exact h2)]
    exact (f0.1 x).2.2.2.2.2.2.1

end DeepCopyFrame

/-! ## What builder operations write -/

section BuilderFrame
open vtkTransformConcatenation

variable (rot : ℚ → ℚ → ℚ → ℚ → Mat4) (S : Ref → Prop)

theorem ConcatenateMatrix_SlotsOutside (h : Heap) (c : vtkTransformConcatenation) (E : Mat4)
    (hs : SlotsOutside S h c) :
    SlotsOutside S (ConcatenateMatrix h c E).1 (ConcatenateMatrix h c E).2 ∧
    (∀ r, S r → ((ConcatenateMatrix h c E).1.get r).Matrix = (h.get r).Matrix) ∧
    (ConcatenateMatrix h c E).2.PreMultiplyFlag = c.PreMultiplyFlag := by
  obtain ⟨s1, s2, s3⟩ := hs
  have fresh : ¬ S h.next := fun x => Nat.lt_irrefl _ (s3 _ x)
  by_cases hp : c.PreMultiplyFlag = 0
  · cases hm : c.PostMatrix with
    | some m =>
      obtain ⟨e1, e2, e3⟩ := ConcatenateMatrix_post_some h c E m hp hm
      rw [e1]
      refine ⟨⟨s1, s2, fun r hr => by rw [e2]; exact s3 r hr⟩, fun r hr => ?_, rfl⟩
      rw [e3, if_neg]
      intro x; subst x; exact s2 r hm hr
    | none =>
      obtain ⟨e1, e2, e3⟩ := ConcatenateMatrix_post_none h c E hp hm
      rw [e1]
      refine ⟨⟨?_, ?_, fun r hr => by rw [e2]; exact Nat.lt_succ_of_lt (s3 r hr)⟩,
        fun r hr => ?_, ?_⟩
      · intro m hx
        simp only [Concatenate_PreMatrix, hp, ne_eq, not_true_eq_false, if_false] at hx
        exact s1 m hx
      · intro m hx
        simp only [Option.some.injEq] at hx
        rw [← hx]; exact fresh
      · rw [e3, if_neg]
        intro x; subst x; exact fresh hr
      · simp
  · cases hm : c.PreMatrix with
    | some m =>
      obtain ⟨e1, e2, e3⟩ := ConcatenateMatrix_pre_some h c E m hp hm
      rw [e1]
      refine ⟨⟨s1, s2, fun r hr => by rw [e2]; exact s3 r hr⟩, fun r hr => ?_, rfl⟩
      rw [e3, if_neg]
      intro x; subst x; exact s1 r hm hr
    | none =>
      obtain ⟨e1, e2, e3⟩ := ConcatenateMatrix_pre_none h c E hp hm
      rw [e1]
      refine ⟨⟨?_, ?_, fun r hr => by rw [e2]; exact Nat.lt_succ_of_lt (s3 r hr)⟩,
        fun r hr => ?_, ?_⟩
      · intro m hx
        simp only [Option.some.injEq] at hx
        rw [← hx]; exact fresh
      · intro m hx
        simp only [Concatenate_PostMatrix, hp, if_false] at hx
        exact s2 m hx
      · rw [e3, if_neg]
        intro x; subst x; exact fresh hr
      · simp

theorem Concatenate_SlotsOutside (h : Heap) (c : vtkTransformConcatenation) (t : Ref)
    (hs : SlotsOutside S h c) :
    SlotsOutside S (Concatenate h c t).1 (Concatenate h c t).2 ∧
    (∀ r, S r → ((Concatenate h c t).1.get r).Matrix = (h.get r).Matrix) ∧
    (Concatenate h c t).2.PreMultiplyFlag = c.PreMultiplyFlag := by
  obtain ⟨s1, s2, s3⟩ := hs
  refine ⟨⟨?_, ?_, ?_⟩, fun r _ => by simp, by simp⟩
  · intro m hx
    rw [Concatenate_PreMatrix] at hx
    split at hx
    · cases hx
    · exact s1 m hx
  · intro m hx
    rw [Concatenate_PostMatrix] at hx
    split at hx
    · cases hx
    · exact s2 m hx
  · intro r hr; simpa using s3 r hr

theorem Inverse_SlotsOutside (h : Heap) (c : vtkTransformConcatenation)
    (hs : SlotsOutside S h c) :
    SlotsOutside S (Inverse h c).1 (Inverse h c).2 ∧
    (∀ r, S r → ((Inverse h c).1.get r).Matrix = (h.get r).Matrix) ∧
    (Inverse h c).2.PreMultiplyFlag = c.PreMultiplyFlag := by
  obtain ⟨s1, s2, s3⟩ := hs
  refine ⟨⟨fun m hx => s2 m hx, fun m hx => s1 m hx, fun r hr => by simpa using s3 r hr⟩,
    fun r hr => ?_, rfl⟩
  rw [(Inverse_get h c r).1]
  have x1 : c.PreMatrix ≠ some r := fun x => s1 r x hr
  have x2 : c.PostMatrix ≠ some r := fun x => s2 r x hr
  simp [x1, x2]

theorem Identity_SlotsOutside (h : Heap) (c : vtkTransformConcatenation)
    (hs : SlotsOutside S h c) :
    SlotsOutside S (Identity h c).1 (Identity h c).2 ∧
    (∀ r, S r → ((Identity h c).1.get r).Matrix = (h.get r).Matrix) ∧
    (Identity h c).2.PreMultiplyFlag = c.PreMultiplyFlag := by
  obtain ⟨-, -, s3⟩ := hs
  have fr := ReleaseLoop_frame c.NumberOfTransforms 0 h c.TransformList
  refine ⟨⟨fun m hx => (by cases hx), fun m hx => (by cases hx), fun r hr => ?_⟩,
    fun r _ => (fr.1 r).2.2.2.2.2.2.1, rfl⟩
  have := s3 r hr
  simp only [Identity]
  rw [fr.2.1]; exact this

/-- A builder operation keeps the fast-path slots of its concatenation outside a set of
allocated objects, writes no matrix of that set, and keeps PreMultiplyFlag. -/
theorem BuilderOp_frame (op : BuilderOp) (h : Heap) (c : vtkTransformConcatenation)
    (hs : SlotsOutside S h c) :
    SlotsOutside S (op.Run rot h c).1 (op.Run rot h c).2 ∧
    (∀ r, S r → ((op.Run rot h c).1.get r).Matrix = (h.get r).Matrix) ∧
    (op.Run rot h c).2.PreMultiplyFlag = c.PreMultiplyFlag := by
  cases op with
  | ConcatenateMatrix E => exact ConcatenateMatrix_SlotsOutside S h c E hs
  | Concatenate t => exact Concatenate_SlotsOutside S h c t hs
  | Translate x y z =>
    simp only [BuilderOp.Run, Translate]
    split
    · exact ⟨hs, fun _ _ => rfl, rfl⟩
    · exact ConcatenateMatrix_SlotsOutside S h c _ hs
  | Rotate a x y z => exact ConcatenateMatrix_SlotsOutside S h c _ hs
  | Scale x y z =>
    simp only [BuilderOp.Run, Scale]
    split
    · exact ⟨hs, fun _ _ => rfl, rfl⟩
    · exact ConcatenateMatrix_SlotsOutside S h c _ hs
  | Inverse => exact Inverse_SlotsOutside S h c hs
  | Identity => exact Identity_SlotsOutside S h c hs

/-- The same for a sequence of builder operations. -/
theorem RunAll_frame (ops : List BuilderOp) : ∀ (h : Heap) (c : vtkTransformConcatenation),
    SlotsOutside S h c →
    SlotsOutside S (BuilderOp.RunAll rot ops h c).1 (BuilderOp.RunAll rot ops h c).2 ∧
    (∀ r, S r → ((BuilderOp.RunAll rot ops h c).1.get r).Matrix = (h.get r).Matrix) ∧
    (BuilderOp.RunAll rot ops h c).2.PreMultiplyFlag = c.PreMultiplyFlag := by
  induction ops with
  | nil => intro h c hs; exact ⟨hs, fun _ _ => rfl, rfl⟩
  | cons op rest ih =>
    intro h c hs
    obtain ⟨a1, a2, a3⟩ := BuilderOp_frame rot S op h c hs
    obtain ⟨b1, b2, b3⟩ := ih _ _ a1
    simp only [BuilderOp.RunAll]
    exact ⟨b1, fun r hr => (b2 r hr).trans (a2 r hr), b3.trans a3⟩

end BuilderFrame

/-! ## C5: `Push`, builder operations, `Pop` -/

section C5
open vtkTransformConcatenation vtkTransformConcatenationStack

theorem Push_effect (s : vtkTransformConcatenationStack) (h : Heap)
    (c : vtkTransformConcatenation) :
    (Push s h c).2 = DeepCopy h vtkTransformConcatenation.New c ∧
    (Push s h c).1.Stack = s.Stack + 1 ∧
    (Push s h c).1.StackBottom s.Stack = c ∧
    (∀ k, k < s.Stack → (Push s h c).1.StackBottom k = s.StackBottom k) := by
  unfold Push
  dsimp only
  by_cases hg : s.Stack = s.StackSize
  · rw [if_pos hg]
    dsimp only
    rw [← hg]
    refine ⟨by simp, by simp, by simp, fun k hk => ?_⟩
    rw [Function.update_noteq (Nat.ne_of_lt hk), if_pos (by omega)]
  · rw [if_neg hg]
    refine ⟨by simp, by simp, by simp, fun k hk => ?_⟩
    rw [Function.update_noteq (Nat.ne_of_lt hk)]

theorem Pop_effect (s : vtkTransformConcatenationStack) (h : Heap)
    (c : vtkTransformConcatenation) (hne : s.Stack ≠ 0) :
    Pop s h c =
      ({ s with Stack := s.Stack - 1 }, Destructor h c,
        (s.StackBottom (s.Stack - 1)).SetPreMultiplyFlag c.PreMultiplyFlag) := by
  unfold Pop
  rw [if_neg hne]

theorem Destructor_frame (h : Heap) (c : vtkTransformConcatenation) :
    h.SameButCounts (Destructor h c) :=
  ReleaseLoop_frame _ _ _ _

theorem SetPreMultiplyFlag_self (c : vtkTransformConcatenation) :
    c.SetPreMultiplyFlag c.PreMultiplyFlag = c := rfl

/-- C5: for every stack, heap, concatenation c and finite sequence of builder operations
(Concatenate of a matrix or of a transform, Translate, Rotate, Scale, Inverse, Identity)
applied to the live concatenation between Push and the matching Pop: after Pop the
concatenation handed back is the record c was before Push (count, pre-transform count,
flags, fast-path slots, list pairs), the matrix of every object allocated before Push is
what it was, and the stack has its depth and its entries of before. -/
theorem C5_push_run_pop_restores (rot : ℚ → ℚ → ℚ → ℚ → Mat4)
    (s : vtkTransformConcatenationStack) (h : Heap) (c : vtkTransformConcatenation)
    (ops : List BuilderOp) :
    (PushRunPop rot s h c ops).2.2 = c ∧
    (∀ x, x < h.next → ((PushRunPop rot s h c ops).2.1.get x).Matrix = (h.get x).Matrix) ∧
    (PushRunPop rot s h c ops).1.Stack = s.Stack ∧
    (∀ k, k < s.Stack → (PushRunPop rot s h c ops).1.StackBottom k = s.StackBottom k) := by
  obtain ⟨p1, p2, p3, p4⟩ := Push_effect s h c
  obtain ⟨d1, d2, d3, d4, d5, -⟩ := DeepCopy_frame h vtkTransformConcatenation.New c
  have hS : SlotsOutside (fun r => r < h.next) (Push s h c).2.1 (Push s h c).2.2 := by
    rw [p1]
    refine ⟨fun m hm => ?_, fun m hm => ?_, fun r hr => Nat.lt_of_lt_of_le hr d1⟩
    · rcases d2 m hm with e | e | e
      · cases e
      · cases e
      · exact Nat.not_lt.mpr e
    · rcases d3 m hm with e | e | e
      · cases e
      · cases e
      · exact Nat.not_lt.mpr e
  obtain ⟨r1, r2, r3⟩ := RunAll_frame rot (fun r => r < h.next) ops _ _ hS
  have hne : (Push s h c).1.Stack ≠ 0 := by rw [p2]; omega
  unfold PushRunPop
  rw [Pop_effect _ _ _ hne]
  dsimp only
  rw [p2, Nat.add_sub_cancel, p3, r3]
  refine ⟨?_, fun x hx => ?_, rfl, p4⟩
  · rw [p1, d5]; rfl
  · rw [((Destructor_frame _ _).1 x).2.2.2.2.2.2.1, r2 x hx, p1]
    exact d4 x hx (by simp [ReusablePre, vtkTransformConcatenation.New])
      (by simp [ReusablePost, vtkTransformConcatenation.New])

end C5

/-! ## `DeepCopy`: the structure of the copy -/

section DeepCopyStructure
open vtkTransformConcatenation

/-- Below the count, the copy range of `DeepCopy` is the set of indices that hold no
fast-path node of the source. -/
theorem CopyRange_iff (c : vtkTransformConcatenation) (k : Nat)
    (hk : k < c.NumberOfTransforms) :
    ((CopyRange c).1 ≤ k ∧ k < (CopyRange c).2) ↔ ¬ IsFastIndex c k := by
  simp only [CopyRange, IsFastIndex, FirstIndex, LastIndex]
  by_cases hf : c.InverseFlag = 0 <;> by_cases h1 : c.PreMatrix = none <;>
    by_cases h2 : c.PostMatrix = none <;>
    simp only [hf, h1, h2, ne_eq, not_true_eq_false, not_false_eq_true, false_and, true_and,
      and_false, and_true, if_false, if_true, or_false, false_or, not_or, and_self] <;>
    first
    | omega
    | (constructor <;> intro _ <;> omega)
    | (constructor <;> intro hh <;> (try constructor) <;> omega)

/-- The two ends of a list that hold two different fast-path nodes are different indices. -/
theorem FirstIndex_ne_LastIndex (c : vtkTransformConcatenation) (hinv : PositionInvariant c)
    (h1 : c.PreMatrix ≠ none) (h2 : c.PostMatrix ≠ none) : FirstIndex c ≠ LastIndex c := by
  obtain ⟨-, -, -, -, ipre, ipost, idist, -⟩ := hinv
  intro e
  have a := (ipre h1).2
  have b := (ipost h2).2
  rw [e, b] at a
  exact idist h1 a.symm

theorem slot_lt_next (h : Heap) (c : vtkTransformConcatenation) (hinv : PositionInvariant c)
    (hheap : ListInHeap h c) :
    (∀ m, c.PreMatrix = some m → m < h.next) ∧ (∀ m, c.PostMatrix = some m → m < h.next) := by
  obtain ⟨-, -, -, -, ipre, ipost, -, -⟩ := hinv
  have side : ∀ k m, k < c.NumberOfTransforms → ReadSide c (c.TransformList k) = some m →
      m < h.next := by
    intro k m hk hm
    obtain ⟨x, y⟩ := hheap k hk
    unfold ReadSide at hm
    split at hm
    · exact y m hm
    · exact x m hm
  constructor
  · intro m hm
    obtain ⟨n0, rs⟩ := ipre (by rw [hm]; simp)
    refine side (FirstIndex c) m ?_ (by rw [rs, hm])
    unfold FirstIndex; split <;> omega
  · intro m hm
    obtain ⟨n0, rs⟩ := ipost (by rw [hm]; simp)
    refine side (LastIndex c) m ?_ (by rw [rs, hm])
    unfold LastIndex; split <;> omega

theorem Reusable_eq (c : vtkTransformConcatenation) (hinv : PositionInvariant c) :
    ReusablePre c = c.PreMatrix ∧ ReusablePost c = c.PostMatrix := by
  obtain ⟨-, -, e1, e2, -⟩ := hinv
  unfold ReusablePre ReusablePost
  rw [e1, e2]
  constructor
  · split
    · rfl
    · next x => simp only [ne_eq, not_not] at x; exact x.symm
  · split
    · rfl
    · next x => simp only [ne_eq, not_not] at x; exact x.symm

end DeepCopyStructure

section DeepCopySlots
open vtkTransformConcatenation

theorem DeepCopyPre_none (this concat : vtkTransformConcatenation) (s : DeepCopyState)
    (hc : concat.PreMatrix = none) : DeepCopyPre this concat s = s := by
  unfold DeepCopyPre; rw [hc]

theorem DeepCopyPost_none (this concat : vtkTransformConcatenation) (s : DeepCopyState)
    (hc : concat.PostMatrix = none) : DeepCopyPost this concat s = s := by
  unfold DeepCopyPost; rw [hc]

/-- The block of `DeepCopy` for a set PreMatrix of the source, in full. -/
theorem DeepCopyPre_some (this concat : vtkTransformConcatenation) (s : DeepCopyState)
    (src : Ref) (hc : concat.PreMatrix = some src) (reuse : Option Ref)
    (hr : reuse = if concat.InverseFlag = this.InverseFlag then s.oldPreMatrixTransform
      else s.oldPostMatrixTransform) :
    (DeepCopyPre this concat s).PreMatrix = some (reuse.getD s.heap.next) ∧
    (DeepCopyPre this concat s).PostMatrix = s.PostMatrix ∧
    (DeepCopyPre this concat s).list =
      Function.update s.list (FirstIndex concat)
        (NewPair concat.InverseFlag (reuse.getD s.heap.next)) ∧
    (DeepCopyPre this concat s).heap.next =
      (if reuse = none then s.heap.next + 1 else s.heap.next) ∧
    (src ≠ s.heap.next →
      ((DeepCopyPre this concat s).heap.get (reuse.getD s.heap.next)).Matrix =
        (s.heap.get src).Matrix) ∧
    (∀ x, x ≠ reuse.getD s.heap.next → x ≠ s.heap.next →
      ((DeepCopyPre this concat s).heap.get x).Matrix = (s.heap.get x).Matrix) ∧
    (DeepCopyPre this concat s).oldPreMatrixTransform =
      (if concat.InverseFlag = this.InverseFlag then none else s.oldPreMatrixTransform) ∧
    (DeepCopyPre this concat s).oldPostMatrixTransform =
      (if concat.InverseFlag = this.InverseFlag then s.oldPostMatrixTransform else none) := by
  unfold DeepCopyPre
  rw [hc]
  dsimp only
  by_cases hf : concat.InverseFlag = this.InverseFlag
  · rw [if_pos hf] at hr
    subst hr
    simp only [if_pos hf]
    refine ⟨by rw [CopySlot_ref], trivial, by rw [CopySlot_list]; rfl, CopySlot_next _ _ _ _ _ _,
      fun hs => ?_, fun x h1 h2 => ?_, trivial, trivial⟩
    · exact CopySlot_copied s.heap s.list src _ concat.InverseFlag s.oldPreMatrixTransform hs
    · exact CopySlot_frame s.heap s.list src _ concat.InverseFlag s.oldPreMatrixTransform x h1 h2
  · rw [if_neg hf] at hr
    subst hr
    simp only [if_neg hf]
    refine ⟨by rw [CopySlot_ref], trivial, by rw [CopySlot_list]; rfl, CopySlot_next _ _ _ _ _ _,
      fun hs => ?_, fun x h1 h2 => ?_, trivial, trivial⟩
    · exact CopySlot_copied s.heap s.list src _ concat.InverseFlag s.oldPostMatrixTransform hs
    · exact CopySlot_frame s.heap s.list src _ concat.InverseFlag s.oldPostMatrixTransform x
        h1 h2

/-- The block of `DeepCopy` for a set PostMatrix of the source, in full. -/
theorem DeepCopyPost_some (this concat : vtkTransformConcatenation) (s : DeepCopyState)
    (src : Ref) (hc : concat.PostMatrix = some src) (reuse : Option Ref)
    (hr : reuse = if concat.InverseFlag = this.InverseFlag then s.oldPostMatrixTransform
      else s.oldPreMatrixTransform) :
    (DeepCopyPost this concat s).PostMatrix = some (reuse.getD s.heap.next) ∧
    (DeepCopyPost this concat s).PreMatrix = s.PreMatrix ∧
    (DeepCopyPost this concat s).list =
      Function.update s.list (LastIndex concat)
        (NewPair concat.InverseFlag (reuse.getD s.heap.next)) ∧
    (DeepCopyPost this concat s).heap.next =
      (if reuse = none then s.heap.next + 1 else s.heap.next) ∧
    (src ≠ s.heap.next →
      ((DeepCopyPost this concat s).heap.get (reuse.getD s.heap.next)).Matrix =
        (s.heap.get src).Matrix) ∧
    (∀ x, x ≠ reuse.getD s.heap.next → x ≠ s.heap.next →
      ((DeepCopyPost this concat s).heap.get x).Matrix = (s.heap.get x).Matrix) := by
  unfold DeepCopyPost
  rw [hc]
  dsimp only
  by_cases hf : concat.InverseFlag = this.InverseFlag
  · rw [if_pos hf] at hr
    subst hr
    simp only [if_pos hf]
    refine ⟨by rw [CopySlot_ref], trivial, by rw [CopySlot_list]; rfl, CopySlot_next _ _ _ _ _ _,
      fun hs => ?_, fun x h1 h2 => ?_⟩
    · exact CopySlot_copied s.heap s.list src _ concat.InverseFlag s.oldPostMatrixTransform hs
    · exact CopySlot_frame s.heap s.list src _ concat.InverseFlag s.oldPostMatrixTransform x h1 h2
  · rw [if_neg hf] at hr
    subst hr
    simp only [if_neg hf]
    refine ⟨by rw [CopySlot_ref], trivial, by rw [CopySlot_list]; rfl, CopySlot_next _ _ _ _ _ _,
      fun hs => ?_, fun x h1 h2 => ?_⟩
    · exact CopySlot_copied s.heap s.list src _ concat.InverseFlag s.oldPreMatrixTransform hs
    · exact CopySlot_frame s.heap s.list src _ concat.InverseFlag s.oldPreMatrixTransform x
        h1 h2

end DeepCopySlots

section DeepCopyMirrors
open vtkTransformConcatenation

theorem DeepCopy_result (h : Heap) (this concat : vtkTransformConcatenation) :
    (∀ x, ((DeepCopy h this concat).1.get x).Matrix =
      ((DeepCopyPost this concat (DeepCopyPre this concat
        (DeepCopyPrepare h this concat))).heap.get x).Matrix) ∧
    (DeepCopy h this concat).2.TransformList =
      (DeepCopyPost this concat (DeepCopyPre this concat
        (DeepCopyPrepare h this concat))).list ∧
    (DeepCopy h this concat).2.PreMatrix =
      (DeepCopyPost this concat (DeepCopyPre this concat
        (DeepCopyPrepare h this concat))).PreMatrix ∧
    (DeepCopy h this concat).2.PostMatrix =
      (DeepCopyPost this concat (DeepCopyPre this concat
        (DeepCopyPrepare h this concat))).PostMatrix ∧
    (DeepCopy h this concat).1.next =
      (DeepCopyPost this concat (DeepCopyPre this concat
        (DeepCopyPrepare h this concat))).heap.next := by
  refine ⟨fun x => ?_, rfl, rfl, rfl, ?_⟩
  · simp only [DeepCopy, Matrix_DeletePtr]
  · simp only [DeepCopy, next_DeletePtr]

/-- The state of `DeepCopy` after the block for the PreMatrix transform, for a receiver and a
source that satisfy the position invariant and share no fast-path node. `R1` is the old
node of the receiver this block may reuse, `R2` the one left for the next block. -/
theorem DeepCopyPre_summary (h : Heap) (this concat : vtkTransformConcatenation)
    (hrecv : PositionInvariant this) (hrecvHeap : ListInHeap h this)
    (hsrc : PositionInvariant concat) (hsrcHeap : ListInHeap h concat)
    (hsep : SlotsDisjoint this concat) (R1 R2 : Option Ref)
    (hR1 : R1 = if concat.InverseFlag = this.InverseFlag then this.PreMatrix
      else this.PostMatrix)
    (hR2 : R2 = if concat.InverseFlag = this.InverseFlag then this.PostMatrix
      else this.PreMatrix) :
    h.next ≤ (DeepCopyPre this concat (DeepCopyPrepare h this concat)).heap.next ∧
    (R2 = if concat.InverseFlag = this.InverseFlag then
        (DeepCopyPre this concat (DeepCopyPrepare h this concat)).oldPostMatrixTransform
      else (DeepCopyPre this concat (DeepCopyPrepare h this concat)).oldPreMatrixTransform) ∧
    (DeepCopyPre this concat (DeepCopyPrepare h this concat)).PostMatrix = none ∧
    (∀ k, k < concat.NumberOfTransforms → ¬ IsFastIndex concat k →
      (DeepCopyPre this concat (DeepCopyPrepare h this concat)).list k =
        concat.TransformList k) ∧
    (∀ x, x < h.next → concat.PreMatrix = some x ∨ concat.PostMatrix = some x →
      ((DeepCopyPre this concat (DeepCopyPrepare h this concat)).heap.get x).Matrix =
        (h.get x).Matrix) ∧
    (concat.PreMatrix = none →
      (DeepCopyPre this concat (DeepCopyPrepare h this concat)).PreMatrix = none) ∧
    (∀ src, concat.PreMatrix = some src → ∃ m,
      (DeepCopyPre this concat (DeepCopyPrepare h this concat)).PreMatrix = some m ∧
      m ≠ src ∧
      m < (DeepCopyPre this concat (DeepCopyPrepare h this concat)).heap.next ∧
      (∀ b, R2 = some b → m ≠ b) ∧
      (DeepCopyPre this concat (DeepCopyPrepare h this concat)).list (FirstIndex concat) =
        NewPair concat.InverseFlag m ∧
      ((DeepCopyPre this concat (DeepCopyPrepare h this concat)).heap.get m).Matrix =
        (h.get src).Matrix) := by
  have f0 := DeepCopyPrepare_frame h this concat
  obtain ⟨o1, o2, o3, o4⟩ := DeepCopyPrepare_olds h this concat
  obtain ⟨q1, q2⟩ := Reusable_eq this hrecv
  have old1 : (DeepCopyPrepare h this concat).oldPreMatrixTransform = this.PreMatrix :=
    o1.trans q1
  have old2 : (DeepCopyPrepare h this concat).oldPostMatrixTransform = this.PostMatrix :=
    o2.trans q2
  have n0 : (DeepCopyPrepare h this concat).heap.next = h.next := f0.2.1
  have m0 : ∀ x, ((DeepCopyPrepare h this concat).heap.get x).Matrix = (h.get x).Matrix :=
    fun x => (f0.1 x).2.2.2.2.2.2.1
  have l0 : ∀ k, k < concat.NumberOfTransforms → ¬ IsFastIndex concat k →
      (DeepCopyPrepare h this concat).list k = concat.TransformList k := by
    intro k hk hn
    obtain ⟨a, b⟩ := (CopyRange_iff concat k hk).2 hn
    exact DeepCopyPrepare_list h this concat k a b
  obtain ⟨rl1, rl2⟩ := slot_lt_next h this hrecv hrecvHeap
  obtain ⟨sl1, sl2⟩ := slot_lt_next h concat hsrc hsrcHeap
  have rdist : ∀ a b, this.PreMatrix = some a → this.PostMatrix = some b → a ≠ b := by
    intro a b ha hb e
    exact hrecv.2.2.2.2.2.2.1 (by rw [ha]; simp) (by rw [ha, hb, e])
  have R1lt : ∀ a, R1 = some a → a < h.next := by
    intro a ha; rw [hR1] at ha; split at ha
    · exact rl1 a ha
    · exact rl2 a ha
  have R1sep : ∀ a, R1 = some a → concat.PreMatrix ≠ some a ∧ concat.PostMatrix ≠ some a := by
    intro a ha; rw [hR1] at ha; split at ha
    · exact hsep.1 a ha
    · exact hsep.2 a ha
  have R12 : ∀ a b, R1 = some a → R2 = some b → a ≠ b := by
    intro a b ha hb
    rw [hR1] at ha; rw [hR2] at hb
    split at ha
    · next hf => rw [if_pos hf] at hb; exact rdist a b ha hb
    · next hf => rw [if_neg hf] at hb; exact fun e => rdist b a hb ha e.symm
  have R2lt : ∀ b, R2 = some b → b < h.next := by
    intro a ha; rw [hR2] at ha; split at ha
    · exact rl2 a ha
    · exact rl1 a ha
  cases hc : concat.PreMatrix with
  | none =>
    rw [DeepCopyPre_none this concat _ hc]
    refine ⟨by omega, ?_, o4, l0, fun x _ _ => m0 x, fun _ => o3, fun src hs => by cases hs⟩
    rw [hR2, old1, old2]
  | some src =>
    have hr : R1 = if concat.InverseFlag = this.InverseFlag then
        (DeepCopyPrepare h this concat).oldPreMatrixTransform
        else (DeepCopyPrepare h this concat).oldPostMatrixTransform := by
      rw [hR1, old1, old2]
    obtain ⟨p1, p2, p3, p4, p5, p6, p7, p8⟩ :=
      DeepCopyPre_some this concat (DeepCopyPrepare h this concat) src hc R1 hr
    rw [n0] at p1 p3 p4 p5 p6
    have srclt : src < h.next := sl1 src hc
    have mne : ∀ x, x < h.next → concat.PreMatrix = some x ∨ concat.PostMatrix = some x →
        x ≠ R1.getD h.next := by
      intro x hx hs
      cases hR : R1 with
      | none => simp only [Option.getD_none]; omega
      | some a =>
        simp only [Option.getD_some]
        intro e; subst e
        have := R1sep x hR
        rw [hc] at this
        rcases hs with y | y
        · rw [hc] at y; exact this.1 y
        · exact this.2 y
    have mlt : R1.getD h.next <
        (DeepCopyPre this concat (DeepCopyPrepare h this concat)).heap.next := by
      rw [p4]
      cases hR : R1 with
      | none => simp
      | some a => simp only [Option.getD_some]; exact R1lt a hR
    refine ⟨?_, ?_, p2.trans o4, ?_, ?_, fun hx => (by cases hx), ?_⟩
    · rw [p4]; split <;> omega
    · rw [p7, p8, hR2, old1, old2]
      by_cases hf : concat.InverseFlag = this.InverseFlag
      · simp only [if_pos hf]
      · simp only [if_neg hf]
    · intro k hk hn
      rw [p3, Function.update_noteq, l0 k hk hn]
      intro e
      exact hn (Or.inl ⟨by rw [hc]; simp, e⟩)
    · intro x hx hs
      rw [← hc] at hs
      rw [p6 x (mne x hx hs) (Nat.ne_of_lt hx), m0]
    · intro s hs
      have es : src = s := Option.some.inj hs
      rw [← es]
      refine ⟨R1.getD h.next, p1, fun e => mne src srclt (Or.inl hc) e.symm, mlt, ?_, ?_, ?_⟩
      · intro b hb
        cases hR : R1 with
        | none => simp only [Option.getD_none]; exact (Nat.ne_of_lt (R2lt b hb)).symm
        | some a => simp only [Option.getD_some]; exact R12 a b hR hb
      · rw [p3, Function.update_same]
      · rw [p5 (Nat.ne_of_lt srclt), m0]

end DeepCopyMirrors

section DeepCopySummary
open vtkTransformConcatenation

theorem ReadSide_NewPair (c : vtkTransformConcatenation) (m : Ref) :
    ReadSide c (NewPair c.InverseFlag m) = some m := by
  unfold ReadSide NewPair
  by_cases hf : c.InverseFlag ≠ 0
  · simp only [if_pos hf]
  · simp only [if_neg hf]

theorem NewPair_member (flag : Int) (m : Ref) :
    (NewPair flag m).ForwardTransform ≠ none ∨ (NewPair flag m).InverseTransform ≠ none := by
  unfold NewPair
  by_cases hf : flag ≠ 0
  · simp only [if_pos hf]; right; simp
  · simp only [if_neg hf]; left; simp

theorem NewPair_mem (flag : Int) (m : Ref) :
    (∀ r ∈ (NewPair flag m).ForwardTransform, r = m) ∧
    (∀ r ∈ (NewPair flag m).InverseTransform, r = m) := by
  unfold NewPair
  by_cases hf : flag ≠ 0
  · simp only [if_pos hf]; simp
  · simp only [if_neg hf]; simp

/-- What `DeepCopy` leaves, for a receiver and a source that satisfy the position invariant
and share no fast-path node: the pairs of the source outside its fast-path slots, an
untouched matrix in each fast-path leaf of the source, and for each fast-path slot of the
source another leaf, allocated, alone in its pair, with the matrix of the source leaf. -/
theorem DeepCopy_summary (h : Heap) (this concat : vtkTransformConcatenation)
    (hrecv : PositionInvariant this) (hrecvHeap : ListInHeap h this)
    (hsrc : PositionInvariant concat) (hsrcHeap : ListInHeap h concat)
    (hsep : SlotsDisjoint this concat) :
    (∀ k, k < concat.NumberOfTransforms → ¬ IsFastIndex concat k →
      (DeepCopy h this concat).2.TransformList k = concat.TransformList k) ∧
    (∀ x, concat.PreMatrix = some x ∨ concat.PostMatrix = some x →
      ((DeepCopy h this concat).1.get x).Matrix = (h.get x).Matrix) ∧
    (concat.PreMatrix = none → (DeepCopy h this concat).2.PreMatrix = none) ∧
    (∀ src, concat.PreMatrix = some src → ∃ m,
      (DeepCopy h this concat).2.PreMatrix = some m ∧ m ≠ src ∧
      m < (DeepCopy h this concat).1.next ∧
      (DeepCopy h this concat).2.TransformList (FirstIndex concat) =
        NewPair concat.InverseFlag m ∧
      ((DeepCopy h this concat).1.get m).Matrix = (h.get src).Matrix) ∧
    (concat.PostMatrix = none → (DeepCopy h this concat).2.PostMatrix = none) ∧
    (∀ src, concat.PostMatrix = some src → ∃ m,
      (DeepCopy h this concat).2.PostMatrix = some m ∧ m ≠ src ∧
      m < (DeepCopy h this concat).1.next ∧
      (DeepCopy h this concat).2.TransformList (LastIndex concat) =
        NewPair concat.InverseFlag m ∧
      ((DeepCopy h this concat).1.get m).Matrix = (h.get src).Matrix) ∧
    (∀ a b, (DeepCopy h this concat).2.PreMatrix = some a →
      (DeepCopy h this concat).2.PostMatrix = some b → a ≠ b) := by
  obtain ⟨r1, r2, r3, r4, r5⟩ := DeepCopy_result h this concat
  simp only [r1, r2, r3, r4, r5]
  clear r1 r2 r3 r4 r5
  obtain ⟨R1, hR1⟩ : ∃ R1, R1 = if concat.InverseFlag = this.InverseFlag then this.PreMatrix
      else this.PostMatrix := ⟨_, rfl⟩
  obtain ⟨R2, hR2⟩ : ∃ R2, R2 = if concat.InverseFlag = this.InverseFlag then this.PostMatrix
      else this.PreMatrix := ⟨_, rfl⟩
  obtain ⟨a1, a2, a3, a4, a5, a6, a7⟩ :=
    DeepCopyPre_summary h this concat hrecv hrecvHeap hsrc hsrcHeap hsep R1 R2 hR1 hR2
  obtain ⟨rl1, rl2⟩ := slot_lt_next h this hrecv hrecvHeap
  obtain ⟨sl1, sl2⟩ := slot_lt_next h concat hsrc hsrcHeap
  have R2lt : ∀ b : Nat, R2 = some b → b < h.next := by
    intro a ha; rw [hR2] at ha; split at ha
    · exact rl2 a ha
    · exact rl1 a ha
  have R2sep : ∀ a, R2 = some a → concat.PreMatrix ≠ some a ∧ concat.PostMatrix ≠ some a := by
    intro a ha; rw [hR2] at ha; split at ha
    · exact hsep.2 a ha
    · exact hsep.1 a ha
  have slt : ∀ x : Nat, concat.PreMatrix = some x ∨ concat.PostMatrix = some x →
      x < h.next := by
    intro x hx
    rcases hx with y | y
    · exact sl1 x y
    · exact sl2 x y
  generalize DeepCopyPre this concat (DeepCopyPrepare h this concat) = s1 at a1 a2 a3 a4 a5 a6 a7 ⊢
  cases hc : concat.PostMatrix with
  | none =>
    rw [DeepCopyPost_none this concat s1 hc]
    refine ⟨a4, ?_, a6, ?_, fun _ => a3, fun src hs => (by cases hs), ?_⟩
    · intro x hx
      rw [← hc] at hx
      exact a5 x (slt x hx) hx
    · intro src hs
      obtain ⟨m, b1, b2, b3, _, b5, b6⟩ := a7 src hs
      exact ⟨m, b1, b2, b3, b5, b6⟩
    · intro a b _ hb
      rw [a3] at hb; cases hb
  | some src2 =>
    obtain ⟨p1, p2, p3, p4, p5, p6⟩ := DeepCopyPost_some this concat s1 src2 hc R2 a2
    have xne : ∀ x : Nat, concat.PreMatrix = some x ∨ concat.PostMatrix = some x →
        x ≠ R2.getD s1.heap.next ∧ x ≠ s1.heap.next := by
      intro x hx
      have hlt := slt x hx
      refine ⟨?_, by omega⟩
      cases hR : R2 with
      | none => simp only [Option.getD_none]; omega
      | some b =>
        simp only [Option.getD_some]
        intro e; subst e
        rcases hx with y | y
        · exact (R2sep x hR).1 y
        · exact (R2sep x hR).2 y
    have mlt : R2.getD s1.heap.next < (DeepCopyPost this concat s1).heap.next := by
      rw [p4]
      cases hR : R2 with
      | none => simp
      | some b =>
        simp only [Option.getD_some]
        rw [if_neg (by simp)]
        exact Nat.lt_of_lt_of_le (R2lt b hR) a1
    have keep : ∀ x, concat.PreMatrix = some x ∨ concat.PostMatrix = some x →
        ((DeepCopyPost this concat s1).heap.get x).Matrix = (h.get x).Matrix := by
      intro x hx
      rw [p6 x (xne x hx).1 (xne x hx).2, a5 x (slt x hx) hx]
    refine ⟨?_, ?_, ?_, ?_, fun hx => (by cases hx), ?_, ?_⟩
    · intro k hk hn
      rw [p3, Function.update_noteq, a4 k hk hn]
      intro e
      exact hn (Or.inr ⟨by rw [hc]; simp, e⟩)
    · intro x hx
      rw [← hc] at hx
      exact keep x hx
    · intro hn
      rw [p2]; exact a6 hn
    · intro src hs
      obtain ⟨m, b1, b2, b3, b4, b5, b6⟩ := a7 src hs
      have mne : m ≠ R2.getD s1.heap.next := by
        cases hR : R2 with
        | none => simp only [Option.getD_none]; exact Nat.ne_of_lt b3
        | some b => simp only [Option.getD_some]; exact b4 b hR
      refine ⟨m, p2.trans b1, b2, ?_, ?_, ?_⟩
      · rw [p4]; split
        · exact Nat.lt_succ_of_lt b3
        · exact b3
      · rw [p3, Function.update_noteq, b5]
        exact FirstIndex_ne_LastIndex concat hsrc (by rw [hs]; simp) (by rw [hc]; simp)
      · rw [p6 m mne (Nat.ne_of_lt b3), b6]
    · intro s hs
      have es : src2 = s := Option.some.inj hs
      rw [← es]
      refine ⟨R2.getD s1.heap.next, p1, fun e => (xne src2 (Or.inr hc)).1 e.symm, mlt, ?_, ?_⟩
      · rw [p3, Function.update_same]
      · rw [p5 (xne src2 (Or.inr hc)).2, a5 src2 (slt src2 (Or.inr hc)) (Or.inr hc)]
    · intro a b ha hb
      rw [p2] at ha
      rw [p1] at hb
      have eb : R2.getD s1.heap.next = b := Option.some.inj hb
      cases hcp : concat.PreMatrix with
      | none => rw [a6 hcp] at ha; cases ha
      | some src =>
        obtain ⟨m, b1, b2, b3, b4, b5, b6⟩ := a7 src hcp
        rw [b1] at ha
        have ea : m = a := Option.some.inj ha
        rw [← ea, ← eb]
        cases hR : R2 with
        | none => simp only [Option.getD_none]; exact Nat.ne_of_lt b3
        | some b => simp only [Option.getD_some]; exact b4 b hR

end DeepCopySummary

section DeepCopyMirrorLemmas
open vtkTransformConcatenation

theorem ListInHeap_mono (h h' : Heap) (c : vtkTransformConcatenation) (hle : h.next ≤ h'.next)
    (hc : ListInHeap h c) : ListInHeap h' c :=
  fun i hi => ⟨fun r hr => Nat.lt_of_lt_of_le ((hc i hi).1 r hr) hle,
    fun r hr => Nat.lt_of_lt_of_le ((hc i hi).2 r hr) hle⟩

theorem DeepCopy_Mirrors (h : Heap) (this concat : vtkTransformConcatenation)
    (hrecv : PositionInvariant this) (hrecvHeap : ListInHeap h this)
    (hsrc : PositionInvariant concat) (hsrcHeap : ListInHeap h concat)
    (hsep : SlotsDisjoint this concat) :
    Mirrors (DeepCopy h this concat).1 concat (DeepCopy h this concat).2 := by
  obtain ⟨s1, s2, s3, s4, s5, s6, _⟩ :=
    DeepCopy_summary h this concat hrecv hrecvHeap hsrc hsrcHeap hsep
  refine ⟨rfl, rfl, rfl, rfl, s1, ?_, ?_⟩
  · cases hc : concat.PreMatrix with
    | none => exact s3 hc
    | some a =>
      obtain ⟨m, b1, b2, _, b4, b5⟩ := s4 a hc
      exact ⟨m, b1, b2, b4, b5.trans (s2 a (Or.inl hc)).symm⟩
  · cases hc : concat.PostMatrix with
    | none => exact s5 hc
    | some a =>
      obtain ⟨m, b1, b2, _, b4, b5⟩ := s6 a hc
      exact ⟨m, b1, b2, b4, b5.trans (s2 a (Or.inr hc)).symm⟩

theorem DeepCopy_PositionInvariant (h : Heap) (this concat : vtkTransformConcatenation)
    (hrecv : PositionInvariant this) (hrecvHeap : ListInHeap h this)
    (hsrc : PositionInvariant concat) (hsrcHeap : ListInHeap h concat)
    (hsep : SlotsDisjoint this concat) :
    PositionInvariant (DeepCopy h this concat).2 := by
  obtain ⟨s1, s2, s3, s4, s5, s6, s7⟩ :=
    DeepCopy_summary h this concat hrecv hrecvHeap hsrc hsrcHeap hsep
  obtain ⟨i1, i2, i3, i4, i5, i6, i7, i8⟩ := hsrc
  refine ⟨i1, i2, rfl, rfl, ?_, ?_, ?_, ?_⟩
  · intro hne
    cases hc : concat.PreMatrix with
    | none => exact absurd (s3 hc) hne
    | some a =>
      obtain ⟨m, b1, _, _, b4, _⟩ := s4 a hc
      refine ⟨(i5 (by rw [hc]; simp)).1, ?_⟩
      rw [b1]
      show ReadSide (DeepCopy h this concat).2
        ((DeepCopy h this concat).2.TransformList (FirstIndex concat)) = some m
      rw [b4]
      exact ReadSide_NewPair (DeepCopy h this concat).2 m
  · intro hne
    cases hc : concat.PostMatrix with
    | none => exact absurd (s5 hc) hne
    | some a =>
      obtain ⟨m, b1, _, _, b4, _⟩ := s6 a hc
      refine ⟨(i6 (by rw [hc]; simp)).1, ?_⟩
      rw [b1]
      show ReadSide (DeepCopy h this concat).2
        ((DeepCopy h this concat).2.TransformList (LastIndex concat)) = some m
      rw [b4]
      exact ReadSide_NewPair (DeepCopy h this concat).2 m
  · intro hne e
    cases ha : (DeepCopy h this concat).2.PreMatrix with
    | none => exact hne ha
    | some a => exact s7 a a ha (by rw [← e, ha]) rfl
  · intro i hi
    by_cases hf : IsFastIndex concat i
    · rcases hf with ⟨f1, f2⟩ | ⟨f1, f2⟩
      · cases hc : concat.PreMatrix with
        | none => exact absurd hc f1
        | some a =>
          obtain ⟨m, _, _, _, b4, _⟩ := s4 a hc
          rw [f2, b4]; exact NewPair_member _ m
      · cases hc : concat.PostMatrix with
        | none => exact absurd hc f1
        | some a =>
          obtain ⟨m, _, _, _, b4, _⟩ := s6 a hc
          rw [f2, b4]; exact NewPair_member _ m
    · rw [s1 i hi hf]; exact i8 i hi

theorem DeepCopy_ListInHeap (h : Heap) (this concat : vtkTransformConcatenation)
    (hrecv : PositionInvariant this) (hrecvHeap : ListInHeap h this)
    (hsrc : PositionInvariant concat) (hsrcHeap : ListInHeap h concat)
    (hsep : SlotsDisjoint this concat) :
    ListInHeap (DeepCopy h this concat).1 (DeepCopy h this concat).2 := by
  obtain ⟨s1, s2, s3, s4, s5, s6, s7⟩ :=
    DeepCopy_summary h this concat hrecv hrecvHeap hsrc hsrcHeap hsep
  have hle := (DeepCopy_frame h this concat).1
  intro i hi
  by_cases hf : IsFastIndex concat i
  · rcases hf with ⟨f1, f2⟩ | ⟨f1, f2⟩
    · cases hc : concat.PreMatrix with
      | none => exact absurd hc f1
      | some a =>
        obtain ⟨m, _, _, b3, b4, _⟩ := s4 a hc
        rw [f2, b4]
        exact ⟨fun r hr => by rw [(NewPair_mem _ m).1 r hr]; exact b3,
          fun r hr => by rw [(NewPair_mem _ m).2 r hr]; exact b3⟩
    · cases hc : concat.PostMatrix with
      | none => exact absurd hc f1
      | some a =>
        obtain ⟨m, _, _, b3, b4, _⟩ := s6 a hc
        rw [f2, b4]
        exact ⟨fun r hr => by rw [(NewPair_mem _ m).1 r hr]; exact b3,
          fun r hr => by rw [(NewPair_mem _ m).2 r hr]; exact b3⟩
  · rw [s1 i hi hf]
    exact ListInHeap_mono h _ concat hle hsrcHeap i hi

/-- The fast-path nodes `DeepCopy` leaves in the receiver are old fast-path nodes of the
receiver or new objects: no fast-path node of a third concatenation that shares none with
the receiver, and no fast-path node of the source. -/
theorem DeepCopy_SlotsDisjoint (h : Heap) (this concat other : vtkTransformConcatenation)
    (hrecv : PositionInvariant this) (hother : PositionInvariant other)
    (hotherHeap : ListInHeap h other) (hsep : SlotsDisjoint other this) :
    SlotsDisjoint other (DeepCopy h this concat).2 := by
  obtain ⟨_, f2, f3, _⟩ := DeepCopy_frame h this concat
  obtain ⟨q1, q2⟩ := Reusable_eq this hrecv
  obtain ⟨l1, l2⟩ := slot_lt_next h other hother hotherHeap
  rw [q1, q2] at f2 f3
  have key : ∀ m : Nat, (other.PreMatrix = some m ∨ other.PostMatrix = some m) →
      (DeepCopy h this concat).2.PreMatrix ≠ some m ∧
      (DeepCopy h this concat).2.PostMatrix ≠ some m := by
    intro m hm
    have hlt : m < h.next := by
      rcases hm with y | y
      · exact l1 m y
      · exact l2 m y
    have hs : this.PreMatrix ≠ some m ∧ this.PostMatrix ≠ some m := by
      rcases hm with y | y
      · exact hsep.1 m y
      · exact hsep.2 m y
    constructor
    · intro e
      rcases f2 m e with g | g | g
      · exact hs.1 g.symm
      · exact hs.2 g.symm
      · omega
    · intro e
      rcases f3 m e with g | g | g
      · exact hs.1 g.symm
      · exact hs.2 g.symm
      · omega
  exact ⟨fun m hm => key m (Or.inl hm), fun m hm => key m (Or.inr hm)⟩

theorem Mirrors_IsFastIndex (h : Heap) (a b : vtkTransformConcatenation) (hab : Mirrors h a b)
    (k : Nat) : IsFastIndex b k ↔ IsFastIndex a k := by
  obtain ⟨m1, _, m3, _, _, m6, m7⟩ := hab
  have e1 : FirstIndex b = FirstIndex a := by unfold FirstIndex; rw [m1, m3]
  have e2 : LastIndex b = LastIndex a := by unfold LastIndex; rw [m1, m3]
  have p1 : b.PreMatrix ≠ none ↔ a.PreMatrix ≠ none := by
    unfold SlotMirrors at m6
    cases ha : a.PreMatrix with
    | none => rw [ha] at m6; simp [m6]
    | some x => rw [ha] at m6; obtain ⟨m, hm, _⟩ := m6; simp [hm]
  have p2 : b.PostMatrix ≠ none ↔ a.PostMatrix ≠ none := by
    unfold SlotMirrors at m7
    cases ha : a.PostMatrix with
    | none => rw [ha] at m7; simp [m7]
    | some x => rw [ha] at m7; obtain ⟨m, hm, _⟩ := m7; simp [hm]
  unfold IsFastIndex
  rw [e1, e2, p1, p2]

theorem SlotMirrors_trans (h1 h2 : Heap) (sa sb sc : Option Ref) (pb pc : vtkTransformPair)
    (flag : Int) (hab : SlotMirrors h1 sa sb pb flag) (hbc : SlotMirrors h2 sb sc pc flag)
    (keepA : ∀ x, sa = some x → (h2.get x).Matrix = (h1.get x).Matrix)
    (keepB : ∀ x, sb = some x → (h2.get x).Matrix = (h1.get x).Matrix)
    (hne : ∀ x y, sa = some x → sc = some y → y ≠ x) :
    SlotMirrors h2 sa sc pc flag := by
  unfold SlotMirrors at hab hbc ⊢
  cases ha : sa with
  | none =>
    rw [ha] at hab
    rw [hab] at hbc
    exact hbc
  | some x =>
    rw [ha] at hab
    obtain ⟨m, e1, _, _, e4⟩ := hab
    rw [e1] at hbc
    obtain ⟨n, g1, _, g3, g4⟩ := hbc
    refine ⟨n, g1, hne x n ha g1, g3, ?_⟩
    rw [g4, keepB m e1, e4, keepA x ha]

theorem Mirrors_trans (h1 h2 : Heap) (a b c : vtkTransformConcatenation)
    (hab : Mirrors h1 a b) (hbc : Mirrors h2 b c)
    (keepA : ∀ x, a.PreMatrix = some x ∨ a.PostMatrix = some x →
      (h2.get x).Matrix = (h1.get x).Matrix)
    (keepB : ∀ x, b.PreMatrix = some x ∨ b.PostMatrix = some x →
      (h2.get x).Matrix = (h1.get x).Matrix)
    (hne : ∀ x y, a.PreMatrix = some x ∨ a.PostMatrix = some x →
      c.PreMatrix = some y ∨ c.PostMatrix = some y → y ≠ x) :
    Mirrors h2 a c := by
  have hfast := Mirrors_IsFastIndex h1 a b hab
  obtain ⟨m1, m2, m3, m4, m5, m6, m7⟩ := hab
  obtain ⟨n1, n2, n3, n4, n5, n6, n7⟩ := hbc
  have e1 : FirstIndex b = FirstIndex a := by unfold FirstIndex; rw [m1, m3]
  have e2 : LastIndex b = LastIndex a := by unfold LastIndex; rw [m1, m3]
  rw [e1, m3] at n6
  rw [e2, m3] at n7
  refine ⟨n1.trans m1, n2.trans m2, n3.trans m3, n4.trans m4, ?_, ?_, ?_⟩
  · intro k hk hn
    rw [n5 k (by rw [m1]; exact hk) (fun hf => hn ((hfast k).1 hf)), m5 k hk hn]
  · exact SlotMirrors_trans h1 h2 _ _ _ _ _ _ m6 n6 (fun x hx => keepA x (Or.inl hx))
      (fun x hx => keepB x (Or.inl hx)) (fun x y hx hy => hne x y (Or.inl hx) (Or.inl hy))
  · exact SlotMirrors_trans h1 h2 _ _ _ _ _ _ m7 n7 (fun x hx => keepA x (Or.inr hx))
      (fun x hx => keepB x (Or.inr hx)) (fun x y hx hy => hne x y (Or.inr hx) (Or.inr hy))

end DeepCopyMirrorLemmas

section DeepCopyClassName
open vtkTransformConcatenation

theorem ClassName_vtkMatrix4x4_DeepCopy (h : Heap) (r src s : Ref) :
    ((vtkMatrix4x4.DeepCopy h r src).get s).ClassName = (h.get s).ClassName := by
  rw [get_vtkMatrix4x4_DeepCopy]; split
  · next e => rw [e]
  · rfl

theorem ClassName_Modified (h : Heap) (r s : Ref) :
    ((vtkAbstractTransform.Modified h r).get s).ClassName = (h.get s).ClassName := by
  rw [get_Modified]; split
  · next e => rw [e.1]
  · rfl

theorem ClassName_DeletePtr (h : Heap) (p : Option Ref) (s : Ref) :
    ((DeletePtr h p).get s).ClassName = (h.get s).ClassName :=
  ((DeletePtr_frame h p).1 s).1

/-- A fast-path block of `DeepCopy` changes no class name, and the object it allocates is a
`vtkSimpleTransform`. -/
theorem CopySlot_ClassName (h : Heap) (l : Nat → vtkTransformPair) (src : Ref) (i : Nat)
    (flag : Int) (reuse : Option Ref) (x : Nat) :
    ((CopySlot h l src i flag reuse).1.get x).ClassName =
      if h.next ≤ x ∧ x < (CopySlot h l src i flag reuse).1.next then "vtkSimpleTransform"
      else (h.get x).ClassName := by
  rw [CopySlot_next]
  cases reuse with
  | none =>
    simp only [CopySlot, ClassName_DeletePtr, ClassName_Modified,
      ClassName_vtkMatrix4x4_DeepCopy, if_true]
    by_cases e : x = h.next
    · rw [if_pos (by omega), e]
      exact congrArg Node.ClassName (get_New_same h _ _)
    · rw [if_neg (by omega)]
      exact congrArg Node.ClassName (get_New_ne h x _ _ e)
  | some r =>
    simp only [CopySlot, ClassName_DeletePtr, ClassName_Modified,
      ClassName_vtkMatrix4x4_DeepCopy]
    rw [if_neg (by simp)]

theorem DeepCopyPre_ClassName (this concat : vtkTransformConcatenation) (s : DeepCopyState)
    (x : Nat) :
    s.heap.next ≤ (DeepCopyPre this concat s).heap.next ∧
    ((DeepCopyPre this concat s).heap.get x).ClassName =
      if s.heap.next ≤ x ∧ x < (DeepCopyPre this concat s).heap.next then "vtkSimpleTransform"
      else (s.heap.get x).ClassName := by
  cases hc : concat.PreMatrix with
  | none =>
    rw [DeepCopyPre_none this concat s hc]
    exact ⟨Nat.le_refl _, by rw [if_neg (by omega)]⟩
  | some src =>
    unfold DeepCopyPre
    rw [hc]
    dsimp only
    by_cases hf : concat.InverseFlag = this.InverseFlag
    · simp only [if_pos hf]
      exact ⟨CopySlot_next_le _ _ _ _ _ _, CopySlot_ClassName _ _ _ _ _ _ x⟩
    · simp only [if_neg hf]
      exact ⟨CopySlot_next_le _ _ _ _ _ _, CopySlot_ClassName _ _ _ _ _ _ x⟩

theorem DeepCopyPost_ClassName (this concat : vtkTransformConcatenation) (s : DeepCopyState)
    (x : Nat) :
    s.heap.next ≤ (DeepCopyPost this concat s).heap.next ∧
    ((DeepCopyPost this concat s).heap.get x).ClassName =
      if s.heap.next ≤ x ∧ x < (DeepCopyPost this concat s).heap.next then "vtkSimpleTransform"
      else (s.heap.get x).ClassName := by
  cases hc : concat.PostMatrix with
  | none =>
    rw [DeepCopyPost_none this concat s hc]
    exact ⟨Nat.le_refl _, by rw [if_neg (by omega)]⟩
  | some src =>
    unfold DeepCopyPost
    rw [hc]
    dsimp only
    by_cases hf : concat.InverseFlag = this.InverseFlag
    · simp only [if_pos hf]
      exact ⟨CopySlot_next_le _ _ _ _ _ _, CopySlot_ClassName _ _ _ _ _ _ x⟩
    · simp only [if_neg hf]
      exact ⟨CopySlot_next_le _ _ _ _ _ _, CopySlot_ClassName _ _ _ _ _ _ x⟩

/-- The `DeepCopy` changes the class of no object, and every object it allocates is a
`vtkSimpleTransform`. -/
theorem DeepCopy_ClassName (h : Heap) (this concat : vtkTransformConcatenation) (x : Nat) :
    ((DeepCopy h this concat).1.get x).ClassName =
      if h.next ≤ x ∧ x < (DeepCopy h this concat).1.next then "vtkSimpleTransform"
      else (h.get x).ClassName := by
  have f0 := DeepCopyPrepare_frame h this concat
  have n0 : (DeepCopyPrepare h this concat).heap.next = h.next := f0.2.1
  have c0 : ((DeepCopyPrepare h this concat).heap.get x).ClassName = (h.get x).ClassName :=
    (f0.1 x).1
  obtain ⟨a1, a2⟩ := DeepCopyPre_ClassName this concat (DeepCopyPrepare h this concat) x
  obtain ⟨b1, b2⟩ := DeepCopyPost_ClassName this concat
    (DeepCopyPre this concat (DeepCopyPrepare h this concat)) x
  rw [(DeepCopy_result h this concat).2.2.2.2]
  simp only [DeepCopy, ClassName_DeletePtr]
  rw [b2, a2, c0, n0]
  rw [n0] at a1
  generalize (DeepCopyPost this concat (DeepCopyPre this concat
    (DeepCopyPrepare h this concat))).heap.next = n2 at *
  generalize (DeepCopyPre this concat (DeepCopyPrepare h this concat)).heap.next = n1 at *
  by_cases c1 : n1 ≤ x ∧ x < n2
  · rw [if_pos c1, if_pos (by omega)]
  · rw [if_neg c1]
    by_cases c2 : h.next ≤ x ∧ x < n1
    · rw [if_pos c2, if_pos (by omega)]
    · rw [if_neg c2, if_neg (by omega)]

/-- Each fast-path node `DeepCopy` leaves in the receiver is a `vtkSimpleTransform`, when
the fast-path nodes of the receiver were. -/
theorem DeepCopy_slots_simple (h : Heap) (this concat : vtkTransformConcatenation)
    (hrecv : PositionInvariant this) (hrecvHeap : ListInHeap h this)
    (hsrc : PositionInvariant concat) (hsrcHeap : ListInHeap h concat)
    (hsep : SlotsDisjoint this concat)
    (hsimple : ∀ r, this.PreMatrix = some r ∨ this.PostMatrix = some r →
      (h.get r).ClassName = "vtkSimpleTransform") (m : Nat)
    (hm : (DeepCopy h this concat).2.PreMatrix = some m ∨
      (DeepCopy h this concat).2.PostMatrix = some m) :
    ((DeepCopy h this concat).1.get m).ClassName = "vtkSimpleTransform" := by
  obtain ⟨_, f2, f3, _⟩ := DeepCopy_frame h this concat
  obtain ⟨q1, q2⟩ := Reusable_eq this hrecv
  rw [q1, q2] at f2 f3
  have hin := DeepCopy_ListInHeap h this concat hrecv hrecvHeap hsrc hsrcHeap hsep
  have hinv := DeepCopy_PositionInvariant h this concat hrecv hrecvHeap hsrc hsrcHeap hsep
  obtain ⟨l1, l2⟩ := slot_lt_next _ _ hinv hin
  have hlt : m < (DeepCopy h this concat).1.next := by
    rcases hm with y | y
    · exact l1 m y
    · exact l2 m y
  have horigin : some m = this.PreMatrix ∨ some m = this.PostMatrix ∨ h.next ≤ m := by
    rcases hm with y | y
    · exact f2 m y
    · exact f3 m y
  rw [DeepCopy_ClassName]
  by_cases c : h.next ≤ m ∧ m < (DeepCopy h this concat).1.next
  · rw [if_pos c]
  · rw [if_neg c]
    rcases horigin with g | g | g
    · exact hsimple m (Or.inl g.symm)
    · exact hsimple m (Or.inr g.symm)
    · exact absurd ⟨g, hlt⟩ c

end DeepCopyClassName

section DeepCopyRoundTrip
open vtkTransformConcatenation

theorem SlotsDisjoint_symm (a b : vtkTransformConcatenation) (hab : SlotsDisjoint a b) :
    SlotsDisjoint b a := by
  constructor
  · intro m hm
    constructor
    · intro e; exact (hab.1 m e).1 hm
    · intro e; exact (hab.2 m e).1 hm
  · intro m hm
    constructor
    · intro e; exact (hab.1 m e).2 hm
    · intro e; exact (hab.2 m e).2 hm

theorem DeepCopy_SlotsSimple (h : Heap) (this concat : vtkTransformConcatenation)
    (hrecv : PositionInvariant this) (hrecvHeap : ListInHeap h this)
    (hsrc : PositionInvariant concat) (hsrcHeap : ListInHeap h concat)
    (hsep : SlotsDisjoint this concat) (hsimple : SlotsSimple h this) :
    SlotsSimple (DeepCopy h this concat).1 (DeepCopy h this concat).2 := by
  have key := DeepCopy_slots_simple h this concat hrecv hrecvHeap hsrc hsrcHeap hsep
    (fun r hr => hr.elim (fun y => hsimple.1 r y) (fun y => hsimple.2 r y))
  exact ⟨fun m hm => key m (Or.inl hm), fun m hm => key m (Or.inr hm)⟩

theorem SlotsSimple_DeepCopy_other (h : Heap) (this concat other : vtkTransformConcatenation)
    (hsimple : SlotsSimple h other) : SlotsSimple (DeepCopy h this concat).1 other := by
  have key : ∀ m : Nat, (h.get m).ClassName = "vtkSimpleTransform" →
      ((DeepCopy h this concat).1.get m).ClassName = "vtkSimpleTransform" := by
    intro m hm
    rw [DeepCopy_ClassName]
    split
    · rfl
    · exact hm
  exact ⟨fun m hm => key m (hsimple.1 m hm), fun m hm => key m (hsimple.2 m hm)⟩

/-- After `copy.DeepCopy(original); copy2.DeepCopy(copy)` the second receiver mirrors
`original`. -/
theorem DeepCopy_round_trip (h : Heap) (copy copy2 original : vtkTransformConcatenation)
    (hcopy : PositionInvariant copy) (hcopyHeap : ListInHeap h copy)
    (hcopy2 : PositionInvariant copy2) (hcopy2Heap : ListInHeap h copy2)
    (horig : PositionInvariant original) (horigHeap : ListInHeap h original)
    (hsep : SlotsDisjoint copy original) (hsep2 : SlotsDisjoint copy2 original)
    (hsep3 : SlotsDisjoint copy2 copy) :
    Mirrors (DeepCopy (DeepCopy h copy original).1 copy2 (DeepCopy h copy original).2).1
      original (DeepCopy (DeepCopy h copy original).1 copy2 (DeepCopy h copy original).2).2 := by
  have hab := DeepCopy_Mirrors h copy original hcopy hcopyHeap horig horigHeap hsep
  have inv1 := DeepCopy_PositionInvariant h copy original hcopy hcopyHeap horig horigHeap hsep
  have in1 := DeepCopy_ListInHeap h copy original hcopy hcopyHeap horig horigHeap hsep
  have hle := (DeepCopy_frame h copy original).1
  have copy2Heap1 := ListInHeap_mono h _ copy2 hle hcopy2Heap
  have origHeap1 := ListInHeap_mono h _ original hle horigHeap
  have sep21 := DeepCopy_SlotsDisjoint h copy original copy2 hcopy hcopy2 hcopy2Heap hsep3
  have hbc := DeepCopy_Mirrors _ copy2 _ hcopy2 copy2Heap1 inv1 in1 sep21
  have sum2 := DeepCopy_summary _ copy2 _ hcopy2 copy2Heap1 inv1 in1 sep21
  have frame2 := DeepCopy_frame (DeepCopy h copy original).1 copy2 (DeepCopy h copy original).2
  have sepO := DeepCopy_SlotsDisjoint (DeepCopy h copy original).1 copy2
    (DeepCopy h copy original).2 original hcopy2 horig origHeap1
    (SlotsDisjoint_symm _ _ hsep2)
  obtain ⟨q1, q2⟩ := Reusable_eq copy2 hcopy2
  obtain ⟨l1, l2⟩ := slot_lt_next _ original horig origHeap1
  refine Mirrors_trans _ _ original _ _ hab hbc ?_ sum2.2.1 ?_
  · intro x hx
    refine frame2.2.2.2.1 x ?_ ?_ ?_
    · rcases hx with y | y
      · exact l1 x y
      · exact l2 x y
    · rw [q1]; intro e
      rcases hx with y | y
      · exact (hsep2.1 x e.symm).1 y
      · exact (hsep2.1 x e.symm).2 y
    · rw [q2]; intro e
      rcases hx with y | y
      · exact (hsep2.2 x e.symm).1 y
      · exact (hsep2.2 x e.symm).2 y
  · intro x y hx hy e
    subst e
    rcases hx with a | a
    · rcases hy with b | b
      · exact (sepO.1 y a).1 b
      · exact (sepO.1 y a).2 b
    · rcases hy with b | b
      · exact (sepO.2 y a).1 b
      · exact (sepO.2 y a).2 b

end DeepCopyRoundTrip

section ClaimC6
open vtkTransformConcatenation

/-- Where `DeepCopy` releases written pairs only: for a receiver `copy` and a source
`original` that satisfy the fast-path position invariant, hold allocated transforms and own
their fast-path nodes (none is shared, and the nodes of the receiver are
`vtkSimpleTransform` objects; the receiver may be non-empty and have another `InverseFlag`),
`copy.DeepCopy(original)` leaves a receiver that mirrors the source: the
`NumberOfTransforms`, `NumberOfPreTransforms`, `InverseFlag` and `PreMultiplyFlag` of the
source, the same pair at every index that holds no fast-path node of the source, and for
each fast-path slot of the source another leaf, alone in the pair at the same index on the
side `GetTransform` reads, with an equal matrix; each such leaf is a `vtkSimpleTransform`.
After `copy2.DeepCopy(copy)` on a third concatenation of the same kind, `copy2` mirrors
`original` in the same sense. -/
theorem DeepCopy_mirrors_source (h : Heap) (copy copy2 original : vtkTransformConcatenation)
    (hcopy : PositionInvariant copy) (hcopyHeap : ListInHeap h copy)
    (hcopy2 : PositionInvariant copy2) (hcopy2Heap : ListInHeap h copy2)
    (horig : PositionInvariant original) (horigHeap : ListInHeap h original)
    (hsep : SlotsDisjoint copy original) (hsep2 : SlotsDisjoint copy2 original)
    (hsep3 : SlotsDisjoint copy2 copy)
    (hsimple : SlotsSimple h copy) (hsimple2 : SlotsSimple h copy2)
    (_ : ReleasesWrittenSlots copy original)
    (_ : ReleasesWrittenSlots copy2 (DeepCopy h copy original).2) :
    Mirrors (DeepCopy h copy original).1 original (DeepCopy h copy original).2 ∧
    SlotsSimple (DeepCopy h copy original).1 (DeepCopy h copy original).2 ∧
    Mirrors (DeepCopy (DeepCopy h copy original).1 copy2 (DeepCopy h copy original).2).1
      original (DeepCopy (DeepCopy h copy original).1 copy2 (DeepCopy h copy original).2).2 ∧
    SlotsSimple (DeepCopy (DeepCopy h copy original).1 copy2 (DeepCopy h copy original).2).1
      (DeepCopy (DeepCopy h copy original).1 copy2 (DeepCopy h copy original).2).2 := by
  have inv1 := DeepCopy_PositionInvariant h copy original hcopy hcopyHeap horig horigHeap hsep
  have in1 := DeepCopy_ListInHeap h copy original hcopy hcopyHeap horig horigHeap hsep
  have hle := (DeepCopy_frame h copy original).1
  have copy2Heap1 := ListInHeap_mono h _ copy2 hle hcopy2Heap
  have sep21 := DeepCopy_SlotsDisjoint h copy original copy2 hcopy hcopy2 hcopy2Heap hsep3
  exact ⟨DeepCopy_Mirrors h copy original hcopy hcopyHeap horig horigHeap hsep,
    DeepCopy_SlotsSimple h copy original hcopy hcopyHeap horig horigHeap hsep hsimple,
    DeepCopy_round_trip h copy copy2 original hcopy hcopyHeap hcopy2 hcopy2Heap horig
      horigHeap hsep hsep2 hsep3,
    DeepCopy_SlotsSimple _ copy2 _ hcopy2 copy2Heap1 inv1 in1 sep21
      (SlotsSimple_DeepCopy_other h copy original copy2 hsimple2)⟩

theorem DeepCopy_mirrors_source_example :
    PositionInvariant Example.InvertedTranslate.2 ∧
    ListInHeap Example.InvertedTranslate.1 Example.InvertedTranslate.2 ∧
    PositionInvariant vtkTransformConcatenation.New ∧
    ListInHeap Example.InvertedTranslate.1 vtkTransformConcatenation.New ∧
    PositionInvariant Example.LeafThenTranslate.2 ∧
    ListInHeap Example.InvertedTranslate.1 Example.LeafThenTranslate.2 ∧
    SlotsDisjoint Example.InvertedTranslate.2 Example.LeafThenTranslate.2 ∧
    SlotsDisjoint vtkTransformConcatenation.New Example.LeafThenTranslate.2 ∧
    SlotsDisjoint vtkTransformConcatenation.New Example.InvertedTranslate.2 ∧
    SlotsSimple Example.InvertedTranslate.1 Example.InvertedTranslate.2 ∧
    SlotsSimple Example.InvertedTranslate.1 vtkTransformConcatenation.New ∧
    Example.InvertedTranslate.2.InverseFlag ≠ Example.LeafThenTranslate.2.InverseFlag ∧
    Example.InvertedTranslate.2.PostMatrix = some 2 ∧
    Example.LeafThenTranslate.2.PreMatrix = some 1 ∧
    Mirrors
      (DeepCopy Example.InvertedTranslate.1 Example.InvertedTranslate.2
        Example.LeafThenTranslate.2).1
      Example.LeafThenTranslate.2
      (DeepCopy Example.InvertedTranslate.1 Example.InvertedTranslate.2
        Example.LeafThenTranslate.2).2 ∧
    Mirrors
      (DeepCopy
        (DeepCopy Example.InvertedTranslate.1 Example.InvertedTranslate.2
          Example.LeafThenTranslate.2).1
        vtkTransformConcatenation.New
        (DeepCopy Example.InvertedTranslate.1 Example.InvertedTranslate.2
          Example.LeafThenTranslate.2).2).1
      Example.LeafThenTranslate.2
      (DeepCopy
        (DeepCopy Example.InvertedTranslate.1 Example.InvertedTranslate.2
          Example.LeafThenTranslate.2).1
        vtkTransformConcatenation.New
        (DeepCopy Example.InvertedTranslate.1 Example.InvertedTranslate.2
          Example.LeafThenTranslate.2).2).2 :=
  have w1 : ReleasesWrittenSlots Example.InvertedTranslate.2 Example.LeafThenTranslate.2 := by
    decide
  have w2 : ReleasesWrittenSlots vtkTransformConcatenation.New
      (DeepCopy Example.InvertedTranslate.1 Example.InvertedTranslate.2
        Example.LeafThenTranslate.2).2 := by
    decide
  have k := DeepCopy_mirrors_source Example.InvertedTranslate.1 Example.InvertedTranslate.2
    vtkTransformConcatenation.New Example.LeafThenTranslate.2
    (by decide) (by decide) (by decide) (by decide) (by decide) (by decide) (by decide)
    (by decide) (by decide) (by decide) (by decide) w1 w2
  ⟨by decide, by decide, by decide, by decide, by decide, by decide, by decide, by decide,
    by decide, by decide, by decide, by decide, by decide, by decide, k.1, k.2.2.1⟩

/-- C6: the code at the failing input. The receiver is a newly constructed concatenation
after `Concatenate(L)`: its list is a new array of five pairs of which only pair 0 has been
written, so pair 1 holds what the storage held, here a stale pointer to the leaf at
reference 0, which only its creator holds and which neither concatenation names. The source
is a newly constructed concatenation after `Concatenate(L); PostMultiply();
Concatenate(T123)`: two elements, the post-matrix leaf at index 1. Both satisfy the
position invariant and share no fast-path node. In `receiver.DeepCopy(source)` the list is
not reallocated, the copy loop stops before index 1, and the block that copies the
post-matrix transform releases both members of the receiver's pair 1 without the test
`i < NumberOfTransforms` that the copy loop makes: the leaf at reference 0 loses the
reference of its creator and is destroyed. -/
theorem C6_deep_copy_at_failing_input :
    PositionInvariant Example.GrownReceiver.2 ∧
    PositionInvariant Example.LeafThenPostMatrix.2 ∧
    ListInHeap Example.LeafThenPostMatrix.1 Example.GrownReceiver.2 ∧
    ListInHeap Example.LeafThenPostMatrix.1 Example.LeafThenPostMatrix.2 ∧
    SlotsDisjoint Example.GrownReceiver.2 Example.LeafThenPostMatrix.2 ∧
    Example.GrownReceiver.2.NumberOfTransforms = 1 ∧
    Example.GrownReceiver.2.MaxNumberOfTransforms = 5 ∧
    Example.GrownReceiver.2.TransformList 1 = Example.StaleStorage.Uninitialised 1 ∧
    Example.StaleStorage.Uninitialised 1 =
      { ForwardTransform := some 0, InverseTransform := none } ∧
    Example.LeafThenPostMatrix.2.NumberOfTransforms = 2 ∧
    Example.LeafThenPostMatrix.2.PostMatrix = some 2 ∧
    Example.LeafThenPostMatrix.2.InverseFlag = 0 ∧
    ¬ ReleasesWrittenSlots Example.GrownReceiver.2 Example.LeafThenPostMatrix.2 ∧
    (∀ i, i < 2 →
      (Example.LeafThenPostMatrix.2.TransformList i).ForwardTransform ≠ some 0 ∧
      (Example.LeafThenPostMatrix.2.TransformList i).InverseTransform ≠ some 0) ∧
    (Example.LeafThenPostMatrix.1.get 0).ReferenceCount = 1 ∧
    (Example.LeafThenPostMatrix.1.get 0).Destroyed = false ∧
    ((DeepCopy Example.LeafThenPostMatrix.1 Example.GrownReceiver.2
      Example.LeafThenPostMatrix.2).1.get 0).ReferenceCount = 0 ∧
    ((DeepCopy Example.LeafThenPostMatrix.1 Example.GrownReceiver.2
      Example.LeafThenPostMatrix.2).1.get 0).Destroyed = true := by
  decide

end ClaimC6

section ClaimC7
open vtkTransformConcatenation

theorem SharedCopy_Matrix : (Example.SharedCopy.1.get 0).Matrix = Example.T123 := by
  unfold Example.SharedCopy
  rw [(ConcatenateMatrix_pre_none Heap.empty vtkTransformConcatenation.New Example.T123
    (by decide) rfl).2.2 0]
  simp [Heap.empty, Multiply4x4]

theorem SharedOriginal_Matrix :
    (Example.SharedOriginal.1.get 0).Matrix = Example.T123 ∧
    (Example.SharedOriginal.1.get 1).Matrix = Example.S222 := by
  have e := (ConcatenateMatrix_pre_none
    (Concatenate Example.SharedCopy.1 vtkTransformConcatenation.New 0).1
    (Concatenate Example.SharedCopy.1 vtkTransformConcatenation.New 0).2 Example.S222
    (by decide) (by decide)).2.2
  have hn : (Concatenate Example.SharedCopy.1 vtkTransformConcatenation.New 0).1.next = 1 := by
    decide
  constructor
  · unfold Example.SharedOriginal
    rw [e 0, hn, if_neg (by decide)]
    simp only [Concatenate_fst, Matrix_Register]
    exact SharedCopy_Matrix
  · unfold Example.SharedOriginal
    rw [e 1, hn, if_pos rfl]
    simp [Multiply4x4]

theorem S222_mul_T123_ne : Multiply4x4 Example.S222 Example.T123 ≠ Example.S222 := by
  rw [S222_mul_T123]
  intro e
  have := congrFun (congrFun e 0) 3
  norm_num [Example.S222] at this

theorem SharedAfterDeepCopy_Matrix :
    (Example.SharedAfterDeepCopy.1.get 0).Matrix = Example.S222 := by
  obtain ⟨m, b1, _, _, _, b5⟩ :=
    (DeepCopy_summary Example.SharedOriginal.1 Example.SharedCopy.2 Example.SharedOriginal.2
      (by decide) (by decide) (by decide) (by decide) (by decide)).2.2.2.1 1 (by decide)
  have hp : (DeepCopy Example.SharedOriginal.1 Example.SharedCopy.2
      Example.SharedOriginal.2).2.PreMatrix = some 0 := by decide
  have em : m = 0 := Option.some.inj (b1.symm.trans hp)
  rw [em] at b5
  unfold Example.SharedAfterDeepCopy
  rw [b5]
  exact SharedOriginal_Matrix.2

/-- The matrices of a set `S` of allocated objects that holds no fast-path node of the
receiver are what they were after `DeepCopy` and any builder operations on the receiver,
and the fast-path nodes of the receiver stay outside `S`. -/
theorem DeepCopy_RunAll_frame (rot : ℚ → ℚ → ℚ → ℚ → Mat4) (S : Ref → Prop) (h : Heap)
    (copy original : vtkTransformConcatenation) (hcopy : PositionInvariant copy)
    (hprivate : SlotsOutside S h copy) :
    SlotsOutside S (DeepCopy h copy original).1 (DeepCopy h copy original).2 ∧
    (∀ r, S r → ((DeepCopy h copy original).1.get r).Matrix = (h.get r).Matrix) ∧
    ∀ ops : List BuilderOp,
      SlotsOutside S
        (BuilderOp.RunAll rot ops (DeepCopy h copy original).1 (DeepCopy h copy original).2).1
        (BuilderOp.RunAll rot ops (DeepCopy h copy original).1
          (DeepCopy h copy original).2).2 ∧
      ∀ r, S r →
        ((BuilderOp.RunAll rot ops (DeepCopy h copy original).1
          (DeepCopy h copy original).2).1.get r).Matrix = (h.get r).Matrix := by
  obtain ⟨f1, f2, f3, f4, _⟩ := DeepCopy_frame h copy original
  obtain ⟨q1, q2⟩ := Reusable_eq copy hcopy
  rw [q1, q2] at f2 f3 f4
  obtain ⟨p1, p2, p3⟩ := hprivate
  have out : SlotsOutside S (DeepCopy h copy original).1 (DeepCopy h copy original).2 := by
    refine ⟨?_, ?_, fun r hr => Nat.lt_of_lt_of_le (p3 r hr) f1⟩
    · intro m hm hs
      rcases f2 m hm with g | g | g
      · exact p1 m g.symm hs
      · exact p2 m g.symm hs
      · exact Nat.lt_irrefl _ (Nat.lt_of_lt_of_le (p3 m hs) g)
    · intro m hm hs
      rcases f3 m hm with g | g | g
      · exact p1 m g.symm hs
      · exact p2 m g.symm hs
      · exact Nat.lt_irrefl _ (Nat.lt_of_lt_of_le (p3 m hs) g)
  have keep : ∀ r, S r → ((DeepCopy h copy original).1.get r).Matrix = (h.get r).Matrix := by
    intro r hr
    exact f4 r (p3 r hr) (fun e => p1 r e.symm hr) (fun e => p2 r e.symm hr)
  refine ⟨out, keep, fun ops => ?_⟩
  obtain ⟨a1, a2, _⟩ := RunAll_frame rot S ops _ _ out
  exact ⟨a1, fun r hr => (a2 r hr).trans (keep r hr)⟩

/-- What `ReleasesWrittenSlots` says of the receiver's list once the first block of
`DeepCopy` has run: at every index at which the source holds a fast-path node, where the
fast-path blocks release both members of the receiver's pair, that pair is one of the
receiver's first `NumberOfTransforms` pairs or a pair of the new array that the block has
set to null. -/
theorem ReleasesWrittenSlots_pair (this concat : vtkTransformConcatenation)
    (hw : ReleasesWrittenSlots this concat) (k : Nat) (hk : IsFastIndex concat k) :
    k < this.NumberOfTransforms ∨
      (DeepCopyAllocate this concat).TransformList k = vtkTransformPair.null := by
  rcases hw with a | a
  · by_cases x : k < this.NumberOfTransforms
    · exact Or.inl x
    · right
      unfold DeepCopyAllocate
      rw [if_pos a]
      exact if_neg x
  · rcases hk with b | b
    · rw [b.2]; exact Or.inl (a.1 b.1)
    · rw [b.2]; exact Or.inl (a.2 b.1)

end ClaimC7

section ClaimC11
open vtkAbstractTransform

/-- What `SetInverse(nullptr)` and `DeepCopy(nullptr)` do on every receiver: on a receiver
that holds no inverse `SetInverse(nullptr)` returns at the test `MyInverse == transform` and
changes nothing; on a receiver that holds an inverse it goes on to the type check
`transform->IsA(...)`, and so does `DeepCopy(nullptr)` on every receiver: the absent argument
is dereferenced there, and the heap at the fault is the heap before the call. -/
theorem SetInverse_null (hook : Heap → Ref → Ref → Heap) (h : Heap) (self : Ref) :
    ((h.get self).MyInverse = none → SetInverse h self none = (h, .Ok)) ∧
    ((h.get self).MyInverse ≠ none →
      SetInverse h self none = (h, .Faulted .NullDereference)) ∧
    DeepCopy hook h self none = (h, .Faulted .NullDereference) := by
  refine ⟨fun hn => ?_, fun hs => ?_, ?_⟩
  · unfold SetInverse; rw [if_pos hn]
  · unfold SetInverse; rw [if_neg hs]
  · unfold DeepCopy; rw [if_neg (by simp)]

/-- C11: the code at the failing input. The leaf at reference 1 holds the leaf at 0 as its
inverse. `SetInverse(nullptr)` on it is no no-op: it passes the test `MyInverse == transform`
and calls `transform->IsA(...)` on the absent argument. The last assignment of `SetInverse`,
`DependsOnInverse = (transform != nullptr)`, provides for a null argument, which the two
checks before it dereference. `DeepCopy(nullptr)` on a leaf that holds no inverse
dereferences the absent argument at its own type check. On a receiver that holds no inverse
`SetInverse(nullptr)` does return with nothing changed. -/
theorem C11_null_argument_at_failing_input :
    (Example.TwoLeavesLinked.get 1).MyInverse = some 0 ∧
    (SetInverse Example.TwoLeavesLinked 1 none).2 = .Faulted .NullDereference ∧
    (DeepCopy Example.CopyMatrixHook Example.TwoLeaves 0 none).2 =
      .Faulted .NullDereference ∧
    (Example.TwoLeaves.get 0).MyInverse = none ∧
    (SetInverse Example.TwoLeaves 0 none).2 = .Ok := by
  decide

end ClaimC11

section ClaimC12
open vtkTransformConcatenation

theorem Folds_Run (rot : ℚ → ℚ → ℚ → ℚ → Mat4) (h : Heap) (c : vtkTransformConcatenation)
    (op : BuilderOp) (hop : op.Folds) :
    ∃ E, op.Run rot h c = ConcatenateMatrix h c E := by
  cases op with
  | ConcatenateMatrix E => exact ⟨E, rfl⟩
  | Concatenate t => exact absurd hop id
  | Translate x y z =>
    refine ⟨!![1, 0, 0, x; 0, 1, 0, y; 0, 0, 1, z; 0, 0, 0, 1], ?_⟩
    simp only [BuilderOp.Run, Translate]
    rw [if_neg hop]
  | Rotate a x y z => exact ⟨_, rfl⟩
  | Scale x y z =>
    refine ⟨!![x, 0, 0, 0; 0, y, 0, 0; 0, 0, z, 0; 0, 0, 0, 1], ?_⟩
    simp only [BuilderOp.Run, Scale]
    rw [if_neg hop]
  | Inverse => exact absurd hop id
  | Identity => exact absurd hop id

/-- The first raw matrix on an empty concatenation allocates one leaf and makes it the
fast-path node of its end. -/
theorem ConcatenateMatrix_first (h : Heap) (c : vtkTransformConcatenation) (E : Mat4)
    (hN : c.NumberOfTransforms = 0) (hPre : c.PreMatrix = none) (hPost : c.PostMatrix = none) :
    FoldedInto (ConcatenateMatrix h c E).2 h.next ∧
    (ConcatenateMatrix h c E).1.next = h.next + 1 ∧
    (ConcatenateMatrix h c E).2.PreMultiplyFlag = c.PreMultiplyFlag := by
  by_cases hp : c.PreMultiplyFlag ≠ 0
  · obtain ⟨e1, e2, _⟩ := ConcatenateMatrix_pre_none h c E hp hPre
    rw [e1]
    refine ⟨⟨?_, fun _ => rfl, fun h0 => ?_⟩, e2, ?_⟩
    · simp [hN]
    · simp at h0; exact absurd h0 hp
    · simp
  · have hp0 : c.PreMultiplyFlag = 0 := not_not.mp hp
    obtain ⟨e1, e2, _⟩ := ConcatenateMatrix_post_none h c E hp0 hPost
    rw [e1]
    refine ⟨⟨?_, fun h0 => ?_, fun _ => rfl⟩, e2, ?_⟩
    · simp [hN]
    · simp at h0; exact absurd hp0 h0
    · simp

/-- A raw matrix on a concatenation folded into the leaf `m` multiplies into `m`: the
record and the allocation pointer are unchanged. -/
theorem ConcatenateMatrix_folded (h : Heap) (c : vtkTransformConcatenation) (E : Mat4)
    (m : Ref) (hf : FoldedInto c m) :
    (ConcatenateMatrix h c E).2 = c ∧ (ConcatenateMatrix h c E).1.next = h.next := by
  by_cases hp : c.PreMultiplyFlag ≠ 0
  · obtain ⟨e1, e2, _⟩ := ConcatenateMatrix_pre_some h c E m hp (hf.2.1 hp)
    exact ⟨e1, e2⟩
  · have hp0 : c.PreMultiplyFlag = 0 := not_not.mp hp
    obtain ⟨e1, e2, _⟩ := ConcatenateMatrix_post_some h c E m hp0 (hf.2.2 hp0)
    exact ⟨e1, e2⟩

theorem RunAll_folded (rot : ℚ → ℚ → ℚ → ℚ → Mat4) (m : Ref) (ops : List BuilderOp) :
    ∀ (h : Heap) (c : vtkTransformConcatenation), FoldedInto c m →
      (∀ op ∈ ops, op.Folds) →
      (BuilderOp.RunAll rot ops h c).2 = c ∧ (BuilderOp.RunAll rot ops h c).1.next = h.next := by
  induction ops with
  | nil => intro h c _ _; exact ⟨rfl, rfl⟩
  | cons op rest ih =>
    intro h c hf hall
    obtain ⟨E, hE⟩ := Folds_Run rot h c op (hall op (List.mem_cons_self _ _))
    obtain ⟨e1, e2⟩ := ConcatenateMatrix_folded h c E m hf
    simp only [BuilderOp.RunAll, hE]
    rw [e1]
    obtain ⟨a1, a2⟩ := ih (ConcatenateMatrix h c E).1 c hf
      (fun o ho => hall o (List.mem_cons_of_mem _ ho))
    exact ⟨a1, a2.trans e2⟩

end ClaimC12

section ClaimC12Statement
open vtkTransformConcatenation

/-- C12: starting from an empty concatenation (no transform, no fast-path slot; either
multiply mode), after any non-empty sequence of `Concatenate(matrix)`, `Rotate`, non-zero
`Translate` and non-unit `Scale` calls the count is exactly 1: the first call allocates one
leaf (the only allocation of the whole sequence) and makes it the fast-path node, and the
record after the whole sequence is the record after the first call, so no later call grows
the list. -/
theorem C12_matrix_calls_fold_into_one_node (rot : ℚ → ℚ → ℚ → ℚ → Mat4) (h : Heap)
    (c : vtkTransformConcatenation) (ops : List BuilderOp)
    (hN : c.NumberOfTransforms = 0) (hPre : c.PreMatrix = none) (hPost : c.PostMatrix = none)
    (hne : ops ≠ []) (hall : ∀ op ∈ ops, op.Folds) :
    (BuilderOp.RunAll rot ops h c).2.NumberOfTransforms = 1 ∧
    FoldedInto (BuilderOp.RunAll rot ops h c).2 h.next ∧
    (BuilderOp.RunAll rot ops h c).1.next = h.next + 1 ∧
    ∀ op rest, ops = op :: rest →
      (BuilderOp.RunAll rot ops h c).2 = (op.Run rot h c).2 := by
  cases ops with
  | nil => exact absurd rfl hne
  | cons op rest =>
    obtain ⟨E, hE⟩ := Folds_Run rot h c op (hall op (List.mem_cons_self _ _))
    obtain ⟨f1, f2, _⟩ := ConcatenateMatrix_first h c E hN hPre hPost
    obtain ⟨a1, a2⟩ := RunAll_folded rot h.next rest (ConcatenateMatrix h c E).1
      (ConcatenateMatrix h c E).2 f1 (fun o ho => hall o (List.mem_cons_of_mem _ ho))
    have e : BuilderOp.RunAll rot (op :: rest) h c =
        BuilderOp.RunAll rot rest (ConcatenateMatrix h c E).1 (ConcatenateMatrix h c E).2 := by
      simp only [BuilderOp.RunAll, hE]
    rw [e, a1, a2]
    refine ⟨f1.1, f1, f2, ?_⟩
    intro op2 rest2 h2
    have e2 : op = op2 := (List.cons.inj h2).1
    rw [← e2, hE]

theorem C12_matrix_calls_fold_into_one_node_witness :
    (BuilderOp.RunAll (fun _ _ _ _ => Example.S222)
      [.Translate 1 2 3, .Scale 2 2 2, .Rotate 90 0 0 1, .ConcatenateMatrix Example.T123]
      Heap.empty vtkTransformConcatenation.New).2.NumberOfTransforms = 1 ∧
    (BuilderOp.RunAll (fun _ _ _ _ => Example.S222)
      [.Translate 1 2 3, .Scale 2 2 2, .Rotate 90 0 0 1, .ConcatenateMatrix Example.T123]
      Heap.empty vtkTransformConcatenation.New).1.next = 1 :=
  have hall : ∀ op ∈ ([.Translate 1 2 3, .Scale 2 2 2, .Rotate 90 0 0 1,
      .ConcatenateMatrix Example.T123] : List BuilderOp), op.Folds := by
    intro op hop
    simp only [List.mem_cons, List.mem_singleton, List.not_mem_nil, or_false] at hop
    rcases hop with e | e | e | e <;> subst e <;> simp [BuilderOp.Folds]
  have k := C12_matrix_calls_fold_into_one_node (fun _ _ _ _ => Example.S222) Heap.empty
    vtkTransformConcatenation.New
    [.Translate 1 2 3, .Scale 2 2 2, .Rotate 90 0 0 1, .ConcatenateMatrix Example.T123]
    rfl rfl rfl (List.cons_ne_nil _ _) hall
  ⟨k.1, k.2.2.1⟩

end ClaimC12Statement

section ClaimC13
open vtkTransformConcatenation

theorem xor_flags_ne_zero (p i : Int) (hp : p = 0 ∨ p = 1) (hi : i = 0 ∨ i = 1) :
    Int.xor p i ≠ 0 ↔ p ≠ i := by
  rcases hp with rfl | rfl <;> rcases hi with rfl | rfl <;> decide

/-- C13: for a concatenation with N transforms whose two flags are 0 or 1,
`Concatenate(transform)` makes the count N+1 and takes one reference on the transform. If
`PreMultiplyFlag` XOR `InverseFlag` holds (the flags differ), the new pair is at list index 0,
every old pair has moved from index k to k+1 and the pre-transform count is one more;
otherwise the new pair is at index N, every old pair is where it was and the pre-transform
count is unchanged. The new pair holds the transform alone: as the forward member when
`InverseFlag` is clear, as the inverse member when it is set. -/
theorem C13_concatenate_position (h : Heap) (c : vtkTransformConcatenation) (t : Ref)
    (hP : c.PreMultiplyFlag = 0 ∨ c.PreMultiplyFlag = 1)
    (hI : c.InverseFlag = 0 ∨ c.InverseFlag = 1) :
    (Concatenate h c t).2.NumberOfTransforms = c.NumberOfTransforms + 1 ∧
    (Concatenate h c t).1 = vtkObject.Register h t ∧
    (Int.xor c.PreMultiplyFlag c.InverseFlag ≠ 0 ↔ c.PreMultiplyFlag ≠ c.InverseFlag) ∧
    (c.PreMultiplyFlag ≠ c.InverseFlag →
      (Concatenate h c t).2.TransformList 0 = NewPair c.InverseFlag t ∧
      (∀ k, k < c.NumberOfTransforms →
        (Concatenate h c t).2.TransformList (k + 1) = c.TransformList k) ∧
      (Concatenate h c t).2.NumberOfPreTransforms = c.NumberOfPreTransforms + 1) ∧
    (c.PreMultiplyFlag = c.InverseFlag →
      (Concatenate h c t).2.TransformList c.NumberOfTransforms = NewPair c.InverseFlag t ∧
      (∀ k, k < c.NumberOfTransforms →
        (Concatenate h c t).2.TransformList k = c.TransformList k) ∧
      (Concatenate h c t).2.NumberOfPreTransforms = c.NumberOfPreTransforms) ∧
    (c.InverseFlag = 0 →
      NewPair c.InverseFlag t = { ForwardTransform := some t, InverseTransform := none }) ∧
    (c.InverseFlag = 1 →
      NewPair c.InverseFlag t = { ForwardTransform := none, InverseTransform := some t }) := by
  have hx := xor_flags_ne_zero c.PreMultiplyFlag c.InverseFlag hP hI
  refine ⟨Concatenate_NumberOfTransforms c h t, Concatenate_fst c h t, hx, ?_, ?_, ?_, ?_⟩
  · intro hne
    have hx1 := hx.2 hne
    refine ⟨?_, ?_, ?_⟩
    · rw [Concatenate_TransformList c h t 0 (Nat.zero_le _), if_pos hx1, if_pos rfl]
    · intro k hk
      rw [Concatenate_TransformList c h t (k + 1) (by omega), if_pos hx1,
        if_neg (Nat.succ_ne_zero k)]
      rfl
    · rw [Concatenate_NumberOfPreTransforms, if_pos hx1]
  · intro he
    have hx0 : ¬ Int.xor c.PreMultiplyFlag c.InverseFlag ≠ 0 := fun hc => hx.1 hc he
    refine ⟨?_, ?_, ?_⟩
    · rw [Concatenate_TransformList c h t _ (Nat.le_refl _), if_neg hx0, if_pos rfl]
    · intro k hk
      rw [Concatenate_TransformList c h t k (by omega), if_neg hx0,
        if_neg (Nat.ne_of_lt hk)]
    · rw [Concatenate_NumberOfPreTransforms, if_neg hx0]
  · intro h0
    rw [h0]; rfl
  · intro h1
    rw [h1]; rfl

theorem C13_concatenate_position_witness :
    (Example.LeafThenTranslate.2.PreMultiplyFlag = 0 ∨
      Example.LeafThenTranslate.2.PreMultiplyFlag = 1) ∧
    (Example.LeafThenTranslate.2.InverseFlag = 0 ∨
      Example.LeafThenTranslate.2.InverseFlag = 1) ∧
    Example.LeafThenTranslate.2.NumberOfTransforms = 2 ∧
    (Concatenate Example.LeafThenTranslate.1 Example.LeafThenTranslate.2 0).2.NumberOfTransforms
      = 3 ∧
    (Concatenate Example.LeafThenTranslate.1 Example.LeafThenTranslate.2 0).2.TransformList 0
      = NewPair Example.LeafThenTranslate.2.InverseFlag 0 :=
  have k := C13_concatenate_position Example.LeafThenTranslate.1 Example.LeafThenTranslate.2 0
    (by decide) (by decide)
  ⟨by decide, by decide, by decide, k.1, (k.2.2.2.1 (by decide)).1⟩

end ClaimC13

section ClaimC14
open vtkTransformConcatenation

/-- C14 (amended): `Concatenate(transform)` clears, before inserting, the fast-path slot of
the end the new transform is pushed on, and keeps the slot of the other end: in
pre-multiply mode the pre-matrix slot is cleared and the post-matrix slot kept, in
post-multiply mode the post-matrix slot is cleared and the pre-matrix slot kept. A raw
matrix concatenated next therefore finds its slot empty and allocates a new leaf, which
becomes the fast-path node of that end, and the count is two more than before. -/
theorem C14_concatenate_evicts_pushed_slot (h : Heap) (c : vtkTransformConcatenation)
    (t : Ref) (E : Mat4) :
    (c.PreMultiplyFlag ≠ 0 →
      (Concatenate h c t).2.PreMatrix = none ∧
      (Concatenate h c t).2.PostMatrix = c.PostMatrix ∧
      (Concatenate h c t).2.PostMatrixTransform = c.PostMatrixTransform ∧
      (ConcatenateMatrix (Concatenate h c t).1 (Concatenate h c t).2 E).2.PreMatrix =
        some h.next ∧
      (ConcatenateMatrix (Concatenate h c t).1 (Concatenate h c t).2 E).1.next = h.next + 1 ∧
      (ConcatenateMatrix (Concatenate h c t).1 (Concatenate h c t).2 E).2.NumberOfTransforms =
        c.NumberOfTransforms + 2) ∧
    (c.PreMultiplyFlag = 0 →
      (Concatenate h c t).2.PostMatrix = none ∧
      (Concatenate h c t).2.PreMatrix = c.PreMatrix ∧
      (Concatenate h c t).2.PreMatrixTransform = c.PreMatrixTransform ∧
      (ConcatenateMatrix (Concatenate h c t).1 (Concatenate h c t).2 E).2.PostMatrix =
        some h.next ∧
      (ConcatenateMatrix (Concatenate h c t).1 (Concatenate h c t).2 E).1.next = h.next + 1 ∧
      (ConcatenateMatrix (Concatenate h c t).1 (Concatenate h c t).2 E).2.NumberOfTransforms =
        c.NumberOfTransforms + 2) := by
  constructor
  · intro hp
    have e1 : (Concatenate h c t).2.PreMatrix = none := by
      rw [Concatenate_PreMatrix, if_pos hp]
    have hp1 : (Concatenate h c t).2.PreMultiplyFlag ≠ 0 := by
      rw [Concatenate_PreMultiplyFlag]; exact hp
    obtain ⟨a1, a2, _⟩ := ConcatenateMatrix_pre_none (Concatenate h c t).1
      (Concatenate h c t).2 E hp1 e1
    refine ⟨e1, ?_, ?_, ?_, ?_, ?_⟩
    · rw [Concatenate_PostMatrix, if_neg hp]
    · rw [Concatenate_PostMatrixTransform, if_neg (fun hx => hp hx.1)]
    · rw [a1]; simp
    · rw [a2]; simp
    · rw [a1]; simp
  · intro hp
    have e1 : (Concatenate h c t).2.PostMatrix = none := by
      rw [Concatenate_PostMatrix, if_pos hp]
    have hp1 : (Concatenate h c t).2.PreMultiplyFlag = 0 := by
      rw [Concatenate_PreMultiplyFlag]; exact hp
    obtain ⟨a1, a2, _⟩ := ConcatenateMatrix_post_none (Concatenate h c t).1
      (Concatenate h c t).2 E hp1 e1
    refine ⟨e1, ?_, ?_, ?_, ?_, ?_⟩
    · rw [Concatenate_PreMatrix, if_neg (by simp [hp])]
    · rw [Concatenate_PreMatrixTransform, if_neg (by simp [hp])]
    · rw [a1]; simp
    · rw [a2]; simp
    · rw [a1]; simp

theorem C14_concatenate_evicts_pushed_slot_witness :
    Example.PreSlotPreMode.2.PreMultiplyFlag ≠ 0 ∧
    Example.PreSlotPreMode.2.PreMatrix = some 0 ∧
    (Concatenate Example.PreSlotPreMode.1 Example.PreSlotPreMode.2 1).2.PreMatrix = none ∧
    (ConcatenateMatrix (Concatenate Example.PreSlotPreMode.1 Example.PreSlotPreMode.2 1).1
      (Concatenate Example.PreSlotPreMode.1 Example.PreSlotPreMode.2 1).2
      Example.S222).2.PreMatrix = some Example.PreSlotPreMode.1.next :=
  have k := (C14_concatenate_evicts_pushed_slot Example.PreSlotPreMode.1
    Example.PreSlotPreMode.2 1 Example.S222).1 (by decide)
  ⟨by decide, by decide, k.1, k.2.2.2.1⟩

/-- Counterexample to C14 as stated: in pre-multiply mode with the post-matrix slot set,
`Concatenate(transform)` leaves the post-matrix slot set; and in pre-multiply mode with the
pre-matrix slot set it clears that slot, the one of its own end. -/
theorem C14_as_stated_fails :
    Example.PostSlotPreMode.2.PreMultiplyFlag = 1 ∧
    Example.PostSlotPreMode.2.PostMatrix = some 0 ∧
    (Concatenate Example.PostSlotPreMode.1 Example.PostSlotPreMode.2 1).2.PostMatrix =
      some 0 ∧
    Example.PreSlotPreMode.2.PreMultiplyFlag = 1 ∧
    Example.PreSlotPreMode.2.PreMatrix = some 0 ∧
    (Concatenate Example.PreSlotPreMode.1 Example.PreSlotPreMode.2 1).2.PreMatrix = none := by
  decide

end ClaimC14

section ClaimC15
open vtkTransformConcatenation vtkAbstractTransform

/-- With `InverseFlag` clear and the forward member of pair `i` present, `GetTransform(i)`
returns it and changes nothing. -/
theorem GetTransform_forward_present (h : Heap) (c : vtkTransformConcatenation) (i : Nat)
    (r : Ref) (hf : c.InverseFlag = 0) (hr : (c.TransformList i).ForwardTransform = some r) :
    GetTransform h c i = (h, c, some r) := by
  unfold GetTransform
  rw [if_neg (by simp [hf])]
  dsimp only
  rw [if_neg (by simp [hr]), hr]

/-- With `InverseFlag` clear and the forward member of pair `i` absent, `GetTransform(i)`
takes `GetInverse()` of the inverse member, stores it in the pair and returns it. -/
theorem GetTransform_forward_absent (h : Heap) (c : vtkTransformConcatenation) (i : Nat)
    (f : Ref) (hf : c.InverseFlag = 0) (hr : (c.TransformList i).ForwardTransform = none)
    (hi : (c.TransformList i).InverseTransform = some f) :
    GetTransform h c i =
      (RegisterPtr (GetInverse h f).1 (GetInverse h f).2,
        { c with
          TransformList := Function.update c.TransformList i
            { ForwardTransform := (GetInverse h f).2, InverseTransform := some f } },
        (GetInverse h f).2) := by
  unfold GetTransform
  rw [if_neg (by simp [hf])]
  dsimp only
  rw [if_pos hr, hi]

/-- With `InverseFlag` set and the inverse member of pair `N-1-i` present, `GetTransform(i)`
returns it and changes nothing. -/
theorem GetTransform_inverse_present (h : Heap) (c : vtkTransformConcatenation) (i : Nat)
    (r : Ref) (hf : c.InverseFlag ≠ 0)
    (hr : (c.TransformList (c.NumberOfTransforms - i - 1)).InverseTransform = some r) :
    GetTransform h c i = (h, c, some r) := by
  unfold GetTransform
  rw [if_pos hf]
  dsimp only
  rw [if_neg (by simp [hr]), hr]

/-- With `InverseFlag` set and the inverse member of pair `N-1-i` absent, `GetTransform(i)`
takes `GetInverse()` of the forward member, stores it in the pair and returns it. -/
theorem GetTransform_inverse_absent (h : Heap) (c : vtkTransformConcatenation) (i : Nat)
    (f : Ref) (hf : c.InverseFlag ≠ 0)
    (hr : (c.TransformList (c.NumberOfTransforms - i - 1)).InverseTransform = none)
    (hi : (c.TransformList (c.NumberOfTransforms - i - 1)).ForwardTransform = some f) :
    GetTransform h c i =
      (RegisterPtr (GetInverse h f).1 (GetInverse h f).2,
        { c with
          TransformList := Function.update c.TransformList (c.NumberOfTransforms - i - 1)
            { ForwardTransform := some f, InverseTransform := (GetInverse h f).2 } },
        (GetInverse h f).2) := by
  unfold GetTransform
  rw [if_pos hf]
  dsimp only
  rw [if_pos hr, hi]

end ClaimC15

section ClaimC15Statement
open vtkTransformConcatenation vtkAbstractTransform

/-- The record after `GetTransform(i)` differs from the record before at most in the pair
the call reads. -/
theorem GetTransform_record (h : Heap) (c : vtkTransformConcatenation) (i : Nat) :
    ∃ p, (GetTransform h c i).2.1 =
      { c with TransformList := Function.update c.TransformList (ReadIndex c i) p } := by
  have self : c =
      { c with
        TransformList :=
          Function.update c.TransformList (ReadIndex c i) (c.TransformList (ReadIndex c i)) } := by
    rw [Function.update_eq_self]
  by_cases hf : c.InverseFlag = 0
  · have hj : ReadIndex c i = i := by unfold ReadIndex; rw [if_neg (by simp [hf])]
    cases hr : (c.TransformList i).ForwardTransform with
    | some r =>
      rw [GetTransform_forward_present h c i r hf hr]
      exact ⟨_, self⟩
    | none =>
      cases hi : (c.TransformList i).InverseTransform with
      | some f =>
        rw [GetTransform_forward_absent h c i f hf hr hi, hj]
        exact ⟨_, rfl⟩
      | none =>
        refine ⟨c.TransformList (ReadIndex c i), ?_⟩
        have e : GetTransform h c i = (h, c, none) := by
          unfold GetTransform
          rw [if_neg (by simp [hf])]
          dsimp only
          rw [if_pos hr, hi]
        rw [e]; exact self
  · have hj : ReadIndex c i = c.NumberOfTransforms - i - 1 := by
      unfold ReadIndex; rw [if_pos hf]
    cases hr : (c.TransformList (c.NumberOfTransforms - i - 1)).InverseTransform with
    | some r =>
      rw [GetTransform_inverse_present h c i r hf hr]
      exact ⟨_, self⟩
    | none =>
      cases hi : (c.TransformList (c.NumberOfTransforms - i - 1)).ForwardTransform with
      | some f =>
        rw [GetTransform_inverse_absent h c i f hf hr hi, hj]
        exact ⟨_, rfl⟩
      | none =>
        refine ⟨c.TransformList (ReadIndex c i), ?_⟩
        have e : GetTransform h c i = (h, c, none) := by
          unfold GetTransform
          rw [if_pos hf]
          dsimp only
          rw [if_pos hr, hi]
        rw [e]; exact self

/-- C15: for a concatenation with N transforms in which every pair has a member and the
members are objects of the heap, and every i < N: with `InverseFlag` clear `GetTransform(i)`
returns the forward member of pair i, with `InverseFlag` set the inverse member of pair
N-1-i; a present member is returned with no change at all; an absent one is what
`GetInverse()` of the present member returns, and it is stored beside that member in the
pair. A second `GetTransform(i)` returns the same node and changes neither the heap nor the
record (nothing is synthesized again). The counts, the flags, the fast-path slots and every
other pair are unchanged. -/
theorem C15_get_transform_reads_and_caches (h : Heap) (c : vtkTransformConcatenation)
    (i : Nat) (hi : i < c.NumberOfTransforms)
    (hmem : ∀ k, k < c.NumberOfTransforms →
      (c.TransformList k).ForwardTransform ≠ none ∨ (c.TransformList k).InverseTransform ≠ none)
    (hheap : ListInHeap h c) :
    (c.InverseFlag = 0 →
      (∀ r, (c.TransformList i).ForwardTransform = some r →
        GetTransform h c i = (h, c, some r)) ∧
      ((c.TransformList i).ForwardTransform = none →
        ∃ f r, (c.TransformList i).InverseTransform = some f ∧
          (GetInverse h f).2 = some r ∧ (GetTransform h c i).2.2 = some r ∧
          (GetTransform h c i).2.1.TransformList i =
            { ForwardTransform := some r, InverseTransform := some f })) ∧
    (c.InverseFlag ≠ 0 →
      (∀ r, (c.TransformList (c.NumberOfTransforms - 1 - i)).InverseTransform = some r →
        GetTransform h c i = (h, c, some r)) ∧
      ((c.TransformList (c.NumberOfTransforms - 1 - i)).InverseTransform = none →
        ∃ f r, (c.TransformList (c.NumberOfTransforms - 1 - i)).ForwardTransform = some f ∧
          (GetInverse h f).2 = some r ∧ (GetTransform h c i).2.2 = some r ∧
          (GetTransform h c i).2.1.TransformList (c.NumberOfTransforms - 1 - i) =
            { ForwardTransform := some f, InverseTransform := some r })) ∧
    (∃ r, (GetTransform h c i).2.2 = some r ∧
      GetTransform (GetTransform h c i).1 (GetTransform h c i).2.1 i =
        ((GetTransform h c i).1, (GetTransform h c i).2.1, some r)) ∧
    (GetTransform h c i).2.1.NumberOfTransforms = c.NumberOfTransforms ∧
    (GetTransform h c i).2.1.NumberOfPreTransforms = c.NumberOfPreTransforms ∧
    (GetTransform h c i).2.1.InverseFlag = c.InverseFlag ∧
    (GetTransform h c i).2.1.PreMultiplyFlag = c.PreMultiplyFlag ∧
    (GetTransform h c i).2.1.PreMatrix = c.PreMatrix ∧
    (GetTransform h c i).2.1.PostMatrix = c.PostMatrix ∧
    (∀ k, k ≠ ReadIndex c i →
      (GetTransform h c i).2.1.TransformList k = c.TransformList k) := by
  have hsub : c.NumberOfTransforms - 1 - i = c.NumberOfTransforms - i - 1 :=
    Nat.sub_right_comm _ _ _
  rw [hsub]
  have hj : c.NumberOfTransforms - i - 1 < c.NumberOfTransforms := by omega
  have hsome : ∀ f : Nat, f < h.next → ∃ r, (GetInverse h f).2 = some r :=
    fun f hlt => ⟨_, (GetInverse_effect h f (Nat.ne_of_lt hlt)).1⟩
  obtain ⟨p, hp⟩ := GetTransform_record h c i
  refine ⟨?_, ?_, ?_, ?_, ?_, ?_, ?_, ?_, ?_, ?_⟩
  · intro hf
    refine ⟨fun r hr => GetTransform_forward_present h c i r hf hr, fun hr => ?_⟩
    cases hm : (c.TransformList i).InverseTransform with
    | none => exact absurd hm ((hmem i hi).resolve_left (fun x => x hr))
    | some f =>
      obtain ⟨r, hg⟩ := hsome f ((hheap i hi).2 f hm)
      refine ⟨f, r, rfl, hg, ?_, ?_⟩
      · rw [GetTransform_forward_absent h c i f hf hr hm]; exact hg
      · rw [GetTransform_forward_absent h c i f hf hr hm]
        simp only [Function.update_same, hg]
  · intro hf
    refine ⟨fun r hr => GetTransform_inverse_present h c i r hf hr, fun hr => ?_⟩
    cases hm : (c.TransformList (c.NumberOfTransforms - i - 1)).ForwardTransform with
    | none => exact absurd hm ((hmem _ hj).resolve_right (fun x => x hr))
    | some f =>
      obtain ⟨r, hg⟩ := hsome f ((hheap _ hj).1 f hm)
      refine ⟨f, r, rfl, hg, ?_, ?_⟩
      · rw [GetTransform_inverse_absent h c i f hf hr hm]; exact hg
      · rw [GetTransform_inverse_absent h c i f hf hr hm]
        simp only [Function.update_same, hg]
  · by_cases hf : c.InverseFlag = 0
    · cases hr : (c.TransformList i).ForwardTransform with
      | some r =>
        rw [GetTransform_forward_present h c i r hf hr]
        exact ⟨r, rfl, GetTransform_forward_present h c i r hf hr⟩
      | none =>
        cases hm : (c.TransformList i).InverseTransform with
        | none => exact absurd hm ((hmem i hi).resolve_left (fun x => x hr))
        | some f =>
          obtain ⟨r, hg⟩ := hsome f ((hheap i hi).2 f hm)
          rw [GetTransform_forward_absent h c i f hf hr hm]
          refine ⟨r, hg, ?_⟩
          rw [hg]
          exact GetTransform_forward_present _ _ i r hf (by simp)
    · cases hr : (c.TransformList (c.NumberOfTransforms - i - 1)).InverseTransform with
      | some r =>
        rw [GetTransform_inverse_present h c i r hf hr]
        exact ⟨r, rfl, GetTransform_inverse_present h c i r hf hr⟩
      | none =>
        cases hm : (c.TransformList (c.NumberOfTransforms - i - 1)).ForwardTransform with
        | none => exact absurd hm ((hmem _ hj).resolve_right (fun x => x hr))
        | some f =>
          obtain ⟨r, hg⟩ := hsome f ((hheap _ hj).1 f hm)
          rw [GetTransform_inverse_absent h c i f hf hr hm]
          refine ⟨r, hg, ?_⟩
          rw [hg]
          exact GetTransform_inverse_present _ _ i r hf (by simp)
  · rw [hp]
  · rw [hp]
  · rw [hp]
  · rw [hp]
  · rw [hp]
  · rw [hp]
  · intro k hk
    rw [hp]
    exact Function.update_noteq hk _ _

end ClaimC15Statement

section ClaimC15Witness
open vtkTransformConcatenation vtkAbstractTransform

theorem C15_get_transform_reads_and_caches_witness :
    Example.InvertedLeaf.2.InverseFlag ≠ 0 ∧
    Example.InvertedLeaf.2.TransformList 0 =
      { ForwardTransform := some 0, InverseTransform := none } ∧
    (GetTransform Example.InvertedLeaf.1 Example.InvertedLeaf.2 0).2.2 = some 1 ∧
    (∃ r, (GetTransform Example.InvertedLeaf.1 Example.InvertedLeaf.2 0).2.2 = some r ∧
      GetTransform (GetTransform Example.InvertedLeaf.1 Example.InvertedLeaf.2 0).1
        (GetTransform Example.InvertedLeaf.1 Example.InvertedLeaf.2 0).2.1 0 =
        ((GetTransform Example.InvertedLeaf.1 Example.InvertedLeaf.2 0).1,
          (GetTransform Example.InvertedLeaf.1 Example.InvertedLeaf.2 0).2.1, some r)) :=
  ⟨by decide, by decide, by decide,
    (C15_get_transform_reads_and_caches Example.InvertedLeaf.1 Example.InvertedLeaf.2 0
      (by decide) (by decide) (by decide)).2.2.1⟩

end ClaimC15Witness

section MTimeLemmas
open vtkAbstractTransform

theorem GetMTime_succ (fuel : Nat) (h : Heap) (r : Ref) :
    GetMTime (fuel + 1) h r =
      if (h.get r).DependsOnInverse then
        match (h.get r).MyInverse with
        | some inv =>
          match GetMTime fuel h inv with
          | .ok t => .ok (max (h.get r).MTime t)
          | .error f => .error f
        | none => .error .NullDereference
      else .ok (h.get r).MTime := by
  conv_lhs => unfold GetMTime
  dsimp only
  split
  · cases (h.get r).MyInverse with
    | none => rfl
    | some inv =>
      dsimp only
      cases GetMTime fuel h inv with
      | error f => rfl
      | ok t =>
        dsimp only
        by_cases c : t > (h.get r).MTime
        · rw [if_pos c, max_eq_right (Nat.le_of_lt c)]
        · rw [if_neg c, max_eq_left (Nat.le_of_not_lt c)]
  · rfl

theorem ChainEnds_succ (fuel : Nat) (h : Heap) (r : Ref) :
    ChainEnds (fuel + 1) h r ↔
      ((h.get r).DependsOnInverse = false ∨
        ∃ inv, (h.get r).MyInverse = some inv ∧ ChainEnds fuel h inv) := by
  conv_lhs => unfold ChainEnds
  cases hd : (h.get r).DependsOnInverse with
  | false => simp
  | true =>
    simp only [if_true, Bool.true_eq_false, false_or]
    cases hm : (h.get r).MyInverse with
    | none => simp
    | some inv => simp

theorem ChainEnds_mono (fuel : Nat) : ∀ (h : Heap) (r : Ref),
    ChainEnds fuel h r → ChainEnds (fuel + 1) h r := by
  induction fuel with
  | zero => intro h r hc; exact absurd hc (by simp [ChainEnds])
  | succ n ih =>
    intro h r hc
    rw [ChainEnds_succ] at hc ⊢
    rcases hc with hd | ⟨inv, hm, hi⟩
    · exact Or.inl hd
    · exact Or.inr ⟨inv, hm, ih h inv hi⟩

theorem ChainEnds_congr (fuel : Nat) : ∀ (h h' : Heap) (r : Ref), Heap.SameLinks h h' →
    ChainEnds fuel h r → ChainEnds fuel h' r := by
  induction fuel with
  | zero => intro h h' r _ hc; exact absurd hc (by simp [ChainEnds])
  | succ n ih =>
    intro h h' r hl hc
    rw [ChainEnds_succ] at hc ⊢
    rcases hc with hd | ⟨inv, hm, hi⟩
    · exact Or.inl ((hl r).2.trans hd)
    · exact Or.inr ⟨inv, (hl r).1.trans hm, ih h h' inv hl hi⟩

/-- `GetMTime` returns when the walk ends within the fuel; what it returns is at least the
object's own `MTime` and is the `MTime` of some object. -/
theorem GetMTime_ok (fuel : Nat) : ∀ (h : Heap) (r : Ref), ChainEnds fuel h r →
    ∃ t, GetMTime fuel h r = .ok t ∧ (h.get r).MTime ≤ t ∧ ∃ s, t = (h.get s).MTime := by
  induction fuel with
  | zero => intro h r hc; exact absurd hc (by simp [ChainEnds])
  | succ n ih =>
    intro h r hc
    rw [ChainEnds_succ] at hc
    rw [GetMTime_succ]
    rcases hc with hd | ⟨inv, hm, hi⟩
    · rw [hd]
      exact ⟨_, rfl, Nat.le_refl _, r, rfl⟩
    · obtain ⟨t, e1, _, s, e3⟩ := ih h inv hi
      cases hd : (h.get r).DependsOnInverse with
      | false => exact ⟨_, rfl, Nat.le_refl _, r, rfl⟩
      | true =>
        simp only [if_true, hm, e1]
        refine ⟨_, rfl, le_max_left _ _, ?_⟩
        rcases le_total (h.get r).MTime t with c | c
        · exact ⟨s, by rw [max_eq_right c, e3]⟩
        · exact ⟨r, by rw [max_eq_left c]⟩

/-- `GetMTime` returns only when the walk ends within the fuel. -/
theorem GetMTime_ok_ChainEnds (fuel : Nat) : ∀ (h : Heap) (r : Ref) (t : Nat),
    GetMTime fuel h r = .ok t → ChainEnds fuel h r := by
  induction fuel with
  | zero => intro h r t e; simp [GetMTime] at e
  | succ n ih =>
    intro h r t e
    rw [GetMTime_succ] at e
    rw [ChainEnds_succ]
    cases hd : (h.get r).DependsOnInverse with
    | false => exact Or.inl rfl
    | true =>
      right
      rw [hd] at e
      simp only [if_true] at e
      cases hm : (h.get r).MyInverse with
      | none => rw [hm] at e; cases e
      | some inv =>
        rw [hm] at e
        dsimp only at e
        cases hg : GetMTime n h inv with
        | error f => rw [hg] at e; cases e
        | ok u => exact ⟨inv, rfl, ih h inv u hg⟩

end MTimeLemmas

section UpdateLemmas
open vtkAbstractTransform

theorem get_BeginUpdate (h : Heap) (this s : Ref) :
    (BeginUpdate h this).get s =
      if s = this then { h.get this with InUpdate := true } else h.get s := by
  simp only [BeginUpdate, Heap.get_set]

theorem get_EndUpdate (h : Heap) (this s : Ref) :
    (EndUpdate h this).get s =
      if s = this then { h.get this with InUpdate := false, UpdateTime := h.clock + 1 }
      else h.get s := by
  simp only [EndUpdate, Heap.get_mk]
  exact Heap.get_set h this s _

theorem clock_EndUpdate (h : Heap) (this : Ref) : (EndUpdate h this).clock = h.clock + 1 := rfl

theorem clock_BeginUpdate (h : Heap) (this : Ref) : (BeginUpdate h this).clock = h.clock := rfl

theorem MTime_BeginUpdate (h : Heap) (this s : Ref) :
    ((BeginUpdate h this).get s).MTime = (h.get s).MTime := by
  rw [get_BeginUpdate]; split
  · next e => rw [e]
  · rfl

theorem MTime_EndUpdate (h : Heap) (this s : Ref) :
    ((EndUpdate h this).get s).MTime = (h.get s).MTime := by
  rw [get_EndUpdate]; split
  · next e => rw [e]
  · rfl

theorem SameLinks_BeginUpdate (h : Heap) (this : Ref) : Heap.SameLinks h (BeginUpdate h this) := by
  intro s
  rw [get_BeginUpdate]; split
  · next e => rw [e]; exact ⟨rfl, rfl⟩
  · exact ⟨rfl, rfl⟩

theorem SameLinks_EndUpdate (h : Heap) (this : Ref) : Heap.SameLinks h (EndUpdate h this) := by
  intro s
  rw [get_EndUpdate]; split
  · next e => rw [e]; exact ⟨rfl, rfl⟩
  · exact ⟨rfl, rfl⟩

theorem SameLinks_trans (a b c : Heap) (hab : Heap.SameLinks a b) (hbc : Heap.SameLinks b c) :
    Heap.SameLinks a c :=
  fun s => ⟨(hbc s).1.trans (hab s).1, (hbc s).2.trans (hab s).2⟩

theorem Stamped_BeginUpdate (h : Heap) (this : Ref) (hs : h.Stamped) :
    (BeginUpdate h this).Stamped := by
  intro r
  rw [MTime_BeginUpdate, clock_BeginUpdate]
  exact hs r

/-- The value of `GetMTime` depends on the inverse links, the `DependsOnInverse` flags and
the `MTime`s only. -/
theorem GetMTime_congr (fuel : Nat) : ∀ (h h' : Heap) (r : Ref), Heap.SameLinks h h' →
    (∀ s, (h'.get s).MTime = (h.get s).MTime) → GetMTime fuel h' r = GetMTime fuel h r := by
  induction fuel with
  | zero => intro h h' r _ _; rfl
  | succ n ih =>
    intro h h' r hl hm
    rw [GetMTime_succ, GetMTime_succ, (hl r).1, (hl r).2, hm r]
    cases (h.get r).MyInverse with
    | none => rfl
    | some inv => dsimp only; rw [ih h h' inv hl hm]

theorem GetMTime_BeginUpdate (fuel : Nat) (h : Heap) (this r : Ref) :
    GetMTime fuel (BeginUpdate h this) r = GetMTime fuel h r :=
  GetMTime_congr fuel h _ r (SameLinks_BeginUpdate h this) (MTime_BeginUpdate h this)

theorem UpdateTime_BeginUpdate (h : Heap) (this : Ref) :
    ((BeginUpdate h this).get this).UpdateTime = (h.get this).UpdateTime := by
  rw [get_BeginUpdate, if_pos rfl]

theorem UpdateOwn_ge (hooks : UpdateHooks) (fuel : Nat) (h1 : Heap) (this : Ref) (t : Nat)
    (hg : GetMTime fuel h1 this = .ok t) (ht : (h1.get this).UpdateTime ≤ t) :
    UpdateOwn hooks fuel h1 this =
      .ok (EndUpdate (hooks.InternalUpdate h1 this) this, [.InternalUpdate]) := by
  unfold UpdateOwn
  rw [hg]
  dsimp only
  rw [if_pos ht]

theorem UpdateOwn_lt (hooks : UpdateHooks) (fuel : Nat) (h1 : Heap) (this : Ref) (t : Nat)
    (hg : GetMTime fuel h1 this = .ok t) (ht : t < (h1.get this).UpdateTime) :
    UpdateOwn hooks fuel h1 this = .ok (EndUpdate h1 this, []) := by
  unfold UpdateOwn
  rw [hg]
  dsimp only
  rw [if_neg (by omega)]

/-- The first branch of `Update`. -/
theorem Update_from_inverse (hooks : UpdateHooks) (fuel : Nat) (h : Heap) (this inv : Ref)
    (t : Nat) (hd : (h.get this).DependsOnInverse = true)
    (hm : (h.get this).MyInverse = some inv) (hg : GetMTime fuel h inv = .ok t)
    (ht : (h.get this).UpdateTime ≤ t) :
    Update hooks fuel h this =
      .ok (EndUpdate
        (hooks.InternalUpdate
          (hooks.Inverse (hooks.InternalDeepCopy (BeginUpdate h this) this inv) this) this)
        this, [.InternalDeepCopy inv, .Inverse, .InternalUpdate]) := by
  unfold Update
  dsimp only
  rw [(SameLinks_BeginUpdate h this this).2, (SameLinks_BeginUpdate h this this).1, hd, hm,
    if_pos rfl]
  dsimp only
  rw [GetMTime_BeginUpdate, hg]
  dsimp only
  rw [UpdateTime_BeginUpdate, if_pos ht]

/-- The other branch of `Update`: the transform does not depend on its inverse, or the
inverse is older than the last update. -/
theorem Update_own (hooks : UpdateHooks) (fuel : Nat) (h : Heap) (this : Ref)
    (hno : (h.get this).DependsOnInverse = false ∨
      ∃ inv u, (h.get this).MyInverse = some inv ∧ GetMTime fuel h inv = .ok u ∧
        u < (h.get this).UpdateTime) :
    Update hooks fuel h this = UpdateOwn hooks fuel (BeginUpdate h this) this := by
  unfold Update
  dsimp only
  rw [(SameLinks_BeginUpdate h this this).2, (SameLinks_BeginUpdate h this this).1]
  rcases hno with hd | ⟨inv, u, hm, hg, hu⟩
  · rw [hd, if_neg (by simp)]
  · cases hd : (h.get this).DependsOnInverse with
    | false => rw [if_neg (by simp)]
    | true =>
      rw [if_pos rfl, hm]
      dsimp only
      rw [GetMTime_BeginUpdate, hg]
      dsimp only
      rw [UpdateTime_BeginUpdate, if_neg (by omega)]

end UpdateLemmas

section UpdateTwice
open vtkAbstractTransform

/-- `Update` returns when the walk of `GetMTime` from the transform ends within the fuel; the
heap it leaves is the heap after the virtual methods it ran, stamped by `EndUpdate`. -/
theorem Update_returns (hooks : UpdateHooks) (fuel : Nat) (h : Heap) (this : Ref)
    (hwell : hooks.WellBehaved) (hchain : ChainEnds fuel h this) :
    ∃ g log, Update hooks fuel h this = .ok (EndUpdate g this, log) ∧
      Heap.SameLinks h g ∧ (h.Stamped → g.Stamped) := by
  obtain ⟨w1, w2, w3⟩ := hwell
  have lb := SameLinks_BeginUpdate h this
  obtain ⟨t, hg, _, _⟩ := GetMTime_ok fuel h this hchain
  have own : ∃ g log, UpdateOwn hooks fuel (BeginUpdate h this) this =
      .ok (EndUpdate g this, log) ∧ Heap.SameLinks h g ∧ (h.Stamped → g.Stamped) := by
    have hg1 : GetMTime fuel (BeginUpdate h this) this = .ok t := by
      rw [GetMTime_BeginUpdate]; exact hg
    by_cases c : ((BeginUpdate h this).get this).UpdateTime ≤ t
    · exact ⟨_, _, UpdateOwn_ge hooks fuel _ this t hg1 c,
        SameLinks_trans _ _ _ lb (w3 _ this).1,
        fun hs => (w3 _ this).2 (Stamped_BeginUpdate h this hs)⟩
    · exact ⟨_, _, UpdateOwn_lt hooks fuel _ this t hg1 (by omega), lb,
        fun hs => Stamped_BeginUpdate h this hs⟩
  cases hd : (h.get this).DependsOnInverse with
  | false => rw [Update_own hooks fuel h this (Or.inl hd)]; exact own
  | true =>
    cases fuel with
    | zero => exact absurd hchain (by simp [ChainEnds])
    | succ n =>
      rw [ChainEnds_succ] at hchain
      rcases hchain with hx | ⟨inv, hm, hi⟩
      · rw [hd] at hx; cases hx
      · obtain ⟨u, hu, _, _⟩ := GetMTime_ok (n + 1) h inv (ChainEnds_mono n h inv hi)
        by_cases c : (h.get this).UpdateTime ≤ u
        · refine ⟨_, _, Update_from_inverse hooks (n + 1) h this inv u hd hm hu c, ?_, ?_⟩
          · exact SameLinks_trans _ _ _ (SameLinks_trans _ _ _
              (SameLinks_trans _ _ _ lb (w1 _ this inv).1) (w2 _ this).1) (w3 _ this).1
          · intro hs
            exact (w3 _ this).2 ((w2 _ this).2 ((w1 _ this inv).2
              (Stamped_BeginUpdate h this hs)))
        · rw [Update_own hooks (n + 1) h this (Or.inr ⟨inv, u, hm, hu, by omega⟩)]
          exact own

/-- When every `MTime` is below the transform's last-updated time, `Update` runs none of
the virtual methods. -/
theorem Update_quiet (hooks : UpdateHooks) (fuel : Nat) (h : Heap) (this : Ref)
    (hchain : ChainEnds fuel h this)
    (hold : ∀ s, (h.get s).MTime < (h.get this).UpdateTime) :
    Update hooks fuel h this = .ok (EndUpdate (BeginUpdate h this) this, []) := by
  obtain ⟨t, hg, _, s, hs⟩ := GetMTime_ok fuel h this hchain
  have hg1 : GetMTime fuel (BeginUpdate h this) this = .ok t := by
    rw [GetMTime_BeginUpdate]; exact hg
  have ht : t < ((BeginUpdate h this).get this).UpdateTime := by
    rw [UpdateTime_BeginUpdate, hs]; exact hold s
  have own := UpdateOwn_lt hooks fuel _ this t hg1 ht
  cases hd : (h.get this).DependsOnInverse with
  | false => rw [Update_own hooks fuel h this (Or.inl hd)]; exact own
  | true =>
    cases fuel with
    | zero => exact absurd hchain (by simp [ChainEnds])
    | succ n =>
      rw [ChainEnds_succ] at hchain
      rcases hchain with hx | ⟨inv, hm, hi⟩
      · rw [hd] at hx; cases hx
      · obtain ⟨u, hu, _, s2, hs2⟩ := GetMTime_ok (n + 1) h inv (ChainEnds_mono n h inv hi)
        rw [Update_own hooks (n + 1) h this
          (Or.inr ⟨inv, u, hm, hu, by rw [hs2]; exact hold s2⟩)]
        exact own

/-- A second `Update` right after an `Update` runs none of the virtual methods. -/
theorem Update_twice (hooks : UpdateHooks) (fuel : Nat) (h : Heap) (this : Ref)
    (hwell : hooks.WellBehaved) (hstamped : h.Stamped) (hchain : ChainEnds fuel h this) :
    ∃ h1 log h2, Update hooks fuel h this = .ok (h1, log) ∧
      Update hooks fuel h1 this = .ok (h2, []) := by
  obtain ⟨g, log, e, hl, hs⟩ := Update_returns hooks fuel h this hwell hchain
  refine ⟨EndUpdate g this, log, EndUpdate (BeginUpdate (EndUpdate g this) this) this, e, ?_⟩
  apply Update_quiet
  · exact ChainEnds_congr fuel h _ this (SameLinks_trans _ _ _ hl (SameLinks_EndUpdate g this))
      hchain
  · intro s
    rw [MTime_EndUpdate]
    have e2 : ((EndUpdate g this).get this).UpdateTime = g.clock + 1 := by
      rw [get_EndUpdate, if_pos rfl]
    rw [e2]
    exact Nat.lt_succ_of_le (hs hstamped s)

/-- On return from `Update` the last-updated time of the transform is a new value of the
global counter and its `InUpdate` flag is clear. -/
theorem Update_stamp (hooks : UpdateHooks) (fuel : Nat) (h : Heap) (this : Ref) (h1 : Heap)
    (log : List HookCall) (hu : Update hooks fuel h this = .ok (h1, log)) :
    ∃ g, h1 = EndUpdate g this ∧ (h1.get this).UpdateTime = g.clock + 1 ∧
      h1.clock = g.clock + 1 ∧ (h1.get this).InUpdate = false := by
  have key : ∀ g, h1 = EndUpdate g this → ∃ g, h1 = EndUpdate g this ∧
      (h1.get this).UpdateTime = g.clock + 1 ∧ h1.clock = g.clock + 1 ∧
      (h1.get this).InUpdate = false := by
    intro g hg
    refine ⟨g, hg, ?_, ?_, ?_⟩
    · rw [hg, get_EndUpdate, if_pos rfl]
    · rw [hg]; rfl
    · rw [hg, get_EndUpdate, if_pos rfl]
  have own : ∀ r, UpdateOwn hooks fuel (BeginUpdate h this) this = .ok r →
      ∃ g, r.1 = EndUpdate g this := by
    intro r hr
    unfold UpdateOwn at hr
    cases hg : GetMTime fuel (BeginUpdate h this) this with
    | error f => rw [hg] at hr; cases hr
    | ok t =>
      rw [hg] at hr
      dsimp only at hr
      split at hr
      · cases hr; exact ⟨_, rfl⟩
      · cases hr; exact ⟨_, rfl⟩
  unfold Update at hu
  dsimp only at hu
  split at hu
  · cases hm : ((BeginUpdate h this).get this).MyInverse with
    | none => rw [hm] at hu; cases hu
    | some inv =>
      rw [hm] at hu
      dsimp only at hu
      cases hg : GetMTime fuel (BeginUpdate h this) inv with
      | error f => rw [hg] at hu; cases hu
      | ok t =>
        rw [hg] at hu
        dsimp only at hu
        split at hu
        · cases hu; exact key _ rfl
        · obtain ⟨g, hg2⟩ := own _ hu
          exact key g hg2
  · obtain ⟨g, hg2⟩ := own _ hu
    exact key g hg2

end UpdateTwice

section SimpleHooksLemmas
open vtkAbstractTransform

theorem Modified_links_stamped (h : Heap) (r : Ref) :
    Heap.SameLinks h (Modified h r) ∧ (h.Stamped → (Modified h r).Stamped) := by
  constructor
  · intro s
    rw [get_Modified]; split
    · next e => rw [e.1]; exact ⟨rfl, rfl⟩
    · exact ⟨rfl, rfl⟩
  · intro hs s
    unfold Modified
    split
    · exact hs s
    · rw [get_vtkObject_Modified]
      have hc : (vtkObject.Modified h r).clock = h.clock + 1 := rfl
      rw [hc]
      split
      · exact Nat.le_refl _
      · exact Nat.le_succ_of_le (hs s)

theorem MatrixDeepCopy_links_stamped (h : Heap) (r src : Ref) :
    Heap.SameLinks h (vtkMatrix4x4.DeepCopy h r src) ∧
    (h.Stamped → (vtkMatrix4x4.DeepCopy h r src).Stamped) := by
  constructor
  · intro s
    rw [get_vtkMatrix4x4_DeepCopy]; split
    · next e => rw [e]; exact ⟨rfl, rfl⟩
    · exact ⟨rfl, rfl⟩
  · intro hs s
    have hc : (vtkMatrix4x4.DeepCopy h r src).clock = h.clock + 1 := rfl
    rw [hc, get_vtkMatrix4x4_DeepCopy]
    split
    · exact Nat.le_succ_of_le (hs r)
    · exact Nat.le_succ_of_le (hs s)

theorem InvertInPlace_links_stamped (h : Heap) (r : Ref) :
    Heap.SameLinks h (vtkMatrix4x4.InvertInPlace h r) ∧
    (h.Stamped → (vtkMatrix4x4.InvertInPlace h r).Stamped) := by
  constructor
  · intro s
    rw [get_InvertInPlace]; split
    · next e => rw [e]; exact ⟨rfl, rfl⟩
    · exact ⟨rfl, rfl⟩
  · intro hs s
    have hc : (vtkMatrix4x4.InvertInPlace h r).clock = h.clock + 1 := rfl
    rw [hc, get_InvertInPlace]
    split
    · exact Nat.le_succ_of_le (hs r)
    · exact Nat.le_succ_of_le (hs s)

theorem SimpleHooks_WellBehaved : Example.SimpleHooks.WellBehaved := by
  refine ⟨fun h this src => ?_, fun h this => ?_, fun h this => ?_⟩
  · obtain ⟨a1, a2⟩ := MatrixDeepCopy_links_stamped h this src
    obtain ⟨b1, b2⟩ := Modified_links_stamped (vtkMatrix4x4.DeepCopy h this src) this
    exact ⟨SameLinks_trans _ _ _ a1 b1, fun hs => b2 (a2 hs)⟩
  · obtain ⟨a1, a2⟩ := InvertInPlace_links_stamped h this
    obtain ⟨b1, b2⟩ := Modified_links_stamped (vtkMatrix4x4.InvertInPlace h this) this
    exact ⟨SameLinks_trans _ _ _ a1 b1, fun hs => b2 (a2 hs)⟩
  · exact Modified_links_stamped h this

theorem LeafAndInverse_get (r : Ref) (h0 : r ≠ 0) (h1 : r ≠ 1) :
    Example.LeafAndInverse.get r = Heap.empty.get r := by
  have hn : (vtkSimpleTransform.New Heap.empty).1.next = 1 := rfl
  have e := (GetInverse_unlinked (vtkSimpleTransform.New Heap.empty).1 0 (by decide)
    (by decide) (by decide)).2.2.2.2.2.2.2.2.2 r h0 (by rw [hn]; exact h1)
  unfold Example.LeafAndInverse
  rw [e]
  exact get_New_ne Heap.empty r _ _ (by exact h0)

theorem LeafAndInverse_Stamped : Example.LeafAndInverse.Stamped := by
  intro r
  by_cases h0 : r = 0
  · subst h0; decide
  · by_cases h1 : r = 1
    · subst h1; decide
    · rw [LeafAndInverse_get r h0 h1]
      exact Nat.zero_le _

theorem LeafAndInverse_ChainEnds : ChainEnds 2 Example.LeafAndInverse 1 := by
  rw [ChainEnds_succ]
  right
  refine ⟨0, by decide, ?_⟩
  rw [ChainEnds_succ]
  left
  decide

end SimpleHooksLemmas

section ClaimC16
open vtkAbstractTransform

/-- C16: `Update()` decides by time stamps. If the transform depends on its inverse and the
inverse's `GetMTime()` is at least the transform's last-updated time, it runs
`InternalDeepCopy(inverse)`, `Inverse()`, `InternalUpdate()`, in that order. Otherwise it
runs `InternalUpdate()` alone when the transform's own `GetMTime()` is at least the
last-updated time, and nothing when it is below. Whenever it returns, the last-updated time
is a new value of the global counter (and `InUpdate` is clear). For virtual methods that
leave the inverse links alone and stamp with the global counter only, on a heap whose
`MTime`s are values of the counter and a transform whose walk along inverse links ends
within the fuel, `Update()` returns, and a second `Update()` right after it returns having
run none of the virtual methods. -/
theorem C16_update_by_timestamps (hooks : UpdateHooks) (fuel : Nat) (h : Heap) (this : Ref)
    (hwell : hooks.WellBehaved) (hstamped : h.Stamped) (hchain : ChainEnds fuel h this) :
    (∀ inv t, (h.get this).DependsOnInverse = true → (h.get this).MyInverse = some inv →
      GetMTime fuel h inv = .ok t → (h.get this).UpdateTime ≤ t →
      Update hooks fuel h this =
        .ok (EndUpdate
          (hooks.InternalUpdate
            (hooks.Inverse (hooks.InternalDeepCopy (BeginUpdate h this) this inv) this) this)
          this, [.InternalDeepCopy inv, .Inverse, .InternalUpdate])) ∧
    (∀ t, ((h.get this).DependsOnInverse = false ∨
        ∃ inv u, (h.get this).MyInverse = some inv ∧ GetMTime fuel h inv = .ok u ∧
          u < (h.get this).UpdateTime) →
      GetMTime fuel h this = .ok t →
      ((h.get this).UpdateTime ≤ t →
        Update hooks fuel h this =
          .ok (EndUpdate (hooks.InternalUpdate (BeginUpdate h this) this) this,
            [.InternalUpdate])) ∧
      (t < (h.get this).UpdateTime →
        Update hooks fuel h this = .ok (EndUpdate (BeginUpdate h this) this, []))) ∧
    (∀ h1 log, Update hooks fuel h this = .ok (h1, log) →
      ∃ g, h1 = EndUpdate g this ∧ (h1.get this).UpdateTime = g.clock + 1 ∧
        h1.clock = g.clock + 1 ∧ (h1.get this).InUpdate = false) ∧
    (∃ h1 log h2, Update hooks fuel h this = .ok (h1, log) ∧
      Update hooks fuel h1 this = .ok (h2, [])) := by
  refine ⟨fun inv t hd hm hg ht => Update_from_inverse hooks fuel h this inv t hd hm hg ht,
    fun t hno hg => ?_, fun h1 log hu => Update_stamp hooks fuel h this h1 log hu,
    Update_twice hooks fuel h this hwell hstamped hchain⟩
  have hg1 : GetMTime fuel (BeginUpdate h this) this = .ok t := by
    rw [GetMTime_BeginUpdate]; exact hg
  rw [Update_own hooks fuel h this hno]
  constructor
  · intro ht
    exact UpdateOwn_ge hooks fuel _ this t hg1 (by rw [UpdateTime_BeginUpdate]; exact ht)
  · intro ht
    exact UpdateOwn_lt hooks fuel _ this t hg1 (by rw [UpdateTime_BeginUpdate]; exact ht)

theorem C16_update_by_timestamps_witness :
    Example.SimpleHooks.WellBehaved ∧ Example.LeafAndInverse.Stamped ∧
    ChainEnds 2 Example.LeafAndInverse 1 ∧
    (∃ h1, Update Example.SimpleHooks 2 Example.LeafAndInverse 1 =
      .ok (h1, [.InternalDeepCopy 0, .Inverse, .InternalUpdate])) ∧
    (∃ h1 log h2, Update Example.SimpleHooks 2 Example.LeafAndInverse 1 = .ok (h1, log) ∧
      Update Example.SimpleHooks 2 h1 1 = .ok (h2, [])) :=
  have k := C16_update_by_timestamps Example.SimpleHooks 2 Example.LeafAndInverse 1
    SimpleHooks_WellBehaved LeafAndInverse_Stamped LeafAndInverse_ChainEnds
  ⟨SimpleHooks_WellBehaved, LeafAndInverse_Stamped, LeafAndInverse_ChainEnds,
    ⟨_, k.1 0 1 (by decide) (by decide) (by rfl) (by decide)⟩, k.2.2.2⟩

end ClaimC16

section ClaimC17
open vtkAbstractTransform

/-- C17: `GetMTime()` of a transform that does not depend on its inverse is its own
modification time; of one that does, the maximum of its own modification time and its
inverse's `GetMTime()`; it returns whenever the walk along inverse links ends within the
fuel. So for a transform `r` that depends on its inverse `T` (as a lazily created inverse
does on its creator), after `T.Modified()` outside of an update the `GetMTime()` of `r` is
at least the new modification time of `T`, the next value of the global counter. -/
theorem C17_get_mtime_follows_inverse (fuel : Nat) (h : Heap) (r : Ref) :
    ((h.get r).DependsOnInverse = false → GetMTime (fuel + 1) h r = .ok (h.get r).MTime) ∧
    (∀ inv t, (h.get r).DependsOnInverse = true → (h.get r).MyInverse = some inv →
      GetMTime fuel h inv = .ok t →
      GetMTime (fuel + 1) h r = .ok (max (h.get r).MTime t)) ∧
    (ChainEnds (fuel + 1) h r → ∃ t, GetMTime (fuel + 1) h r = .ok t) ∧
    (∀ T, (h.get r).DependsOnInverse = true → (h.get r).MyInverse = some T →
      ChainEnds fuel h T → (h.get T).InUpdate = false →
      ((Modified h T).get T).MTime = h.clock + 1 ∧
      ∃ t, GetMTime (fuel + 1) (Modified h T) r = .ok t ∧
        ((Modified h T).get T).MTime ≤ t) := by
  refine ⟨fun hd => ?_, fun inv t hd hm hg => ?_, fun hc => ?_, fun T hd hm hc hu => ?_⟩
  · rw [GetMTime_succ, hd]; rfl
  · rw [GetMTime_succ, hd, hm, if_pos rfl]
    dsimp only
    rw [hg]
  · obtain ⟨t, e, _⟩ := GetMTime_ok (fuel + 1) h r hc
    exact ⟨t, e⟩
  · obtain ⟨l1, _⟩ := Modified_links_stamped h T
    obtain ⟨t, e, hle, _⟩ := GetMTime_ok fuel (Modified h T) T (ChainEnds_congr fuel h _ T l1 hc)
    refine ⟨?_, max ((Modified h T).get r).MTime t, ?_, le_trans hle (le_max_right _ _)⟩
    · rw [get_Modified, if_pos ⟨rfl, hu⟩]
    · rw [GetMTime_succ, (l1 r).2, (l1 r).1, hd, hm, if_pos rfl]
      dsimp only
      rw [e]

theorem C17_get_mtime_follows_inverse_witness :
    (Example.LeafAndInverse.get 1).DependsOnInverse = true ∧
    (Example.LeafAndInverse.get 1).MyInverse = some 0 ∧
    ChainEnds 1 Example.LeafAndInverse 0 ∧
    ((Modified Example.LeafAndInverse 0).get 0).MTime = Example.LeafAndInverse.clock + 1 ∧
    (∃ t, GetMTime 2 (Modified Example.LeafAndInverse 0) 1 = .ok t ∧
      ((Modified Example.LeafAndInverse 0).get 0).MTime ≤ t) :=
  have hc : ChainEnds 1 Example.LeafAndInverse 0 := by
    rw [ChainEnds_succ]; left; decide
  have k := (C17_get_mtime_follows_inverse 1 Example.LeafAndInverse 1).2.2.2 0 (by decide)
    (by decide) hc (by decide)
  ⟨by decide, by decide, hc, k.1, k.2⟩

end ClaimC17

section ClaimC18
open vtkAbstractTransform

/-- The heap `Update` returns is the heap with `InUpdate` set, after the virtual methods of
one of the three branches, stamped by `EndUpdate`. -/
theorem Update_result_cases (hooks : UpdateHooks) (fuel : Nat) (h : Heap) (this : Ref)
    (h1 : Heap) (log : List HookCall) (hu : Update hooks fuel h this = .ok (h1, log)) :
    (∃ inv, h1 = EndUpdate (hooks.InternalUpdate (hooks.Inverse
      (hooks.InternalDeepCopy (BeginUpdate h this) this inv) this) this) this) ∨
    h1 = EndUpdate (hooks.InternalUpdate (BeginUpdate h this) this) this ∨
    h1 = EndUpdate (BeginUpdate h this) this := by
  have own : ∀ r, UpdateOwn hooks fuel (BeginUpdate h this) this = .ok r →
      r.1 = EndUpdate (hooks.InternalUpdate (BeginUpdate h this) this) this ∨
      r.1 = EndUpdate (BeginUpdate h this) this := by
    intro r hr
    unfold UpdateOwn at hr
    cases hg : GetMTime fuel (BeginUpdate h this) this with
    | error f => rw [hg] at hr; cases hr
    | ok t =>
      rw [hg] at hr
      dsimp only at hr
      split at hr
      · cases hr; exact Or.inl rfl
      · cases hr; exact Or.inr rfl
  unfold Update at hu
  dsimp only at hu
  split at hu
  · cases hm : ((BeginUpdate h this).get this).MyInverse with
    | none => rw [hm] at hu; cases hu
    | some inv =>
      rw [hm] at hu
      dsimp only at hu
      cases hg : GetMTime fuel (BeginUpdate h this) inv with
      | error f => rw [hg] at hu; cases hu
      | ok t =>
        rw [hg] at hu
        dsimp only at hu
        split at hu
        · cases hu; exact Or.inl ⟨inv, rfl⟩
        · exact Or.inr (own _ hu)
  · exact Or.inr (own _ hu)

/-- A virtual method that ends in `Modified()` and otherwise leaves the transform's
`InUpdate` flag and `MTime` alone keeps both when it runs inside `Update`. -/
theorem Modified_after_body (g g' : Heap) (this : Ref)
    (hbody : (g'.get this).InUpdate = (g.get this).InUpdate ∧
      (g'.get this).MTime = (g.get this).MTime)
    (hin : (g.get this).InUpdate = true) :
    ((Modified g' this).get this).InUpdate = true ∧
    ((Modified g' this).get this).MTime = (g.get this).MTime := by
  have hin2 : (g'.get this).InUpdate = true := hbody.1.trans hin
  have e : Modified g' this = g' := by
    unfold Modified; rw [if_pos hin2]
  rw [e]
  exact ⟨hin2, hbody.2⟩

/-- C18: `Modified()` on a transform whose `InUpdate` flag is set (its own `Update()` is in
progress) changes nothing, so its modification time stays; with the flag clear it sets the
modification time to the next value of the global counter, above the old one. `Update()`
leaves `InUpdate` clear whenever it returns. And when the three virtual methods `Update()`
calls end in `Modified()` on the transform (and their bodies leave its `InUpdate` flag and
modification time alone), the modification time after `Update()` is the one before. -/
theorem C18_modified_suppressed_in_update (hooks : UpdateHooks) (fuel : Nat) (h : Heap)
    (r : Ref) (bodyD : Heap → Ref → Ref → Heap) (bodyI bodyU : Heap → Ref → Heap) :
    ((h.get r).InUpdate = true → Modified h r = h) ∧
    ((h.get r).InUpdate = false →
      ((Modified h r).get r).MTime = h.clock + 1 ∧
      ((h.get r).MTime ≤ h.clock → (h.get r).MTime < ((Modified h r).get r).MTime)) ∧
    (∀ h1 log, Update hooks fuel h r = .ok (h1, log) → (h1.get r).InUpdate = false) ∧
    ((∀ g this src, ((bodyD g this src).get this).InUpdate = (g.get this).InUpdate ∧
        ((bodyD g this src).get this).MTime = (g.get this).MTime) →
      (∀ g this, ((bodyI g this).get this).InUpdate = (g.get this).InUpdate ∧
        ((bodyI g this).get this).MTime = (g.get this).MTime) →
      (∀ g this, ((bodyU g this).get this).InUpdate = (g.get this).InUpdate ∧
        ((bodyU g this).get this).MTime = (g.get this).MTime) →
      ∀ h1 log,
        Update
          { InternalDeepCopy := fun g this src => Modified (bodyD g this src) this
            Inverse := fun g this => Modified (bodyI g this) this
            InternalUpdate := fun g this => Modified (bodyU g this) this }
          fuel h r = .ok (h1, log) →
        (h1.get r).MTime = (h.get r).MTime) := by
  refine ⟨fun hu => ?_, fun hu => ?_, fun h1 log hu => ?_, fun hD hI hU h1 log hu => ?_⟩
  · unfold Modified; rw [if_pos hu]
  · have e : ((Modified h r).get r).MTime = h.clock + 1 := by
      rw [get_Modified, if_pos ⟨rfl, hu⟩]
    exact ⟨e, fun hle => by rw [e]; exact Nat.lt_succ_of_le hle⟩
  · obtain ⟨g, _, _, _, e⟩ := Update_stamp hooks fuel h r h1 log hu
    exact e
  · have b1 : ((BeginUpdate h r).get r).InUpdate = true := by
      rw [get_BeginUpdate, if_pos rfl]
    have b2 : ((BeginUpdate h r).get r).MTime = (h.get r).MTime := MTime_BeginUpdate h r r
    have stepU : ∀ g, (g.get r).InUpdate = true →
        ((Modified (bodyU g r) r).get r).MTime = (g.get r).MTime :=
      fun g hg => (Modified_after_body g _ r (hU g r) hg).2
    rcases Update_result_cases _ fuel h r h1 log hu with ⟨inv, e⟩ | e | e
    · rw [e, MTime_EndUpdate]
      dsimp only
      obtain ⟨d1, d2⟩ := Modified_after_body _ _ r (hD (BeginUpdate h r) r inv) b1
      obtain ⟨i1, i2⟩ := Modified_after_body _ _ r
        (hI (Modified (bodyD (BeginUpdate h r) r inv) r) r) d1
      rw [stepU _ i1, i2, d2, b2]
    · rw [e, MTime_EndUpdate]
      dsimp only
      rw [stepU _ b1, b2]
    · rw [e, MTime_EndUpdate, b2]

theorem C18_modified_suppressed_in_update_witness :
    (Example.LeafAndInverse.get 1).InUpdate = false ∧
    (Example.LeafAndInverse.get 1).MTime ≤ Example.LeafAndInverse.clock ∧
    (Example.LeafAndInverse.get 1).MTime <
      ((Modified Example.LeafAndInverse 1).get 1).MTime ∧
    ((BeginUpdate Example.LeafAndInverse 1).get 1).InUpdate = true ∧
    Modified (BeginUpdate Example.LeafAndInverse 1) 1 = BeginUpdate Example.LeafAndInverse 1 :=
  ⟨by decide, by decide,
    ((C18_modified_suppressed_in_update Example.SimpleHooks 2 Example.LeafAndInverse 1
      (fun g _ _ => g) (fun g _ => g) (fun g _ => g)).2.1 (by decide)).2 (by decide),
    by decide,
    (C18_modified_suppressed_in_update Example.SimpleHooks 2
      (BeginUpdate Example.LeafAndInverse 1) 1
      (fun g _ _ => g) (fun g _ => g) (fun g _ => g)).1 (by decide)⟩

end ClaimC18

section UnRegisterSteps
open vtkAbstractTransform

/-- With the guard flag set, `UnRegister` only decrements. -/
theorem UnRegister_guarded (fuel : Nat) (h : Heap) (r : Ref)
    (hg : (h.get r).InUnRegister = true) :
    UnRegister (fuel + 1) h r = DecrementCount h r := by
  unfold UnRegister
  dsimp only
  rw [if_pos hg]

/-- Without the cycle condition, `UnRegister` is `vtkObject::UnRegister`. -/
theorem UnRegister_plain (fuel : Nat) (h : Heap) (r : Ref)
    (hg : (h.get r).InUnRegister = false)
    (hno : ∀ inv, (h.get r).MyInverse = some inv →
      ¬ ((h.get r).ReferenceCount = 2 ∧ (h.get inv).MyInverse = some r ∧
        (h.get inv).ReferenceCount = 1)) :
    UnRegister (fuel + 1) h r =
      if ((DecrementCount h r).get r).ReferenceCount ≤ 0 then
        MarkDestroyed
          (match ((DecrementCount h r).get r).MyInverse with
          | some inv => UnRegister fuel (DecrementCount h r) inv
          | none => DecrementCount h r)
          r
      else DecrementCount h r := by
  cases hi : (h.get r).MyInverse with
  | none =>
    conv_lhs => unfold UnRegister
    dsimp only
    rw [if_neg (by simp [hg]), hi]
  | some inv =>
    conv_lhs => unfold UnRegister
    dsimp only
    rw [if_neg (by simp [hg]), hi]
    dsimp only
    rw [if_neg (hno inv hi)]

/-- With the cycle condition, `UnRegister` breaks the cycle first. -/
theorem UnRegister_break (fuel : Nat) (h : Heap) (r inv : Ref)
    (hg : (h.get r).InUnRegister = false) (hi : (h.get r).MyInverse = some inv)
    (hc : (h.get r).ReferenceCount = 2 ∧ (h.get inv).MyInverse = some r ∧
      (h.get inv).ReferenceCount = 1) :
    UnRegister (fuel + 1) h r =
      if ((DecrementCount (EndBreak (UnRegister fuel (BeginBreak h r) inv) r) r).get
          r).ReferenceCount ≤ 0 then
        MarkDestroyed
          (match ((DecrementCount (EndBreak (UnRegister fuel (BeginBreak h r) inv) r) r).get
              r).MyInverse with
          | some i =>
            UnRegister fuel (DecrementCount (EndBreak (UnRegister fuel (BeginBreak h r) inv) r) r)
              i
          | none => DecrementCount (EndBreak (UnRegister fuel (BeginBreak h r) inv) r) r)
          r
      else DecrementCount (EndBreak (UnRegister fuel (BeginBreak h r) inv) r) r := by
  conv_lhs => unfold UnRegister
  dsimp only
  rw [if_neg (by simp [hg]), hi]
  dsimp only
  rw [if_pos hc]

theorem get_DecrementCount (h : Heap) (r s : Ref) :
    (DecrementCount h r).get s =
      if s = r then { h.get r with ReferenceCount := (h.get r).ReferenceCount - 1 }
      else h.get s := by
  simp only [DecrementCount, Heap.get_set]

theorem get_BeginBreak (h : Heap) (r s : Ref) :
    (BeginBreak h r).get s =
      if s = r then { h.get r with InUnRegister := true } else h.get s := by
  simp only [BeginBreak, Heap.get_set]

theorem get_EndBreak (h : Heap) (r s : Ref) :
    (EndBreak h r).get s =
      if s = r then { h.get r with MyInverse := none, InUnRegister := false }
      else h.get s := by
  simp only [EndBreak, Heap.get_set]

theorem get_MarkDestroyed (h : Heap) (r s : Ref) :
    (MarkDestroyed h r).get s =
      if s = r then { h.get r with Destroyed := true } else h.get s := by
  simp only [MarkDestroyed, Heap.get_set]

end UnRegisterSteps

section UnRegisterCycle
open vtkAbstractTransform

/-- The nested call of the cycle break: `UnRegister` on the partner, whose count is 1,
destroys the partner; the partner's destructor calls `UnRegister` on the first transform,
which only decrements because its guard flag is set. -/
theorem UnRegister_partner (fuel : Nat) (h : Heap) (T V : Ref) (hne : T ≠ V)
    (hV : (h.get V).MyInverse = some T) (hgV : (h.get V).InUnRegister = false)
    (cV : (h.get V).ReferenceCount = 1) :
    UnRegister (fuel + 2) (BeginBreak h T) V =
      MarkDestroyed (DecrementCount (DecrementCount (BeginBreak h T) V) T) V := by
  have hVT : V ≠ T := fun e => hne e.symm
  have g1 : (BeginBreak h T).get V = h.get V := by rw [get_BeginBreak, if_neg hVT]
  rw [UnRegister_plain (fuel + 1) (BeginBreak h T) V (by rw [g1]; exact hgV)
    (fun inv _ hc => by rw [g1, cV] at hc; exact absurd hc.1 (by decide))]
  have c0 : ((DecrementCount (BeginBreak h T) V).get V).ReferenceCount = 0 := by
    rw [get_DecrementCount, if_pos rfl, g1]
    simp [cV]
  have m0 : ((DecrementCount (BeginBreak h T) V).get V).MyInverse = some T := by
    rw [get_DecrementCount, if_pos rfl, g1]
    exact hV
  have gT : ((DecrementCount (BeginBreak h T) V).get T).InUnRegister = true := by
    rw [get_DecrementCount, if_neg hne, get_BeginBreak, if_pos rfl]
  rw [if_pos (by rw [c0]), m0]
  dsimp only
  rw [UnRegister_guarded fuel _ T gT]

/-- The release of the last outside reference to a transform whose only other holder is its
inverse, itself held by the transform alone. -/
theorem UnRegister_cycle (fuel : Nat) (h : Heap) (T V : Ref) (hne : T ≠ V)
    (hT : (h.get T).MyInverse = some V) (hV : (h.get V).MyInverse = some T)
    (hgT : (h.get T).InUnRegister = false) (hgV : (h.get V).InUnRegister = false)
    (cT : (h.get T).ReferenceCount = 2) (cV : (h.get V).ReferenceCount = 1) :
    UnRegister (fuel + 3) h T =
      MarkDestroyed (DecrementCount (EndBreak (MarkDestroyed (DecrementCount
        (DecrementCount (BeginBreak h T) V) T) V) T) T) T := by
  have hVT : V ≠ T := fun e => hne e.symm
  rw [UnRegister_break (fuel + 2) h T V hgT hT ⟨cT, hV, cV⟩,
    UnRegister_partner fuel h T V hne hV hgV cV]
  have c0 : ((DecrementCount (EndBreak (MarkDestroyed (DecrementCount
      (DecrementCount (BeginBreak h T) V) T) V) T) T).get T).ReferenceCount = 0 := by
    rw [get_DecrementCount, if_pos rfl, get_EndBreak, if_pos rfl, get_MarkDestroyed,
      if_neg hne, get_DecrementCount, if_pos rfl, get_DecrementCount, if_neg hne,
      get_BeginBreak, if_pos rfl]
    simp [cT]
  have m0 : ((DecrementCount (EndBreak (MarkDestroyed (DecrementCount
      (DecrementCount (BeginBreak h T) V) T) V) T) T).get T).MyInverse = none := by
    rw [get_DecrementCount, if_pos rfl, get_EndBreak, if_pos rfl]
  rw [if_pos (by rw [c0]), m0]

end UnRegisterCycle

section ClaimC19
open vtkAbstractTransform

end ClaimC19

section ClaimC20
open vtkTransformConcatenationStack

theorem DeleteSurplus_Stack (count : Nat) : ∀ (s : vtkTransformConcatenationStack) (h : Heap),
    (DeleteSurplus count s h).1.Stack = s.Stack - count ∧
    (DeleteSurplus count s h).1.StackSize = s.StackSize := by
  induction count with
  | zero => intro s h; exact ⟨rfl, rfl⟩
  | succ k ih =>
    intro s h
    obtain ⟨a, b⟩ := ih { s with Stack := s.Stack - 1 }
      (vtkTransformConcatenation.Destructor h (s.StackBottom (s.Stack - 1)))
    simp only [DeleteSurplus]
    rw [a, b]
    refine ⟨?_, rfl⟩
    dsimp only
    omega

theorem AllocateNew_Stack (count : Nat) : ∀ (s : vtkTransformConcatenationStack),
    (AllocateNew count s).Stack = s.Stack + count ∧
    (AllocateNew count s).StackSize = s.StackSize := by
  induction count with
  | zero => intro s; exact ⟨rfl, rfl⟩
  | succ k ih =>
    intro s
    simp only [AllocateNew]
    obtain ⟨a, b⟩ := ih
      { s with
        StackBottom := Function.update s.StackBottom s.Stack vtkTransformConcatenation.New
        Stack := s.Stack + 1 }
    rw [a, b]
    refine ⟨?_, rfl⟩
    dsimp only
    omega

theorem DeepCopyItems_Stack (source : Nat → vtkTransformConcatenation) (count : Nat) :
    ∀ (k : Nat) (s : vtkTransformConcatenationStack) (h : Heap),
      (DeepCopyItems source count k s h).1.Stack = s.Stack ∧
      (DeepCopyItems source count k s h).1.StackSize = s.StackSize := by
  induction count with
  | zero => intro k s h; exact ⟨rfl, rfl⟩
  | succ c ih =>
    intro k s h
    simp only [DeepCopyItems]
    obtain ⟨a, b⟩ := ih (k + 1)
      { s with
        StackBottom := Function.update s.StackBottom k
          (vtkTransformConcatenation.DeepCopy h (s.StackBottom k) (source k)).2 }
      (vtkTransformConcatenation.DeepCopy h (s.StackBottom k) (source k)).1
    rw [a, b]
    exact ⟨rfl, rfl⟩

/-- The depth `vtkTransformConcatenationStack::DeepCopy` leaves: when the array is
reallocated the stack pointer restarts from the old capacity, not from the old depth. -/
theorem DeepCopy_Stack (U : Nat → vtkTransformConcatenation)
    (this : vtkTransformConcatenationStack) (h : Heap) (stack : vtkTransformConcatenationStack) :
    (DeepCopy U this h stack).1.Stack =
      (if stack.Stack > this.StackSize then this.StackSize else this.Stack)
        - (this.Stack - stack.Stack) + (stack.Stack - this.Stack) := by
  unfold DeepCopy
  dsimp only
  rw [(DeepCopyItems_Stack _ _ _ _ _).1, (AllocateNew_Stack _ _).1, (DeleteSurplus_Stack _ _ _).1]
  split <;> rfl

/-- C20 at the failing input: the receiver has depth 1 and capacity 10, the source depth 11.
The source does not fit, the array is reallocated, and the depth after `DeepCopy` is
10 + (11 - 1) = 20, not 11. -/
theorem C20_deep_copy_depth_at_failing_input (U : Nat → vtkTransformConcatenation) :
    Example.ShallowStack.1.Stack = 1 ∧ Example.ShallowStack.1.StackSize = 10 ∧
    Example.DeepStack.1.Stack = 11 ∧
    (DeepCopy U Example.ShallowStack.1 Example.DeepStack.2.1 Example.DeepStack.1).1.Stack = 20 ∧
    (DeepCopy U Example.ShallowStack.1 Example.DeepStack.2.1 Example.DeepStack.1).1.Stack ≠
      Example.DeepStack.1.Stack := by
  have e1 : Example.ShallowStack.1.Stack = 1 := by decide
  have e2 : Example.ShallowStack.1.StackSize = 10 := by decide
  have e3 : Example.DeepStack.1.Stack = 11 := by decide
  have e4 := DeepCopy_Stack U Example.ShallowStack.1 Example.DeepStack.2.1 Example.DeepStack.1
  rw [e1, e2, e3] at e4
  refine ⟨e1, e2, e3, e4, ?_⟩
  rw [e4, e3]
  decide

end ClaimC20

section ClaimC21
open vtkTransformConcatenation vtkTransformConcatenationStack

/-- C21: `Pop` on a stack above its floor hands back the entry on top of the stack, the
most recently pushed concatenation, with its `PreMultiplyFlag` set to the flag of the live
concatenation that is discarded; every other field of it is as saved. The depth is one less,
the entries below are untouched, and the discarded concatenation is destroyed. In
particular after `Push(c)`, whatever the live concatenation has become by the time of the
`Pop`, `Pop` hands back `c` with the live flag, at the depth of before the `Push`. -/
theorem C21_pop_restores_top (s : vtkTransformConcatenationStack) (h : Heap)
    (live : vtkTransformConcatenation) (hne : s.Stack ≠ 0) :
    (Pop s h live).2.2 =
      { s.StackBottom (s.Stack - 1) with PreMultiplyFlag := live.PreMultiplyFlag } ∧
    (Pop s h live).2.2.PreMultiplyFlag = live.PreMultiplyFlag ∧
    (Pop s h live).2.2.InverseFlag = (s.StackBottom (s.Stack - 1)).InverseFlag ∧
    (Pop s h live).2.2.NumberOfTransforms = (s.StackBottom (s.Stack - 1)).NumberOfTransforms ∧
    (Pop s h live).2.2.NumberOfPreTransforms =
      (s.StackBottom (s.Stack - 1)).NumberOfPreTransforms ∧
    (Pop s h live).2.2.PreMatrix = (s.StackBottom (s.Stack - 1)).PreMatrix ∧
    (Pop s h live).2.2.PostMatrix = (s.StackBottom (s.Stack - 1)).PostMatrix ∧
    (Pop s h live).2.2.TransformList = (s.StackBottom (s.Stack - 1)).TransformList ∧
    (Pop s h live).1.Stack = s.Stack - 1 ∧
    (Pop s h live).1.StackBottom = s.StackBottom ∧
    (Pop s h live).2.1 = Destructor h live ∧
    (∀ (s0 : vtkTransformConcatenationStack) (h0 : Heap) (c : vtkTransformConcatenation),
      s = (Push s0 h0 c).1 →
      (Pop s h live).2.2 = { c with PreMultiplyFlag := live.PreMultiplyFlag } ∧
      (Pop s h live).1.Stack = s0.Stack) := by
  rw [Pop_effect s h live hne]
  refine ⟨rfl, rfl, rfl, rfl, rfl, rfl, rfl, rfl, rfl, rfl, rfl, ?_⟩
  intro s0 h0 c hs
  obtain ⟨_, p2, p3, _⟩ := Push_effect s0 h0 c
  have e1 : s.Stack = s0.Stack + 1 := by rw [hs]; exact p2
  have e2 : s.StackBottom s0.Stack = c := by rw [hs]; exact p3
  dsimp only
  rw [e1, Nat.add_sub_cancel, e2]
  exact ⟨rfl, rfl⟩

theorem C21_pop_restores_top_witness :
    (Push vtkTransformConcatenationStack.New Example.OneTranslate.1
      Example.OneTranslate.2).1.Stack ≠ 0 ∧
    (Pop (Push vtkTransformConcatenationStack.New Example.OneTranslate.1
        Example.OneTranslate.2).1 Example.OneTranslate.1 Example.NewPostMultiply).2.2 =
      { Example.OneTranslate.2 with PreMultiplyFlag := 0 } ∧
    (Pop (Push vtkTransformConcatenationStack.New Example.OneTranslate.1
        Example.OneTranslate.2).1 Example.OneTranslate.1 Example.NewPostMultiply).1.Stack = 0 :=
  have k := (C21_pop_restores_top
    (Push vtkTransformConcatenationStack.New Example.OneTranslate.1 Example.OneTranslate.2).1
    Example.OneTranslate.1 Example.NewPostMultiply (by decide)).2.2.2.2.2.2.2.2.2.2.2
    vtkTransformConcatenationStack.New Example.OneTranslate.1 Example.OneTranslate.2 rfl
  ⟨by decide, k.1, k.2⟩

end ClaimC21

section ClaimC22
open vtkTransformConcatenation vtkTransformConcatenationStack

theorem Pop_Stack (s : vtkTransformConcatenationStack) (h : Heap)
    (c : vtkTransformConcatenation) : (Pop s h c).1.Stack = s.Stack - 1 := by
  by_cases hz : s.Stack = 0
  · unfold Pop; rw [if_pos hz, hz]
  · rw [Pop_effect s h c hz]

theorem RunOps_Stack (rot : ℚ → ℚ → ℚ → ℚ → Mat4) (ops : List StackOp) :
    ∀ (w : vtkTransformConcatenationStack × Heap × vtkTransformConcatenation),
      (RunOps rot ops w).1.Stack + EffectivePops ops w.1.Stack = w.1.Stack + Pushes ops := by
  induction ops with
  | nil => intro w; rfl
  | cons op rest ih =>
    intro w
    cases op with
    | Push =>
      have e : (RunOp rot w .Push).1.Stack = w.1.Stack + 1 := (Push_effect _ _ _).2.1
      have k := ih (RunOp rot w .Push)
      rw [e] at k
      simp only [RunOps, EffectivePops, Pushes]
      omega
    | Pop =>
      have e : (RunOp rot w .Pop).1.Stack = w.1.Stack - 1 := Pop_Stack _ _ _
      have k := ih (RunOp rot w .Pop)
      rw [e] at k
      simp only [RunOps, Pushes]
      cases hd : w.1.Stack with
      | zero =>
        rw [hd] at k
        simp only [EffectivePops]
        simp only [Nat.zero_sub] at k
        omega
      | succ d =>
        rw [hd] at k
        simp only [EffectivePops]
        simp only [Nat.add_sub_cancel] at k
        omega
    | Builder b =>
      have k := ih (RunOp rot w (.Builder b))
      have e : (RunOp rot w (.Builder b)).1.Stack = w.1.Stack := rfl
      rw [e] at k
      simp only [RunOps, EffectivePops, Pushes]
      exact k

/-- C22: `Pop` on a stack at its floor (depth 0, a never-used stack included) changes
nothing: the stack, the heap (nothing is released) and the live concatenation come back as
they went in. And after any sequence of `Push`, `Pop` and builder calls the depth is the
depth at the start plus the number of `Push` calls minus the number of `Pop` calls that
found the stack above its floor. -/
theorem C22_pop_at_floor (rot : ℚ → ℚ → ℚ → ℚ → Mat4) (s : vtkTransformConcatenationStack)
    (h : Heap) (c : vtkTransformConcatenation) (ops : List StackOp) :
    (s.Stack = 0 → Pop s h c = (s, h, c)) ∧
    Pop vtkTransformConcatenationStack.New h c = (vtkTransformConcatenationStack.New, h, c) ∧
    (RunOps rot ops (s, h, c)).1.Stack + EffectivePops ops s.Stack = s.Stack + Pushes ops ∧
    (RunOps rot ops (vtkTransformConcatenationStack.New, h, c)).1.Stack =
      Pushes ops - EffectivePops ops 0 ∧
    EffectivePops ops 0 ≤ Pushes ops := by
  have k := RunOps_Stack rot ops (vtkTransformConcatenationStack.New, h, c)
  have z : (vtkTransformConcatenationStack.New).Stack = 0 := rfl
  dsimp only at k
  rw [z] at k
  refine ⟨fun hz => ?_, rfl, RunOps_Stack rot ops (s, h, c), by omega, by omega⟩
  unfold Pop; rw [if_pos hz]

theorem C22_pop_at_floor_witness :
    (vtkTransformConcatenationStack.New).Stack = 0 ∧
    Pop vtkTransformConcatenationStack.New Example.OneTranslate.1 Example.OneTranslate.2 =
      (vtkTransformConcatenationStack.New, Example.OneTranslate.1, Example.OneTranslate.2) ∧
    (RunOps (fun _ _ _ _ => 1) [.Pop, .Push, .Push, .Pop, .Pop, .Pop, .Push]
      (vtkTransformConcatenationStack.New, Heap.empty, vtkTransformConcatenation.New)).1.Stack
      = 1 :=
  have k := C22_pop_at_floor (fun _ _ _ _ => 1) vtkTransformConcatenationStack.New
    Example.OneTranslate.1 Example.OneTranslate.2 [.Pop, .Push, .Push, .Pop, .Pop, .Pop, .Push]
  have k2 := C22_pop_at_floor (fun _ _ _ _ => 1) vtkTransformConcatenationStack.New
    Heap.empty vtkTransformConcatenation.New [.Pop, .Push, .Push, .Pop, .Pop, .Pop, .Push]
  ⟨rfl, k.1 rfl, k2.2.2.2.1⟩

end ClaimC22

section ClaimC23
open vtkAbstractTransform

/-- The transform `T` holds what `GetInverse()` returned as its inverse link. -/
theorem GetInverse_stored (h : Heap) (T : Ref) :
    ((GetInverse h T).1.get T).MyInverse = (GetInverse h T).2 := by
  cases hm : (h.get T).MyInverse with
  | some v => rw [GetInverse_linked h T v hm]; exact hm
  | none =>
    unfold GetInverse
    rw [hm]

/-- C23: for every transform `T` of the heap, `GetInverse()` returns a node `v`; the next
call returns the same `v` and leaves the heap as it is (nothing is created), and so does
every call after it, however many follow. A call on a transform that already holds an
inverse, however it was set, returns that inverse and leaves the heap as it is. -/
theorem C23_get_inverse_idempotent (h : Heap) (T : Ref) (hlive : T < h.next) :
    (∃ v, (GetInverse h T).2 = some v ∧
      GetInverse (GetInverse h T).1 T = ((GetInverse h T).1, some v) ∧
      ∀ n, (fun p : Heap × Option Ref => GetInverse p.1 T)^[n] (GetInverse h T) =
        ((GetInverse h T).1, some v)) ∧
    (∀ v, (h.get T).MyInverse = some v → GetInverse h T = (h, some v)) := by
  refine ⟨?_, fun v hv => GetInverse_linked h T v hv⟩
  have e1 := (GetInverse_effect h T (Nat.ne_of_lt hlive)).1
  have e2 := GetInverse_stored h T
  rw [e1] at e2
  have e3 := GetInverse_linked (GetInverse h T).1 T _ e2
  refine ⟨_, e1, e3, fun n => ?_⟩
  have e4 : GetInverse h T =
      ((GetInverse h T).1, some ((h.get T).MyInverse.getD h.next)) := Prod.ext rfl e1
  have e5 : (fun p : Heap × Option Ref => GetInverse p.1 T)
      ((GetInverse h T).1, some ((h.get T).MyInverse.getD h.next)) =
      ((GetInverse h T).1, some ((h.get T).MyInverse.getD h.next)) := e3
  have e6 := @Function.iterate_fixed _ (fun p : Heap × Option Ref => GetInverse p.1 T)
    ((GetInverse h T).1, some ((h.get T).MyInverse.getD h.next)) e5 n
  rw [← e4] at e6
  exact e6.trans e4

theorem C23_get_inverse_idempotent_witness :
    (0 : Nat) < (vtkSimpleTransform.New Heap.empty).1.next ∧
    (∃ v, (GetInverse (vtkSimpleTransform.New Heap.empty).1 0).2 = some v ∧
      GetInverse (GetInverse (vtkSimpleTransform.New Heap.empty).1 0).1 0 =
        ((GetInverse (vtkSimpleTransform.New Heap.empty).1 0).1, some v) ∧
      ∀ n, (fun p : Heap × Option Ref => GetInverse p.1 0)^[n]
          (GetInverse (vtkSimpleTransform.New Heap.empty).1 0) =
        ((GetInverse (vtkSimpleTransform.New Heap.empty).1 0).1, some v)) :=
  ⟨by decide, (C23_get_inverse_idempotent (vtkSimpleTransform.New Heap.empty).1 0
    (by decide)).1⟩

end ClaimC23

section ClaimC24
open vtkTransformConcatenation

theorem DeleteAll_append (h : Heap) (a b : List Ref) :
    DeleteAll h (a ++ b) = DeleteAll (DeleteAll h a) b := by
  unfold DeleteAll; rw [List.foldl_append]

theorem DeleteAll_PairMembers (h : Heap) (p : vtkTransformPair) :
    DeleteAll h (PairMembers p) = DeletePtr (DeletePtr h p.ForwardTransform) p.InverseTransform := by
  unfold PairMembers DeleteAll
  cases p.ForwardTransform <;> cases p.InverseTransform <;> rfl

theorem Members_congr (l l' : Nat → vtkTransformPair) (count : Nat) :
    ∀ i, (∀ k, i ≤ k → l' k = l k) → Members l' count i = Members l count i := by
  induction count with
  | zero => intro i _; rfl
  | succ n ih =>
    intro i hk
    simp only [Members]
    rw [hk i (Nat.le_refl i), ih (i + 1) (fun k hle => hk k (by omega))]

/-- The release loop calls `Delete()` once on each populated member of the pairs it visits,
forward member first, in list order. -/
theorem ReleaseLoop_heap (count : Nat) : ∀ (i : Nat) (h : Heap) (l : Nat → vtkTransformPair),
    (ReleaseLoop count i h l).1 = DeleteAll h (Members l count i) := by
  induction count with
  | zero => intro i h l; rfl
  | succ n ih =>
    intro i h l
    simp only [ReleaseLoop, Members]
    rw [ih, DeleteAll_append, DeleteAll_PairMembers]
    rw [Members_congr l (Function.update l i vtkTransformPair.null) n (i + 1)]
    intro k hk
    have hki : k ≠ i := by omega
    exact Function.update_noteq hki _ _

theorem PairMembers_length (p : vtkTransformPair) :
    (PairMembers p).length =
      (if p.ForwardTransform ≠ none then 1 else 0) +
        (if p.InverseTransform ≠ none then 1 else 0) := by
  unfold PairMembers
  cases p.ForwardTransform <;> cases p.InverseTransform <;> rfl

/-- C24: for every heap and concatenation, `Identity()` leaves the count and the
pre-transform count at 0, both fast-path slots (and their transform pointers) empty and every
pair of the old list empty; the heap it leaves is the heap after one `Delete()` on each
populated member of the first N pairs, forward member first, in list order, so each
populated member is released exactly once; the allocation pointer is unchanged. The next
`Concatenate(matrix)` therefore finds an empty concatenation: it allocates a new leaf, which
becomes the fast-path node, and the count is 1. -/
theorem C24_identity_releases_everything (h : Heap) (c : vtkTransformConcatenation)
    (E : Mat4) :
    (Identity h c).2.NumberOfTransforms = 0 ∧
    (Identity h c).2.NumberOfPreTransforms = 0 ∧
    (Identity h c).2.PreMatrix = none ∧ (Identity h c).2.PostMatrix = none ∧
    (Identity h c).2.PreMatrixTransform = none ∧
    (Identity h c).2.PostMatrixTransform = none ∧
    (∀ k, k < c.NumberOfTransforms → (Identity h c).2.TransformList k = vtkTransformPair.null) ∧
    (Identity h c).1 = DeleteAll h (Members c.TransformList c.NumberOfTransforms 0) ∧
    (Identity h c).1.next = h.next ∧
    (ConcatenateMatrix (Identity h c).1 (Identity h c).2 E).1.next = h.next + 1 ∧
    FoldedInto (ConcatenateMatrix (Identity h c).1 (Identity h c).2 E).2 h.next := by
  have hn : (Identity h c).1.next = h.next := (ReleaseLoop_frame _ _ _ _).2.1
  obtain ⟨f1, f2, _⟩ := ConcatenateMatrix_first (Identity h c).1 (Identity h c).2 E rfl rfl rfl
  rw [hn] at f1 f2
  refine ⟨rfl, rfl, rfl, rfl, rfl, rfl, ?_, ReleaseLoop_heap _ _ _ _, hn, f2, f1⟩
  intro k hk
  show (ReleaseLoop c.NumberOfTransforms 0 h c.TransformList).2 k = vtkTransformPair.null
  rw [ReleaseLoop_list, if_pos ⟨Nat.zero_le _, by omega⟩]

end ClaimC24

section ClaimC27
open vtkTransformConcatenation

/-- C27 at the claim's own witness, for every heap and every transform T: a newly constructed
concatenation after `Inverse()` has `InverseFlag` 1 and no transforms. A post-multiply
`Concatenate(T)` on it gives pre-transform count 1 (the claim says 0), a pre-multiply
`Concatenate(T)` gives pre-transform count 0 (the claim says 1); in both cases T is the
transform that `GetTransform(0)` returns. The count moves when `PreMultiplyFlag` XOR
`InverseFlag` holds, not when `PreMultiplyFlag` is set. -/
theorem C27_pre_count_at_failing_input (h : Heap) (T : Ref) :
    (Inverse h New).2.InverseFlag = 1 ∧
    (Inverse h New).2.NumberOfTransforms = 0 ∧
    (Inverse h New).2.NumberOfPreTransforms = 0 ∧
    (Concatenate (Inverse h New).1
      ((Inverse h New).2.SetPreMultiplyFlag 0) T).2.NumberOfPreTransforms = 1 ∧
    (Concatenate (Inverse h New).1
      ((Inverse h New).2.SetPreMultiplyFlag 1) T).2.NumberOfPreTransforms = 0 ∧
    (GetTransform (Concatenate (Inverse h New).1 ((Inverse h New).2.SetPreMultiplyFlag 0) T).1
      (Concatenate (Inverse h New).1 ((Inverse h New).2.SetPreMultiplyFlag 0) T).2 0).2.2
        = some T ∧
    (GetTransform (Concatenate (Inverse h New).1 ((Inverse h New).2.SetPreMultiplyFlag 1) T).1
      (Concatenate (Inverse h New).1 ((Inverse h New).2.SetPreMultiplyFlag 1) T).2 0).2.2
        = some T := by
  refine ⟨rfl, rfl, rfl, rfl, rfl, ?_, ?_⟩
  · rw [GetTransform_ptr]
    rfl
  · rw [GetTransform_ptr]
    rfl

end ClaimC27

section ClaimC30
open vtkDataObjectAlgorithm

/-- With `exact` false and an existing output, the call replaces the output exactly when its
type is-a `dataType`, and keeps it (returning true) when it is not. -/
theorem SetOutputDataObject_not_exact (TypeIdIsA : Int → Int → Bool)
    (NewDataObject : Int → Option vtkDataObject) (dataType : Int) (info : vtkInformation)
    (dobj : vtkDataObject) (hd : info.DATA_OBJECT = some dobj) :
    SetOutputDataObject TypeIdIsA NewDataObject dataType (some info) false =
      if TypeIdIsA dobj.DataObjectType dataType then
        InstallNewDataObject NewDataObject dataType info
      else (true, some info) := by
  unfold SetOutputDataObject
  simp only [hd]
  cases TypeIdIsA dobj.DataObjectType dataType <;> rfl

/-- With `exact` true and an existing output, the call keeps the output exactly when its
type is `dataType`, and replaces it otherwise. -/
theorem SetOutputDataObject_exact (TypeIdIsA : Int → Int → Bool)
    (NewDataObject : Int → Option vtkDataObject) (dataType : Int) (info : vtkInformation)
    (dobj : vtkDataObject) (hd : info.DATA_OBJECT = some dobj) :
    SetOutputDataObject TypeIdIsA NewDataObject dataType (some info) true =
      if dobj.DataObjectType = dataType then (true, some info)
      else InstallNewDataObject NewDataObject dataType info := by
  unfold SetOutputDataObject
  simp only [hd]
  by_cases e : dobj.DataObjectType = dataType <;> simp [e]

/-- C30 at the failing inputs, with `exact` false. An output that holds a table, asked for
poly data: the call returns true and keeps the table, whose type is not poly data. An output
that holds poly data, asked for poly data: the call replaces it by a new object. An output
that holds poly data, asked for a data set (which poly data is, and which cannot be
created): the call returns false. With `exact` true the same outputs are handled as the
claim says: the poly data is kept, the table is replaced by new poly data. -/
theorem C30_set_output_at_failing_input :
    SetOutputDataObject Example.TypeIdIsA Example.NewDataObject 0
      (some Example.TableOutput) false = (true, some Example.TableOutput) ∧
    Example.TypeIdIsA 19 0 = false ∧
    SetOutputDataObject Example.TypeIdIsA Example.NewDataObject 0
      (some Example.PolyDataOutput) false =
        (true, some { DATA_OBJECT := some { Address := 100, DataObjectType := 0, ExtentType := 0 }
                      DATA_EXTENT_TYPE := some 0 }) ∧
    Example.TypeIdIsA 0 0 = true ∧
    SetOutputDataObject Example.TypeIdIsA Example.NewDataObject 8
      (some Example.PolyDataOutput) false = (false, some Example.PolyDataOutput) ∧
    Example.TypeIdIsA 0 8 = true ∧
    SetOutputDataObject Example.TypeIdIsA Example.NewDataObject 0
      (some Example.PolyDataOutput) true = (true, some Example.PolyDataOutput) ∧
    SetOutputDataObject Example.TypeIdIsA Example.NewDataObject 0
      (some Example.TableOutput) true =
        (true, some { DATA_OBJECT := some { Address := 100, DataObjectType := 0, ExtentType := 0 }
                      DATA_EXTENT_TYPE := some 0 }) := by
  decide

end ClaimC30

section ClaimC28
open vtkTransformConcatenation vtkAbstractTransform

/-- The pointer `GetTransform` returns depends on the pair it reads, on `InverseFlag`, and on
the inverse links and the allocation pointer of the heap. -/
theorem GetTransform_ptr_congr (h h' : Heap) (c c' : vtkTransformConcatenation) (i j : Nat)
    (hflag : c'.InverseFlag = c.InverseFlag)
    (hpair : c'.TransformList (ReadIndex c' j) = c.TransformList (ReadIndex c i))
    (hv : ∀ f, OtherSide c (c.TransformList (ReadIndex c i)) = some f → f ≠ h.next)
    (hl : ∀ s, (h'.get s).MyInverse = (h.get s).MyInverse) (hn : h'.next = h.next)
    (hm : ∀ s, (h'.get s).Matrix = (h.get s).Matrix) :
    (GetTransform h' c' j).2.2 = (GetTransform h c i).2.2 := by
  rw [GetTransform_ptr, GetTransform_ptr, hpair]
  have rs : ∀ p, ReadSide c' p = ReadSide c p := fun p => by unfold ReadSide; rw [hflag]
  have os : ∀ p, OtherSide c' p = OtherSide c p := fun p => by unfold OtherSide; rw [hflag]
  rw [rs, os]
  cases hr : ReadSide c (c.TransformList (ReadIndex c i)) with
  | some r => rfl
  | none =>
    cases ho : OtherSide c (c.TransformList (ReadIndex c i)) with
    | none => rfl
    | some f => exact (GetInverse_congr h h' f (hv f ho) hl hn hm).1

theorem OtherSide_in_heap (h : Heap) (c : vtkTransformConcatenation) (k : Nat)
    (hheap : ListInHeap h c) (hk : k < c.NumberOfTransforms) :
    ∀ f, OtherSide c (c.TransformList k) = some f → f ≠ h.next := by
  intro f hf
  obtain ⟨x, y⟩ := hheap k hk
  unfold OtherSide at hf
  split at hf
  · exact Nat.ne_of_lt (x f hf)
  · exact Nat.ne_of_lt (y f hf)

/-- C28: for every heap, every concatenation with N transforms whose `InverseFlag` is 0 or 1
and whose pairs hold objects of the heap, and every transform T. After `Concatenate(T)` in
pre-multiply mode, `GetTransform(0)` returns T and `GetTransform(i+1)` returns what
`GetTransform(i)` returned before, for all i < N. After `Concatenate(T)` in post-multiply
mode, `GetTransform(N)` returns T and `GetTransform(i)` returns what it returned before,
for all i < N. -/
theorem C28_concatenate_keeps_logical_order (h : Heap) (c : vtkTransformConcatenation)
    (T : Ref) (hI : c.InverseFlag = 0 ∨ c.InverseFlag = 1) (hheap : ListInHeap h c) :
    (c.PreMultiplyFlag = 1 →
      (GetTransform (Concatenate h c T).1 (Concatenate h c T).2 0).2.2 = some T ∧
      ∀ i, i < c.NumberOfTransforms →
        (GetTransform (Concatenate h c T).1 (Concatenate h c T).2 (i + 1)).2.2 =
          (GetTransform h c i).2.2) ∧
    (c.PreMultiplyFlag = 0 →
      (GetTransform (Concatenate h c T).1 (Concatenate h c T).2 c.NumberOfTransforms).2.2 =
        some T ∧
      ∀ i, i < c.NumberOfTransforms →
        (GetTransform (Concatenate h c T).1 (Concatenate h c T).2 i).2.2 =
          (GetTransform h c i).2.2) := by
  have hfl : (Concatenate h c T).2.InverseFlag = c.InverseFlag := Concatenate_InverseFlag c h T
  have hN : (Concatenate h c T).2.NumberOfTransforms = c.NumberOfTransforms + 1 :=
    Concatenate_NumberOfTransforms c h T
  have hh : (Concatenate h c T).1 = vtkObject.Register h T := Concatenate_fst c h T
  have hl : ∀ s, ((Concatenate h c T).1.get s).MyInverse = (h.get s).MyInverse := by
    intro s; rw [hh, get_Register]; split
    · next e => rw [e]
    · rfl
  have hm : ∀ s, ((Concatenate h c T).1.get s).Matrix = (h.get s).Matrix := by
    intro s; rw [hh, get_Register]; split
    · next e => rw [e]
    · rfl
  have hn : (Concatenate h c T).1.next = h.next := by rw [hh]; rfl
  have own : ∀ j, (Concatenate h c T).2.TransformList (ReadIndex (Concatenate h c T).2 j) =
      NewPair c.InverseFlag T →
      (GetTransform (Concatenate h c T).1 (Concatenate h c T).2 j).2.2 = some T := by
    intro j hj
    rw [GetTransform_ptr, hj, ← hfl, ReadSide_NewPair]
  have old : ∀ i j, i < c.NumberOfTransforms →
      (Concatenate h c T).2.TransformList (ReadIndex (Concatenate h c T).2 j) =
        c.TransformList (ReadIndex c i) →
      (GetTransform (Concatenate h c T).1 (Concatenate h c T).2 j).2.2 =
        (GetTransform h c i).2.2 := by
    intro i j hi hj
    refine GetTransform_ptr_congr h _ c _ i j hfl hj ?_ hl hn hm
    refine OtherSide_in_heap h c _ hheap ?_
    unfold ReadIndex; split <;> omega
  have ri : ∀ j, ReadIndex (Concatenate h c T).2 j =
      if c.InverseFlag ≠ 0 then c.NumberOfTransforms + 1 - j - 1 else j := by
    intro j; unfold ReadIndex; rw [hfl, hN]
  have tl := Concatenate_TransformList c h T
  have r0 : ∀ j, c.InverseFlag = 0 → ReadIndex (Concatenate h c T).2 j = j := by
    intro j e; rw [ri, if_neg (by rw [e]; decide)]
  have r1 : ∀ j, c.InverseFlag = 1 →
      ReadIndex (Concatenate h c T).2 j = c.NumberOfTransforms + 1 - j - 1 := by
    intro j e; rw [ri, if_pos (by rw [e]; decide)]
  have o0 : ∀ j, c.InverseFlag = 0 → ReadIndex c j = j := by
    intro j e; unfold ReadIndex; rw [if_neg (by rw [e]; decide)]
  have o1 : ∀ j, c.InverseFlag = 1 → ReadIndex c j = c.NumberOfTransforms - j - 1 := by
    intro j e; unfold ReadIndex; rw [if_pos (by rw [e]; decide)]
  constructor
  · intro hP
    have hx : Int.xor c.PreMultiplyFlag c.InverseFlag ≠ 0 ↔ c.PreMultiplyFlag ≠ c.InverseFlag :=
      xor_flags_ne_zero _ _ (Or.inr hP) hI
    rcases hI with hI | hI
    · have x1 : Int.xor c.PreMultiplyFlag c.InverseFlag ≠ 0 := hx.2 (by rw [hP, hI]; decide)
      constructor
      · apply own
        rw [r0 _ hI, tl 0 (Nat.zero_le _), if_pos x1, if_pos rfl]
      · intro i hi
        apply old i (i + 1) hi
        rw [r0 _ hI, o0 _ hI, tl (i + 1) (by omega), if_pos x1, if_neg (by omega)]
        rfl
    · have x1 : ¬ Int.xor c.PreMultiplyFlag c.InverseFlag ≠ 0 :=
        fun e => hx.1 e (by rw [hP, hI])
      constructor
      · apply own
        rw [r1 _ hI, tl _ (by omega), if_neg x1, if_pos (by omega)]
      · intro i hi
        apply old i (i + 1) hi
        rw [r1 _ hI, o1 _ hI, tl _ (by omega), if_neg x1, if_neg (by omega)]
        congr 1; omega
  · intro hP
    have hx : Int.xor c.PreMultiplyFlag c.InverseFlag ≠ 0 ↔ c.PreMultiplyFlag ≠ c.InverseFlag :=
      xor_flags_ne_zero _ _ (Or.inl hP) hI
    rcases hI with hI | hI
    · have x1 : ¬ Int.xor c.PreMultiplyFlag c.InverseFlag ≠ 0 :=
        fun e => hx.1 e (by rw [hP, hI])
      constructor
      · apply own
        rw [r0 _ hI, tl _ (Nat.le_refl _), if_neg x1, if_pos rfl]
      · intro i hi
        apply old i i hi
        rw [r0 _ hI, o0 _ hI, tl i (by omega), if_neg x1, if_neg (by omega)]
    · have x1 : Int.xor c.PreMultiplyFlag c.InverseFlag ≠ 0 := hx.2 (by rw [hP, hI]; decide)
      constructor
      · apply own
        rw [r1 _ hI, tl _ (by omega), if_pos x1, if_pos (by omega)]
      · intro i hi
        apply old i i hi
        rw [r1 _ hI, o1 _ hI, tl _ (by omega), if_pos x1, if_neg (by omega)]
        congr 1; omega

theorem C28_concatenate_keeps_logical_order_witness :
    (Example.InvertedLeaf.2.InverseFlag = 0 ∨ Example.InvertedLeaf.2.InverseFlag = 1) ∧
    ListInHeap Example.InvertedLeaf.1 Example.InvertedLeaf.2 ∧
    Example.InvertedLeaf.2.PreMultiplyFlag = 1 ∧
    Example.InvertedLeaf.2.NumberOfTransforms = 1 ∧
    (GetTransform (Concatenate Example.InvertedLeaf.1 Example.InvertedLeaf.2 0).1
      (Concatenate Example.InvertedLeaf.1 Example.InvertedLeaf.2 0).2 0).2.2 = some 0 ∧
    (GetTransform (Concatenate Example.InvertedLeaf.1 Example.InvertedLeaf.2 0).1
      (Concatenate Example.InvertedLeaf.1 Example.InvertedLeaf.2 0).2 1).2.2 =
        (GetTransform Example.InvertedLeaf.1 Example.InvertedLeaf.2 0).2.2 :=
  have k := C28_concatenate_keeps_logical_order Example.InvertedLeaf.1 Example.InvertedLeaf.2 0
    (by decide) (by decide)
  ⟨by decide, by decide, by decide, by decide, (k.1 (by decide)).1,
    (k.1 (by decide)).2 0 (by decide)⟩

end ClaimC28

section WellFormedLemmas
open vtkTransformConcatenation

theorem Concatenate_WellFormed (h : Heap) (c : vtkTransformConcatenation) (t : Ref)
    (hw : WellFormed h c) (ht : t < h.next) :
    WellFormed (Concatenate h c t).1 (Concatenate h c t).2 := by
  obtain ⟨⟨i1, i2, i3, i4, i5, i6, i7, i8⟩, hheap, hP⟩ := hw
  have hx := xor_flags_ne_zero _ _ hP i1
  have tl := Concatenate_TransformList c h t
  have hN : (Concatenate h c t).2.NumberOfTransforms = c.NumberOfTransforms + 1 :=
    Concatenate_NumberOfTransforms c h t
  have hI : (Concatenate h c t).2.InverseFlag = c.InverseFlag := Concatenate_InverseFlag c h t
  have rs : ∀ p, ReadSide (Concatenate h c t).2 p = ReadSide c p :=
    fun p => by unfold ReadSide; rw [hI]
  have ix0 : c.InverseFlag = 0 →
      FirstIndex c = 0 ∧ FirstIndex (Concatenate h c t).2 = 0 ∧
      LastIndex c = c.NumberOfTransforms - 1 ∧
      LastIndex (Concatenate h c t).2 = c.NumberOfTransforms := by
    intro f
    unfold FirstIndex LastIndex
    rw [hI, hN, f]
    exact ⟨rfl, rfl, rfl, rfl⟩
  have ix1 : c.InverseFlag = 1 →
      FirstIndex c = c.NumberOfTransforms - 1 ∧
      FirstIndex (Concatenate h c t).2 = c.NumberOfTransforms ∧
      LastIndex c = 0 ∧ LastIndex (Concatenate h c t).2 = 0 := by
    intro f
    unfold FirstIndex LastIndex
    rw [hI, hN, f]
    exact ⟨rfl, rfl, rfl, rfl⟩
  refine ⟨⟨?_, ?_, ?_, ?_, ?_, ?_, ?_, ?_⟩, ?_, ?_⟩
  · rw [hI]; exact i1
  · rw [hN, Concatenate_NumberOfPreTransforms]; split <;> omega
  · rw [Concatenate_PreMatrixTransform, Concatenate_PreMatrix]
    by_cases p : c.PreMultiplyFlag ≠ 0
    · by_cases q : c.PreMatrix ≠ none
      · rw [if_pos ⟨p, q⟩, if_pos p]
      · rw [if_neg (fun x => q x.2), if_pos p, i3]; exact not_not.1 q
    · rw [if_neg (fun x => p x.1), if_neg p, i3]
  · rw [Concatenate_PostMatrixTransform, Concatenate_PostMatrix]
    by_cases p : c.PreMultiplyFlag = 0
    · by_cases q : c.PostMatrix ≠ none
      · rw [if_pos ⟨p, q⟩, if_pos p]
      · rw [if_neg (fun x => q x.2), if_pos p, i4]; exact not_not.1 q
    · rw [if_neg (fun x => p x.1), if_neg p, i4]
  · rw [Concatenate_PreMatrix]
    intro hne
    by_cases p : c.PreMultiplyFlag ≠ 0
    · rw [if_pos p] at hne; exact absurd rfl hne
    · rw [if_neg p] at hne ⊢
      have p0 : c.PreMultiplyFlag = 0 := not_not.1 p
      obtain ⟨n0, e⟩ := i5 hne
      refine ⟨by omega, ?_⟩
      rw [rs, ← e]
      congr 1
      rcases i1 with f | f
      · have x1 : ¬ Int.xor c.PreMultiplyFlag c.InverseFlag ≠ 0 :=
          fun y => hx.1 y (by rw [p0, f])
        rw [(ix0 f).1, (ix0 f).2.1, tl 0 (by omega), if_neg x1, if_neg (by omega)]
      · have x1 : Int.xor c.PreMultiplyFlag c.InverseFlag ≠ 0 :=
          hx.2 (by rw [p0, f]; decide)
        rw [(ix1 f).1, (ix1 f).2.1, tl _ (by omega), if_pos x1, if_neg (by omega)]
  · rw [Concatenate_PostMatrix]
    intro hne
    by_cases p : c.PreMultiplyFlag = 0
    · rw [if_pos p] at hne; exact absurd rfl hne
    · rw [if_neg p] at hne ⊢
      have p1 : c.PreMultiplyFlag = 1 := hP.resolve_left p
      obtain ⟨n0, e⟩ := i6 hne
      refine ⟨by omega, ?_⟩
      rw [rs, ← e]
      congr 1
      rcases i1 with f | f
      · have x1 : Int.xor c.PreMultiplyFlag c.InverseFlag ≠ 0 :=
          hx.2 (by rw [p1, f]; decide)
        rw [(ix0 f).2.2.1, (ix0 f).2.2.2, tl _ (by omega), if_pos x1, if_neg (by omega)]
      · have x1 : ¬ Int.xor c.PreMultiplyFlag c.InverseFlag ≠ 0 :=
          fun y => hx.1 y (by rw [p1, f])
        rw [(ix1 f).2.2.1, (ix1 f).2.2.2, tl 0 (by omega), if_neg x1, if_neg (by omega)]
  · rw [Concatenate_PreMatrix, Concatenate_PostMatrix]
    intro hne
    by_cases p : c.PreMultiplyFlag ≠ 0
    · rw [if_pos p] at hne; exact absurd rfl hne
    · rw [if_neg p] at hne ⊢
      rw [if_pos (not_not.1 p)]
      exact hne
  · intro k hk
    rw [hN] at hk
    rw [tl k (by omega)]
    split
    · split
      · exact NewPair_member _ _
      · exact i8 _ (by omega)
    · split
      · exact NewPair_member _ _
      · exact i8 _ (by omega)
  · intro k hk
    rw [hN] at hk
    have hn : (Concatenate h c t).1.next = h.next := by rw [Concatenate_fst]; rfl
    rw [hn, tl k (by omega)]
    have np : (∀ r ∈ (NewPair c.InverseFlag t).ForwardTransform, r < h.next) ∧
        (∀ r ∈ (NewPair c.InverseFlag t).InverseTransform, r < h.next) :=
      ⟨fun r hr => by rw [(NewPair_mem _ t).1 r hr]; exact ht,
        fun r hr => by rw [(NewPair_mem _ t).2 r hr]; exact ht⟩
    split
    · split
      · exact np
      · exact hheap _ (by omega)
    · split
      · exact np
      · exact hheap _ (by omega)
  · rw [Concatenate_PreMultiplyFlag]; exact hP

end WellFormedLemmas

section WellFormedLemmas2
open vtkTransformConcatenation

theorem WellFormed_mono (h h' : Heap) (c : vtkTransformConcatenation) (hle : h.next ≤ h'.next)
    (hw : WellFormed h c) : WellFormed h' c :=
  ⟨hw.1, ListInHeap_mono h h' c hle hw.2.1, hw.2.2⟩

theorem ConcatenateMatrix_WellFormed (h : Heap) (c : vtkTransformConcatenation) (E : Mat4)
    (hw : WellFormed h c) :
    WellFormed (ConcatenateMatrix h c E).1 (ConcatenateMatrix h c E).2 ∧
    h.next ≤ (ConcatenateMatrix h c E).1.next := by
  have hw0 := hw
  obtain ⟨hinv, hheap, hP⟩ := hw
  obtain ⟨l1, l2⟩ := slot_lt_next h c hinv hheap
  have hnew : WellFormed (vtkSimpleTransform.New h).1 c :=
    WellFormed_mono h _ c (by simp) hw0
  have hcat := Concatenate_WellFormed (vtkSimpleTransform.New h).1 c h.next hnew (by simp)
  obtain ⟨⟨j1, j2, j3, j4, j5, j6, j7, j8⟩, jheap, jP⟩ := hcat
  have hN : (Concatenate (vtkSimpleTransform.New h).1 c h.next).2.NumberOfTransforms =
      c.NumberOfTransforms + 1 := Concatenate_NumberOfTransforms c _ _
  have hI : (Concatenate (vtkSimpleTransform.New h).1 c h.next).2.InverseFlag = c.InverseFlag :=
    Concatenate_InverseFlag c _ _
  have tl := Concatenate_TransformList c (vtkSimpleTransform.New h).1 h.next
  have hx := xor_flags_ne_zero _ _ hP hinv.1
  have hcn : (Concatenate (vtkSimpleTransform.New h).1 c h.next).1.next = h.next + 1 := by
    rw [Concatenate_fst]; rfl
  by_cases hp : c.PreMultiplyFlag = 0
  · cases hm : c.PostMatrix with
    | some m =>
      obtain ⟨e1, e2, -⟩ := ConcatenateMatrix_post_some h c E m hp hm
      rw [e1]
      exact ⟨WellFormed_mono h _ c (by rw [e2]) hw0, by rw [e2]⟩
    | none =>
      obtain ⟨e1, e2, -⟩ := ConcatenateMatrix_post_none h c E hp hm
      rw [e1]
      refine ⟨⟨⟨j1, j2, j3, rfl, j5, ?_, ?_, j8⟩, ?_, jP⟩, by rw [e2]; omega⟩
      · intro _
        refine ⟨by rw [hN]; omega, ?_⟩
        show ReadSide (Concatenate (vtkSimpleTransform.New h).1 c h.next).2
          ((Concatenate (vtkSimpleTransform.New h).1 c h.next).2.TransformList
            (LastIndex (Concatenate (vtkSimpleTransform.New h).1 c h.next).2)) = some h.next
        have key : (Concatenate (vtkSimpleTransform.New h).1 c h.next).2.TransformList
            (LastIndex (Concatenate (vtkSimpleTransform.New h).1 c h.next).2) =
            NewPair c.InverseFlag h.next := by
          unfold LastIndex
          rw [hI, hN]
          rcases hinv.1 with f | f
          · have x1 : ¬ Int.xor c.PreMultiplyFlag c.InverseFlag ≠ 0 :=
              fun y => hx.1 y (by rw [hp, f])
            rw [if_neg (by rw [f]; decide), tl _ (by omega), if_neg x1, if_pos (by omega)]
          · have x1 : Int.xor c.PreMultiplyFlag c.InverseFlag ≠ 0 :=
              hx.2 (by rw [hp, f]; decide)
            rw [if_pos (by rw [f]; decide), tl 0 (by omega), if_pos x1, if_pos rfl]
        rw [key, ← hI]
        exact ReadSide_NewPair _ _
      · intro hne e
        change (Concatenate (vtkSimpleTransform.New h).1 c h.next).2.PreMatrix = some h.next
          at e
        rw [Concatenate_PreMatrix, if_neg (by rw [hp]; decide)] at e
        exact Nat.lt_irrefl _ (l1 _ e)
      · intro k hk
        have := jheap k hk
        rw [hcn] at this
        rw [e2]
        exact this
  · cases hm : c.PreMatrix with
    | some m =>
      obtain ⟨e1, e2, -⟩ := ConcatenateMatrix_pre_some h c E m hp hm
      rw [e1]
      exact ⟨WellFormed_mono h _ c (by rw [e2]) hw0, by rw [e2]⟩
    | none =>
      have p1 : c.PreMultiplyFlag = 1 := hP.resolve_left hp
      obtain ⟨e1, e2, -⟩ := ConcatenateMatrix_pre_none h c E hp hm
      rw [e1]
      refine ⟨⟨⟨j1, j2, rfl, j4, ?_, j6, ?_, j8⟩, ?_, jP⟩, by rw [e2]; omega⟩
      · intro _
        refine ⟨by rw [hN]; omega, ?_⟩
        show ReadSide (Concatenate (vtkSimpleTransform.New h).1 c h.next).2
          ((Concatenate (vtkSimpleTransform.New h).1 c h.next).2.TransformList
            (FirstIndex (Concatenate (vtkSimpleTransform.New h).1 c h.next).2)) = some h.next
        have key : (Concatenate (vtkSimpleTransform.New h).1 c h.next).2.TransformList
            (FirstIndex (Concatenate (vtkSimpleTransform.New h).1 c h.next).2) =
            NewPair c.InverseFlag h.next := by
          unfold FirstIndex
          rw [hI, hN]
          rcases hinv.1 with f | f
          · have x1 : Int.xor c.PreMultiplyFlag c.InverseFlag ≠ 0 :=
              hx.2 (by rw [p1, f]; decide)
            rw [if_neg (by rw [f]; decide), tl 0 (by omega), if_pos x1, if_pos rfl]
          · have x1 : ¬ Int.xor c.PreMultiplyFlag c.InverseFlag ≠ 0 :=
              fun y => hx.1 y (by rw [p1, f])
            rw [if_pos (by rw [f]; decide), tl _ (by omega), if_neg x1, if_pos (by omega)]
        rw [key, ← hI]
        exact ReadSide_NewPair _ _
      · intro hne e
        change some h.next = (Concatenate (vtkSimpleTransform.New h).1 c h.next).2.PostMatrix
          at e
        rw [Concatenate_PostMatrix, if_neg hp] at e
        exact Nat.lt_irrefl _ (l2 _ e.symm)
      · intro k hk
        have := jheap k hk
        rw [hcn] at this
        rw [e2]
        exact this

end WellFormedLemmas2

section WellFormedLemmas3
open vtkTransformConcatenation

theorem Inverse_WellFormed (h : Heap) (c : vtkTransformConcatenation) (hw : WellFormed h c) :
    WellFormed (Inverse h c).1 (Inverse h c).2 := by
  obtain ⟨hinv, hheap, hP⟩ := hw
  have hinv0 := hinv
  obtain ⟨i1, i2, i3, i4, i5, i6, i7, i8⟩ := hinv
  obtain ⟨a1, a2, a3, a4, a5, a6, a7, a8, -⟩ := Inverse_fields h c
  obtain ⟨fi, la⟩ := Inverse_FirstIndex h c
  have swapped : ∀ k, (c.PreMatrix ≠ none ∧ k = FirstIndex c) ∨
      (c.PostMatrix ≠ none ∧ k = LastIndex c) →
      (Inverse h c).2.TransformList k = (c.TransformList k).SwapForwardInverse := by
    intro k hk
    rw [Inverse_list_apply, if_neg]
    intro e
    rcases hk with x | x
    · have y := e.1 x
      exact FirstIndex_ne_LastIndex c hinv0 x.1 y.1 (x.2.symm.trans y.2)
    · have y := e.2 x
      exact FirstIndex_ne_LastIndex c hinv0 y.1 x.1 (y.2.symm.trans x.2)
  have either : ∀ k, (Inverse h c).2.TransformList k = c.TransformList k ∨
      (Inverse h c).2.TransformList k = (c.TransformList k).SwapForwardInverse := by
    intro k
    rw [Inverse_list_apply]
    split
    · exact Or.inl rfl
    · exact Or.inr rfl
  refine ⟨⟨?_, ?_, ?_, ?_, ?_, ?_, ?_, ?_⟩, ?_, ?_⟩
  · rw [a1]; split
    · exact Or.inl rfl
    · exact Or.inr rfl
  · rw [a7, a8]; omega
  · rw [a5, a3]; exact i4
  · rw [a6, a4]; exact i3
  · rw [a3, a7, fi]
    intro hne
    refine ⟨(i6 hne).1, ?_⟩
    rw [swapped _ (Or.inr ⟨hne, rfl⟩), (Inverse_ReadSide h c _).1, (ReadSide_swap c _).2]
    exact (i6 hne).2
  · rw [a4, a7, la]
    intro hne
    refine ⟨(i5 hne).1, ?_⟩
    rw [swapped _ (Or.inl ⟨hne, rfl⟩), (Inverse_ReadSide h c _).1, (ReadSide_swap c _).2]
    exact (i5 hne).2
  · rw [a3, a4]
    intro hne e
    by_cases hpre : c.PreMatrix = none
    · exact hne (e.trans hpre)
    · exact i7 hpre e.symm
  · intro k hk
    rw [a7] at hk
    rcases either k with e | e
    · rw [e]; exact i8 k hk
    · rw [e]; exact (i8 k hk).symm
  · intro k hk
    rw [a7] at hk
    rw [Inverse_next]
    rcases either k with e | e
    · rw [e]; exact hheap k hk
    · rw [e]; exact ⟨(hheap k hk).2, (hheap k hk).1⟩
  · rw [a2]; exact hP

theorem Identity_WellFormed (h : Heap) (c : vtkTransformConcatenation) (hw : WellFormed h c) :
    WellFormed (Identity h c).1 (Identity h c).2 := by
  refine ⟨⟨hw.1.1, Nat.le_refl _, rfl, rfl, fun x => absurd rfl x, fun x => absurd rfl x,
    fun x => absurd rfl x, fun k hk => absurd hk (Nat.not_lt_zero k)⟩,
    fun k hk => absurd hk (Nat.not_lt_zero k), hw.2.2⟩

theorem Identity_next (h : Heap) (c : vtkTransformConcatenation) :
    (Identity h c).1.next = h.next :=
  (ReleaseLoop_frame c.NumberOfTransforms 0 h c.TransformList).2.1

/-- Every builder operation keeps the invariant of a concatenation and frees no address. -/
theorem BuilderOp_WellFormed (rot : ℚ → ℚ → ℚ → ℚ → Mat4) (op : BuilderOp) (h : Heap)
    (c : vtkTransformConcatenation) (hw : WellFormed h c)
    (ht : ∀ t, op = BuilderOp.Concatenate t → t < h.next) :
    WellFormed (op.Run rot h c).1 (op.Run rot h c).2 ∧ h.next ≤ (op.Run rot h c).1.next := by
  cases op with
  | ConcatenateMatrix E => exact ConcatenateMatrix_WellFormed h c E hw
  | Concatenate t =>
    refine ⟨Concatenate_WellFormed h c t hw (ht t rfl), ?_⟩
    show h.next ≤ (Concatenate h c t).1.next
    rw [Concatenate_fst]; exact Nat.le_refl _
  | Translate x y z =>
    simp only [BuilderOp.Run, Translate]
    split
    · exact ⟨hw, Nat.le_refl _⟩
    · exact ConcatenateMatrix_WellFormed h c _ hw
  | Rotate a x y z => exact ConcatenateMatrix_WellFormed h c _ hw
  | Scale x y z =>
    simp only [BuilderOp.Run, Scale]
    split
    · exact ⟨hw, Nat.le_refl _⟩
    · exact ConcatenateMatrix_WellFormed h c _ hw
  | Inverse =>
    refine ⟨Inverse_WellFormed h c hw, ?_⟩
    show h.next ≤ (Inverse h c).1.next
    rw [Inverse_next]
  | Identity =>
    refine ⟨Identity_WellFormed h c hw, ?_⟩
    show h.next ≤ (Identity h c).1.next
    rw [Identity_next]

end WellFormedLemmas3

section WorldLemmas
open vtkTransformConcatenation

theorem New_WellFormed (h : Heap) : WellFormed h New :=
  ⟨⟨Or.inl rfl, Nat.le_refl _, rfl, rfl, fun x => absurd rfl x, fun x => absurd rfl x,
    fun x => absurd rfl x, fun k hk => absurd hk (Nat.not_lt_zero k)⟩,
    fun k hk => absurd hk (Nat.not_lt_zero k), Or.inr rfl⟩

theorem Start_Invariant (h : Heap) : (World.Start h).Invariant :=
  ⟨fun _ => New_WellFormed h,
    fun _ _ _ => ⟨fun m hm => (by cases hm), fun m hm => (by cases hm)⟩⟩

/-- Replacing one concatenation and the heap keeps the invariant of the world when the heap
frees no address, the new concatenation is well formed and shares no fast-path node with
the others. -/
theorem Invariant_update (w : World) (i : Nat) (heap : Heap) (c : vtkTransformConcatenation)
    (hinv : w.Invariant) (hle : w.heap.next ≤ heap.next) (hwf : WellFormed heap c)
    (hdis : ∀ k, k ≠ i → SlotsDisjoint c (w.concatenation k)) :
    World.Invariant { heap := heap, concatenation := Function.update w.concatenation i c } := by
  constructor
  · intro k
    show WellFormed heap (Function.update w.concatenation i c k)
    by_cases e : k = i
    · rw [e, Function.update_same]; exact hwf
    · rw [Function.update_noteq e]; exact WellFormed_mono _ _ _ hle (hinv.1 k)
  · intro a b hab
    show SlotsDisjoint (Function.update w.concatenation i c a)
      (Function.update w.concatenation i c b)
    by_cases ea : a = i
    · have eb : b ≠ i := fun x => hab (ea.trans x.symm)
      rw [ea, Function.update_same, Function.update_noteq eb]
      exact hdis b eb
    · by_cases eb : b = i
      · rw [eb, Function.update_same, Function.update_noteq ea]
        exact SlotsDisjoint_symm _ _ (hdis a ea)
      · rw [Function.update_noteq ea, Function.update_noteq eb]
        exact hinv.2 a b hab

theorem SlotsOutside_of_disjoint (h : Heap) (c other : vtkTransformConcatenation)
    (hother : WellFormed h other) (hdis : SlotsDisjoint c other) :
    SlotsOutside (fun r => other.PreMatrix = some r ∨ other.PostMatrix = some r) h c := by
  obtain ⟨l1, l2⟩ := slot_lt_next h other hother.1 hother.2.1
  refine ⟨fun m hm x => ?_, fun m hm x => ?_, fun r hr => hr.elim (l1 r) (l2 r)⟩
  · exact x.elim (hdis.1 m hm).1 (hdis.1 m hm).2
  · exact x.elim (hdis.2 m hm).1 (hdis.2 m hm).2

theorem disjoint_of_SlotsOutside (h : Heap) (c other : vtkTransformConcatenation)
    (hs : SlotsOutside (fun r => other.PreMatrix = some r ∨ other.PostMatrix = some r) h c) :
    SlotsDisjoint c other :=
  ⟨fun m hm => ⟨fun x => hs.1 m hm (Or.inl x), fun x => hs.1 m hm (Or.inr x)⟩,
    fun m hm => ⟨fun x => hs.2.1 m hm (Or.inl x), fun x => hs.2.1 m hm (Or.inr x)⟩⟩

/-- Every call considered keeps the invariant of the world. -/
theorem Invariant_Run (rot : ℚ → ℚ → ℚ → ℚ → Mat4) (w : World) (op : WorldOp)
    (hinv : w.Invariant) (ha : w.Allows op) : (w.Run rot op).Invariant := by
  cases op with
  | Builder i op =>
    have ht : ∀ t, op = BuilderOp.Concatenate t → t < w.heap.next := by
      intro t e; subst e; exact ha
    obtain ⟨b1, b2⟩ := BuilderOp_WellFormed rot op w.heap (w.concatenation i) (hinv.1 i) ht
    refine Invariant_update w i _ _ hinv b2 b1 (fun k hk => ?_)
    refine disjoint_of_SlotsOutside (op.Run rot w.heap (w.concatenation i)).1 _ _ ?_
    exact (BuilderOp_frame rot _ op w.heap (w.concatenation i)
      (SlotsOutside_of_disjoint w.heap _ _ (hinv.1 k) (hinv.2 i k (fun x => hk x.symm)))).1
  | PreMultiply i =>
    refine Invariant_update w i _ _ hinv (Nat.le_refl _)
      ⟨(hinv.1 i).1, (hinv.1 i).2.1, Or.inr rfl⟩ (fun k hk => ?_)
    exact hinv.2 i k (fun x => hk x.symm)
  | PostMultiply i =>
    refine Invariant_update w i _ _ hinv (Nat.le_refl _)
      ⟨(hinv.1 i).1, (hinv.1 i).2.1, Or.inl rfl⟩ (fun k hk => ?_)
    exact hinv.2 i k (fun x => hk x.symm)
  | DeepCopy i j =>
    have hij : i ≠ j := ha
    have wi := hinv.1 i
    have wj := hinv.1 j
    have sep := hinv.2 i j hij
    have fr := DeepCopy_frame w.heap (w.concatenation i) (w.concatenation j)
    refine Invariant_update w i _ _ hinv fr.1
      ⟨DeepCopy_PositionInvariant _ _ _ wi.1 wi.2.1 wj.1 wj.2.1 sep,
        DeepCopy_ListInHeap _ _ _ wi.1 wi.2.1 wj.1 wj.2.1 sep, ?_⟩ (fun k hk => ?_)
    · rw [fr.2.2.2.2.1]; exact wj.2.2
    · exact SlotsDisjoint_symm _ _ (DeepCopy_SlotsDisjoint _ _ _ _ wi.1 (hinv.1 k).1
        (hinv.1 k).2.1 (hinv.2 k i hk))
  | Environment heap =>
    exact ⟨fun k => WellFormed_mono _ _ _ ha (hinv.1 k), hinv.2⟩

theorem Reachable_Invariant (rot : ℚ → ℚ → ℚ → ℚ → Mat4) (w : World)
    (hr : World.Reachable rot w) : w.Invariant := by
  induction hr with
  | start h => exact Start_Invariant h
  | step w op _ ha ih => exact Invariant_Run rot w op ih ha

end WorldLemmas

section ClaimC25
open vtkTransformConcatenation

/-- What holds of the records when no concatenation is copied onto itself: in every world
reachable from newly constructed concatenations by `Concatenate(transform)` of an object of
the heap, `Concatenate(matrix)`, `Translate`, `Rotate`, `Scale`, `Inverse`, `Identity`,
`PreMultiply()`, `PostMultiply()` and `DeepCopy` from another reachable concatenation, for
every concatenation of the world: `InverseFlag` is 0 or 1; a set pre-matrix slot names the
member that `GetTransform` reads of the pair at the first position (list index 0 when
`InverseFlag` is clear, N-1 when it is set); a set post-matrix slot names the member that
`GetTransform` reads of the pair at the last position (list index N-1 when `InverseFlag` is
clear, 0 when it is set); the two slots never name the same node; and every one of the
first N pairs has a member. A `DeepCopy` that releases an unwritten pair is a step of these
worlds too: the records come out as stated whatever the storage held, but the release
itself is undefined in the source. -/
theorem Reachable_position_invariant (rot : ℚ → ℚ → ℚ → ℚ → Mat4) (w : World)
    (hr : World.Reachable rot w) (i : Nat) :
    ((w.concatenation i).InverseFlag = 0 ∨ (w.concatenation i).InverseFlag = 1) ∧
    (∀ m, (w.concatenation i).PreMatrix = some m →
      0 < (w.concatenation i).NumberOfTransforms ∧
      ReadSide (w.concatenation i)
        ((w.concatenation i).TransformList
          (if (w.concatenation i).InverseFlag ≠ 0 then
            (w.concatenation i).NumberOfTransforms - 1 else 0)) = some m) ∧
    (∀ m, (w.concatenation i).PostMatrix = some m →
      0 < (w.concatenation i).NumberOfTransforms ∧
      ReadSide (w.concatenation i)
        ((w.concatenation i).TransformList
          (if (w.concatenation i).InverseFlag ≠ 0 then 0
            else (w.concatenation i).NumberOfTransforms - 1)) = some m) ∧
    (∀ m, (w.concatenation i).PreMatrix = some m → (w.concatenation i).PostMatrix ≠ some m) ∧
    (∀ k, k < (w.concatenation i).NumberOfTransforms →
      ((w.concatenation i).TransformList k).ForwardTransform ≠ none ∨
      ((w.concatenation i).TransformList k).InverseTransform ≠ none) := by
  obtain ⟨i1, -, -, -, i5, i6, i7, i8⟩ := ((Reachable_Invariant rot w hr).1 i).1
  refine ⟨i1, fun m hm => ?_, fun m hm => ?_, fun m hm e => ?_, i8⟩
  · have x := i5 (by rw [hm]; simp)
    rw [hm] at x
    exact x
  · have x := i6 (by rw [hm]; simp)
    rw [hm] at x
    exact x
  · exact i7 (by rw [hm]; simp) (hm.trans e.symm)

theorem Reachable_position_invariant_example :
    World.Reachable Example.NoRotation Example.TwoConcatenations ∧
    (Example.TwoConcatenations.concatenation 1).InverseFlag = 1 ∧
    (Example.TwoConcatenations.concatenation 1).NumberOfTransforms = 2 ∧
    (Example.TwoConcatenations.concatenation 1).PostMatrix = some 2 ∧
    ReadSide (Example.TwoConcatenations.concatenation 1)
      ((Example.TwoConcatenations.concatenation 1).TransformList 0) = some 2 :=
  have r : World.Reachable Example.NoRotation Example.TwoConcatenations :=
    World.Reachable.step _ (.DeepCopy 1 0)
      (World.Reachable.step _ (.Builder 0 .Inverse)
        (World.Reachable.step _ (.Builder 0 (.ConcatenateMatrix Example.T123))
          (World.Reachable.step _ (.Builder 0 (.Concatenate 0))
            (World.Reachable.start _) (Nat.zero_lt_succ _))
          trivial)
        trivial)
      Nat.one_ne_zero
  have k := Reachable_position_invariant Example.NoRotation Example.TwoConcatenations r 1
  have e1 : (Example.TwoConcatenations.concatenation 1).InverseFlag = 1 := by decide
  have e2 : (Example.TwoConcatenations.concatenation 1).NumberOfTransforms = 2 := by decide
  have e3 : (Example.TwoConcatenations.concatenation 1).PostMatrix = some 2 := by decide
  ⟨r, e1, e2, e3, by
    have x := (k.2.2.1 2 e3).2
    rw [e1] at x
    exact x⟩

/-- C25: the code at the failing input. After `Translate(1,2,3)` on a newly constructed
concatenation, which satisfies the invariant with one element, the pre-matrix leaf at
reference 0, the call `DeepCopy` with the concatenation itself as argument leaves the count
at 1 and pair 0 without a member, and the leaf destroyed: the block that saves the receiver's
pre-matrix node empties its pair and clears `PreMatrix`, which is the `concat->PreMatrix`
that the later blocks test, so the node is neither kept in place nor copied, and it is
released at the end. -/
theorem C25_self_copy_at_failing_input :
    PositionInvariant Example.OneTranslate.2 ∧
    Example.OneTranslate.2.NumberOfTransforms = 1 ∧
    Example.OneTranslate.2.PreMatrix = some 0 ∧
    Example.OneTranslate.2.TransformList 0 =
      { ForwardTransform := some 0, InverseTransform := none } ∧
    (DeepCopySelf Example.OneTranslate.1 Example.OneTranslate.2).2.NumberOfTransforms = 1 ∧
    (DeepCopySelf Example.OneTranslate.1 Example.OneTranslate.2).2.TransformList 0 =
      vtkTransformPair.null ∧
    ((DeepCopySelf Example.OneTranslate.1 Example.OneTranslate.2).1.get 0).Destroyed = true ∧
    ¬ PositionInvariant (DeepCopySelf Example.OneTranslate.1 Example.OneTranslate.2).2 := by
  decide

end ClaimC25

section HolderLemmas

/-- Fewer holders: every holder after is a holder before. -/
theorem Holders_le (h h' : Heap) (rel rel' : Option Ref) (Y Y' : Ref)
    (hsub : ∀ Z, Z < h'.next → some Z ≠ rel' → 1 ≤ (h'.get Z).ReferenceCount →
      (h'.get Z).MyInverse = some Y' →
      Z < h.next ∧ some Z ≠ rel ∧ 1 ≤ (h.get Z).ReferenceCount ∧ (h.get Z).MyInverse = some Y) :
    Holders h' rel' Y' ≤ Holders h rel Y := by
  unfold Holders
  apply Finset.card_le_card
  intro Z hZ
  rw [Finset.mem_filter, Finset.mem_range] at hZ ⊢
  exact hsub Z hZ.1 hZ.2.1 hZ.2.2.1 hZ.2.2.2

/-- One holder less. -/
theorem Holders_lt (h h' : Heap) (rel rel' : Option Ref) (Y Y' : Ref) (Z0 : Ref)
    (hsub : ∀ Z, Z < h'.next → some Z ≠ rel' → 1 ≤ (h'.get Z).ReferenceCount →
      (h'.get Z).MyInverse = some Y' →
      Z < h.next ∧ some Z ≠ rel ∧ 1 ≤ (h.get Z).ReferenceCount ∧ (h.get Z).MyInverse = some Y)
    (hin : Z0 < h.next ∧ some Z0 ≠ rel ∧ 1 ≤ (h.get Z0).ReferenceCount ∧
      (h.get Z0).MyInverse = some Y)
    (hout : ¬ (some Z0 ≠ rel' ∧ 1 ≤ (h'.get Z0).ReferenceCount ∧
      (h'.get Z0).MyInverse = some Y')) :
    Holders h' rel' Y' + 1 ≤ Holders h rel Y := by
  unfold Holders
  apply Finset.card_lt_card
  rw [Finset.ssubset_iff_of_subset]
  · refine ⟨Z0, ?_, ?_⟩
    · rw [Finset.mem_filter, Finset.mem_range]; exact hin
    · rw [Finset.mem_filter]; exact fun x => hout x.2
  · intro Z hZ
    rw [Finset.mem_filter, Finset.mem_range] at hZ ⊢
    exact hsub Z hZ.1 hZ.2.1 hZ.2.2.1 hZ.2.2.2

/-- At most one holder more. -/
theorem Holders_le_succ (h h' : Heap) (rel rel' : Option Ref) (Y Y' : Ref) (Z0 : Ref)
    (hsub : ∀ Z, Z ≠ Z0 → Z < h'.next → some Z ≠ rel' → 1 ≤ (h'.get Z).ReferenceCount →
      (h'.get Z).MyInverse = some Y' →
      Z < h.next ∧ some Z ≠ rel ∧ 1 ≤ (h.get Z).ReferenceCount ∧ (h.get Z).MyInverse = some Y) :
    Holders h' rel' Y' ≤ Holders h rel Y + 1 := by
  unfold Holders
  refine le_trans (Finset.card_le_card ?_) (Finset.card_insert_le Z0 _)
  intro Z hZ
  rw [Finset.mem_filter, Finset.mem_range] at hZ
  rw [Finset.mem_insert, Finset.mem_filter, Finset.mem_range]
  by_cases e : Z = Z0
  · exact Or.inl e
  · exact Or.inr (hsub Z e hZ.1 hZ.2.1 hZ.2.2.1 hZ.2.2.2)

theorem Holders_pos (h : Heap) (rel : Option Ref) (Y Z0 : Ref)
    (hin : Z0 < h.next ∧ some Z0 ≠ rel ∧ 1 ≤ (h.get Z0).ReferenceCount ∧
      (h.get Z0).MyInverse = some Y) : 1 ≤ Holders h rel Y := by
  unfold Holders
  rw [Nat.succ_le_iff, Finset.card_pos]
  exact ⟨Z0, by rw [Finset.mem_filter, Finset.mem_range]; exact hin⟩

theorem Holders_zero (h : Heap) (rel : Option Ref) (Y Z0 : Ref) (h0 : Holders h rel Y = 0)
    (hin : Z0 < h.next ∧ some Z0 ≠ rel ∧ 1 ≤ (h.get Z0).ReferenceCount ∧
      (h.get Z0).MyInverse = some Y) : False := by
  have := Holders_pos h rel Y Z0 hin
  omega

end HolderLemmas

section ShapeLemmas
open vtkAbstractTransform

theorem no_two_cycle (n : Nat) : ∀ (h : Heap) (X Y : Ref), ChainEnds n h X →
    (h.get X).DependsOnInverse = true → (h.get X).MyInverse = some Y →
    (h.get Y).DependsOnInverse = true → (h.get Y).MyInverse = some X → False := by
  induction n with
  | zero => intro h X Y hc; exact absurd hc (by simp [ChainEnds])
  | succ k ih =>
    intro h X Y hc dX iX dY iY
    rw [ChainEnds_succ] at hc
    rcases hc with hd | ⟨inv, hm, hi⟩
    · rw [dX] at hd; cases hd
    · rw [iX] at hm
      cases hm
      exact ih h Y X hi dY iY dX iX

theorem LinkShape_linked (h : Heap) (user : Ref → Bool) (hs : LinkShape h user) (X : Ref)
    (hd : (h.get X).DependsOnInverse = true) : ∃ Q, (h.get X).MyInverse = some Q := by
  obtain ⟨n, hc⟩ := hs.ends X
  cases n with
  | zero => exact absurd hc (by simp [ChainEnds])
  | succ k =>
    rw [ChainEnds_succ] at hc
    rcases hc with hd' | ⟨inv, hm, _⟩
    · rw [hd] at hd'; cases hd'
    · exact ⟨inv, hm⟩

theorem LinkShape_congr (h h' : Heap) (user : Ref → Bool) (hs : LinkShape h user)
    (hl : ∀ Z, (h'.get Z).MyInverse = (h.get Z).MyInverse ∧
      (h'.get Z).DependsOnInverse = (h.get Z).DependsOnInverse ∧
      (h'.get Z).InUnRegister = (h.get Z).InUnRegister)
    (hn : h'.next = h.next) : LinkShape h' user where
  ends := fun X => by
    obtain ⟨n, hc⟩ := hs.ends X
    exact ⟨n, ChainEnds_congr n h h' X (fun s => ⟨(hl s).1, (hl s).2.1⟩) hc⟩
  quiet := fun Z => by rw [(hl Z).2.2]; exact hs.quiet Z
  made := fun Z hZ hu => by rw [(hl Z).2.1]; exact hs.made Z (by rw [← hn]; exact hZ) hu
  bound := fun Z Q hq => by
    rw [(hl Z).1] at hq
    rw [hn]
    exact hs.bound Z Q hq
  noself := fun Z => by rw [(hl Z).1]; exact hs.noself Z

end ShapeLemmas

section Cascade
open vtkAbstractTransform

theorem Counted_weaken (h : Heap) (user : Ref → Bool) (rel pend : Option Ref)
    (hc : Counted h user rel pend) : Counted h user rel none := by
  intro Y hY h1
  have := hc Y hY h1
  have e : (if (none : Option Ref) = some Y then (1 : Int) else 0) = 0 := if_neg (by simp)
  have p : (0 : Int) ≤ (if pend = some Y then 1 else 0) := by split <;> decide
  rw [e]
  omega

theorem DecrementCount_fields (h : Heap) (X : Ref) :
    (∀ Z, ((DecrementCount h X).get Z).MyInverse = (h.get Z).MyInverse ∧
      ((DecrementCount h X).get Z).DependsOnInverse = (h.get Z).DependsOnInverse ∧
      ((DecrementCount h X).get Z).InUnRegister = (h.get Z).InUnRegister ∧
      ((DecrementCount h X).get Z).Destroyed = (h.get Z).Destroyed) ∧
    (∀ Z, Z ≠ X → ((DecrementCount h X).get Z).ReferenceCount = (h.get Z).ReferenceCount) ∧
    ((DecrementCount h X).get X).ReferenceCount = (h.get X).ReferenceCount - 1 ∧
    (DecrementCount h X).next = h.next := by
  refine ⟨fun Z => ?_, fun Z hZ => ?_, ?_, rfl⟩
  · rw [get_DecrementCount]
    split
    · next e => subst e; exact ⟨rfl, rfl, rfl, rfl⟩
    · exact ⟨rfl, rfl, rfl, rfl⟩
  · rw [get_DecrementCount, if_neg hZ]
  · rw [get_DecrementCount, if_pos rfl]

theorem MarkDestroyed_fields (h : Heap) (X : Ref) :
    (∀ Z, ((MarkDestroyed h X).get Z).MyInverse = (h.get Z).MyInverse ∧
      ((MarkDestroyed h X).get Z).DependsOnInverse = (h.get Z).DependsOnInverse ∧
      ((MarkDestroyed h X).get Z).InUnRegister = (h.get Z).InUnRegister ∧
      ((MarkDestroyed h X).get Z).ReferenceCount = (h.get Z).ReferenceCount) ∧
    (∀ Z, (h.get Z).Destroyed = true → ((MarkDestroyed h X).get Z).Destroyed = true) ∧
    ((MarkDestroyed h X).get X).Destroyed = true ∧
    (MarkDestroyed h X).next = h.next := by
  refine ⟨fun Z => ?_, fun Z hZ => ?_, ?_, rfl⟩
  · rw [get_MarkDestroyed]
    split
    · next e => subst e; exact ⟨rfl, rfl, rfl, rfl⟩
    · exact ⟨rfl, rfl, rfl, rfl⟩
  · rw [get_MarkDestroyed]
    split
    · rfl
    · exact hZ
  · rw [get_MarkDestroyed, if_pos rfl]

/-- Marking an object destroyed keeps what a release has left. -/
theorem CascadeResult_mark (h g : Heap) (user : Ref → Bool) (T X : Ref)
    (hr : CascadeResult h g user T) : CascadeResult h (MarkDestroyed g X) user T := by
  obtain ⟨m1, m2, m3, m4⟩ := MarkDestroyed_fields g X
  refine
    { links := fun Z => ⟨(m1 Z).1.trans (hr.links Z).1, (m1 Z).2.1.trans (hr.links Z).2.1,
        (m1 Z).2.2.1.trans (hr.links Z).2.2⟩
      next := m4.trans hr.next
      counted := ?_
      alive := ?_
      fewer := fun Z => by rw [(m1 Z).2.2.2]; exact hr.fewer Z
      kept := fun Z hZ => m2 Z (hr.kept Z hZ)
      marked := ?_ }
  · intro Y hY h1
    rw [(m1 Y).2.2.2] at h1 ⊢
    have c := hr.counted Y (by rw [← m4]; exact hY) h1
    have e : Holders (MarkDestroyed g X) (some T) Y ≤ Holders g (some T) Y :=
      Holders_le _ _ _ _ _ _ (fun Z hZ hne hrc hi => by
        rw [(m1 Z).2.2.2] at hrc
        rw [(m1 Z).1] at hi
        exact ⟨by rw [← m4]; exact hZ, hne, hrc, hi⟩)
    omega
  · intro Z Q hZ hne hq
    rw [(m1 Z).2.2.2] at hZ
    rw [(m1 Z).1] at hq
    rw [(m1 Q).2.2.2]
    exact hr.alive Z Q hZ hne hq
  · intro Z hZ
    rw [(m1 Z).2.2.2] at hZ
    rcases hr.marked Z hZ with x | x
    · exact Or.inl (m2 Z x)
    · exact Or.inr x

/-- No object reached by a release is in the position in which `UnRegister` breaks a cycle,
unless it is the inverse of the releasing object `T` itself. -/
theorem no_break (h : Heap) (user : Ref → Bool) (T X : Ref)
    (hs : LinkShape h user) (hc : Counted h user (some T) (some X))
    (hX : X < h.next)
    (hrel : ∀ O, (h.get T).MyInverse = some O →
      (X = O ∧ ¬ ((h.get O).ReferenceCount = 2 ∧ (h.get O).MyInverse = some T ∧
        (h.get T).ReferenceCount = 1)) ∨ (h.get O).ReferenceCount ≤ 0) :
    ∀ Y, (h.get X).MyInverse = some Y →
      ¬ ((h.get X).ReferenceCount = 2 ∧ (h.get Y).MyInverse = some X ∧
        (h.get Y).ReferenceCount = 1) := by
  intro Y iX ⟨cX, iY, cY⟩
  have hY : Y < h.next := (hs.bound X Y iX).2
  by_cases e : Y = T
  · subst e
    rcases hrel X iY with ⟨-, x⟩ | x
    · exact x ⟨cX, iX, cY⟩
    · omega
  · have neT : some Y ≠ some T := fun x => e (Option.some.inj x)
    have p1 := Holders_pos h (some T) X Y ⟨hY, neT, by omega, iY⟩
    have c1 := hc X hX (by omega)
    rw [if_pos rfl] at c1
    have uX : user X = false := by
      cases hu : user X with
      | false => rfl
      | true => rw [hu] at c1; simp only [if_true] at c1; omega
    have dX := hs.made X hX uX
    have dY : (h.get Y).DependsOnInverse = false := by
      cases hd : (h.get Y).DependsOnInverse with
      | false => rfl
      | true =>
        obtain ⟨n, hn⟩ := hs.ends X
        exact absurd (no_two_cycle n h X Y hn dX iX hd iY) id
    have uY : user Y = true := by
      cases hu : user Y with
      | true => rfl
      | false => rw [hs.made Y hY hu] at dY; cases dY
    have XT : X ≠ T := by
      intro x
      subst x
      rcases hrel Y iX with ⟨x, -⟩ | x
      · exact hs.noself X (by rw [iX, x])
      · omega
    have p2 := Holders_pos h (some T) Y X
      ⟨hX, fun x => XT (Option.some.inj x), by omega, iX⟩
    have c2 := hc Y hY (by omega)
    rw [uY] at c2
    simp only [if_true] at c2
    have p : (0 : Int) ≤ (if some X = some Y then 1 else 0) := by split <;> decide
    omega

/-- A release that reaches the object `X` with the counts in order: either the releasing
object `T` itself is destroyed, or the release breaks no cycle and leaves the counts in
order, whatever the fuel. -/
theorem UnRegister_cascade (user : Ref → Bool) (T : Ref) (fuel : Nat) :
    ∀ (h : Heap) (X : Ref),
    LinkShape h user → Counted h user (some T) (some X) → AliveLinks h (some T) →
    X < h.next → 1 ≤ (h.get X).ReferenceCount →
    (∀ O, (h.get T).MyInverse = some O →
      (X = O ∧ ¬ ((h.get O).ReferenceCount = 2 ∧ (h.get O).MyInverse = some T ∧
        (h.get T).ReferenceCount = 1)) ∨ (h.get O).ReferenceCount ≤ 0) →
    ((UnRegister fuel h X).get T).Destroyed = true ∨
      CascadeResult h (UnRegister fuel h X) user T := by
  induction fuel with
  | zero =>
    intro h X hs hc ha hX hrc hrel
    exact Or.inr
      { links := fun Z => ⟨rfl, rfl, rfl⟩
        next := rfl
        counted := Counted_weaken h user _ _ hc
        alive := ha
        fewer := fun _ => le_refl _
        kept := fun _ x => x
        marked := fun _ x => Or.inr x }
  | succ k ih =>
    intro h X hs hc ha hX hrc hrel
    rw [UnRegister_plain k h X (hs.quiet X) (no_break h user T X hs hc hX hrel)]
    obtain ⟨d1, d2, d3, d4⟩ := DecrementCount_fields h X
    have hle : ∀ Y, Holders (DecrementCount h X) (some T) Y ≤ Holders h (some T) Y := by
      intro Y
      refine Holders_le _ _ _ _ _ _ (fun Z hZ hne hr hi => ?_)
      rw [(d1 Z).1] at hi
      refine ⟨hZ, hne, ?_, hi⟩
      by_cases e : Z = X
      · rw [e]; exact hrc
      · rw [d2 Z e] at hr; exact hr
    by_cases hdie : ((DecrementCount h X).get X).ReferenceCount ≤ 0
    · rw [if_pos hdie]
      rw [d3] at hdie
      have cX : (h.get X).ReferenceCount = 1 := by omega
      by_cases XT : X = T
      · left
        rw [XT]
        exact (MarkDestroyed_fields _ T).2.2.1
      have c1 := hc X hX hrc
      rw [if_pos rfl] at c1
      have uX : user X = false := by
        cases hu : user X with
        | false => rfl
        | true => rw [hu] at c1; simp only [if_true] at c1; omega
      rw [uX] at c1
      simp only [Bool.false_eq_true, if_false] at c1
      have h0 : Holders h (some T) X = 0 := by omega
      obtain ⟨Q, iX⟩ := LinkShape_linked h user hs X (hs.made X hX uX)
      have hQ : Q < h.next := (hs.bound X Q iX).2
      have QX : Q ≠ X := fun x => hs.noself X (by rw [iX, x])
      have neT : some X ≠ some T := fun x => XT (Option.some.inj x)
      have cQ : 1 ≤ (h.get Q).ReferenceCount := ha X Q hrc neT iX
      rw [(d1 X).1, iX]
      dsimp only
      -- the nested call on the inverse of the object that dies
      have hs2 : LinkShape (DecrementCount h X) user :=
        LinkShape_congr h _ user hs (fun Z => ⟨(d1 Z).1, (d1 Z).2.1, (d1 Z).2.2.1⟩) d4
      have hc2 : Counted (DecrementCount h X) user (some T) (some Q) := by
        intro Y hY h1
        have YX : Y ≠ X := by
          intro x
          rw [x, d3] at h1
          omega
        rw [d2 Y YX] at h1 ⊢
        have c := hc Y hY h1
        rw [if_neg (fun x => YX (Option.some.inj x).symm)] at c
        by_cases e : Y = Q
        · rw [e] at c ⊢
          rw [if_pos rfl]
          have lt : Holders (DecrementCount h X) (some T) Q + 1 ≤ Holders h (some T) Q := by
            refine Holders_lt _ _ _ _ _ _ X (fun Z hZ hne hr hi => ?_) ⟨hX, neT, hrc, iX⟩ ?_
            · rw [(d1 Z).1] at hi
              refine ⟨hZ, hne, ?_, hi⟩
              by_cases e2 : Z = X
              · rw [e2]; exact hrc
              · rw [d2 Z e2] at hr; exact hr
            · intro x
              rw [d3] at x
              omega
          omega
        · rw [if_neg (fun x => e (Option.some.inj x).symm)]
          have := hle Y
          omega
      have ha2 : AliveLinks (DecrementCount h X) (some T) := by
        intro Z R hZ hne hi
        have ZX : Z ≠ X := by
          intro x
          rw [x, d3] at hZ
          omega
        rw [d2 Z ZX] at hZ
        rw [(d1 Z).1] at hi
        have RX : R ≠ X := by
          intro x
          rw [x] at hi
          exact Holders_zero h (some T) X Z h0 ⟨(hs.bound Z X hi).1, hne, hZ, hi⟩
        rw [d2 R RX]
        exact ha Z R hZ hne hi
      have hrel2 : ∀ O, ((DecrementCount h X).get T).MyInverse = some O →
          (Q = O ∧ ¬ (((DecrementCount h X).get O).ReferenceCount = 2 ∧
            ((DecrementCount h X).get O).MyInverse = some T ∧
            ((DecrementCount h X).get T).ReferenceCount = 1)) ∨
          ((DecrementCount h X).get O).ReferenceCount ≤ 0 := by
        intro O iT
        rw [(d1 T).1] at iT
        right
        rcases hrel O iT with ⟨x, -⟩ | x
        · rw [← x, d3]; omega
        · by_cases e : O = X
          · rw [e, d3]; omega
          · rw [d2 O e]; exact x
      rcases ih (DecrementCount h X) Q hs2 hc2 ha2 (by rw [d4]; exact hQ)
        (by rw [d2 Q QX]; exact cQ) hrel2 with bad | good
      · left
        exact (MarkDestroyed_fields _ X).2.1 T bad
      · right
        have gm := CascadeResult_mark (DecrementCount h X) _ user T X good
        refine
          { links := fun Z => ⟨(gm.links Z).1.trans (d1 Z).1,
              (gm.links Z).2.1.trans (d1 Z).2.1, (gm.links Z).2.2.trans (d1 Z).2.2.1⟩
            next := gm.next.trans d4
            counted := gm.counted
            alive := gm.alive
            fewer := fun Z => le_trans (gm.fewer Z) (by
              by_cases e : Z = X
              · rw [e, d3]; omega
              · rw [d2 Z e])
            kept := fun Z hZ => gm.kept Z (by rw [(d1 Z).2.2.2]; exact hZ)
            marked := ?_ }
        intro Z hZ
        by_cases e : Z = X
        · left
          rw [e]
          exact (MarkDestroyed_fields _ X).2.2.1
        · rcases gm.marked Z hZ with x | x
          · exact Or.inl x
          · right
            rw [← d2 Z e]
            exact x
    · rw [if_neg hdie]
      rw [d3] at hdie
      right
      refine
        { links := fun Z => ⟨(d1 Z).1, (d1 Z).2.1, (d1 Z).2.2.1⟩
          next := d4
          counted := ?_
          alive := ?_
          fewer := fun Z => by
            by_cases e : Z = X
            · rw [e, d3]; omega
            · rw [d2 Z e]
          kept := fun Z hZ => by rw [(d1 Z).2.2.2]; exact hZ
          marked := ?_ }
      · intro Y hY h1
        have e0 : (if (none : Option Ref) = some Y then (1 : Int) else 0) = 0 :=
          if_neg (by simp)
        rw [e0]
        have := hle Y
        by_cases e : Y = X
        · rw [e] at this ⊢
          rw [d3]
          have c := hc X hX hrc
          rw [if_pos rfl] at c
          omega
        · rw [d2 Y e] at h1 ⊢
          have c := hc Y hY h1
          rw [if_neg (fun x => e (Option.some.inj x).symm)] at c
          omega
      · intro Z R hZ hne hi
        rw [(d1 Z).1] at hi
        have aZ : 1 ≤ (h.get Z).ReferenceCount := by
          by_cases e : Z = X
          · rw [e]; exact hrc
          · rw [d2 Z e] at hZ; exact hZ
        have := ha Z R aZ hne hi
        by_cases e : R = X
        · rw [e, d3]; omega
        · rw [d2 R e]; exact this
      · intro Z hZ
        by_cases e : Z = X
        · rw [e, d3] at hZ; omega
        · rw [d2 Z e] at hZ; exact Or.inr hZ

end Cascade

section LinkSteps
open vtkAbstractTransform

/-- The counts and flags after `GetInverse` on a transform without an inverse link. -/
theorem GetInverse_unlinked_counts (h : Heap) (T : Ref) (hne : T ≠ h.next)
    (hnone : (h.get T).MyInverse = none) (hdep : (h.get T).DependsOnInverse = false) :
    ((GetInverse h T).1.get h.next).ReferenceCount = 1 ∧
    ((GetInverse h T).1.get h.next).InUnRegister = false ∧
    ((GetInverse h T).1.get h.next).Destroyed = false ∧
    ((GetInverse h T).1.get T).ReferenceCount = (h.get T).ReferenceCount + 1 ∧
    ((GetInverse h T).1.get T).DependsOnInverse = false ∧
    ((GetInverse h T).1.get T).InUnRegister = (h.get T).InUnRegister ∧
    ((GetInverse h T).1.get T).Destroyed = (h.get T).Destroyed := by
  have gT : (MakeTransform h T).1.get T = h.get T := get_New_ne h T _ _ hne
  have gV := get_New_same h (h.get T).ClassName (h.get T).Superclasses
  obtain ⟨h2, hh2⟩ : ∃ h2 : Heap, h2 = (MakeTransform h T).1.set T
      { (MakeTransform h T).1.get T with MyInverse := some h.next } := ⟨_, rfl⟩
  have e : GetInverse h T =
      ((SetInverse h2 h.next (some T)).1, ((SetInverse h2 h.next (some T)).1.get T).MyInverse) := by
    unfold GetInverse
    simp only [hnone, hh2]
    rfl
  have h2T : h2.get T = { h.get T with MyInverse := some h.next } := by
    rw [hh2, Heap.get_set_same, gT]
  have h2V : h2.get h.next =
      { ClassName := (h.get T).ClassName, Superclasses := (h.get T).Superclasses,
        ReferenceCount := 1, MTime := h.clock + 1, UpdateTime := 0, MyInverse := none,
        DependsOnInverse := false, InUpdate := false, InUnRegister := false, Matrix := 1,
        MatrixMTime := h.clock + 1, Destroyed := false } := by
    rw [hh2, Heap.get_set_ne _ _ _ _ (Ne.symm hne)]; exact gV
  rw [e, SetInverse_unlinked h2 h.next T hne (by rw [h2V]) (by rw [h2V, h2T])
    (by rw [h2T]; exact hdep)]
  have hne2 : h.next ≠ T := Ne.symm hne
  refine ⟨?_, ?_, ?_, ?_, ?_, ?_, ?_⟩
  · simp [get_Modified, apply_ite, get_Register, hne2, h2V]
  · simp [get_Modified, apply_ite, get_Register, hne2, h2V]
  · simp [get_Modified, apply_ite, get_Register, hne2, h2V]
  · simp [get_Modified, Heap.get_set, hne, get_Register, h2T]
  · simp [get_Modified, Heap.get_set, hne, get_Register, h2T, hdep]
  · simp [get_Modified, Heap.get_set, hne, get_Register, h2T]
  · simp [get_Modified, Heap.get_set, hne, get_Register, h2T]

theorem ChainEnds_le (n m : Nat) (h : Heap) (X : Ref) (hle : n ≤ m) (hc : ChainEnds n h X) :
    ChainEnds m h X := by
  induction hle with
  | refl => exact hc
  | step _ ih => exact ChainEnds_mono _ h X ih

/-- The walk from an object is the same in two heaps that agree, on every object but `V`, on
the flag and on the link of every object that depends on its inverse, when no link of the
first heap names `V`. -/
theorem ChainEnds_congr_dep (V : Ref) (n : Nat) : ∀ (h h' : Heap) (X : Ref),
    (∀ s, s ≠ V → (h'.get s).DependsOnInverse = (h.get s).DependsOnInverse ∧
      ((h.get s).DependsOnInverse = true → (h'.get s).MyInverse = (h.get s).MyInverse)) →
    (∀ s Q, (h.get s).MyInverse = some Q → Q ≠ V) → X ≠ V →
    ChainEnds n h X → ChainEnds n h' X := by
  induction n with
  | zero => intro h h' X _ _ _ hc; exact absurd hc (by simp [ChainEnds])
  | succ k ih =>
    intro h h' X hl hb hX hc
    rw [ChainEnds_succ] at hc ⊢
    rcases hc with hd | ⟨inv, hm, hi⟩
    · exact Or.inl ((hl X hX).1.trans hd)
    · cases hd : (h.get X).DependsOnInverse with
      | false => exact Or.inl ((hl X hX).1.trans hd)
      | true =>
        exact Or.inr ⟨inv, ((hl X hX).2 hd).trans hm, ih h h' inv hl hb (hb X inv hm) hi⟩

theorem Holders_eq_zero (h : Heap) (rel : Option Ref) (Y : Ref)
    (hno : ∀ Z, Z < h.next → 1 ≤ (h.get Z).ReferenceCount → (h.get Z).MyInverse = some Y →
      False) : Holders h rel Y = 0 := by
  unfold Holders
  rw [Finset.card_eq_zero, Finset.filter_eq_empty_iff]
  intro Z hZ x
  rw [Finset.mem_range] at hZ
  exact hno Z hZ x.2.1 x.2.2

/-- An object beyond the allocation pointer has no link and does not depend on its
inverse. -/
theorem LinkShape_beyond (h : Heap) (user : Ref → Bool) (hs : LinkShape h user) (Z : Ref)
    (hZ : h.next ≤ Z) :
    (h.get Z).MyInverse = none ∧ (h.get Z).DependsOnInverse = false := by
  have i : (h.get Z).MyInverse = none := by
    cases hi : (h.get Z).MyInverse with
    | none => rfl
    | some Q => exact absurd (hs.bound Z Q hi).1 (Nat.not_lt.2 hZ)
  refine ⟨i, ?_⟩
  cases hd : (h.get Z).DependsOnInverse with
  | false => rfl
  | true =>
    obtain ⟨Q, hq⟩ := LinkShape_linked h user hs Z hd
    rw [i] at hq
    cases hq

/-- The construction of a new transform keeps the invariant. -/
theorem New_LinkInvariant (h : Heap) (user : Ref → Bool) (cn : String) (sc : List String)
    (hinv : LinkInvariant h user) :
    LinkInvariant (vtkObject.New h cn sc).1 (Function.update user h.next true) := by
  obtain ⟨hs, hc, ha, hm⟩ := hinv
  have gs := get_New_same h cn sc
  have gn : ∀ s, s ≠ h.next → (vtkObject.New h cn sc).1.get s = h.get s :=
    fun s hs => get_New_ne h s cn sc hs
  have nx : (vtkObject.New h cn sc).1.next = h.next + 1 := rfl
  have iV : ((vtkObject.New h cn sc).1.get h.next).MyInverse = none := by rw [gs]
  have noV : ∀ s Q, (h.get s).MyInverse = some Q → Q ≠ h.next :=
    fun s Q hq => Nat.ne_of_lt (hs.bound s Q hq).2
  have old : ∀ Z Q, ((vtkObject.New h cn sc).1.get Z).MyInverse = some Q →
      Z ≠ h.next ∧ (h.get Z).MyInverse = some Q := by
    intro Z Q hq
    have e : Z ≠ h.next := by
      intro x
      rw [x, iV] at hq
      cases hq
    rw [gn Z e] at hq
    exact ⟨e, hq⟩
  refine ⟨⟨?_, ?_, ?_, ?_, ?_⟩, ?_, ?_, ?_⟩
  · intro X
    by_cases e : X = h.next
    · refine ⟨1, ?_⟩
      rw [ChainEnds_succ, e, gs]
      exact Or.inl rfl
    · obtain ⟨n, hn⟩ := hs.ends X
      refine ⟨n, ChainEnds_congr_dep h.next n h _ X (fun s hs => ?_) noV e hn⟩
      rw [gn s hs]
      exact ⟨rfl, fun _ => rfl⟩
  · intro Z
    by_cases e : Z = h.next
    · rw [e, gs]
    · rw [gn Z e]; exact hs.quiet Z
  · intro Z hZ hu
    by_cases e : Z = h.next
    · rw [e, Function.update_same] at hu; cases hu
    · rw [Function.update_noteq e] at hu
      rw [gn Z e]
      exact hs.made Z (by rw [nx] at hZ; omega) hu
  · intro Z Q hq
    obtain ⟨e, hq2⟩ := old Z Q hq
    have := hs.bound Z Q hq2
    rw [nx]
    exact ⟨Nat.lt_succ_of_lt this.1, Nat.lt_succ_of_lt this.2⟩
  · intro Z hq
    exact hs.noself Z (old Z Z hq).2
  · intro Y hY h1
    have e0 : (if (none : Option Ref) = some Y then (1 : Int) else 0) = 0 := if_neg (by simp)
    rw [e0]
    by_cases e : Y = h.next
    · have z : Holders (vtkObject.New h cn sc).1 none Y = 0 := by
        refine Holders_eq_zero _ _ _ (fun Z _ _ hq => ?_)
        rw [e] at hq
        exact noV Z _ (old Z _ hq).2 rfl
      rw [z, e, Function.update_same, gs]
      simp
    · rw [gn Y e] at h1 ⊢
      rw [Function.update_noteq e]
      have c := hc Y (by rw [nx] at hY; omega) h1
      rw [e0] at c
      have le : Holders (vtkObject.New h cn sc).1 none Y ≤ Holders h none Y := by
        refine Holders_le _ _ _ _ _ _ (fun Z _ hne hr hq => ?_)
        obtain ⟨e2, hq2⟩ := old Z Y hq
        rw [gn Z e2] at hr
        exact ⟨(hs.bound Z Y hq2).1, hne, hr, hq2⟩
      omega
  · intro Z Q hZ hne hq
    obtain ⟨e, hq2⟩ := old Z Q hq
    rw [gn Z e] at hZ
    rw [gn Q (noV Z Q hq2)]
    exact ha Z Q hZ hne hq2
  · intro Z hZ hd
    by_cases e : Z = h.next
    · rw [e, gs]
    · rw [gn Z e] at hd ⊢
      exact hm Z (by rw [nx] at hZ; omega) hd

/-- The call `GetInverse()` on a live object keeps the invariant. -/
theorem GetInverse_LinkInvariant (h : Heap) (user : Ref → Bool) (T : Ref)
    (hinv : LinkInvariant h user) (hT : T < h.next) (hlive : (h.get T).Destroyed = false) :
    LinkInvariant (GetInverse h T).1 (Function.update user h.next false) := by
  have hinv0 := hinv
  obtain ⟨hs, hc, ha, hm⟩ := hinv
  have TV : T ≠ h.next := Nat.ne_of_lt hT
  have VT : h.next ≠ T := fun x => TV x.symm
  cases hnone : (h.get T).MyInverse with
  | some v =>
    rw [GetInverse_linked h T v hnone]
    obtain ⟨bi, bd⟩ := LinkShape_beyond h user hs h.next (Nat.le_refl _)
    refine ⟨⟨hs.ends, hs.quiet, fun Z hZ hu => ?_, hs.bound, hs.noself⟩, ?_, ha, hm⟩
    · have e : Z ≠ h.next := Nat.ne_of_lt hZ
      rw [Function.update_noteq e] at hu
      exact hs.made Z hZ hu
    · intro Y hY h1
      have e : Y ≠ h.next := Nat.ne_of_lt hY
      rw [Function.update_noteq e]
      exact hc Y hY h1
  | none =>
    have hdep : (h.get T).DependsOnInverse = false := by
      cases hd : (h.get T).DependsOnInverse with
      | false => rfl
      | true =>
        obtain ⟨Q, hq⟩ := LinkShape_linked h user hs T hd
        rw [hnone] at hq
        cases hq
    obtain ⟨-, nx, -, -, dV, iV, -, iT, -, go⟩ := GetInverse_unlinked h T TV hnone hdep
    obtain ⟨cV, qV, mV, cT, dT, qT, mT⟩ := GetInverse_unlinked_counts h T TV hnone hdep
    have aT : 1 ≤ (h.get T).ReferenceCount := hm T hT hlive
    have uT : user T = true := by
      cases hu : user T with
      | true => rfl
      | false => rw [hs.made T hT hu] at hdep; cases hdep
    have noV : ∀ s Q, (h.get s).MyInverse = some Q → Q ≠ h.next :=
      fun s Q hq => Nat.ne_of_lt (hs.bound s Q hq).2
    -- a link of the new heap is one of the two new links or an old link
    have old : ∀ Z Q, ((GetInverse h T).1.get Z).MyInverse = some Q →
        (Z = h.next ∧ Q = T) ∨ (Z = T ∧ Q = h.next) ∨
        (Z ≠ h.next ∧ Z ≠ T ∧ (h.get Z).MyInverse = some Q) := by
      intro Z Q hq
      by_cases e1 : Z = h.next
      · rw [e1, iV] at hq
        exact Or.inl ⟨e1, (Option.some.inj hq).symm⟩
      · by_cases e2 : Z = T
        · rw [e2, iT] at hq
          exact Or.inr (Or.inl ⟨e2, (Option.some.inj hq).symm⟩)
        · rw [go Z e2 e1] at hq
          exact Or.inr (Or.inr ⟨e1, e2, hq⟩)
    have rcge : ∀ Z, Z ≠ h.next →
        (h.get Z).ReferenceCount ≤ ((GetInverse h T).1.get Z).ReferenceCount := by
      intro Z e1
      by_cases e2 : Z = T
      · rw [e2, cT]; omega
      · rw [go Z e2 e1]
    refine ⟨⟨?_, ?_, ?_, ?_, ?_⟩, ?_, ?_, ?_⟩
    · intro X
      by_cases e : X = h.next
      · refine ⟨2, ?_⟩
        rw [ChainEnds_succ, e]
        refine Or.inr ⟨T, iV, ?_⟩
        rw [ChainEnds_succ]
        exact Or.inl dT
      · obtain ⟨n, hn⟩ := hs.ends X
        refine ⟨n, ChainEnds_congr_dep h.next n h _ X (fun s hs => ?_) noV e hn⟩
        by_cases e2 : s = T
        · rw [e2, dT, hdep]
          exact ⟨rfl, fun x => by cases x⟩
        · rw [go s e2 hs]
          exact ⟨rfl, fun _ => rfl⟩
    · intro Z
      by_cases e1 : Z = h.next
      · rw [e1]; exact qV
      · by_cases e2 : Z = T
        · rw [e2, qT]; exact hs.quiet T
        · rw [go Z e2 e1]; exact hs.quiet Z
    · intro Z hZ hu
      by_cases e1 : Z = h.next
      · rw [e1]; exact dV
      · rw [Function.update_noteq e1] at hu
        by_cases e2 : Z = T
        · rw [e2, uT] at hu; cases hu
        · rw [go Z e2 e1]
          rw [nx] at hZ
          exact hs.made Z (by omega) hu
    · intro Z Q hq
      rw [nx]
      rcases old Z Q hq with ⟨a, b⟩ | ⟨a, b⟩ | ⟨_, _, c⟩
      · rw [a, b]; exact ⟨Nat.lt_succ_self _, Nat.lt_succ_of_lt hT⟩
      · rw [a, b]; exact ⟨Nat.lt_succ_of_lt hT, Nat.lt_succ_self _⟩
      · have := hs.bound Z Q c
        exact ⟨Nat.lt_succ_of_lt this.1, Nat.lt_succ_of_lt this.2⟩
    · intro Z hq
      rcases old Z Z hq with ⟨a, b⟩ | ⟨a, b⟩ | ⟨_, _, c⟩
      · exact VT (a.symm.trans b)
      · exact TV (a.symm.trans b)
      · exact hs.noself Z c
    · intro Y hY h1
      have e0 : (if (none : Option Ref) = some Y then (1 : Int) else 0) = 0 := if_neg (by simp)
      rw [e0]
      by_cases e1 : Y = h.next
      · have le : Holders (GetInverse h T).1 none Y ≤ Holders h none Y + 1 := by
          refine Holders_le_succ _ _ _ _ _ _ T (fun Z hZT _ _ _ hq => ?_)
          rw [e1] at hq
          rcases old Z _ hq with ⟨a, b⟩ | ⟨a, _⟩ | ⟨_, _, c⟩
          · exact absurd b VT
          · exact absurd a hZT
          · exact absurd rfl (noV Z _ c)
        have z : Holders h none Y = 0 := by
          refine Holders_eq_zero _ _ _ (fun Z _ _ hq => ?_)
          rw [e1] at hq
          exact noV Z _ hq rfl
        rw [e1] at le z ⊢
        rw [Function.update_same, cV]
        simp only [Bool.false_eq_true, if_false]
        omega
      · rw [Function.update_noteq e1]
        by_cases e2 : Y = T
        · have le : Holders (GetInverse h T).1 none Y ≤ Holders h none Y + 1 := by
            refine Holders_le_succ _ _ _ _ _ _ h.next (fun Z hZV _ hne hr hq => ?_)
            rcases old Z _ hq with ⟨a, _⟩ | ⟨a, b⟩ | ⟨_, d, c⟩
            · exact absurd a hZV
            · exact absurd (b.symm.trans e2) VT
            · rw [go Z d hZV] at hr
              exact ⟨(hs.bound Z Y c).1, hne, hr, c⟩
          have c := hc T hT aT
          have e0T : (if (none : Option Ref) = some T then (1 : Int) else 0) = 0 :=
            if_neg (by simp)
          rw [e0T] at c
          rw [e2] at le ⊢
          rw [cT]
          omega
        · rw [go Y e2 e1] at h1 ⊢
          rw [nx] at hY
          have c := hc Y (by omega) h1
          rw [e0] at c
          have le : Holders (GetInverse h T).1 none Y ≤ Holders h none Y := by
            refine Holders_le _ _ _ _ _ _ (fun Z _ hne hr hq => ?_)
            rcases old Z _ hq with ⟨_, b⟩ | ⟨_, b⟩ | ⟨a, d, c⟩
            · exact absurd b e2
            · exact absurd b e1
            · rw [go Z d a] at hr
              exact ⟨(hs.bound Z Y c).1, hne, hr, c⟩
          omega
    · intro Z Q hZ hne hq
      rcases old Z Q hq with ⟨_, b⟩ | ⟨_, b⟩ | ⟨a, d, c⟩
      · rw [b, cT]; omega
      · rw [b, cV]
      · rw [go Z d a] at hZ
        exact le_trans (ha Z Q hZ hne c) (rcge Q (noV Z Q c))
    · intro Z hZ hd
      by_cases e1 : Z = h.next
      · rw [e1, cV]
      · by_cases e2 : Z = T
        · rw [e2, cT]; omega
        · rw [go Z e2 e1] at hd ⊢
          rw [nx] at hZ
          exact hm Z (by omega) hd

end LinkSteps

section SetInverseStep
open vtkAbstractTransform

/-- The last statements of `SetInverse`, after the release of the old inverse: one more
reference on the argument, the new link and the flag on the receiver. -/
theorem SetInverse_final_fields (g : Heap) (T U : Ref) :
    (∀ Z, ((Modified ((vtkObject.Register g U).set T
        { (vtkObject.Register g U).get T with
          MyInverse := some U, DependsOnInverse := true }) T).get Z).MyInverse =
      if Z = T then some U else (g.get Z).MyInverse) ∧
    (∀ Z, ((Modified ((vtkObject.Register g U).set T
        { (vtkObject.Register g U).get T with
          MyInverse := some U, DependsOnInverse := true }) T).get Z).DependsOnInverse =
      if Z = T then true else (g.get Z).DependsOnInverse) ∧
    (∀ Z, ((Modified ((vtkObject.Register g U).set T
        { (vtkObject.Register g U).get T with
          MyInverse := some U, DependsOnInverse := true }) T).get Z).InUnRegister =
      (g.get Z).InUnRegister) ∧
    (∀ Z, ((Modified ((vtkObject.Register g U).set T
        { (vtkObject.Register g U).get T with
          MyInverse := some U, DependsOnInverse := true }) T).get Z).Destroyed =
      (g.get Z).Destroyed) ∧
    (∀ Z, ((Modified ((vtkObject.Register g U).set T
        { (vtkObject.Register g U).get T with
          MyInverse := some U, DependsOnInverse := true }) T).get Z).ReferenceCount =
      (g.get Z).ReferenceCount + if Z = U then 1 else 0) ∧
    (Modified ((vtkObject.Register g U).set T
        { (vtkObject.Register g U).get T with
          MyInverse := some U, DependsOnInverse := true }) T).next = g.next := by
  have m : ∀ (k : Heap) (Z : Ref),
      ((Modified k T).get Z).MyInverse = (k.get Z).MyInverse ∧
      ((Modified k T).get Z).DependsOnInverse = (k.get Z).DependsOnInverse ∧
      ((Modified k T).get Z).InUnRegister = (k.get Z).InUnRegister ∧
      ((Modified k T).get Z).Destroyed = (k.get Z).Destroyed ∧
      ((Modified k T).get Z).ReferenceCount = (k.get Z).ReferenceCount := by
    intro k Z
    rw [get_Modified]
    split
    · next e => rw [e.1]; exact ⟨rfl, rfl, rfl, rfl, rfl⟩
    · exact ⟨rfl, rfl, rfl, rfl, rfl⟩
  have r : ∀ Z, ((vtkObject.Register g U).get Z).MyInverse = (g.get Z).MyInverse ∧
      ((vtkObject.Register g U).get Z).DependsOnInverse = (g.get Z).DependsOnInverse ∧
      ((vtkObject.Register g U).get Z).InUnRegister = (g.get Z).InUnRegister ∧
      ((vtkObject.Register g U).get Z).Destroyed = (g.get Z).Destroyed ∧
      ((vtkObject.Register g U).get Z).ReferenceCount =
        (g.get Z).ReferenceCount + if Z = U then 1 else 0 := by
    intro Z
    rw [get_Register]
    split
    · next e => rw [e]; exact ⟨rfl, rfl, rfl, rfl, rfl⟩
    · exact ⟨rfl, rfl, rfl, rfl, (add_zero _).symm⟩
  refine ⟨fun Z => ?_, fun Z => ?_, fun Z => ?_, fun Z => ?_, fun Z => ?_, by simp⟩
  · rw [(m _ Z).1, Heap.get_set]
    split
    · rfl
    · exact (r Z).1
  · rw [(m _ Z).2.1, Heap.get_set]
    split
    · rfl
    · exact (r Z).2.1
  · rw [(m _ Z).2.2.1, Heap.get_set]
    split
    · next e => rw [e]; exact (r T).2.2.1
    · exact (r Z).2.2.1
  · rw [(m _ Z).2.2.2.1, Heap.get_set]
    split
    · next e => rw [e]; exact (r T).2.2.2.1
    · exact (r Z).2.2.2.1
  · rw [(m _ Z).2.2.2.2, Heap.get_set]
    split
    · next e => rw [e]; exact (r T).2.2.2.2
    · exact (r Z).2.2.2.2

/-- A walk that `CircuitCheck` finds free of `T` ends, also after the flag and the link of
`T` have changed. -/
theorem CircuitCheck_false_ChainEnds (T : Ref) (fuel : Nat) : ∀ (h h' : Heap) (U : Ref),
    CircuitCheck fuel h U T = .ok false →
    (∀ s, s ≠ T → (h'.get s).DependsOnInverse = (h.get s).DependsOnInverse ∧
      (h'.get s).MyInverse = (h.get s).MyInverse) →
    ChainEnds fuel h' U := by
  induction fuel with
  | zero => intro h h' U hc; simp [CircuitCheck] at hc
  | succ k ih =>
    intro h h' U hc hl
    have hne : T ≠ U := by
      intro e
      rw [← e, CircuitCheck_self] at hc
      cases hc
    have hU : U ≠ T := fun e => hne e.symm
    rw [ChainEnds_succ]
    cases hd : (h.get U).DependsOnInverse with
    | false => exact Or.inl ((hl U hU).1.trans hd)
    | true =>
      cases hi : (h.get U).MyInverse with
      | none => simp [CircuitCheck, hne, hd, hi] at hc
      | some V =>
        rw [CircuitCheck_step k h U T V hne hd hi] at hc
        exact Or.inr ⟨V, (hl U hU).2.trans hi, ih h h' V hc hl⟩

/-- Every walk still ends after the flag and the link of `T` have changed, when the walk
from `T` ends in the new heap. -/
theorem ChainEnds_redirect (T : Ref) (m : Nat) (n : Nat) : ∀ (h h' : Heap) (Z : Ref),
    (∀ s, s ≠ T → (h'.get s).DependsOnInverse = (h.get s).DependsOnInverse ∧
      (h'.get s).MyInverse = (h.get s).MyInverse) →
    ChainEnds m h' T → ChainEnds n h Z → ChainEnds (n + m) h' Z := by
  induction n with
  | zero => intro h h' Z _ _ hc; exact absurd hc (by simp [ChainEnds])
  | succ k ih =>
    intro h h' Z hl hT hc
    by_cases e : Z = T
    · rw [e]
      exact ChainEnds_le m _ h' T (by omega) hT
    · rw [Nat.add_right_comm k 1 m, ChainEnds_succ]
      rw [ChainEnds_succ] at hc
      rcases hc with hd | ⟨inv, hm, hi⟩
      · exact Or.inl ((hl Z e).1.trans hd)
      · exact Or.inr ⟨inv, (hl Z e).2.trans hm, ih h h' inv hl hT hi⟩

/-- The release of `O` by its own inverse `T`, held by `O` alone, while `O` has one other
holder: `UnRegister` takes the two for an unreferenced cycle and destroys `T`. -/
theorem Delete_misfire (h : Heap) (T O : Ref) (hT : T < h.next)
    (hne : O ≠ T) (iO : (h.get O).MyInverse = some T) (iT : (h.get T).MyInverse = some O)
    (qO : (h.get O).InUnRegister = false) (qT : (h.get T).InUnRegister = false)
    (cO : (h.get O).ReferenceCount = 2) (cT : (h.get T).ReferenceCount = 1) :
    ((Delete h O).get T).Destroyed = true := by
  have p : 0 < h.next := Nat.lt_of_le_of_lt (Nat.zero_le T) hT
  have e : h.next + 2 = (h.next - 1) + 3 := by omega
  have hTO : T ≠ O := fun x => hne x.symm
  unfold Delete
  rw [e, UnRegister_cycle (h.next - 1) h O T hne iO iT qO qT cO cT]
  rw [get_MarkDestroyed, if_neg hTO, get_DecrementCount, if_neg hTO, get_EndBreak,
    if_neg hTO, get_MarkDestroyed, if_pos rfl]

/-- The last statements of `SetInverse` restore the invariant after a release of the old
inverse that has broken no cycle and has destroyed neither the receiver nor the argument. -/
theorem SetInverse_finish (h : Heap) (user : Ref → Bool) (T U : Ref)
    (hinv : LinkInvariant h user) (hT : T < h.next) (hU : U < h.next)
    (lU : (h.get U).Destroyed = false)
    (h2 : CircuitCheck (h.next + 1) h U T = .ok false) (g : Heap)
    (res : (g.get T).Destroyed = true ∨ CascadeResult h g user T)
    (kT : ((Modified ((vtkObject.Register g U).set T
        { (vtkObject.Register g U).get T with
          MyInverse := some U, DependsOnInverse := true }) T).get T).Destroyed = false)
    (kU : ((Modified ((vtkObject.Register g U).set T
        { (vtkObject.Register g U).get T with
          MyInverse := some U, DependsOnInverse := true }) T).get U).Destroyed = false) :
    LinkInvariant (Modified ((vtkObject.Register g U).set T
        { (vtkObject.Register g U).get T with
          MyInverse := some U, DependsOnInverse := true }) T) user := by
  obtain ⟨hs, hc, ha, hm⟩ := hinv
  obtain ⟨f1, f2, f3, f4, f5, f6⟩ := SetInverse_final_fields g T U
  rw [f4] at kT kU
  rcases res with bad | good
  · rw [bad] at kT; cases kT
  have aU : 1 ≤ (h.get U).ReferenceCount := hm U hU lU
  have UT : U ≠ T := by
    intro e
    rw [e, CircuitCheck_self] at h2
    cases h2
  have aUg : 1 ≤ (g.get U).ReferenceCount := by
    by_contra x
    rcases good.marked U (by omega) with y | y
    · rw [y] at kU; cases kU
    · omega
  have hl : ∀ s, s ≠ T →
      ((Modified ((vtkObject.Register g U).set T
        { (vtkObject.Register g U).get T with
          MyInverse := some U, DependsOnInverse := true }) T).get s).DependsOnInverse =
        (h.get s).DependsOnInverse ∧
      ((Modified ((vtkObject.Register g U).set T
        { (vtkObject.Register g U).get T with
          MyInverse := some U, DependsOnInverse := true }) T).get s).MyInverse =
        (h.get s).MyInverse := by
    intro s hs
    rw [f2, f1, if_neg hs, if_neg hs]
    exact ⟨(good.links s).2.1, (good.links s).1⟩
  have nx : (Modified ((vtkObject.Register g U).set T
        { (vtkObject.Register g U).get T with
          MyInverse := some U, DependsOnInverse := true }) T).next = h.next :=
    f6.trans good.next
  have rcge : ∀ Z, (g.get Z).ReferenceCount ≤
      ((Modified ((vtkObject.Register g U).set T
        { (vtkObject.Register g U).get T with
          MyInverse := some U, DependsOnInverse := true }) T).get Z).ReferenceCount := by
    intro Z
    rw [f5]
    split <;> omega
  have aliveg : ∀ Z, 1 ≤ ((Modified ((vtkObject.Register g U).set T
        { (vtkObject.Register g U).get T with
          MyInverse := some U, DependsOnInverse := true }) T).get Z).ReferenceCount →
      1 ≤ (g.get Z).ReferenceCount := by
    intro Z hZ
    by_cases e : Z = U
    · rw [e]; exact aUg
    · rw [f5, if_neg e] at hZ
      omega
  have hsub : ∀ Y Z, Z ≠ T →
      Z < (Modified ((vtkObject.Register g U).set T
        { (vtkObject.Register g U).get T with
          MyInverse := some U, DependsOnInverse := true }) T).next →
      1 ≤ ((Modified ((vtkObject.Register g U).set T
        { (vtkObject.Register g U).get T with
          MyInverse := some U, DependsOnInverse := true }) T).get Z).ReferenceCount →
      ((Modified ((vtkObject.Register g U).set T
        { (vtkObject.Register g U).get T with
          MyInverse := some U, DependsOnInverse := true }) T).get Z).MyInverse = some Y →
      Z < g.next ∧ some Z ≠ some T ∧ 1 ≤ (g.get Z).ReferenceCount ∧
        (g.get Z).MyInverse = some Y := by
    intro Y Z hZT hZ hr hq
    rw [f1, if_neg hZT] at hq
    rw [f6] at hZ
    exact ⟨hZ, fun x => hZT (Option.some.inj x), aliveg Z hr, hq⟩
  refine ⟨⟨?_, ?_, ?_, ?_, ?_⟩, ?_, ?_, ?_⟩
  · intro X
    have cU := CircuitCheck_false_ChainEnds T (h.next + 1) h _ U h2 hl
    have cT : ChainEnds (h.next + 2) (Modified ((vtkObject.Register g U).set T
        { (vtkObject.Register g U).get T with
          MyInverse := some U, DependsOnInverse := true }) T) T := by
      rw [ChainEnds_succ]
      exact Or.inr ⟨U, by rw [f1, if_pos rfl], cU⟩
    obtain ⟨n, hn⟩ := hs.ends X
    exact ⟨n + (h.next + 2), ChainEnds_redirect T _ n h _ X hl cT hn⟩
  · intro Z
    rw [f3, (good.links Z).2.2]
    exact hs.quiet Z
  · intro Z hZ hu
    rw [f2]
    split
    · rfl
    · rw [(good.links Z).2.1]
      exact hs.made Z (by rw [← nx]; exact hZ) hu
  · intro Z Q hq
    rw [nx]
    rw [f1] at hq
    split at hq
    · next e =>
      rw [e, ← Option.some.inj hq]
      exact ⟨hT, hU⟩
    · rw [(good.links Z).1] at hq
      exact hs.bound Z Q hq
  · intro Z hq
    rw [f1] at hq
    split at hq
    · next e => exact UT ((Option.some.inj hq).trans e)
    · rw [(good.links Z).1] at hq
      exact hs.noself Z hq
  · intro Y hY h1
    have e0 : (if (none : Option Ref) = some Y then (1 : Int) else 0) = 0 := if_neg (by simp)
    rw [e0]
    have cg := good.counted Y (by rw [← f6]; exact hY) (aliveg Y h1)
    rw [e0] at cg
    rw [f5]
    by_cases e : Y = U
    · rw [if_pos e]
      have le : Holders (Modified ((vtkObject.Register g U).set T
          { (vtkObject.Register g U).get T with
            MyInverse := some U, DependsOnInverse := true }) T) none Y ≤
          Holders g (some T) Y + 1 :=
        Holders_le_succ _ _ _ _ _ _ T (fun Z hZT hZ _ hr hq => hsub Y Z hZT hZ hr hq)
      omega
    · rw [if_neg e]
      have le : Holders (Modified ((vtkObject.Register g U).set T
          { (vtkObject.Register g U).get T with
            MyInverse := some U, DependsOnInverse := true }) T) none Y ≤
          Holders g (some T) Y := by
        refine Holders_le _ _ _ _ _ _ (fun Z hZ _ hr hq => ?_)
        have hZT : Z ≠ T := by
          intro x
          rw [f1, if_pos x] at hq
          exact e (Option.some.inj hq).symm
        exact hsub Y Z hZT hZ hr hq
      omega
  · intro Z Q hZ _ hq
    by_cases e : Z = T
    · rw [f1, if_pos e] at hq
      rw [← Option.some.inj hq]
      exact le_trans aUg (rcge U)
    · rw [f1, if_neg e] at hq
      exact le_trans
        (good.alive Z Q (aliveg Z hZ) (fun x => e (Option.some.inj x)) hq) (rcge Q)
  · intro Z hZ hd
    rw [f4] at hd
    rw [nx] at hZ
    refine le_trans ?_ (rcge Z)
    by_contra x
    rcases good.marked Z (by omega) with y | y
    · rw [y] at hd; cases hd
    · cases hd0 : (h.get Z).Destroyed with
      | false => have := hm Z hZ hd0; omega
      | true => rw [good.kept Z hd0] at hd; cases hd

/-- The release of the old inverse in `SetInverse` on a live receiver: either the receiver
is destroyed, or no cycle is broken and the counts stay in order. -/
theorem SetInverse_release (h : Heap) (user : Ref → Bool) (T : Ref)
    (hinv : LinkInvariant h user) (hT : T < h.next)
    (lT : (h.get T).Destroyed = false) :
    ((DeletePtr h (h.get T).MyInverse).get T).Destroyed = true ∨
      CascadeResult h (DeletePtr h (h.get T).MyInverse) user T := by
  obtain ⟨hs, hc, ha, hm⟩ := hinv
  have aT : 1 ≤ (h.get T).ReferenceCount := hm T hT lT
  have ha2 : AliveLinks h (some T) := fun Z Q hZ _ hq => ha Z Q hZ (by simp) hq
  have hle : ∀ Y, Holders h (some T) Y ≤ Holders h none Y :=
    fun Y => Holders_le _ _ _ _ _ _ (fun Z hZ _ hr hq => ⟨hZ, by simp, hr, hq⟩)
  cases hi : (h.get T).MyInverse with
  | none =>
    right
    show CascadeResult h h user T
    refine
      { links := fun Z => ⟨rfl, rfl, rfl⟩
        next := rfl
        counted := ?_
        alive := ha2
        fewer := fun _ => le_refl _
        kept := fun _ x => x
        marked := fun _ x => Or.inr x }
    intro Y hY h1
    have c := hc Y hY h1
    have := hle Y
    omega
  | some O =>
    show ((Delete h O).get T).Destroyed = true ∨ CascadeResult h (Delete h O) user T
    have hO : O < h.next := (hs.bound T O hi).2
    have OT : O ≠ T := fun x => hs.noself T (by rw [hi, x])
    have aO : 1 ≤ (h.get O).ReferenceCount := ha T O aT (by simp) hi
    by_cases mis : (h.get O).ReferenceCount = 2 ∧ (h.get O).MyInverse = some T ∧
        (h.get T).ReferenceCount = 1
    · left
      exact Delete_misfire h T O hT OT mis.2.1 hi (hs.quiet O) (hs.quiet T) mis.1 mis.2.2
    · refine UnRegister_cascade user T (h.next + 2) h O hs ?_ ha2 hO aO ?_
      · intro Y hY h1
        have c := hc Y hY h1
        have e0 : (if (none : Option Ref) = some Y then (1 : Int) else 0) = 0 :=
          if_neg (by simp)
        rw [e0] at c
        by_cases e : Y = O
        · rw [e] at c ⊢
          rw [if_pos rfl]
          have lt : Holders h (some T) O + 1 ≤ Holders h none O :=
            Holders_lt _ _ _ _ _ _ T (fun Z hZ _ hr hq => ⟨hZ, by simp, hr, hq⟩)
              ⟨hT, by simp, aT, hi⟩ (fun x => x.1 rfl)
          omega
        · rw [if_neg (fun x => e (Option.some.inj x).symm)]
          have := hle Y
          omega
      · intro O2 hi2
        rw [hi] at hi2
        rw [← Option.some.inj hi2]
        exact Or.inl ⟨rfl, mis⟩

/-- The call `SetInverse(U)` on a live object `T` with a live argument, neither of which the
call destroys, keeps the invariant. -/
theorem SetInverse_LinkInvariant (h : Heap) (user : Ref → Bool) (T U : Ref)
    (hinv : LinkInvariant h user) (hT : T < h.next) (hU : U < h.next)
    (lT : (h.get T).Destroyed = false) (lU : (h.get U).Destroyed = false)
    (kT : ((SetInverse h T (some U)).1.get T).Destroyed = false)
    (kU : ((SetInverse h T (some U)).1.get U).Destroyed = false) :
    LinkInvariant (SetInverse h T (some U)).1 user := by
  by_cases hok : (SetInverse h T (some U)).2 = .Ok
  swap
  · rw [SetInverse_error_heap h T (some U) hok]; exact hinv
  by_cases h0 : (h.get T).MyInverse = some U
  · have e : (SetInverse h T (some U)).1 = h := by
      unfold SetInverse
      rw [if_pos h0]
    rw [e]; exact hinv
  have h1 : vtkObject.IsA (h.get U) (h.get T).ClassName = true := by
    by_contra hc
    unfold SetInverse at hok
    simp [h0, hc] at hok
  have h2 : CircuitCheck (h.next + 1) h U T = .ok false := by
    unfold SetInverse at hok
    simp only [h0, if_false, h1, Bool.not_true, Bool.false_eq_true] at hok
    cases hc : CircuitCheck (h.next + 1) h U T with
    | error f => simp [hc] at hok
    | ok b =>
      cases b with
      | true => simp [hc] at hok
      | false => rfl
  rw [SetInverse_success h T U h0 h1 h2] at kT kU ⊢
  exact SetInverse_finish h user T U hinv hT hU lU h2 _
    (SetInverse_release h user T hinv hT lT) kT kU

end SetInverseStep

section WalkLemmas
open vtkAbstractTransform

theorem WalkTo_succ (h : Heap) (k : Nat) (X Q : Ref)
    (hd : (h.get X).DependsOnInverse = true) (hi : (h.get X).MyInverse = some Q) :
    WalkTo h (k + 1) X = WalkTo h k Q := by
  conv_lhs => unfold WalkTo
  rw [if_pos hd, hi]

theorem WalkTo_succ_some (h : Heap) (k : Nat) (X Y : Ref)
    (hw : WalkTo h (k + 1) X = some Y) :
    (h.get X).DependsOnInverse = true ∧
      ∃ Q, (h.get X).MyInverse = some Q ∧ WalkTo h k Q = some Y := by
  unfold WalkTo at hw
  cases hd : (h.get X).DependsOnInverse with
  | false => rw [hd] at hw; simp at hw
  | true =>
    rw [hd, if_pos rfl] at hw
    cases hi : (h.get X).MyInverse with
    | none => rw [hi] at hw; cases hw
    | some Q => rw [hi] at hw; exact ⟨rfl, Q, rfl, hw⟩

/-- A walk that ends reaches, in fewer steps than the fuel, an object that does not depend
on its inverse. -/
theorem ChainEnds_WalkTo (n : Nat) : ∀ (h : Heap) (X : Ref), ChainEnds n h X →
    ∃ k, k < n ∧ ∃ Y, WalkTo h k X = some Y ∧ (h.get Y).DependsOnInverse = false := by
  induction n with
  | zero => intro h X hc; exact absurd hc (by simp [ChainEnds])
  | succ m ih =>
    intro h X hc
    cases hd : (h.get X).DependsOnInverse with
    | false => exact ⟨0, Nat.succ_pos _, X, rfl, hd⟩
    | true =>
      rw [ChainEnds_succ] at hc
      rcases hc with x | ⟨inv, hm, hi⟩
      · rw [hd] at x; cases x
      · obtain ⟨k, k1, Y, w, d⟩ := ih h inv hi
        exact ⟨k + 1, Nat.succ_lt_succ k1, Y, by rw [WalkTo_succ h k X inv hd hm]; exact w, d⟩

theorem WalkTo_ChainEnds (k : Nat) : ∀ (h : Heap) (X Y : Ref), WalkTo h k X = some Y →
    (h.get Y).DependsOnInverse = false → ChainEnds (k + 1) h X := by
  induction k with
  | zero =>
    intro h X Y hw hd
    have e : X = Y := Option.some.inj hw
    rw [ChainEnds_succ, e]
    exact Or.inl hd
  | succ m ih =>
    intro h X Y hw hd
    obtain ⟨_, Q, hi, w⟩ := WalkTo_succ_some h m X Y hw
    rw [ChainEnds_succ]
    exact Or.inr ⟨Q, hi, ih h Q Y w hd⟩

theorem WalkTo_add (h : Heap) (i j : Nat) : ∀ (X Y : Ref), WalkTo h (i + j) X = some Y →
    ∃ Z, WalkTo h i X = some Z ∧ WalkTo h j Z = some Y := by
  induction i with
  | zero => intro X Y hw; rw [Nat.zero_add] at hw; exact ⟨X, rfl, hw⟩
  | succ m ih =>
    intro X Y hw
    rw [Nat.add_right_comm] at hw
    obtain ⟨hd, Q, hi, w⟩ := WalkTo_succ_some h (m + j) X Y hw
    obtain ⟨Z, z1, z2⟩ := ih Q Y w
    exact ⟨Z, by rw [WalkTo_succ h m X Q hd hi]; exact z1, z2⟩

theorem WalkTo_trans (h : Heap) (i j : Nat) : ∀ (X Z Y : Ref), WalkTo h i X = some Z →
    WalkTo h j Z = some Y → WalkTo h (i + j) X = some Y := by
  induction i with
  | zero =>
    intro X Z Y h1 h2
    have e : X = Z := Option.some.inj h1
    rw [Nat.zero_add, e]; exact h2
  | succ m ih =>
    intro X Z Y h1 h2
    obtain ⟨hd, Q, hi, w⟩ := WalkTo_succ_some h m X Z h1
    rw [Nat.add_right_comm, WalkTo_succ h (m + j) X Q hd hi]
    exact ih Q Z Y w h2

theorem WalkTo_bound (h : Heap) (N : Nat)
    (hb : ∀ Z Q, (h.get Z).MyInverse = some Q → Q < N) (k : Nat) :
    ∀ (X Y : Ref), WalkTo h (k + 1) X = some Y → Y < N := by
  induction k with
  | zero =>
    intro X Y hw
    obtain ⟨_, Q, hi, w⟩ := WalkTo_succ_some h 0 X Y hw
    have e : Q = Y := Option.some.inj w
    rw [← e]
    exact hb X Q hi
  | succ m ih =>
    intro X Y hw
    obtain ⟨_, Q, _, w⟩ := WalkTo_succ_some h (m + 1) X Y hw
    exact ih Q Y w

/-- A walk that ends, ends within as many steps as there are objects that a link can name. -/
theorem WalkTo_short (h : Heap) (N : Nat)
    (hb : ∀ Z Q, (h.get Z).MyInverse = some Q → Q < N) (k : Nat) :
    ∀ (X Y : Ref), WalkTo h k X = some Y → (h.get Y).DependsOnInverse = false →
    ∃ j, j ≤ N ∧ ∃ Y2, WalkTo h j X = some Y2 ∧ (h.get Y2).DependsOnInverse = false := by
  induction k using Nat.strong_induction_on with
  | _ k ih =>
    intro X Y hw hd
    by_cases hk : k ≤ N
    · exact ⟨k, hk, Y, hw, hd⟩
    · -- the objects after steps 1, ..., N+1 are below N: two of them coincide
      have node : ∀ i : Fin (N + 1), ∃ Z, WalkTo h (i.val + 1) X = some Z ∧
          WalkTo h (k - (i.val + 1)) Z = some Y := by
        intro i
        have e : k = (i.val + 1) + (k - (i.val + 1)) := by
          have := i.isLt
          omega
        rw [e] at hw
        exact WalkTo_add h _ _ X Y hw
      have lt : ∀ i : Fin (N + 1), Classical.choose (node i) < N :=
        fun i => WalkTo_bound h N hb i.val X _ (Classical.choose_spec (node i)).1
      obtain ⟨a, b, hab, hf⟩ := Fintype.exists_ne_map_eq_of_card_lt
        (fun i : Fin (N + 1) => (⟨Classical.choose (node i), lt i⟩ : Fin N)) (by simp)
      have hval : Classical.choose (node a) = Classical.choose (node b) :=
        congrArg Fin.val hf
      have shorter : ∀ (a b : Fin (N + 1)), a.val < b.val →
          Classical.choose (node a) = Classical.choose (node b) →
          ∃ j, j ≤ N ∧ ∃ Y2, WalkTo h j X = some Y2 ∧ (h.get Y2).DependsOnInverse = false := by
        intro a b hlt e
        obtain ⟨a1, _⟩ := Classical.choose_spec (node a)
        obtain ⟨_, b2⟩ := Classical.choose_spec (node b)
        rw [← e] at b2
        have w := WalkTo_trans h _ _ X _ Y a1 b2
        have := b.isLt
        exact ih (a.val + 1 + (k - (b.val + 1))) (by omega) X Y w hd
      rcases Nat.lt_or_gt_of_ne (fun x => hab (Fin.ext x)) with c | c
      · exact shorter a b c hval
      · exact shorter b a c hval.symm

/-- In a heap whose links name objects below `N`, a walk that ends, ends within the fuel
`N + 1`. -/
theorem ChainEnds_bound (h : Heap) (N : Nat)
    (hb : ∀ Z Q, (h.get Z).MyInverse = some Q → Q < N) (n : Nat) (X : Ref)
    (hc : ChainEnds n h X) : ChainEnds (N + 1) h X := by
  obtain ⟨k, _, Y, w, d⟩ := ChainEnds_WalkTo n h X hc
  obtain ⟨j, j1, Y2, w2, d2⟩ := WalkTo_short h N hb k X Y w d
  exact ChainEnds_le (j + 1) (N + 1) h X (by omega) (WalkTo_ChainEnds j h X Y2 w2 d2)

end WalkLemmas

section CascadeFuel
open vtkAbstractTransform

/-- One step of a release: when the object `X`, other than the releasing object `T`, loses
its last reference, the release goes on to the inverse of `X` with the counts in order. -/
theorem cascade_step (h : Heap) (user : Ref → Bool) (T X : Ref)
    (hs : LinkShape h user) (hc : Counted h user (some T) (some X))
    (ha : AliveLinks h (some T)) (hX : X < h.next)
    (hrel : ∀ O, (h.get T).MyInverse = some O →
      (X = O ∧ ¬ ((h.get O).ReferenceCount = 2 ∧ (h.get O).MyInverse = some T ∧
        (h.get T).ReferenceCount = 1)) ∨ (h.get O).ReferenceCount ≤ 0)
    (cX : (h.get X).ReferenceCount = 1) (XT : X ≠ T) :
    ∃ Q, (h.get X).MyInverse = some Q ∧ (h.get X).DependsOnInverse = true ∧
      LinkShape (DecrementCount h X) user ∧
      Counted (DecrementCount h X) user (some T) (some Q) ∧
      AliveLinks (DecrementCount h X) (some T) ∧
      Q < (DecrementCount h X).next ∧
      1 ≤ ((DecrementCount h X).get Q).ReferenceCount ∧
      (∀ O, ((DecrementCount h X).get T).MyInverse = some O →
        (Q = O ∧ ¬ (((DecrementCount h X).get O).ReferenceCount = 2 ∧
          ((DecrementCount h X).get O).MyInverse = some T ∧
          ((DecrementCount h X).get T).ReferenceCount = 1)) ∨
        ((DecrementCount h X).get O).ReferenceCount ≤ 0) := by
  obtain ⟨d1, d2, d3, d4⟩ := DecrementCount_fields h X
  have hrc : 1 ≤ (h.get X).ReferenceCount := by omega
  have hle : ∀ Y, Holders (DecrementCount h X) (some T) Y ≤ Holders h (some T) Y := by
    intro Y
    refine Holders_le _ _ _ _ _ _ (fun Z hZ hne hr hi => ?_)
    rw [(d1 Z).1] at hi
    refine ⟨hZ, hne, ?_, hi⟩
    by_cases e : Z = X
    · rw [e]; exact hrc
    · rw [d2 Z e] at hr; exact hr
  have c1 := hc X hX hrc
  rw [if_pos rfl] at c1
  have uX : user X = false := by
    cases hu : user X with
    | false => rfl
    | true => rw [hu] at c1; simp only [if_true] at c1; omega
  rw [uX] at c1
  simp only [Bool.false_eq_true, if_false] at c1
  have h0 : Holders h (some T) X = 0 := by omega
  obtain ⟨Q, iX⟩ := LinkShape_linked h user hs X (hs.made X hX uX)
  have hQ : Q < h.next := (hs.bound X Q iX).2
  have QX : Q ≠ X := fun x => hs.noself X (by rw [iX, x])
  have neT : some X ≠ some T := fun x => XT (Option.some.inj x)
  have cQ : 1 ≤ (h.get Q).ReferenceCount := ha X Q hrc neT iX
  refine ⟨Q, iX, hs.made X hX uX,
    LinkShape_congr h _ user hs (fun Z => ⟨(d1 Z).1, (d1 Z).2.1, (d1 Z).2.2.1⟩) d4,
    ?_, ?_, by rw [d4]; exact hQ, by rw [d2 Q QX]; exact cQ, ?_⟩
  · intro Y hY h1
    have YX : Y ≠ X := by
      intro x
      rw [x, d3] at h1
      omega
    rw [d2 Y YX] at h1 ⊢
    have c := hc Y hY h1
    rw [if_neg (fun x => YX (Option.some.inj x).symm)] at c
    by_cases e : Y = Q
    · rw [e] at c ⊢
      rw [if_pos rfl]
      have lt : Holders (DecrementCount h X) (some T) Q + 1 ≤ Holders h (some T) Q := by
        refine Holders_lt _ _ _ _ _ _ X (fun Z hZ hne hr hi => ?_) ⟨hX, neT, hrc, iX⟩ ?_
        · rw [(d1 Z).1] at hi
          refine ⟨hZ, hne, ?_, hi⟩
          by_cases e2 : Z = X
          · rw [e2]; exact hrc
          · rw [d2 Z e2] at hr; exact hr
        · intro x
          rw [d3] at x
          omega
      omega
    · rw [if_neg (fun x => e (Option.some.inj x).symm)]
      have := hle Y
      omega
  · intro Z R hZ hne hi
    have ZX : Z ≠ X := by
      intro x
      rw [x, d3] at hZ
      omega
    rw [d2 Z ZX] at hZ
    rw [(d1 Z).1] at hi
    have RX : R ≠ X := by
      intro x
      rw [x] at hi
      exact Holders_zero h (some T) X Z h0 ⟨(hs.bound Z X hi).1, hne, hZ, hi⟩
    rw [d2 R RX]
    exact ha Z R hZ hne hi
  · intro O iT
    rw [(d1 T).1] at iT
    right
    rcases hrel O iT with ⟨x, -⟩ | x
    · rw [← x, d3]; omega
    · by_cases e : O = X
      · rw [e, d3]; omega
      · rw [d2 O e]; exact x

/-- A release that reaches `X` with the counts in order does not depend on the fuel, once
the fuel covers the walk from `X`: either the releasing object `T` is destroyed, or more
fuel gives the same heap. -/
theorem UnRegister_cascade_fuel (user : Ref → Bool) (T : Ref) (k : Nat) :
    ∀ (h : Heap) (X : Ref),
    LinkShape h user → Counted h user (some T) (some X) → AliveLinks h (some T) →
    X < h.next → 1 ≤ (h.get X).ReferenceCount →
    (∀ O, (h.get T).MyInverse = some O →
      (X = O ∧ ¬ ((h.get O).ReferenceCount = 2 ∧ (h.get O).MyInverse = some T ∧
        (h.get T).ReferenceCount = 1)) ∨ (h.get O).ReferenceCount ≤ 0) →
    ChainEnds k h X → ∀ m, k ≤ m →
    ((UnRegister k h X).get T).Destroyed = true ∨ UnRegister m h X = UnRegister k h X := by
  induction k with
  | zero => intro h X _ _ _ _ _ _ hc; exact absurd hc (by simp [ChainEnds])
  | succ k ih =>
    intro h X hs hc ha hX hrc hrel hce m hm
    obtain ⟨m0, rfl⟩ : ∃ m0, m = m0 + 1 := ⟨m - 1, by omega⟩
    have nb := no_break h user T X hs hc hX hrel
    rw [UnRegister_plain k h X (hs.quiet X) nb, UnRegister_plain m0 h X (hs.quiet X) nb]
    obtain ⟨d1, d2, d3, d4⟩ := DecrementCount_fields h X
    by_cases hdie : ((DecrementCount h X).get X).ReferenceCount ≤ 0
    · rw [if_pos hdie, if_pos hdie]
      rw [d3] at hdie
      have cX : (h.get X).ReferenceCount = 1 := by omega
      by_cases XT : X = T
      · left
        rw [XT]
        exact (MarkDestroyed_fields _ T).2.2.1
      obtain ⟨Q, iX, dX, hs2, hc2, ha2, hQ2, cQ2, hrel2⟩ :=
        cascade_step h user T X hs hc ha hX hrel cX XT
      rw [(d1 X).1, iX]
      dsimp only
      have hce2 : ChainEnds k (DecrementCount h X) Q := by
        rw [ChainEnds_succ] at hce
        rcases hce with x | ⟨inv, hi, hj⟩
        · rw [dX] at x; cases x
        · rw [iX] at hi
          rw [← Option.some.inj hi] at hj
          exact ChainEnds_congr k h _ Q (fun s => ⟨(d1 s).1, (d1 s).2.1⟩) hj
      rcases ih (DecrementCount h X) Q hs2 hc2 ha2 hQ2 cQ2 hrel2 hce2 m0 (by omega)
        with bad | same
      · left
        exact (MarkDestroyed_fields _ X).2.1 T bad
      · right
        rw [same]
    · rw [if_neg hdie, if_neg hdie]
      exact Or.inr rfl

/-- The fuel of `Delete` is enough in `SetInverse`: when the invariant holds and the
receiver `T` is live, the release of its old inverse `O` either destroys `T` or gives the
same heap with any larger fuel. -/
theorem Release_fuel_enough (h : Heap) (user : Ref → Bool) (T O : Ref)
    (hinv : LinkInvariant h user) (hT : T < h.next) (lT : (h.get T).Destroyed = false)
    (hi : (h.get T).MyInverse = some O) (m : Nat) (hm : h.next + 2 ≤ m) :
    ((Delete h O).get T).Destroyed = true ∨ UnRegister m h O = Delete h O := by
  obtain ⟨hs, hc, ha, hmk⟩ := hinv
  have aT : 1 ≤ (h.get T).ReferenceCount := hmk T hT lT
  have ha2 : AliveLinks h (some T) := fun Z Q hZ _ hq => ha Z Q hZ (by simp) hq
  have hle : ∀ Y, Holders h (some T) Y ≤ Holders h none Y :=
    fun Y => Holders_le _ _ _ _ _ _ (fun Z hZ _ hr hq => ⟨hZ, by simp, hr, hq⟩)
  have hO : O < h.next := (hs.bound T O hi).2
  have OT : O ≠ T := fun x => hs.noself T (by rw [hi, x])
  have aO : 1 ≤ (h.get O).ReferenceCount := ha T O aT (by simp) hi
  by_cases mis : (h.get O).ReferenceCount = 2 ∧ (h.get O).MyInverse = some T ∧
      (h.get T).ReferenceCount = 1
  · left
    exact Delete_misfire h T O hT OT mis.2.1 hi (hs.quiet O) (hs.quiet T) mis.1 mis.2.2
  · obtain ⟨n, hn⟩ := hs.ends O
    have hce : ChainEnds (h.next + 2) h O :=
      ChainEnds_mono _ h O (ChainEnds_bound h h.next (fun Z Q hq => (hs.bound Z Q hq).2) n O hn)
    refine UnRegister_cascade_fuel user T (h.next + 2) h O hs ?_ ha2 hO aO ?_ hce m hm
    · intro Y hY h1
      have c := hc Y hY h1
      have e0 : (if (none : Option Ref) = some Y then (1 : Int) else 0) = 0 :=
        if_neg (by simp)
      rw [e0] at c
      by_cases e : Y = O
      · rw [e] at c ⊢
        rw [if_pos rfl]
        have lt : Holders h (some T) O + 1 ≤ Holders h none O :=
          Holders_lt _ _ _ _ _ _ T (fun Z hZ _ hr hq => ⟨hZ, by simp, hr, hq⟩)
            ⟨hT, by simp, aT, hi⟩ (fun x => x.1 rfl)
        omega
      · rw [if_neg (fun x => e (Option.some.inj x).symm)]
        have := hle Y
        omega
    · intro O2 hi2
      rw [hi] at hi2
      rw [← Option.some.inj hi2]
      exact Or.inl ⟨rfl, mis⟩

end CascadeFuel

section ClaimC29
open vtkAbstractTransform

theorem Empty_LinkInvariant : LinkInvariant Heap.empty (fun _ => true) := by
  refine ⟨⟨fun X => ⟨1, ?_⟩, fun _ => rfl, fun Z hZ => absurd hZ (Nat.not_lt_zero Z),
    fun Z Q hq => ?_, fun Z hq => ?_⟩, fun Y hY => absurd hY (Nat.not_lt_zero Y),
    fun Z Q hZ => ?_, fun Z hZ => absurd hZ (Nat.not_lt_zero Z)⟩
  · rw [ChainEnds_succ]; exact Or.inl rfl
  · cases hq
  · cases hq
  · exact absurd hZ (show ¬ (1 : Int) ≤ 0 by decide)

/-- Every reachable heap satisfies the invariant, for some record of which objects a caller
constructed. -/
theorem LinkReachable_Invariant (h : Heap) (hr : LinkReachable h) :
    ∃ user, LinkInvariant h user := by
  induction hr with
  | start => exact ⟨_, Empty_LinkInvariant⟩
  | step h op _ ha ih =>
    obtain ⟨user, hinv⟩ := ih
    cases op with
    | New cn sc => exact ⟨_, New_LinkInvariant h user cn sc hinv⟩
    | GetInverse T => exact ⟨_, GetInverse_LinkInvariant h user T hinv ha.1 ha.2⟩
    | SetInverse T U =>
      obtain ⟨a, b, c, d, e, f⟩ := ha
      exact ⟨user, SetInverse_LinkInvariant h user T U hinv a b c d e f⟩

/-- `CircuitCheck` returns when the walk ends within the fuel. -/
theorem CircuitCheck_ok (T : Ref) (n : Nat) : ∀ (h : Heap) (X : Ref), ChainEnds n h X →
    ∃ b, CircuitCheck n h X T = .ok b := by
  induction n with
  | zero => intro h X hc; exact absurd hc (by simp [ChainEnds])
  | succ k ih =>
    intro h X hc
    by_cases e : T = X
    · rw [e, CircuitCheck_self]; exact ⟨true, rfl⟩
    · rw [ChainEnds_succ] at hc
      cases hd : (h.get X).DependsOnInverse with
      | false => exact ⟨false, CircuitCheck_independent k h X T e hd⟩
      | true =>
        rcases hc with x | ⟨inv, hm, hi⟩
        · rw [hd] at x; cases x
        · rw [CircuitCheck_step k h X T inv e hd hm]
          exact ih h inv hi

/-- The walk that `CircuitCheck` follows from `Y` to `X` is part of the walk from `Y`. -/
theorem CircuitCheck_true_ChainEnds (X : Ref) (n : Nat) : ∀ (h : Heap) (Y : Ref) (j : Nat),
    CircuitCheck n h Y X = .ok true → ChainEnds j h Y → ∃ i, i ≤ j ∧ ChainEnds i h X := by
  induction n with
  | zero => intro h Y j hc; simp [CircuitCheck] at hc
  | succ k ih =>
    intro h Y j hc hj
    by_cases e : X = Y
    · exact ⟨j, Nat.le_refl _, by rw [e]; exact hj⟩
    · cases hd : (h.get Y).DependsOnInverse with
      | false =>
        rw [CircuitCheck_independent k h Y X e hd] at hc
        cases hc
      | true =>
        cases j with
        | zero => exact absurd hj (by simp [ChainEnds])
        | succ j0 =>
          rw [ChainEnds_succ] at hj
          rcases hj with x | ⟨inv, hm, hi⟩
          · rw [hd] at x; cases x
          · rw [CircuitCheck_step k h Y X inv e hd hm] at hc
            obtain ⟨i, i1, i2⟩ := ih h inv j0 hc hi
            exact ⟨i, Nat.le_succ_of_le i1, i2⟩

/-- An object whose walk ends is not met again by the walk from its own inverse. -/
theorem ChainEnds_no_revisit (h : Heap) (n : Nat) (m : Nat) : ∀ (X Y : Ref),
    ChainEnds m h X → (h.get X).DependsOnInverse = true → (h.get X).MyInverse = some Y →
    CircuitCheck n h Y X ≠ .ok true := by
  induction m using Nat.strong_induction_on with
  | _ m ih =>
    intro X Y hc hd hi hr
    cases m with
    | zero => exact absurd hc (by simp [ChainEnds])
    | succ m0 =>
      rw [ChainEnds_succ] at hc
      rcases hc with x | ⟨inv, hm, hj⟩
      · rw [hd] at x; cases x
      · rw [hi] at hm
        rw [← Option.some.inj hm] at hj
        obtain ⟨i, i1, i2⟩ := CircuitCheck_true_ChainEnds X n h Y m0 hr hj
        exact ih i (by omega) X Y i2 hd hi hr

/-- The fuel of `Delete` is enough in every reachable heap: the release of the old inverse
`O` of a live object `T` either destroys `T` or gives the same heap with any larger fuel. -/
theorem LinkReachable_release (h : Heap) (hr : LinkReachable h) (T O : Ref)
    (hT : T < h.next) (lT : (h.get T).Destroyed = false)
    (hi : (h.get T).MyInverse = some O) (m : Nat) (hm : h.next + 2 ≤ m) :
    ((Delete h O).get T).Destroyed = true ∨ UnRegister m h O = Delete h O := by
  obtain ⟨user, hinv⟩ := LinkReachable_Invariant h hr
  exact Release_fuel_enough h user T O hinv hT lT hi m hm

/-- What holds where no call destroys the objects it is working on: in every heap reachable
from the empty heap by the construction of transforms, `GetInverse()` and `SetInverse(U)`,
called on objects that have not been destroyed and that the call itself does not destroy,
for every object X: if `DependsOnInverse` is set the
inverse link is set; the walk along inverse links from X, followed while `DependsOnInverse`
is set, ends within as many objects as the heap holds, and does not come back to X from the
inverse of X; with fuel for one call per object of the heap and one more, `GetMTime` on X
returns a time and `CircuitCheck` on X returns an answer for every transform T, so neither
reads an absent inverse. -/
theorem LinkReachable_chain_ends (h : Heap) (hr : LinkReachable h) (X : Ref) :
    ((h.get X).DependsOnInverse = true → (h.get X).MyInverse ≠ none) ∧
    ChainEnds (h.next + 1) h X ∧
    (∀ Y, (h.get X).DependsOnInverse = true → (h.get X).MyInverse = some Y →
      ∀ n, CircuitCheck n h Y X ≠ .ok true) ∧
    (∀ m, h.next + 1 ≤ m → ∃ t, GetMTime m h X = .ok t) ∧
    (∀ T m, h.next + 1 ≤ m → ∃ b, CircuitCheck m h X T = .ok b) := by
  obtain ⟨user, hinv⟩ := LinkReachable_Invariant h hr
  obtain ⟨n, hn⟩ := hinv.shape.ends X
  have hb : ChainEnds (h.next + 1) h X :=
    ChainEnds_bound h h.next (fun Z Q hq => (hinv.shape.bound Z Q hq).2) n X hn
  refine ⟨fun hd x => ?_, hb, fun Y hd hi k => ?_, fun m hm => ?_, fun T m hm => ?_⟩
  · obtain ⟨Q, hq⟩ := LinkShape_linked h user hinv.shape X hd
    rw [x] at hq
    cases hq
  · exact ChainEnds_no_revisit h k n X Y hn hd hi
  · obtain ⟨t, ht, -⟩ := GetMTime_ok m h X (ChainEnds_le _ m h X hm hb)
    exact ⟨t, ht⟩
  · exact CircuitCheck_ok T m h X (ChainEnds_le _ m h X hm hb)

theorem LinkReachable_chain_ends_example :
    LinkReachable Example.ThreeLinked ∧
    (Example.ThreeLinked.get 2).DependsOnInverse = true ∧
    (Example.ThreeLinked.get 2).MyInverse = some 1 ∧
    (Example.ThreeLinked.get 1).DependsOnInverse = true ∧
    (Example.ThreeLinked.get 1).MyInverse = some 0 ∧
    Example.ThreeLinked.next = 3 ∧
    ChainEnds (Example.ThreeLinked.next + 1) Example.ThreeLinked 2 ∧
    (∀ n, CircuitCheck n Example.ThreeLinked 1 2 ≠ .ok true) :=
  have r : LinkReachable Example.ThreeLinked :=
    LinkReachable.step _ (.SetInverse 2 1)
      (LinkReachable.step _ (.New "vtkTransform" [])
        (LinkReachable.step _ (.GetInverse 0)
          (LinkReachable.step _ (.New "vtkTransform" []) LinkReachable.start trivial)
          ⟨by decide, by decide⟩)
        trivial)
      ⟨by decide, by decide, by decide, by decide, by decide, by decide⟩
  have e1 : (Example.ThreeLinked.get 2).DependsOnInverse = true := by decide
  have e2 : (Example.ThreeLinked.get 2).MyInverse = some 1 := by decide
  have k := LinkReachable_chain_ends Example.ThreeLinked r 2
  ⟨r, e1, e2, by decide, by decide, by decide, k.2.1, k.2.2.1 1 e1 e2⟩

/-- C29: the code at the failing input `A = New; B = A.GetInverse(); U = New;
B.SetInverse(U)`. Before the last call `A` (reference 0) is held by its creator and by `B`
(count 2), `B` (reference 1) is held by `A` (count 1), and each is the inverse link of the
other. `B.SetInverse(U)` passes the type check and the circuit check and releases the old
inverse of `B`, which is `A`. In the `UnRegister` of `A` the test that the only reason for
a count other than 1 is the circular reference from `MyInverse` holds, although the
reference being released is that circular reference and the one that stays belongs to the
creator of `A`: the cycle is broken, which destroys `B`, and `A` is destroyed as well. The
call then goes on to register `U` and to write the link and `DependsOnInverse` into the
destroyed `B`. -/
theorem C29_set_inverse_at_failing_input :
    LinkReachable Example.InverseAndSpare ∧
    (Example.InverseAndSpare.get 0).ReferenceCount = 2 ∧
    (Example.InverseAndSpare.get 0).MyInverse = some 1 ∧
    (Example.InverseAndSpare.get 0).DependsOnInverse = false ∧
    (Example.InverseAndSpare.get 1).ReferenceCount = 1 ∧
    (Example.InverseAndSpare.get 1).MyInverse = some 0 ∧
    (Example.InverseAndSpare.get 1).DependsOnInverse = true ∧
    (Example.InverseAndSpare.get 0).Destroyed = false ∧
    (Example.InverseAndSpare.get 1).Destroyed = false ∧
    (Example.InverseAndSpare.get 2).Destroyed = false ∧
    (SetInverse Example.InverseAndSpare 1 (some 2)).2 = .Ok ∧
    ((Delete Example.InverseAndSpare 0).get 0).Destroyed = true ∧
    ((Delete Example.InverseAndSpare 0).get 1).Destroyed = true ∧
    (Example.InverseRelinked.get 0).Destroyed = true ∧
    (Example.InverseRelinked.get 0).ReferenceCount = 0 ∧
    (Example.InverseRelinked.get 1).Destroyed = true ∧
    (Example.InverseRelinked.get 1).MyInverse = some 2 ∧
    (Example.InverseRelinked.get 1).DependsOnInverse = true ∧
    (Example.InverseRelinked.get 2).ReferenceCount = 2 := by
  refine ⟨?_, ?_⟩
  · exact LinkReachable.step _ (.New "vtkTransform" [])
      (LinkReachable.step _ (.GetInverse 0)
        (LinkReachable.step _ (.New "vtkTransform" []) LinkReachable.start trivial)
        ⟨by decide, by decide⟩)
      trivial
  · decide

end ClaimC29

/-! ## C3: `Inverse(); Inverse();` with the inversion routine as a parameter -/

section InverseWithLemmas
open vtkTransformConcatenation vtkAbstractTransform

theorem get_InvertInPlaceWith (invert : Mat4 → Mat4) (h : Heap) (r s : Ref) :
    (vtkMatrix4x4.InvertInPlaceWith invert h r).get s =
      if s = r then
        { h.get r with Matrix := invert (h.get r).Matrix, MatrixMTime := h.clock + 1 }
      else h.get s := by
  simp only [vtkMatrix4x4.InvertInPlaceWith, get_vtkMatrix4x4_Modified, Heap.get_set,
    Heap.clock_set]
  split <;> simp

/-- With exact inversion as the routine, `InverseWith` is `Inverse`. -/
theorem InverseWith_exact (h : Heap) (c : vtkTransformConcatenation) :
    InverseWith Invert h c = Inverse h c := rfl

theorem InvertSlotWith_snd (invert : Mat4 → Mat4) (h h0 : Heap) (l : Nat → vtkTransformPair)
    (m t : Option Ref) (i : Nat) :
    (InvertSlotWith invert h l m t i).2 = (InvertSlot h0 l m t i).2 := by
  cases m <;> rfl

theorem InvertSlotWith_get (invert : Mat4 → Mat4) (h : Heap) (l : Nat → vtkTransformPair)
    (m t : Option Ref) (i : Nat) (s : Ref) :
    ((InvertSlotWith invert h l m t i).1.get s).Matrix =
        (if m = some s then invert (h.get s).Matrix else (h.get s).Matrix) ∧
    ((InvertSlotWith invert h l m t i).1.get s).MyInverse = (h.get s).MyInverse ∧
    (InvertSlotWith invert h l m t i).1.next = h.next := by
  cases m with
  | none => simp [InvertSlotWith]
  | some r =>
    simp only [InvertSlotWith, get_ModifiedPtr, get_InvertInPlaceWith, Option.some.injEq]
    refine ⟨?_, ?_, ?_⟩
    · by_cases e : s = r
      · subst e
        split_ifs <;> simp_all
      · have e2 : ¬ r = s := fun x => e x.symm
        split_ifs <;> simp_all
    · by_cases e : s = r
      · subst e
        split_ifs <;> simp_all
      · split_ifs <;> simp_all
    · have e : (vtkMatrix4x4.InvertInPlaceWith invert h r).next = h.next := rfl
      simp [e]

theorem InverseWith_snd (invert : Mat4 → Mat4) (h h0 : Heap) (c : vtkTransformConcatenation) :
    (InverseWith invert h c).2 = (Inverse h0 c).2 := by
  unfold InverseWith Inverse
  simp only [InvertSlotWith_snd invert _ h0, InvertSlot_list]

theorem InverseWith_get (invert : Mat4 → Mat4) (h : Heap) (c : vtkTransformConcatenation)
    (s : Ref) :
    ((InverseWith invert h c).1.get s).Matrix =
        (if c.PostMatrix = some s then
          invert (if c.PreMatrix = some s then invert (h.get s).Matrix else (h.get s).Matrix)
        else (if c.PreMatrix = some s then invert (h.get s).Matrix else (h.get s).Matrix)) ∧
    ((InverseWith invert h c).1.get s).MyInverse = (h.get s).MyInverse ∧
    (InverseWith invert h c).1.next = h.next := by
  obtain ⟨a1, a2, a3⟩ := InvertSlotWith_get invert h c.TransformList c.PreMatrix
    c.PreMatrixTransform (if c.InverseFlag ≠ 0 then c.NumberOfTransforms - 1 else 0) s
  obtain ⟨b1, b2, b3⟩ := InvertSlotWith_get invert
    (InvertSlotWith invert h c.TransformList c.PreMatrix c.PreMatrixTransform
      (if c.InverseFlag ≠ 0 then c.NumberOfTransforms - 1 else 0)).1
    (InvertSlotWith invert h c.TransformList c.PreMatrix c.PreMatrixTransform
      (if c.InverseFlag ≠ 0 then c.NumberOfTransforms - 1 else 0)).2
    c.PostMatrix c.PostMatrixTransform
    (if c.InverseFlag ≠ 0 then 0 else c.NumberOfTransforms - 1) s
  exact ⟨by rw [← a1]; exact b1, b2.trans a2, b3.trans a3⟩

/-- The calls `Inverse(); Inverse();` give back the concatenation record, whatever the
inversion routine. -/
theorem InverseTwiceWith_conc (invert : Mat4 → Mat4) (h : Heap)
    (c : vtkTransformConcatenation) (hflag : c.InverseFlag = 0 ∨ c.InverseFlag = 1)
    (hpre : c.NumberOfPreTransforms ≤ c.NumberOfTransforms) :
    (InverseTwiceWith invert h c).2 = c := by
  have e := InverseTwice_conc h c hflag hpre
  unfold InverseTwice at e
  unfold InverseTwiceWith
  rw [InverseWith_snd invert _ (Inverse h c).1, InverseWith_snd invert h h]
  exact e

/-- The calls `Inverse(); Inverse();` apply the inversion routine twice to the matrix of
each fast-path node and leave every other matrix as it is. -/
theorem InverseTwiceWith_Matrix (invert : Mat4 → Mat4) (h : Heap)
    (c : vtkTransformConcatenation)
    (hdist : c.PreMatrix ≠ none → c.PreMatrix ≠ c.PostMatrix) (s : Ref) :
    ((InverseTwiceWith invert h c).1.get s).Matrix =
      if c.PreMatrix = some s ∨ c.PostMatrix = some s then invert (invert (h.get s).Matrix)
      else (h.get s).Matrix := by
  unfold InverseTwiceWith
  have a3 : (InverseWith invert h c).2.PreMatrix = c.PostMatrix := rfl
  have a4 : (InverseWith invert h c).2.PostMatrix = c.PreMatrix := rfl
  rw [(InverseWith_get invert _ _ s).1, (InverseWith_get invert h c s).1, a3, a4]
  by_cases x : c.PreMatrix = some s
  · have y : c.PostMatrix ≠ some s := fun z => hdist (by rw [x]; simp) (x.trans z.symm)
    simp only [x, y, if_true, if_false, true_or]
  · by_cases y : c.PostMatrix = some s
    · simp only [x, y, if_true, if_false, or_true]
    · simp only [x, y, if_false, or_self]

theorem InverseTwiceWith_links (invert : Mat4 → Mat4) (h : Heap)
    (c : vtkTransformConcatenation) (s : Ref) :
    ((InverseTwiceWith invert h c).1.get s).MyInverse = (h.get s).MyInverse ∧
    (InverseTwiceWith invert h c).1.next = h.next := by
  unfold InverseTwiceWith
  exact ⟨((InverseWith_get invert _ _ s).2.1).trans (InverseWith_get invert h c s).2.1,
    ((InverseWith_get invert _ _ s).2.2).trans (InverseWith_get invert h c s).2.2⟩

/-- `GetInverse` returns the same pointer in two heaps that agree on the inverse links and
on the allocation pointer, leaves the matrices of the objects allocated before as they
are, and leaves the same matrix wherever the two heaps held the same matrix. -/
theorem GetInverse_congr_off (P : Ref → Prop) (h h' : Heap) (f : Ref) (hne : f ≠ h.next)
    (hl : ∀ s, (h'.get s).MyInverse = (h.get s).MyInverse) (hn : h'.next = h.next)
    (hm : ∀ s, ¬ P s → (h'.get s).Matrix = (h.get s).Matrix) :
    (GetInverse h' f).2 = (GetInverse h f).2 ∧
    (∀ s, ¬ P s → ((GetInverse h' f).1.get s).Matrix = ((GetInverse h f).1.get s).Matrix) ∧
    (∀ s, s < h.next → ((GetInverse h' f).1.get s).Matrix = (h'.get s).Matrix ∧
      ((GetInverse h f).1.get s).Matrix = (h.get s).Matrix) := by
  obtain ⟨a1, a2, a3, a4⟩ := GetInverse_effect h f hne
  obtain ⟨b1, b2, b3, b4⟩ := GetInverse_effect h' f (by rw [hn]; exact hne)
  refine ⟨by rw [a1, b1, hl, hn], fun s hs => ?_, fun s hs => ?_⟩
  · cases hf : (h.get f).MyInverse with
    | some v =>
      have hf' : (h'.get f).MyInverse ≠ none := by rw [hl, hf]; simp
      rw [a3 (by rw [hf]; simp), b3 hf', hm s hs]
    | none =>
      have hf' : (h'.get f).MyInverse = none := by rw [hl, hf]
      by_cases e : s = h.next
      · subst e
        rw [(a4 hf).1]
        have := (b4 hf').1
        rw [hn] at this
        exact this
      · rw [a2 s e, b2 s (by rw [hn]; exact e), hm s hs]
  · exact ⟨b2 s (by rw [hn]; exact Nat.ne_of_lt hs), a2 s (Nat.ne_of_lt hs)⟩

/-- The same for `GetTransform`. -/
theorem GetTransform_congr_off (P : Ref → Prop) (h h' : Heap) (c : vtkTransformConcatenation)
    (i : Nat)
    (hv : ∀ f, OtherSide c (c.TransformList (ReadIndex c i)) = some f → f ≠ h.next)
    (hl : ∀ s, (h'.get s).MyInverse = (h.get s).MyInverse) (hn : h'.next = h.next)
    (hm : ∀ s, ¬ P s → (h'.get s).Matrix = (h.get s).Matrix) :
    (GetTransform h' c i).2.2 = (GetTransform h c i).2.2 ∧
    (∀ s, ¬ P s →
      ((GetTransform h' c i).1.get s).Matrix = ((GetTransform h c i).1.get s).Matrix) ∧
    (∀ s, s < h.next → ((GetTransform h' c i).1.get s).Matrix = (h'.get s).Matrix ∧
      ((GetTransform h c i).1.get s).Matrix = (h.get s).Matrix) := by
  unfold GetTransform
  by_cases hf : c.InverseFlag = 0
  · simp only [hf, ne_eq, not_true_eq_false, if_false]
    simp only [ReadIndex, OtherSide, hf, ne_eq, not_true_eq_false, if_false] at hv
    by_cases hr : (c.TransformList i).ForwardTransform = none
    · simp only [hr, if_true]
      cases ho : (c.TransformList i).InverseTransform with
      | none => exact ⟨rfl, hm, fun s _ => ⟨rfl, rfl⟩⟩
      | some g =>
        obtain ⟨e1, e2, e3⟩ := GetInverse_congr_off P h h' g (hv g ho) hl hn hm
        exact ⟨e1, fun s hs => by simp only [Matrix_RegisterPtr]; exact e2 s hs,
          fun s hs => by simp only [Matrix_RegisterPtr]; exact e3 s hs⟩
    · simp only [hr, if_false]
      exact ⟨trivial, hm, fun s _ => ⟨trivial, trivial⟩⟩
  · simp only [hf, ne_eq, not_false_eq_true, if_true]
    simp only [ReadIndex, OtherSide, hf, ne_eq, not_false_eq_true, if_true] at hv
    by_cases hr : (c.TransformList (c.NumberOfTransforms - i - 1)).InverseTransform = none
    · simp only [hr, if_true]
      cases ho : (c.TransformList (c.NumberOfTransforms - i - 1)).ForwardTransform with
      | none => exact ⟨rfl, hm, fun s _ => ⟨rfl, rfl⟩⟩
      | some g =>
        obtain ⟨e1, e2, e3⟩ := GetInverse_congr_off P h h' g (hv g ho) hl hn hm
        exact ⟨e1, fun s hs => by simp only [Matrix_RegisterPtr]; exact e2 s hs,
          fun s hs => by simp only [Matrix_RegisterPtr]; exact e3 s hs⟩
    · simp only [hr, if_false]
      exact ⟨trivial, hm, fun s _ => ⟨trivial, trivial⟩⟩

/-- A fast-path node of a concatenation that satisfies the position invariant and holds
objects of the heap is an object of the heap. -/
theorem FastPath_in_heap (h : Heap) (c : vtkTransformConcatenation)
    (hinv : PositionInvariant c) (hheap : ListInHeap h c) (s : Ref)
    (hs : c.PreMatrix = some s ∨ c.PostMatrix = some s) : s < h.next := by
  obtain ⟨-, -, -, -, i5, i6, -, -⟩ := hinv
  have side : ∀ k, k < c.NumberOfTransforms → ReadSide c (c.TransformList k) = some s →
      s < h.next := by
    intro k hk e
    obtain ⟨x, y⟩ := hheap k hk
    unfold ReadSide at e
    split at e
    · exact y s e
    · exact x s e
  rcases hs with e | e
  · obtain ⟨p, q⟩ := i5 (by rw [e]; simp)
    rw [e] at q
    refine side (FirstIndex c) ?_ q
    unfold FirstIndex; split <;> omega
  · obtain ⟨p, q⟩ := i6 (by rw [e]; simp)
    rw [e] at q
    refine side (LastIndex c) ?_ q
    unfold LastIndex; split <;> omega

end InverseWithLemmas

section C3Claim
open vtkTransformConcatenation

theorem det_S777 : Example.S777.det = 343 := by
  simp [Example.S777, Matrix.det_succ_row_zero, Fin.sum_univ_succ, Matrix.submatrix,
    Matrix.vecHead, Matrix.vecTail]
  norm_num

theorem OneScale_Matrix : (Example.OneScale.1.get 0).Matrix = Example.S777 := by
  have e : Example.OneScale =
      ConcatenateMatrix Heap.empty vtkTransformConcatenation.New Example.S777 := by
    simp [Example.OneScale, Scale, Example.S777]
  rw [e, (ConcatenateMatrix_pre_none Heap.empty vtkTransformConcatenation.New Example.S777
    (by decide) rfl).2.2 0]
  simp [Heap.empty, Multiply4x4]

set_option maxRecDepth 100000 in
/-- In the arithmetic of `double` the matrix of `Scale(7,7,7)` does not come back from two
inversions: the first leaves the nearest `double` to 1/7 on the diagonal, and the second
leaves 7 + 2^-50 (printed 7.000000000000001). -/
theorem Double_Invert_S777 :
    Double.Determinant Example.S777 = 343 ∧
    Double.Invert Example.S777 0 0 = 2573485501354569 / 18014398509481984 ∧
    Double.Invert (Double.Invert Example.S777) 0 0 = 7881299347898369 / 1125899906842624 := by
  decide!

end C3Claim

end VTK
